import Mathlib

/-!
# objloader: a shallow embedding of the OBJ loader and parser

The C sources `objloader.c` and `objparser.c` scan a null-terminated text
buffer with a cursor `char *token`.  The buffer is a `List Char` of bytes, the
cursor a position in it, and the text at the cursor is `data.drop token`.  A
position at or past the end of the list reads as the terminator `'\0'`; the
cursor itself stays a number, so that a cursor past the terminator is visible.

Conventions of the embedding:

* `unsigned` values are natural numbers below `2 ^ 32`; `int` values are
  integers, obtained from an `unsigned` bit pattern with `toInt32`.  The
  conversions that the C code performs silently (an `int` passed for an
  `unsigned` parameter, an `unsigned` stored in an `int` field) are explicit.
* Element counts are natural numbers without wrap-around: an input shorter
  than `2 ^ 30` bytes cannot make them overflow.  The capacities of the arrays
  of `objLoadModel`, those of the floats and `indices` and `indicesPerFace` of
  a group, which the face loop can double without end, are `unsigned`:
  doubling them wraps modulo `2 ^ 32`, and this happens before the count of
  the array can wrap.
* `malloc` and `realloc` succeed, except in the namespace `objloader.fallible`,
  where the allocations that `objLoadModel` makes before its main loop may
  fail; strings are held by value.
* A growable C array is the list of its first `size` elements, next to its
  capacity.  A store past the end of `materialLibraries`, or of the array
  `indexBuffer` of `objParse`, is recorded, it does not change the array.
* `atof` is a parameter: the loader is generic in the type `F` of floats.
* The group chain reachable from `firstGroup` is a list of groups and
  `currentGroup` is an index into it.
* The locals `lastGroupName` and `lastMaterial` of the `usemtl` scan, which the
  source reads before it writes them, start as null.  The pointers `size`,
  `capacity` and `list` of the `v` branch, which stay unset on a line such as
  `vp`, end the run as `Outcome.undefined`, and so does a store through the
  pointer `current` of `loadMtl` before a `newmtl` line has set it.
* The handlers that `objParse` is given record their calls, in order.
* The face loop of `objLoadModel` need not end, so the loops take fuel, and a
  run that uses it up is `Outcome.timeout`.
* `objLoadModel` goes on, in the way stated above, where C leaves the run
  undefined: after the loop test has read past the terminator, after a store
  past the end of an array or at a position that is not below its capacity,
  after `free` of a name that points into the buffer, after a read of a local
  without a value.  `strict.objLoadModel` is the same
  function with these runs ended as `Outcome.undefined`; it is the one to which
  the statements about every well-formed text refer.

The first part holds the definitions: the embedding of the source, then the
text of a well-formed file, line by line, and what each line does to the
loader; the same for the push parser and for the material parser.  The second
part proves that the code does on such a text what the lines say, and settles
the claims `C1` to `C24` of the specification.
-/

set_option autoImplicit false

/-! ## Machine integers -/

/-- Conversion of an `int` to `unsigned` (reduction modulo `2 ^ 32`). -/
def toUInt32 (z : Int) : Nat := (z % 4294967296).toNat

/-- Conversion of an `unsigned` to `int` (two's complement). -/
def toInt32 (n : Nat) : Int :=
  if n % 4294967296 < 2147483648 then ((n % 4294967296 : Nat) : Int)
  else ((n % 4294967296 : Nat) : Int) - 4294967296

/-! ## Character classes and cursor primitives (shared by both sources) -/

/-- The macro `IS_SPACE`. -/
def IS_SPACE (c : Char) : Bool := c == ' ' || c == '\t'

/-- The macro `IS_NEW_LINE`. -/
def IS_NEW_LINE (c : Char) : Bool := c == '\r' || c == '\n'

/-- The test of the loop in `skipWhitespace`. -/
def isWhitespace (c : Char) : Bool := c == ' ' || c == '\n' || c == '\r' || c == '\t'

/-- The test `(u = c - '0') < 10` of `parseInt`. -/
def isDigit (c : Char) : Bool := decide (48 ≤ c.toNat) && decide (c.toNat ≤ 57)

/-- Membership in `ATOF_CHARACTERS`, that is `"+-0123456789."`. -/
def isAtofChar (c : Char) : Bool := c == '+' || c == '-' || c == '.' || isDigit c

/-- The character `token[k]`; the terminator is read at and past the end. -/
def peekAt (data : List Char) (token k : Nat) : Char := (data.drop (token + k)).headD '\x00'

/-- The character `*token`. -/
def peek (data : List Char) (token : Nat) : Char := peekAt data token 0

/-- The C string that starts at the cursor: the characters up to the first NUL. -/
def cstr (data : List Char) (token : Nat) : List Char :=
  (data.drop token).takeWhile (fun c => c != '\x00')

/-- The function `skipSpace`: `while ((c = **token) == ' ' || c == '\t') ++*token;`. -/
def skipSpace (data : List Char) (token : Nat) : Nat :=
  token + ((data.drop token).takeWhile IS_SPACE).length

/-- The function `skipWhitespace`. -/
def skipWhitespace (data : List Char) (token : Nat) : Nat :=
  token + ((data.drop token).takeWhile isWhitespace).length

/-- The characters that `strcspn(token, "\n")` counts: neither the newline nor
the terminator. -/
def isLineChar (c : Char) : Bool := c != '\n' && c != '\x00'

/-- The call `strcspn(token, "\n")`: the number of characters before the first
newline or the terminator. -/
def strcspnNewline (data : List Char) (token : Nat) : Nat :=
  ((data.drop token).takeWhile isLineChar).length

/-- The statement `token += strcspn(token, "\n") + 1; // Skip to next line`. -/
def skipLine (data : List Char) (token : Nat) : Nat :=
  token + strcspnNewline data token + 1

/-- The call `strspn(token, ATOF_CHARACTERS)`. -/
def strspnAtof (data : List Char) (token : Nat) : Nat :=
  ((data.drop token).takeWhile isAtofChar).length

/-- The call `0 == strncmp(kw, token, strlen(kw))` for a keyword without NUL. -/
def startsWith (kw : List Char) (data : List Char) (token : Nat) : Bool :=
  (data.drop token).take kw.length == kw

/-- The digit loop of `parseInt`: `value = value * 10 + u`, in 32 bits. -/
def digitsValue (ds : List Char) : Nat :=
  ds.foldl (fun value c => (value * 10 + (c.toNat - 48)) % 4294967296) 0

/-- The function `parseInt`: an optional sign, then decimal digits.  Returns
the `int` and the new cursor.  Overflow of `int`, undefined in C, wraps. -/
def parseInt (data : List Char) (token : Nat) : Int × Nat :=
  let c := peek data token
  let sign : Int := if c == '-' then -1 else 1
  let token1 := if c == '-' || c == '+' then token + 1 else token
  let ds := (data.drop token1).takeWhile isDigit
  (toInt32 (toUInt32 (sign * toInt32 (digitsValue ds))), token1 + ds.length)

/-- The function `fixIndex` on `unsigned` arguments:
`return i > 0 ? i - 1 : size + i;`. -/
def fixIndex (i size : Nat) : Nat :=
  if i > 0 then i - 1 else (size + i) % 4294967296

/-- The struct `ObjVertexIndex`: three `int` fields. -/
structure ObjVertexIndex where
  vertexIndex : Int
  texcoordIndex : Int
  normalIndex : Int
  deriving DecidableEq, Repr, Inhabited

/-- One resolved index: `parseInt`, converted to the `unsigned` parameter of
`fixIndex`, whose `unsigned` result is stored in an `int` field. -/
def parseIndex (data : List Char) (token : Nat) (count : Nat) : Int × Nat :=
  let r := parseInt data token
  (toInt32 (fixIndex (toUInt32 r.1) (count % 4294967296)), r.2)

/-- How a run of the model ends. -/
inductive Outcome (α : Type) where
  /-- The code returns normally. -/
  | ok (a : α)
  /-- An uninitialised pointer is dereferenced: undefined behaviour. -/
  | undefined
  /-- The step budget of the model ran out. -/
  | timeout
  deriving DecidableEq, Repr

/-- The value a run ends with, if it returns. -/
def Outcome.value {α : Type} : Outcome α → Option α
  | .ok a => some a
  | _ => none

/-- The outcome with `f` applied to the value returned. -/
def Outcome.map {α β : Type} (f : α → β) : Outcome α → Outcome β
  | .ok a => .ok (f a)
  | .undefined => .undefined
  | .timeout => .timeout

/-- The run returns, and its value satisfies `P`. -/
def Outcome.Holds {α : Type} (o : Outcome α) (P : α → Prop) : Prop :=
  match o with
  | .ok a => P a
  | _ => False

namespace objloader

/-- The flag `OBJ_TRIANGULATE`. -/
def OBJ_TRIANGULATE : Nat := 1
/-- The flag `OBJ_OPTIMIZE_MESHES`. -/
def OBJ_OPTIMIZE_MESHES : Nat := 2
/-- The flag `OBJ_IN_SITU`. -/
def OBJ_IN_SITU : Nat := 4

/-- The test `flags & bit`. -/
def hasFlag (flags bit : Nat) : Bool := flags &&& bit != 0

/-- The function `parseTriplet` of `objloader.c`. -/
def parseTriplet (data : List Char) (token : Nat)
    (vertexCount texcoordCount normalCount : Nat) : ObjVertexIndex × Nat :=
  let v := parseIndex data token vertexCount
  let token := v.2
  if peek data token == '/' then
    let token := token + 1
    let t : Int × Nat :=
      if peek data token != '/' then parseIndex data token texcoordCount else (-1, token)
    let token := t.2
    if peek data token == '/' then
      let n := parseIndex data (token + 1) normalCount
      (⟨v.1, t.1, n.1⟩, n.2)
    else (⟨v.1, t.1, -1⟩, token)
  else (⟨v.1, -1, -1⟩, token)

/-- The loop test of `parseText`:
`!(IS_SPACE(c = **token) || IS_NEW_LINE(c) || c == '\0')`. -/
def isTextChar (c : Char) : Bool := !(IS_SPACE c || IS_NEW_LINE c || c == '\x00')

/-- The function `parseText` of `objloader.c`: the text up to the next blank,
newline or terminator.  Returns the text, the new cursor and the buffer, in
which `OBJ_IN_SITU` has overwritten the delimiter with NUL. -/
def parseText (data : List Char) (token : Nat) (flags : Nat) :
    List Char × Nat × List Char :=
  let text := (data.drop token).takeWhile isTextChar
  let stop := token + text.length
  (text, stop, if hasFlag flags OBJ_IN_SITU then data.set stop '\x00' else data)

/-- The function `skipWhitespaceAndComments` of `objloader.c`.  The inner loop
`while (**token != '\0' && *++*token != '\n') ;` leaves the cursor on the
newline that ends the comment, or on the terminator. -/
def skipWhitespaceAndCommentsAux : Nat → List Char → Nat → Nat
  | 0, data, token => skipWhitespace data token
  | fuel + 1, data, token =>
    let token := skipWhitespace data token
    if peek data token == '#' then
      let token := token + 1 + strcspnNewline data (token + 1)
      skipWhitespaceAndCommentsAux fuel data token
    else token

/-- The function `skipWhitespaceAndComments`: every comment holds at least one
character, so the length of the buffer bounds the number of comments. -/
def skipWhitespaceAndComments (data : List Char) (token : Nat) : Nat :=
  skipWhitespaceAndCommentsAux data.length data token

/-- The struct `ObjGroup`.  `indices` holds the first `indicesSize` triplets and
`indicesPerFace` the first `numFaces` corner counts; the `next` pointer is the
position in the chain. -/
structure ObjGroup where
  name : Option (List Char)
  material : Option (List Char)
  indices : List ObjVertexIndex
  indicesCapacity : Nat
  indicesPerFace : List Nat
  indicesPerFaceCapacity : Nat
  deriving DecidableEq, Repr, Inhabited

/-- The field `indicesSize`. -/
def ObjGroup.indicesSize (g : ObjGroup) : Nat := g.indices.length

/-- The field `numFaces`. -/
def ObjGroup.numFaces (g : ObjGroup) : Nat := g.indicesPerFace.length

/-- The function `createGroup`, with its three allocations succeeding. -/
def createGroup (name : Option (List Char)) : ObjGroup :=
  { name := name, material := none, indices := [], indicesCapacity := 2,
    indicesPerFace := [], indicesPerFaceCapacity := 2 }

/-- The struct `ObjModel`.  `groups` is the chain that starts at `firstGroup`.
`materialLibraries` has one slot per allocated element; a slot that was never
written is `none`. -/
structure ObjModel (F : Type) where
  vertexCount : Nat
  uvCount : Nat
  normalCount : Nat
  numMaterialLibraries : Nat
  vertices : List F
  texcoords : List F
  normals : List F
  groups : List ObjGroup
  materialLibraries : List (Option (List Char))
  flags : Nat
  deriving DecidableEq, Repr

/-- The local variables of `objLoadModel` inside its main loop.  `strayStores`
lists the stores that fell outside their array, as index and value. -/
structure LoaderState (F : Type) where
  data : List Char
  token : Nat
  model : ObjModel F
  verticesCapacity : Nat
  uvsCapacity : Nat
  normalsCapacity : Nat
  currentGroupName : Option (List Char)
  currentGroup : Nat
  strayStores : List (Nat × List Char)
  deriving DecidableEq, Repr

/-- The group that `currentGroup` points to. -/
def LoaderState.current {F : Type} (s : LoaderState F) : ObjGroup :=
  s.model.groups.getD s.currentGroup (createGroup none)

/-- The function `parseFloat`: `skipSpace`, `atof` on the string at the
cursor, then the cursor moves over `strspn(*token, ATOF_CHARACTERS)`. -/
def parseFloat {F : Type} (atof : List Char → F) (data : List Char) (token : Nat) : F × Nat :=
  let token := skipSpace data token
  (atof (cstr data token), token + strspnAtof data token)

/-- The growth step of the face loop:
`if (indicesSize + 3 > indicesCapacity) realloc(.., indicesCapacity *= 2)`.
The capacity is an `unsigned`: doubling `2 ^ 31` gives `0`. -/
def growIndices (g : ObjGroup) : ObjGroup :=
  if g.indicesSize + 3 > g.indicesCapacity
  then { g with indicesCapacity := g.indicesCapacity * 2 % 4294967296 } else g

/-- The store `indices[indicesSize++] = vi`. -/
def pushIndex (g : ObjGroup) (vi : ObjVertexIndex) : ObjGroup :=
  { g with indices := g.indices ++ [vi] }

/-- The block `if (triangulate && i >= 3)` of the face loop: the first corner
of the face, `indices[indicesSize - i]`, and the previous corner,
`indices[indicesSize - 1]`, are read and then appended, and `i += 2`. -/
def fanCorners (triangulate : Bool) (i : Nat) (g : ObjGroup) : ObjGroup × Nat :=
  if triangulate && decide (i ≥ 3) then
    let first := g.indices.getD (g.indicesSize - i) default
    let second := g.indices.getD (g.indicesSize - 1) default
    (pushIndex (pushIndex g first) second, i + 2)
  else (g, i)

/-- The block that closes a face: `indicesPerFace` grows when it is full, then
`indicesPerFace[numFaces++] = triangulate ? 3 : i`.  The capacity is an
`unsigned`: doubling `2 ^ 31` gives `0`. -/
def pushFace (triangulate : Bool) (i : Nat) (g : ObjGroup) : ObjGroup :=
  let g := if g.numFaces + 1 > g.indicesPerFaceCapacity
    then { g with indicesPerFaceCapacity := g.indicesPerFaceCapacity * 2 % 4294967296 }
    else g
  { g with indicesPerFace := g.indicesPerFace ++ [if triangulate then 3 else i] }

/-- The `for (unsigned int i = 0;;)` loop of the `f` branch, on the current
group.  Each round grows `indices` when fewer than three free slots are left,
under triangulation repeats the first corner of the face and the previous
corner once `i >= 3`, appends the parsed triplet, and closes a face on a
newline or, under triangulation, when `i % 3 == 0`. -/
def faceLoop (data : List Char) (triangulate : Bool) (vertexCount uvCount normalCount : Nat) :
    Nat → Nat → ObjGroup → Nat → Outcome (ObjGroup × Nat)
  | 0, _, _, _ => .timeout
  | fuel + 1, i, g, token =>
    let r := fanCorners triangulate i (growIndices g)
    let vi := parseTriplet data token vertexCount uvCount normalCount
    let g := pushIndex r.1 vi.1
    let i := r.2 + 1
    let token := skipSpace data vi.2
    if IS_NEW_LINE (peek data token) || (triangulate && i % 3 == 0) then
      if IS_NEW_LINE (peek data token) then .ok (pushFace triangulate i g, token)
      else faceLoop data triangulate vertexCount uvCount normalCount fuel i
        (pushFace triangulate i g) token
    else faceLoop data triangulate vertexCount uvCount normalCount fuel i g token

/-- The `do ... while (group = group->next)` scan of the `usemtl` branch: the
position of the first group whose inherited name and material match.  The
locals `lastGroupName` and `lastMaterial`, which the source leaves
uninitialised, start as null; `strict.findGroup` ends the scan where it reads
one of them before a group has set it. -/
def findGroup (currentGroupName : Option (List Char)) (material : List Char) :
    List ObjGroup → Option (List Char) → Option (List Char) → Nat → Option Nat
  | [], _, _, _ => none
  | g :: gs, lastGroupName, lastMaterial, k =>
    let lastGroupName := if g.name.isSome then g.name else lastGroupName
    let lastMaterial := if g.material.isSome then g.material else lastMaterial
    if (currentGroupName.isNone || lastGroupName == currentGroupName)
        && lastMaterial == some material then some k
    else findGroup currentGroupName material gs lastGroupName lastMaterial (k + 1)

/-- Replaces the group at `currentGroup`. -/
def LoaderState.setCurrent {F : Type} (s : LoaderState F) (g : ObjGroup) : LoaderState F :=
  { s with model := { s.model with groups := s.model.groups.set s.currentGroup g } }

/-- The `v` branch for one of the three arrays: `size`, `capacity` and `list`
are passed by value and returned.  The capacity is an `unsigned`: doubling
`2 ^ 31` gives `0`. -/
def appendFloats {F : Type} (atof : List Char → F) (data : List Char) (token : Nat)
    (hasZ : Bool) (size capacity : Nat) (list : List F) : Nat × Nat × List F × Nat :=
  let token := token + 2
  let capacity :=
    if size + (if hasZ then 3 else 2) ≥ capacity then capacity * 2 % 4294967296 else capacity
  let x := parseFloat atof data token
  let y := parseFloat atof data x.2
  if hasZ then
    let z := parseFloat atof data y.2
    (size + 3, capacity, list ++ [x.1, y.1, z.1], z.2)
  else (size + 2, capacity, list ++ [x.1, y.1], y.2)

/-- The `v` branch of the main loop. -/
def vertexBranch {F : Type} (atof : List Char → F) (s : LoaderState F) (token : Nat) :
    Outcome (LoaderState F) :=
  let c1 := peekAt s.data token 1
  if IS_SPACE c1 then
    let r := appendFloats atof s.data token true s.model.vertexCount s.verticesCapacity
      s.model.vertices
    .ok { s with token := r.2.2.2, verticesCapacity := r.2.1,
                 model := { s.model with vertexCount := r.1, vertices := r.2.2.1 } }
  else if c1 == 't' then
    let r := appendFloats atof s.data token false s.model.uvCount s.uvsCapacity
      s.model.texcoords
    .ok { s with token := r.2.2.2, uvsCapacity := r.2.1,
                 model := { s.model with uvCount := r.1, texcoords := r.2.2.1 } }
  else if c1 == 'n' then
    let r := appendFloats atof s.data token true s.model.normalCount s.normalsCapacity
      s.model.normals
    .ok { s with token := r.2.2.2, normalsCapacity := r.2.1,
                 model := { s.model with normalCount := r.1, normals := r.2.2.1 } }
  else .undefined

/-- The `f` branch of the main loop. -/
def faceBranch {F : Type} (fuel : Nat) (flags : Nat) (s : LoaderState F) (token : Nat) :
    Outcome (LoaderState F) :=
  let token := skipSpace s.data (token + 2)
  match faceLoop s.data (hasFlag flags OBJ_TRIANGULATE) s.model.vertexCount s.model.uvCount
      s.model.normalCount fuel 0 s.current token with
  | .ok r => .ok { (s.setCurrent r.1) with token := r.2 }
  | .undefined => .undefined
  | .timeout => .timeout

/-- The `g` branch of the main loop.  Strings are held by value, so that
`free(currentGroup->name)` before the store of the new name changes nothing
here; under `OBJ_IN_SITU` that name points into the buffer of the caller, and
`strict.roundDefined` ends the run there. -/
def groupBranch {F : Type} (flags : Nat) (s : LoaderState F) (token : Nat) : LoaderState F :=
  let r := parseText s.data (skipWhitespace s.data (token + 2)) flags
  let s := { s with data := r.2.2, token := r.2.1 }
  if s.current.numFaces == 0 then
    { (s.setCurrent { s.current with name := some r.1 }) with currentGroupName := some r.1 }
  else
    { s with model := { s.model with groups := s.model.groups ++ [createGroup (some r.1)] },
             currentGroup := s.model.groups.length }

/-- The `usemtl` branch of the main loop.  When no group matches and the
current group has faces, `oldGroup->next = currentGroup` links the new group
directly behind the current one. -/
def usemtlBranch {F : Type} (flags : Nat) (s : LoaderState F) (token : Nat) : LoaderState F :=
  let r := parseText s.data (token + 7) flags
  let s := { s with data := r.2.2, token := r.2.1 }
  let s := match findGroup s.currentGroupName r.1 s.model.groups none none 0 with
    | some k => { s with currentGroup := k }
    | none =>
      if s.current.numFaces > 0 then
        { s with model := { s.model with
                   groups := s.model.groups.take (s.currentGroup + 1) ++ [createGroup none] },
                 currentGroup := s.currentGroup + 1 }
      else s
  s.setCurrent { s.current with material := some r.1 }

/-- The `mtllib` branch of the main loop: the array is reallocated to
`++numMaterialLibraries` elements and the store goes to index
`numMaterialLibraries`, one past the end; the store is recorded in
`strayStores`, and `strict.roundDefined` ends the run there. -/
def mtllibBranch {F : Type} (flags : Nat) (s : LoaderState F) (token : Nat) : LoaderState F :=
  let r := parseText s.data (token + 7) flags
  let n := s.model.numMaterialLibraries + 1
  let tmp := s.model.materialLibraries ++
    List.replicate (n - s.model.materialLibraries.length) none
  let fits := decide (n < tmp.length)
  let libs := if fits then tmp.set n (some r.1) else tmp
  let stray := if fits then s.strayStores else s.strayStores ++ [(n, r.1)]
  { s with data := r.2.2, token := r.2.1,
           model := { s.model with numMaterialLibraries := n, materialLibraries := libs },
           strayStores := stray }

/-- One round of `while ('\0' != *token)`: skip blanks and comments, dispatch
on the keyword at the cursor, skip to the next line. -/
def loadStep {F : Type} (atof : List Char → F) (fuel : Nat) (flags : Nat) (s : LoaderState F) :
    Outcome (LoaderState F) :=
  let token := skipWhitespaceAndComments s.data s.token
  let c := peek s.data token
  let r : Outcome (LoaderState F) :=
    if c == 'v' then vertexBranch atof s token
    else if c == 'f' then faceBranch fuel flags s token
    else if c == 'g' then .ok (groupBranch flags s token)
    else if startsWith "usemtl".toList s.data token then .ok (usemtlBranch flags s token)
    else if startsWith "mtllib".toList s.data token then .ok (mtllibBranch flags s token)
    else .ok { s with token := token }
  match r with
  | .ok s => .ok { s with token := skipLine s.data s.token }
  | .undefined => .undefined
  | .timeout => .timeout

/-- The main loop of `objLoadModel`.  A cursor past the terminator reads as a
terminator and ends the loop; `strict.loadLoop` ends the run there as
`Outcome.undefined`. -/
def loadLoop {F : Type} (atof : List Char → F) (flags : Nat) :
    Nat → LoaderState F → Outcome (LoaderState F)
  | 0, _ => .timeout
  | fuel + 1, s =>
    if peek s.data s.token == '\x00' then .ok s
    else match loadStep atof fuel flags s with
      | .ok s => loadLoop atof flags fuel s
      | .undefined => .undefined
      | .timeout => .timeout

/-- The state of `objLoadModel` on entry to its main loop. -/
def initState {F : Type} (data : List Char) (flags : Nat) : LoaderState F :=
  { data := data, token := 0,
    model := { vertexCount := 0, uvCount := 0, normalCount := 0, numMaterialLibraries := 0,
               vertices := [], texcoords := [], normals := [],
               groups := [createGroup none], materialLibraries := [], flags := flags },
    verticesCapacity := 3, uvsCapacity := 2, normalsCapacity := 3,
    currentGroupName := none, currentGroup := 0, strayStores := [] }

/-- The run of `objLoadModel` up to `return model;`, with all its locals. -/
def objLoadRun {F : Type} (atof : List Char → F) (fuel : Nat) (data : List Char) (flags : Nat) :
    Outcome (LoaderState F) :=
  loadLoop atof flags fuel (initState data flags)

/-- The function `objLoadModel`.  `fuel` bounds the rounds of the main loop and
of each face loop. -/
def objLoadModel {F : Type} (atof : List Char → F) (fuel : Nat) (data : List Char)
    (flags : Nat) : Outcome (ObjModel F) :=
  match objLoadRun atof fuel data flags with
  | .ok s => .ok s.model
  | .undefined => .undefined
  | .timeout => .timeout

end objloader

/-! ## Face corners as text -/

/-- The decimal text of an `int`: a minus sign for a negative value, then the
digits that `Nat.toDigits` prints. -/
def intText (z : Int) : List Char :=
  if z < 0 then '-' :: Nat.toDigits 10 z.natAbs else Nat.toDigits 10 z.natAbs

/-- The value is within the range of `int`, the least value excluded. -/
def InIntRange (z : Int) : Prop := -2147483648 < z ∧ z < 2147483648

instance (z : Int) : Decidable (InIntRange z) := by unfold InIntRange; infer_instance

/-- A face corner as written in a file: `v`, `v/t`, `v//n` or `v/t/n`. -/
structure Corner where
  v : Int
  t : Option Int
  n : Option Int
  deriving DecidableEq, Repr

/-- The text of a corner. -/
def Corner.text (c : Corner) : List Char :=
  intText c.v ++
    match c.t, c.n with
    | none, none => []
    | some t, none => '/' :: intText t
    | none, some n => '/' :: '/' :: intText n
    | some t, some n => '/' :: intText t ++ '/' :: intText n

/-- Every component of the corner is in the range of `int`. -/
def Corner.InRange (c : Corner) : Prop :=
  InIntRange c.v ∧ (∀ t ∈ c.t, InIntRange t) ∧ (∀ n ∈ c.n, InIntRange n)

instance (c : Corner) : Decidable c.InRange := by unfold Corner.InRange; infer_instance

/-- Every component of the corner is positive. -/
def Corner.Positive (c : Corner) : Prop :=
  0 < c.v ∧ (∀ t ∈ c.t, (0 : Int) < t) ∧ (∀ n ∈ c.n, (0 : Int) < n)

instance (c : Corner) : Decidable c.Positive := by unfold Corner.Positive; infer_instance

/-- The index that `fixIndex` yields for the integer `z` written in the file,
after the conversions to `unsigned` and back to `int`. -/
def resolveIndex (z : Int) (count : Nat) : Int :=
  toInt32 (fixIndex (toUInt32 z) (count % 4294967296))

/-- The triplet a corner resolves to; an absent component is `-1`. -/
def Corner.resolve (c : Corner) (vertexCount texcoordCount normalCount : Nat) : ObjVertexIndex :=
  { vertexIndex := resolveIndex c.v vertexCount
    texcoordIndex := match c.t with
      | some t => resolveIndex t texcoordCount
      | none => -1
    normalIndex := match c.n with
      | some n => resolveIndex n normalCount
      | none => -1 }

/-- The digit loop of `parseInt` without the reduction modulo `2 ^ 32`. -/
def plainValue (ds : List Char) : Nat := ds.foldl (fun value c => value * 10 + (c.toNat - 48)) 0

/-- The characters that continue a corner: a digit or a slash. -/
def isCornerChar (c : Char) : Bool := isDigit c || c == '/'

/-- The text ends here or goes on with a character that fails `p`. -/
def Stops (p : Char → Bool) (rest : List Char) : Prop := ∀ c ∈ rest.head?, p c = false

instance (p : Char → Bool) (rest : List Char) : Decidable (Stops p rest) := by
  unfold Stops; infer_instance

namespace objparser

/-- The function `parseTriplet` of `objparser.c`. -/
def parseTriplet (data : List Char) (token : Nat)
    (vertexCount texcoordCount normalCount : Nat) : ObjVertexIndex × Nat :=
  let v := parseIndex data token vertexCount
  let token := v.2
  if peek data token == '/' then
    let token := token + 1
    let t : Int × Nat :=
      if peek data token != '/' then parseIndex data token texcoordCount else (-1, token)
    let token := t.2
    if peek data token == '/' then
      let n := parseIndex data (token + 1) normalCount
      (⟨v.1, t.1, n.1⟩, n.2)
    else (⟨v.1, t.1, -1⟩, token)
  else (⟨v.1, -1, -1⟩, token)

end objparser

/-! ## The face loop without the text -/

namespace objloader

/-- The rounds of the face loop of `objLoadModel` on corners that are already
resolved: one round per corner, the last corner being the one followed by the
newline.  It mirrors `faceLoop`, whose cursor it leaves out. -/
def faceSteps (triangulate : Bool) : List ObjVertexIndex → Nat → ObjGroup → ObjGroup
  | [], _, g => g
  | c :: cs, i, g =>
    let r := fanCorners triangulate i (growIndices g)
    let g := pushIndex r.1 c
    let i := r.2 + 1
    if cs.isEmpty || (triangulate && i % 3 == 0) then
      if cs.isEmpty then pushFace triangulate i g
      else faceSteps triangulate cs i (pushFace triangulate i g)
    else faceSteps triangulate cs i g

/-- The triangle `(c0, c(j+1), c(j+2))` of the fan over the corners `cs`. -/
def fanTriangle (cs : List ObjVertexIndex) (j : Nat) : List ObjVertexIndex :=
  [cs.getD 0 default, cs.getD (j + 1) default, cs.getD (j + 2) default]

/-- The fan over `N` corners: the triangles `j = 0 .. N - 3`, one after another. -/
def triangleFan (cs : List ObjVertexIndex) : List ObjVertexIndex :=
  (List.range (cs.length - 2)).flatMap (fanTriangle cs)

/-- The fan that continues from the first corner `first` and the previous
corner `previous` over the corners still to come. -/
def fanFrom (first : ObjVertexIndex) : ObjVertexIndex → List ObjVertexIndex → List ObjVertexIndex
  | _, [] => []
  | previous, c :: cs => first :: previous :: c :: fanFrom first c cs

/-- The corners of a face line, each with the blanks that follow it. -/
def faceBody : List (Corner × List Char) → List Char
  | [] => []
  | p :: cs => p.1.text ++ p.2 ++ faceBody cs

/-- The blanks between the corners of a face line are spaces and tabs, and
only the last run may be empty. -/
def GapsOk : List (Corner × List Char) → Prop
  | [] => True
  | [p] => ∀ c ∈ p.2, IS_SPACE c = true
  | p :: q :: cs => (∀ c ∈ p.2, IS_SPACE c = true) ∧ p.2 ≠ [] ∧ GapsOk (q :: cs)

/-- The condition `GapsOk` can be computed. -/
def GapsOk.decide : (cs : List (Corner × List Char)) → Decidable (GapsOk cs)
  | [] => isTrue trivial
  | [p] => inferInstanceAs (Decidable (∀ c ∈ p.2, IS_SPACE c = true))
  | p :: q :: cs =>
    have := GapsOk.decide (q :: cs)
    inferInstanceAs (Decidable ((∀ c ∈ p.2, IS_SPACE c = true) ∧ p.2 ≠ [] ∧ GapsOk (q :: cs)))

instance (cs : List (Corner × List Char)) : Decidable (GapsOk cs) := GapsOk.decide cs

end objloader

/-! ## Well-formed input, line by line -/

namespace objloader

/-- The blanks that may follow a name on its line: space, tab, carriage return. -/
def isTrailChar (c : Char) : Bool := c == ' ' || c == '\t' || c == '\r'

/-- The pieces of an OBJ text: a whitespace character, a comment line, or a
line that starts with a keyword.  Every line ends with a newline. -/
inductive Item where
  /-- One character of whitespace, a newline included. -/
  | blank (c : Char)
  /-- The line `#text`. -/
  | comment (text : List Char)
  /-- The line `v` + blank + `body`. -/
  | vertex (sep : Char) (body : List Char)
  /-- The line `vt` + `body`. -/
  | texcoord (body : List Char)
  /-- The line `vn` + `body`. -/
  | normal (body : List Char)
  /-- The line `f ` + blanks + corners, each followed by blanks; `cr` asks for
  a carriage return before the newline. -/
  | face (lead : List Char) (cs : List (Corner × List Char)) (cr : Bool)
  /-- The line `g name` + blanks. -/
  | group (name trail : List Char)
  /-- The line `usemtl name` + blanks. -/
  | usemtl (name trail : List Char)
  /-- The line `mtllib name` + blanks. -/
  | mtllib (name trail : List Char)
  /-- A line that starts with no keyword of the loader. -/
  | other (text : List Char)

/-- The end of a face line. -/
def faceEol (cr : Bool) : List Char := if cr then ['\r', '\n'] else ['\n']

/-- The text of an item. -/
def Item.text : Item → List Char
  | .blank c => [c]
  | .comment text => '#' :: text ++ ['\n']
  | .vertex sep body => 'v' :: sep :: body ++ ['\n']
  | .texcoord body => 'v' :: 't' :: body ++ ['\n']
  | .normal body => 'v' :: 'n' :: body ++ ['\n']
  | .face lead cs cr => 'f' :: ' ' :: lead ++ faceBody cs ++ faceEol cr
  | .group name trail => 'g' :: ' ' :: name ++ trail ++ ['\n']
  | .usemtl name trail => "usemtl ".toList ++ name ++ trail ++ ['\n']
  | .mtllib name trail => "mtllib ".toList ++ name ++ trail ++ ['\n']
  | .other text => text ++ ['\n']

/-- The text of a file. -/
def render : List Item → List Char
  | [] => []
  | it :: items => it.text ++ render items

/-- The first character of a line that starts with no keyword. -/
def isOtherStart (c : Char) : Bool :=
  !(isWhitespace c || c == '#' || c == 'v' || c == 'f' || c == 'g' || c == '\x00')

/-- The conditions under which an item is a line of the stated kind. -/
def Item.WellFormed : Item → Prop
  | .blank c => isWhitespace c = true
  | .comment text => ∀ c ∈ text, isLineChar c = true
  | .vertex sep body => IS_SPACE sep = true ∧ ∀ c ∈ body, isLineChar c = true
  | .texcoord body => ∀ c ∈ body, isLineChar c = true
  | .normal body => ∀ c ∈ body, isLineChar c = true
  | .face lead cs _ =>
    (∀ c ∈ lead, IS_SPACE c = true) ∧ cs ≠ [] ∧ GapsOk cs ∧ ∀ p ∈ cs, p.1.InRange
  | .group name trail =>
    name ≠ [] ∧ (∀ c ∈ name, isTextChar c = true) ∧ ∀ c ∈ trail, isTrailChar c = true
  | .usemtl name trail =>
    (∀ c ∈ name, isTextChar c = true) ∧ ∀ c ∈ trail, isTrailChar c = true
  | .mtllib name trail =>
    (∀ c ∈ name, isTextChar c = true) ∧ ∀ c ∈ trail, isTrailChar c = true
  | .other text =>
    (∀ c ∈ text.head?, isOtherStart c = true) ∧ text ≠ [] ∧
    (∀ c ∈ text, isLineChar c = true) ∧
    ¬ "usemtl".toList <+: text ∧ ¬ "mtllib".toList <+: text

instance (it : Item) : Decidable it.WellFormed := by
  cases it <;> unfold Item.WellFormed <;> infer_instance

/-- The text that reaches the next round of the main loop after a line with a
name: under `OBJ_IN_SITU` the delimiter is overwritten, and the blanks that
followed it stay. -/
def residual (flags : Nat) (trail : List Char) : List Char :=
  if hasFlag flags OBJ_IN_SITU then (trail ++ ['\n']).tail else []

/-- The text that a line leaves for the next round of the main loop. -/
def Item.residue (flags : Nat) : Item → List Char
  | .group _ trail => residual flags trail
  | .usemtl _ trail => residual flags trail
  | .mtllib _ trail => residual flags trail
  | _ => []

/-- The items that start a round of the main loop: all but blanks and comments. -/
def Item.Significant : Item → Prop
  | .blank _ => False
  | .comment _ => False
  | _ => True

/-- The cursor is inside a line whose newline is followed by `rest`. -/
def InLine (data : List Char) (token : Nat) (rest : List Char) : Prop :=
  ∃ xs, data.drop token = xs ++ '\n' :: rest ∧ ∀ c ∈ xs, isLineChar c = true

/-- The number of corners of a face line; no other item has corners. -/
def Item.corners : Item → Option Nat
  | .face _ cs _ => some cs.length
  | _ => none

/-- The part of the loader state that the lines act on, without the buffer,
the cursor and the arrays of floats. -/
structure Core where
  groups : List ObjGroup
  currentGroup : Nat
  currentGroupName : Option (List Char)
  vertexCount : Nat
  uvCount : Nat
  normalCount : Nat
  numMaterialLibraries : Nat
  materialLibraries : List (Option (List Char))
  strayStores : List (Nat × List Char)

/-- The core of a loader state. -/
def LoaderState.core {F : Type} (s : LoaderState F) : Core :=
  { groups := s.model.groups, currentGroup := s.currentGroup,
    currentGroupName := s.currentGroupName, vertexCount := s.model.vertexCount,
    uvCount := s.model.uvCount, normalCount := s.model.normalCount,
    numMaterialLibraries := s.model.numMaterialLibraries,
    materialLibraries := s.model.materialLibraries, strayStores := s.strayStores }

/-- The group that `currentGroup` points to. -/
def Core.current (k : Core) : ObjGroup := k.groups.getD k.currentGroup (createGroup none)

/-- Replaces the group at `currentGroup`. -/
def Core.setCurrent (k : Core) (g : ObjGroup) : Core :=
  { k with groups := k.groups.set k.currentGroup g }

/-- What the `g` branch does to the core. -/
def Core.group (name : List Char) (k : Core) : Core :=
  if k.current.numFaces == 0 then
    { (k.setCurrent { k.current with name := some name }) with currentGroupName := some name }
  else
    { k with groups := k.groups ++ [createGroup (some name)], currentGroup := k.groups.length }

/-- What the `usemtl` branch does to the core. -/
def Core.usemtl (material : List Char) (k : Core) : Core :=
  let k := match findGroup k.currentGroupName material k.groups none none 0 with
    | some j => { k with currentGroup := j }
    | none =>
      if k.current.numFaces > 0 then
        { k with groups := k.groups.take (k.currentGroup + 1) ++ [createGroup none],
                 currentGroup := k.currentGroup + 1 }
      else k
  k.setCurrent { k.current with material := some material }

/-- What the `mtllib` branch does to the core. -/
def Core.mtllib (filename : List Char) (k : Core) : Core :=
  let n := k.numMaterialLibraries + 1
  let tmp := k.materialLibraries ++ List.replicate (n - k.materialLibraries.length) none
  let fits := decide (n < tmp.length)
  { k with numMaterialLibraries := n,
           materialLibraries := if fits then tmp.set n (some filename) else tmp,
           strayStores := if fits then k.strayStores else k.strayStores ++ [(n, filename)] }

/-- What the `f` branch does to the core. -/
def Core.face (triangulate : Bool) (cs : List Corner) (k : Core) : Core :=
  k.setCurrent (faceSteps triangulate
    (cs.map (fun c => c.resolve k.vertexCount k.uvCount k.normalCount)) 0 k.current)

/-- What one item does to the core. -/
def Item.apply (triangulate : Bool) : Item → Core → Core
  | .blank _, k => k
  | .comment _, k => k
  | .vertex _ _, k => { k with vertexCount := k.vertexCount + 3 }
  | .texcoord _, k => { k with uvCount := k.uvCount + 2 }
  | .normal _, k => { k with normalCount := k.normalCount + 3 }
  | .face _ cs _, k => k.face triangulate (cs.map Prod.fst)
  | .group name _, k => k.group name
  | .usemtl name _, k => k.usemtl name
  | .mtllib name _, k => k.mtllib name
  | .other _, k => k

/-- What a file does to the core. -/
def applyItems (triangulate : Bool) (items : List Item) (k : Core) : Core :=
  items.foldl (fun k it => it.apply triangulate k) k

end objloader

/-! ## Quantities of a file and of a model -/

namespace objloader

/-- A face line has at least three corners; other items are not constrained. -/
def Item.AtLeastTriangle : Item → Prop
  | .face _ cs _ => 3 ≤ cs.length
  | _ => True

instance (it : Item) : Decidable it.AtLeastTriangle := by
  cases it <;> unfold Item.AtLeastTriangle <;> infer_instance

/-- The number of `f` lines of a file. -/
def faceLines : List Item → Nat
  | [] => 0
  | .face _ _ _ :: items => faceLines items + 1
  | _ :: items => faceLines items

/-- The number of corner counts one line stores: one per `f` line, and
`N - 2` for an `f` line of `N` corners under triangulation. -/
def Item.faceCount (triangulate : Bool) : Item → Nat
  | .face _ cs _ => if triangulate then cs.length - 2 else 1
  | _ => 0

/-- The number of corner counts a file stores. -/
def storedFaces (triangulate : Bool) (items : List Item) : Nat :=
  (items.map (Item.faceCount triangulate)).sum

/-- The materials that the `usemtl` lines of a file name, in order. -/
def usedMaterials : List Item → List (List Char)
  | [] => []
  | .usemtl name _ :: items => name :: usedMaterials items
  | _ :: items => usedMaterials items

/-- The field `numFaces` summed over the chain of groups. -/
def totalFaces (groups : List ObjGroup) : Nat := (groups.map ObjGroup.numFaces).sum

/-- The invariant of a group: the corner counts add up to the number of triplets. -/
def ObjGroup.Balanced (g : ObjGroup) : Prop := g.indicesPerFace.sum = g.indicesSize

/-- The current group is the last node of the chain. -/
def Core.IsLast (k : Core) (init : List ObjGroup) (cur : ObjGroup) : Prop :=
  k.groups = init ++ [cur] ∧ k.currentGroup = init.length

/-- What the face-counting argument keeps track of: the current group is the
last one, the materials carried by groups are among `used`, and the chain
holds `n` faces. -/
structure Core.Counted (k : Core) (used : List (List Char)) (n : Nat) : Prop where
  last : ∃ init cur, k.IsLast init cur
  materials : ∀ g ∈ k.groups, ∀ m, g.material = some m → m ∈ used
  total : totalFaces k.groups = n

/-- A stand-in for `atof` that forgets the value.  A run with any other `atof`
returns the same model up to the values of the floats (`objLoadModel_erase`). -/
def noFloat : List Char → Unit := fun _ => ()

/-- The model with the values of its floats forgotten. -/
def ObjModel.erase {F : Type} (m : ObjModel F) : ObjModel Unit :=
  { vertexCount := m.vertexCount
    uvCount := m.uvCount
    normalCount := m.normalCount
    numMaterialLibraries := m.numMaterialLibraries
    vertices := m.vertices.map fun _ => ()
    texcoords := m.texcoords.map fun _ => ()
    normals := m.normals.map fun _ => ()
    groups := m.groups
    materialLibraries := m.materialLibraries
    flags := m.flags }

/-- The loader state with the values of its floats forgotten. -/
def LoaderState.erase {F : Type} (s : LoaderState F) : LoaderState Unit :=
  { data := s.data
    token := s.token
    model := s.model.erase
    verticesCapacity := s.verticesCapacity
    uvsCapacity := s.uvsCapacity
    normalsCapacity := s.normalsCapacity
    currentGroupName := s.currentGroupName
    currentGroup := s.currentGroup
    strayStores := s.strayStores }

end objloader

/-! ## The push parser `objParse` of `objparser.c` -/

/-- A float as a run obtains it, for runs on a given text: the literal `1.f`,
or what `atof` returns on the string at the cursor. -/
inductive SymFloat where
  /-- The literal `1.f`. -/
  | one
  /-- The call `atof(text)`. -/
  | atof (text : List Char)
  deriving DecidableEq, Repr

namespace objparser

/-- The flag `OBJ_TRIANGULATE` of `objparser.h`. -/
def OBJ_TRIANGULATE : Nat := 1
/-- The flag `OBJ_IN_SITU` of `objparser.h`. -/
def OBJ_IN_SITU : Nat := 4

/-- The function `parseFloat` of `objparser.c`. -/
def parseFloat {F : Type} (atof : List Char → F) (data : List Char) (token : Nat) : F × Nat :=
  let token := skipSpace data token
  (atof (cstr data token), token + strspnAtof data token)

/-- The function `parseText` of `objparser.c`.  Under `OBJ_IN_SITU` the cursor
steps over the delimiter, `++*token; // Skip the null terminator`, and the
delimiter is overwritten with NUL. -/
def parseText (data : List Char) (token : Nat) (flags : Nat) :
    List Char × Nat × List Char :=
  let text := (data.drop token).takeWhile objloader.isTextChar
  let stop := token + text.length
  if objloader.hasFlag flags OBJ_IN_SITU then (text, stop + 1, data.set stop '\x00')
  else (text, stop, data)

/-- The function `skipWhitespaceAndComments` of `objparser.c`.  The inner loop
`while (**token != '\0' && **token != '\n') ++*token;` leaves the cursor on the
newline that ends the comment, or on the terminator. -/
def skipWhitespaceAndCommentsAux : Nat → List Char → Nat → Nat
  | 0, data, token => skipWhitespace data token
  | fuel + 1, data, token =>
    let token := skipWhitespace data token
    if peek data token == '#' then
      skipWhitespaceAndCommentsAux fuel data (token + strcspnNewline data token)
    else token

/-- The function `skipWhitespaceAndComments`: every comment holds at least one
character, so the length of the buffer bounds the number of comments. -/
def skipWhitespaceAndComments (data : List Char) (token : Nat) : Nat :=
  skipWhitespaceAndCommentsAux data.length data token

/-- A call of a handler of `struct ObjParserContext`, with its arguments.  The
constant arguments, `w = 1.0` of `addVertex` and `z = 0` of `addTexcoord`, are
left out; a string is the text the handler finds at the pointer it is given. -/
inductive Event (F : Type) where
  /-- The call `addVertex(prv, x, y, z, 1.0)`. -/
  | addVertex (x y z : F)
  /-- The call `addTexcoord(prv, x, y, 0)`. -/
  | addTexcoord (x y : F)
  /-- The call `addNormal(prv, x, y, z)`. -/
  | addNormal (x y z : F)
  /-- The call `addFace(prv, numVertices, indexBuffer)`, with the entries of
  `indexBuffer` that lie inside the array, `numVertices` at most. -/
  | addFace (numVertices : Nat) (indices : List ObjVertexIndex)
  /-- The call `addGroup(prv, 1, &groupName)`. -/
  | addGroup (names : List (List Char))
  /-- The call `mtllib(prv, filename)`. -/
  | mtllib (path : List Char)
  /-- The call `usemtl(prv, material)`. -/
  | usemtl (name : List Char)
  deriving DecidableEq, Repr

/-- The local variables of `objParse`, and what it has done so far: the calls
of the handlers in order, and the positions of the stores to `indexBuffer` that
fell outside its 256 entries. -/
structure ParserState (F : Type) where
  data : List Char
  token : Nat
  vertexCount : Nat
  texcoordCount : Nat
  normalCount : Nat
  indexBuffer : List ObjVertexIndex
  events : List (Event F)
  strayStores : List Nat
  deriving DecidableEq, Repr

/-- The store `indexBuffer[i] = vi` into `struct ObjVertexIndex indexBuffer[256]`.
The source does not compare `i` with 256; a store outside the array is
recorded and leaves the array as it is. -/
def storeIndex {F : Type} (p : ParserState F) (i : Nat) (vi : ObjVertexIndex) :
    ParserState F :=
  if i < 256 then { p with indexBuffer := p.indexBuffer.set i vi }
  else { p with strayStores := p.strayStores ++ [i] }

/-- The call `addFace(prv, i + 1, indexBuffer)`. -/
def emitFace {F : Type} (p : ParserState F) (i : Nat) : ParserState F :=
  { p with events := p.events ++ [.addFace (i + 1) (p.indexBuffer.take (i + 1))] }

/-- The statement `indexBuffer[1] = indexBuffer[2]; // Construct a triangle fan`. -/
def shiftFan {F : Type} (p : ParserState F) : ParserState F :=
  { p with indexBuffer := p.indexBuffer.set 1 (p.indexBuffer.getD 2 default) }

/-- The `for (int i = 0;;)` loop of the `f` branch of `objParse`: a triplet is
stored at `indexBuffer[i]`; on a newline, or under triangulation once `i >= 2`,
`addFace(prv, i + 1, indexBuffer)` is called, after which a newline ends the
loop and otherwise `indexBuffer[1] = indexBuffer[2]`; in the other case `++i`.
The cursor is passed next to the state and returned with it. -/
def faceLoop {F : Type} (data : List Char) (triangulate : Bool)
    (vertexCount texcoordCount normalCount : Nat) :
    Nat → Nat → ParserState F → Nat → Outcome (ParserState F × Nat)
  | 0, _, _, _ => .timeout
  | fuel + 1, i, p, token =>
    let vi := parseTriplet data token vertexCount texcoordCount normalCount
    let p := storeIndex p i vi.1
    let token := skipSpace data vi.2
    if IS_NEW_LINE (peek data token) || (triangulate && decide (i ≥ 2)) then
      if IS_NEW_LINE (peek data token) then .ok (emitFace p i, token)
      else faceLoop data triangulate vertexCount texcoordCount normalCount fuel i
        (shiftFan (emitFace p i)) token
    else faceLoop data triangulate vertexCount texcoordCount normalCount fuel (i + 1) p token

/-- The `f` branch of `objParse`. -/
def faceBranch {F : Type} (fuel : Nat) (flags : Nat) (p : ParserState F) (token : Nat) :
    Outcome (ParserState F) :=
  match faceLoop p.data (objloader.hasFlag flags OBJ_TRIANGULATE) p.vertexCount
      p.texcoordCount p.normalCount fuel 0 p (skipSpace p.data (token + 2)) with
  | .ok r => .ok { r.1 with token := r.2 }
  | .undefined => .undefined
  | .timeout => .timeout

/-- The `v` branch of `objParse`; a second character other than a blank, `t`
or `n` leaves everything as it is. -/
def vertexBranch {F : Type} (atof : List Char → F) (p : ParserState F) (token : Nat) :
    ParserState F :=
  let c1 := peekAt p.data token 1
  if IS_SPACE c1 then
    let x := parseFloat atof p.data (token + 2)
    let y := parseFloat atof p.data x.2
    let z := parseFloat atof p.data y.2
    { p with token := z.2, vertexCount := p.vertexCount + 1,
             events := p.events ++ [.addVertex x.1 y.1 z.1] }
  else if c1 == 't' then
    let x := parseFloat atof p.data (token + 2)
    let y := parseFloat atof p.data x.2
    { p with token := y.2, texcoordCount := p.texcoordCount + 1,
             events := p.events ++ [.addTexcoord x.1 y.1] }
  else if c1 == 'n' then
    let x := parseFloat atof p.data (token + 2)
    let y := parseFloat atof p.data x.2
    let z := parseFloat atof p.data y.2
    { p with token := z.2, normalCount := p.normalCount + 1,
             events := p.events ++ [.addNormal x.1 y.1 z.1] }
  else { p with token := token }

/-- One round of `while ('\0' != *token)` in `objParse`. -/
def parseStep {F : Type} (atof : List Char → F) (fuel : Nat) (flags : Nat)
    (p : ParserState F) : Outcome (ParserState F) :=
  let token := skipWhitespaceAndComments p.data p.token
  let c := peek p.data token
  let r : Outcome (ParserState F) :=
    if c == 'v' then .ok (vertexBranch atof p token)
    else if c == 'f' then faceBranch fuel flags p token
    else if c == 'g' then
      let r := parseText p.data (skipWhitespace p.data (token + 2)) flags
      .ok { p with data := r.2.2, token := r.2.1, events := p.events ++ [.addGroup [r.1]] }
    else if startsWith "usemtl".toList p.data token then
      let r := parseText p.data (token + 7) flags
      .ok { p with data := r.2.2, token := r.2.1, events := p.events ++ [.usemtl r.1] }
    else if startsWith "mtllib".toList p.data token then
      let r := parseText p.data (token + 7) flags
      .ok { p with data := r.2.2, token := r.2.1, events := p.events ++ [.mtllib r.1] }
    else .ok { p with token := token }
  match r with
  | .ok p => .ok { p with token := skipLine p.data p.token }
  | .undefined => .undefined
  | .timeout => .timeout

/-- The main loop of `objParse`. -/
def parseLoop {F : Type} (atof : List Char → F) (flags : Nat) :
    Nat → ParserState F → Outcome (ParserState F)
  | 0, _ => .timeout
  | fuel + 1, p =>
    if peek p.data p.token == '\x00' then .ok p
    else match parseStep atof fuel flags p with
      | .ok p => parseLoop atof flags fuel p
      | .undefined => .undefined
      | .timeout => .timeout

/-- The state of `objParse` on entry to its main loop; the entries of
`indexBuffer`, which are not initialised, are never read before they are written. -/
def initParser {F : Type} (buffer : List Char) : ParserState F :=
  { data := buffer, token := 0, vertexCount := 0, texcoordCount := 0, normalCount := 0,
    indexBuffer := List.replicate 256 default, events := [], strayStores := [] }

/-- The function `objParse`, with `context->flags` and the handlers that record
their calls: the value returned, which is `0` since `parseText` allocates
without failure, and the final state.  `fuel` bounds the rounds of the main
loop and of each face loop. -/
def objParse {F : Type} (atof : List Char → F) (fuel : Nat) (flags : Nat)
    (buffer : List Char) : Outcome (Nat × ParserState F) :=
  match parseLoop atof flags fuel (initParser buffer) with
  | .ok p => .ok (0, p)
  | .undefined => .undefined
  | .timeout => .timeout

end objparser

namespace objparser

/-- The rounds of the face loop of `objParse` on corners that are already
resolved, the last corner being the one followed by the newline.  It mirrors
`faceLoop`, whose cursor it leaves out. -/
def faceSteps {F : Type} (triangulate : Bool) :
    List ObjVertexIndex → Nat → ParserState F → ParserState F
  | [], _, p => p
  | c :: cs, i, p =>
    let p := storeIndex p i c
    if cs.isEmpty || (triangulate && decide (i ≥ 2)) then
      if cs.isEmpty then emitFace p i else faceSteps triangulate cs i (shiftFan (emitFace p i))
    else faceSteps triangulate cs (i + 1) p

/-- The triangles `(c0, c(j+1), c(j+2))`, `j = 0 .. N - 3`, of the fan over `N`
corners, each as the list of its three corners. -/
def fanTriangles (cs : List ObjVertexIndex) : List (List ObjVertexIndex) :=
  (List.range (cs.length - 2)).map (objloader.fanTriangle cs)

end objparser

namespace objparser

/-- The triangles of the fan that continues from the first corner `first` and
the previous corner `previous` over the corners still to come. -/
def trianglesFrom (first : ObjVertexIndex) :
    ObjVertexIndex → List ObjVertexIndex → List (List ObjVertexIndex)
  | _, [] => []
  | previous, c :: cs => [first, previous, c] :: trianglesFrom first c cs

end objparser

/-- The triplet of a corner whose components are positive: each component
less one, and `-1` for an absent component. -/
def Corner.zeroBased (c : Corner) : ObjVertexIndex :=
  { vertexIndex := c.v - 1
    texcoordIndex := match c.t with
      | some t => t - 1
      | none => -1
    normalIndex := match c.n with
      | some n => n - 1
      | none => -1 }

/-! ## The material parser `loadMtl` of `objloader.c` -/

namespace objloader

/-- The struct `MtlMaterial`.  `loadMtl` sets the name, the opacity and the
texture path when it opens a record; a colour or the shininess that no line
has set holds what `malloc` left there, which is `none` here. -/
structure MtlMaterial (F : Type) where
  name : List Char
  ambientTexture : Option (List Char)
  ambient : Option (F × F × F)
  diffuse : Option (F × F × F)
  specular : Option (F × F × F)
  shininess : Option F
  opacity : F
  deriving DecidableEq, Repr

/-- The local variables of `loadMtl`: `materials` holds the first `size`
records, and `current`, once a `newmtl` line has set it, points to the last
of them. -/
structure MtlState (F : Type) where
  data : List Char
  token : Nat
  materials : List (MtlMaterial F)
  capacity : Nat
  deriving DecidableEq, Repr

/-- The list with `f` applied to its last element. -/
def updateLast {α : Type} (f : α → α) : List α → List α
  | [] => []
  | [a] => [f a]
  | a :: b :: l => a :: updateLast f (b :: l)

/-- A store through `current`.  Before the first `newmtl` line the pointer is
not initialised. -/
def updateCurrent {F : Type} (s : MtlState F) (f : MtlMaterial F → MtlMaterial F) :
    Outcome (MtlState F) :=
  if s.materials.isEmpty then .undefined
  else .ok { s with materials := updateLast f s.materials }

/-- The stores `color[0]`, `color[1]`, `color[2]`, where `color` is
`current->ambient` for `Ka`, `current->diffuse` for `Kd` and `current->specular`
otherwise. -/
def setColor {F : Type} (k : Char) (v : F × F × F) (m : MtlMaterial F) : MtlMaterial F :=
  if k == 'a' then { m with ambient := some v }
  else if k == 'd' then { m with diffuse := some v }
  else { m with specular := some v }

/-- What one round of the loop `for (;;)` of `loadMtl` ends with. -/
inductive MtlNext (F : Type) where
  /-- The round ends with `continue`, or falls out of the chain of tests. -/
  | next (s : MtlState F)
  /-- The round ends with `break`. -/
  | done
  deriving DecidableEq, Repr

/-- One round of the loop `for (;;)` of `loadMtl`: the chain of tests on the
text at the cursor, and for all branches but the one that steps over a blank,
`token += strcspn(token, "\n") + 1`. -/
def mtlStep {F : Type} (atof : List Char → F) (one : F) (flags : Nat) (s : MtlState F) :
    Outcome (MtlNext F) :=
  let c := peek s.data s.token
  let c1 := peekAt s.data s.token 1
  if startsWith "newmtl".toList s.data s.token then
    let capacity := if s.materials.length + 1 ≥ s.capacity then s.capacity * 2 else s.capacity
    let r := parseText s.data (s.token + 7) flags
    .ok (.next
      { data := r.2.2, token := skipLine r.2.2 r.2.1, capacity := capacity,
        materials := s.materials ++
          [{ name := r.1, ambientTexture := none, ambient := none, diffuse := none,
             specular := none, shininess := none, opacity := one }] })
  else if c == 'K' && (c1 == 'a' || c1 == 'd' || c1 == 's') then
    let x := parseFloat atof s.data (s.token + 3)
    let y := parseFloat atof s.data x.2
    let z := parseFloat atof s.data y.2
    (updateCurrent s (setColor c1 (x.1, y.1, z.1))).map fun s =>
      .next { s with token := skipLine s.data z.2 }
  else if (c == 'T' && c1 == 'r') || c == 'd' then
    let v := parseFloat atof s.data (s.token + 2)
    (updateCurrent s fun m => { m with opacity := v.1 }).map fun s =>
      .next { s with token := skipLine s.data v.2 }
  else if c == 'n' && c1 == 's' then
    let v := parseFloat atof s.data (s.token + 3)
    (updateCurrent s fun m => { m with shininess := some v.1 }).map fun s =>
      .next { s with token := skipLine s.data v.2 }
  else if startsWith "map_Kd".toList s.data s.token then
    let r := parseText s.data (s.token + 7) flags
    (updateCurrent { s with data := r.2.2 } fun m => { m with ambientTexture := some r.1 }).map
      fun s => .next { s with token := skipLine s.data r.2.1 }
  else if c == ' ' || c == '\n' || c == '\t' || c == 'r' then
    .ok (.next { s with token := s.token + 1 })
  else if c == '\x00' then .ok .done
  else .ok (.next { s with token := skipLine s.data s.token })

/-- The loop `for (;;)` of `loadMtl`. -/
def loadMtlLoop {F : Type} (atof : List Char → F) (one : F) (flags : Nat) :
    Nat → MtlState F → Outcome (MtlState F)
  | 0, _ => .timeout
  | fuel + 1, s =>
    match mtlStep atof one flags s with
    | .ok (.next s) => loadMtlLoop atof one flags fuel s
    | .ok .done => .ok s
    | .undefined => .undefined
    | .timeout => .timeout

/-- The function `loadMtl` of `objloader.c`: the value stored in `*numMaterials`
and the records returned.  `one` is the literal `1.f` and `fuel` bounds the
rounds of the loop. -/
def loadMtl {F : Type} (atof : List Char → F) (one : F) (fuel : Nat) (data : List Char)
    (flags : Nat) : Outcome (Nat × List (MtlMaterial F)) :=
  (loadMtlLoop atof one flags fuel
    { data := data, token := 0, materials := [], capacity := 2 }).map
    fun s => (s.materials.length, s.materials)

/-- A stand-in for `atof` that keeps the text of the number: the longest
prefix of the string made of the characters of `ATOF_CHARACTERS`. -/
def numberText (text : List Char) : List Char := text.takeWhile isAtofChar

end objloader

/-! ## Well-formed MTL text, line by line -/

namespace objloader

/-- The pieces of an MTL text: a character that `loadMtl` steps over at the
start of a line, or a line.  Every line ends with a newline. -/
inductive MtlLine where
  /-- One character that the loop steps over: a space, a newline, a tab or
  the letter `r`. -/
  | blank (c : Char)
  /-- The line `newmtl name` + blanks. -/
  | newmtl (name trail : List Char)
  /-- The line `K` + `a`, `d` or `s` + one character + `body`. -/
  | color (k sep : Char) (body : List Char)
  /-- The line `Tr` + `body`. -/
  | transparency (body : List Char)
  /-- The line `d` + one character + `body`. -/
  | dissolve (sep : Char) (body : List Char)
  /-- The line `ns` + one character + `body`. -/
  | shininess (sep : Char) (body : List Char)
  /-- The line `map_Kd path` + blanks. -/
  | texture (path trail : List Char)
  /-- A line on which no test of the loop succeeds. -/
  | other (text : List Char)
  deriving DecidableEq, Repr

/-- The text of a line. -/
def MtlLine.text : MtlLine → List Char
  | .blank c => [c]
  | .newmtl name trail => "newmtl ".toList ++ name ++ trail ++ ['\n']
  | .color k sep body => 'K' :: k :: sep :: body ++ ['\n']
  | .transparency body => 'T' :: 'r' :: body ++ ['\n']
  | .dissolve sep body => 'd' :: sep :: body ++ ['\n']
  | .shininess sep body => 'n' :: 's' :: sep :: body ++ ['\n']
  | .texture path trail => "map_Kd ".toList ++ path ++ trail ++ ['\n']
  | .other text => text ++ ['\n']

/-- The text of an MTL file. -/
def renderMtl : List MtlLine → List Char
  | [] => []
  | l :: ls => l.text ++ renderMtl ls

/-- The tests of the loop that look at the first two characters of a line. -/
def mtlKeyChars (c c1 : Char) : Bool :=
  (c == 'K' && (c1 == 'a' || c1 == 'd' || c1 == 's')) || (c == 'T' && c1 == 'r') ||
    c == 'd' || (c == 'n' && c1 == 's') ||
    c == ' ' || c == '\n' || c == '\t' || c == 'r' || c == '\x00'

/-- The conditions under which a piece is a line of the stated kind. -/
def MtlLine.WellFormed : MtlLine → Prop
  | .blank c => c = ' ' ∨ c = '\n' ∨ c = '\t' ∨ c = 'r'
  | .newmtl name trail =>
    (∀ c ∈ name, isTextChar c = true) ∧ ∀ c ∈ trail, isTrailChar c = true
  | .color k sep body =>
    (k = 'a' ∨ k = 'd' ∨ k = 's') ∧ isLineChar sep = true ∧ ∀ c ∈ body, isLineChar c = true
  | .transparency body => ∀ c ∈ body, isLineChar c = true
  | .dissolve sep body => isLineChar sep = true ∧ ∀ c ∈ body, isLineChar c = true
  | .shininess sep body => isLineChar sep = true ∧ ∀ c ∈ body, isLineChar c = true
  | .texture path trail =>
    (∀ c ∈ path, isTextChar c = true) ∧ ∀ c ∈ trail, isTrailChar c = true
  | .other text =>
    text ≠ [] ∧ (∀ c ∈ text, isLineChar c = true) ∧
    mtlKeyChars (text.headD '\n') (text.getD 1 '\n') = false ∧
    ¬ "newmtl".toList <+: text ∧ ¬ "map_Kd".toList <+: text

instance (l : MtlLine) : Decidable l.WellFormed := by
  cases l <;> unfold MtlLine.WellFormed <;> infer_instance

/-- The line opens a record. -/
def MtlLine.isNewmtl : MtlLine → Bool
  | .newmtl _ _ => true
  | _ => false

/-- The line starts with `Tr` or with the letter `d`: the loop stores the
opacity. -/
def MtlLine.setsOpacity : MtlLine → Bool
  | .transparency _ => true
  | .dissolve _ _ => true
  | _ => false

/-- The line starts with `map_Kd`: the loop stores the texture path. -/
def MtlLine.isTexture : MtlLine → Bool
  | .texture _ _ => true
  | _ => false

/-- The line makes the loop store through `current`. -/
def MtlLine.isField : MtlLine → Bool
  | .color _ _ _ => true
  | .transparency _ => true
  | .dissolve _ _ => true
  | .shininess _ _ => true
  | .texture _ _ => true
  | _ => false

/-- Every line that stores through `current` comes after a `newmtl` line;
`opened` tells whether a record is open before the first line. -/
def guarded : Bool → List MtlLine → Bool
  | _, [] => true
  | opened, l :: ls => (!l.isField || opened) && guarded (opened || l.isNewmtl) ls

/-- The `newmtl` lines of a file in order, each as its name and its block: the
lines up to the next `newmtl` line. -/
def blocks : List MtlLine → List (List Char × List MtlLine)
  | [] => []
  | .newmtl name _ :: ls => (name, ls.takeWhile fun l => !l.isNewmtl) :: blocks ls
  | .blank _ :: ls => blocks ls
  | .color _ _ _ :: ls => blocks ls
  | .transparency _ :: ls => blocks ls
  | .dissolve _ _ :: ls => blocks ls
  | .shininess _ _ :: ls => blocks ls
  | .texture _ _ :: ls => blocks ls
  | .other _ :: ls => blocks ls

/-- What the proof keeps of a record: its name, its texture path, and whether
no line has stored its opacity yet. -/
structure MtlSummary where
  name : List Char
  texture : Option (List Char)
  untouched : Bool
  deriving DecidableEq, Repr

/-- What a line that opens no record does to the summary of the current
record. -/
def MtlLine.touch : MtlLine → MtlSummary → MtlSummary
  | .transparency _, r => { r with untouched := false }
  | .dissolve _ _, r => { r with untouched := false }
  | .texture path _, r => { r with texture := some path }
  | _, r => r

/-- What a line does to the summaries of the records. -/
def MtlLine.apply (l : MtlLine) (rs : List MtlSummary) : List MtlSummary :=
  match l with
  | .newmtl name _ => rs ++ [{ name := name, texture := none, untouched := true }]
  | _ => updateLast l.touch rs

/-- What a file does to the summaries of the records. -/
def applyMtl (lines : List MtlLine) (rs : List MtlSummary) : List MtlSummary :=
  lines.foldl (fun rs l => l.apply rs) rs

/-- The record agrees with its summary. -/
def Agrees {F : Type} (one : F) (m : MtlMaterial F) (r : MtlSummary) : Prop :=
  m.name = r.name ∧ m.ambientTexture = r.texture ∧ (r.untouched = true → m.opacity = one)

/-- The lines that the blanks `ts` after a name and their newline make when
the loop reads them as a text of their own: under `OBJ_IN_SITU` the delimiter of
the name is overwritten and the cursor resumes behind it. -/
def trailLines : List Char → List MtlLine
  | [] => [.blank '\n']
  | c :: cs => if c == '\r' then [.other (c :: cs)] else .blank c :: trailLines cs

/-- The lines that the loop finds behind a name that the blanks `trail` and
a newline follow: none, except that under `OBJ_IN_SITU` the first blank is
overwritten and the others are read as a text of their own. -/
def trailResidue (flags : Nat) : List Char → List MtlLine
  | [] => []
  | _ :: ts => if hasFlag flags OBJ_IN_SITU then trailLines ts else []

/-- The lines that a line leaves for the next rounds of the loop. -/
def MtlLine.residue (flags : Nat) : MtlLine → List MtlLine
  | .newmtl _ trail => trailResidue flags trail
  | .texture _ trail => trailResidue flags trail
  | _ => []

/-- A number as `parseFloat` expects it: a text, not empty, of the characters
of `ATOF_CHARACTERS`. -/
def IsNumber (text : List Char) : Prop := text ≠ [] ∧ ∀ c ∈ text, isAtofChar c = true

instance (text : List Char) : Decidable (IsNumber text) := by
  unfold IsNumber; infer_instance

end objloader

namespace objloader

/-- The summary of a record after the lines of its block: the lines between
its `newmtl` line and the next one. -/
def summarize (name : List Char) (block : List MtlLine) : MtlSummary :=
  block.foldl (fun r l => l.touch r) { name := name, texture := none, untouched := true }

end objloader

/-! ## The flags field of the model -/

namespace objloader

/-- The model with another value in its field `flags`, all other fields kept. -/
def ObjModel.withFlags {F : Type} (m : ObjModel F) (flags : Nat) : ObjModel F :=
  { m with flags := flags }

/-- The loader state whose model has another value in its field `flags`. -/
def LoaderState.withFlags {F : Type} (s : LoaderState F) (flags : Nat) : LoaderState F :=
  { s with model := s.model.withFlags flags }

end objloader

/-! ## The stores of the face loop and the capacities -/

namespace objloader

/-- Whether the store `indices[indicesSize++] = ...` goes to a position below
`indicesCapacity`. -/
def indexStoreFits (g : ObjGroup) : Bool := decide (g.indicesSize < g.indicesCapacity)

/-- Whether the two stores of the block `if (triangulate && i >= 3)` go to
positions below `indicesCapacity`; the block is `fanCorners`. -/
def fanCornersFit (triangulate : Bool) (i : Nat) (g : ObjGroup) : Bool :=
  if triangulate && decide (i ≥ 3) then
    let first := g.indices.getD (g.indicesSize - i) default
    indexStoreFits g && indexStoreFits (pushIndex g first)
  else true

/-- Whether the store `indicesPerFace[numFaces++] = ...` of the block that
closes a face, `pushFace`, goes to a position below `indicesPerFaceCapacity`,
after that block has grown the array when it was full. -/
def pushFaceFits (g : ObjGroup) : Bool :=
  let g := if g.numFaces + 1 > g.indicesPerFaceCapacity
    then { g with indicesPerFaceCapacity := g.indicesPerFaceCapacity * 2 % 4294967296 }
    else g
  decide (g.numFaces < g.indicesPerFaceCapacity)

/-- The face loop `faceLoop` followed round by round, for as many rounds as
the fuel allows: whether each store into `indices` and into `indicesPerFace`
goes to a position below the capacity that the array has at that moment. -/
def faceLoopFits (data : List Char) (triangulate : Bool)
    (vertexCount uvCount normalCount : Nat) : Nat → Nat → ObjGroup → Nat → Bool
  | 0, _, _, _ => true
  | fuel + 1, i, g, token =>
    let g0 := growIndices g
    let r := fanCorners triangulate i g0
    let vi := parseTriplet data token vertexCount uvCount normalCount
    let fits := fanCornersFit triangulate i g0 && indexStoreFits r.1
    let g := pushIndex r.1 vi.1
    let i := r.2 + 1
    let token := skipSpace data vi.2
    fits &&
      if IS_NEW_LINE (peek data token) || (triangulate && i % 3 == 0) then
        pushFaceFits g &&
          if IS_NEW_LINE (peek data token) then true
          else faceLoopFits data triangulate vertexCount uvCount normalCount fuel i
            (pushFace triangulate i g) token
      else faceLoopFits data triangulate vertexCount uvCount normalCount fuel i g token

/-- One round of the main loop, `loadStep`: whether the stores of its face
loop stay below the capacities.  Only the `f` branch stores into the arrays of
a group. -/
def loadStepFits {F : Type} (fuel : Nat) (flags : Nat) (s : LoaderState F) : Bool :=
  let token := skipWhitespaceAndComments s.data s.token
  let c := peek s.data token
  if c == 'v' then true
  else if c == 'f' then
    faceLoopFits s.data (hasFlag flags OBJ_TRIANGULATE) s.model.vertexCount s.model.uvCount
      s.model.normalCount fuel 0 s.current (skipSpace s.data (token + 2))
  else true

/-- The main loop `loadLoop` followed round by round, for as many rounds as the
fuel allows: whether every store into the arrays of a group stays below the
capacity. -/
def loadLoopFits {F : Type} (atof : List Char → F) (flags : Nat) :
    Nat → LoaderState F → Bool
  | 0, _ => true
  | fuel + 1, s =>
    if peek s.data s.token == '\x00' then true
    else loadStepFits fuel flags s &&
      match loadStep atof fuel flags s with
      | .ok s => loadLoopFits atof flags fuel s
      | .undefined => true
      | .timeout => true

/-- The run of `objLoadModel`, followed for as long as the fuel allows: whether
every store into `indices` and `indicesPerFace` of a group stays below the
capacity of the array. -/
def objLoadModelFits {F : Type} (atof : List Char → F) (fuel : Nat) (data : List Char)
    (flags : Nat) : Bool :=
  loadLoopFits atof flags fuel (initState data flags)

end objloader

/-! ## `createGroup` and `objLoadModel` when allocation may fail -/

namespace objloader.fallible

/-- The value of a pointer that an allocating function returns: null, a
pointer to a live object, or a pointer to a block that has since been passed
to `free`. -/
inductive Pointer (α : Type) where
  | null
  | live (a : α)
  | freed
  deriving DecidableEq, Repr

/-- An access to the heap that C leaves undefined. -/
inductive MemoryFault where
  | useAfterFree
  | doubleFree
  deriving DecidableEq, Repr

/-- The function `malloc`, and `calloc`, when allocation may fail.  The list
gives the results of the coming allocations, in order, `false` for a null
result; once it is used up every allocation succeeds.  Returns whether this
allocation succeeds and the results left for the later ones. -/
def malloc : List Bool → Bool × List Bool
  | [] => (true, [])
  | b :: rest => (b, rest)

/-- The result of `createGroup`: the pointer it returns, the undefined
accesses on its way, and the allocation results that it has not used. -/
structure Created where
  group : Pointer ObjGroup
  faults : List MemoryFault
  rest : List Bool
  deriving DecidableEq, Repr

/-- The function `createGroup` when allocation may fail.  Only the failure of
the first `malloc` is followed by `return 0`.  When the `malloc` for `indices`
fails, `free(group)` is followed by the third `malloc`, whose result and
capacity are stored through `group`; when the third `malloc` fails,
`group->indices` is read and freed and `group` is freed, for the second time
if the second `malloc` had failed as well.  All these paths end in
`return group`. -/
def createGroup (name : Option (List Char)) (allocs : List Bool) : Created :=
  let group := malloc allocs
  if !group.1 then { group := .null, faults := [], rest := group.2 }
  else
    let indices := malloc group.2
    let freed := !indices.1
    let indicesPerFace := malloc indices.2
    let stores : List MemoryFault := if freed then [.useAfterFree] else []
    if !indicesPerFace.1 then
      { group := .freed,
        faults := stores ++ (if freed then [.useAfterFree, .doubleFree] else []),
        rest := indicesPerFace.2 }
    else
      { group := if freed then .freed else .live (objloader.createGroup name),
        faults := stores, rest := indicesPerFace.2 }

/-- What `objLoadModel` returns when it does not return null: the model, and
whether `firstGroup` points to a group that `createGroup` has freed.  In that
case the chain `groups` is empty: nothing is known of what the freed block
holds. -/
structure Returned (F : Type) where
  model : ObjModel F
  firstGroupFreed : Bool
  deriving DecidableEq, Repr

/-- Whether the round of the main loop at the cursor dereferences
`currentGroup`: the `f`, `g` and `usemtl` branches do, the `v` and `mtllib`
branches and the lines of other kinds do not. -/
def usesGroup (data : List Char) (token : Nat) : Bool :=
  let token := skipWhitespaceAndComments data token
  let c := peek data token
  if c == 'v' then false
  else if c == 'f' then true
  else if c == 'g' then true
  else startsWith "usemtl".toList data token

/-- The main loop of `objLoadModel` when `currentGroup` points to a freed
group: a round that dereferences the pointer is undefined, the other rounds
are those of `loadLoop`. -/
def loadLoopFreed {F : Type} (atof : List Char → F) (flags : Nat) :
    Nat → LoaderState F → Outcome (LoaderState F)
  | 0, _ => .timeout
  | fuel + 1, s =>
    if peek s.data s.token == '\x00' then .ok s
    else if usesGroup s.data s.token then .undefined
    else match loadStep atof fuel flags s with
      | .ok s => loadLoopFreed atof flags fuel s
      | .undefined => .undefined
      | .timeout => .timeout

/-- The function `objLoadModel` when the allocations before its main loop may
fail: `calloc` for the model, `malloc` for `vertices`, `texcoords` and
`normals`, and the three of `createGroup`; the allocations inside the loop
succeed.  `none` is the null pointer, returned at once when `calloc` fails and
through the label `error` otherwise.  The test `!(currentGroup =
createGroup(0))` sees a freed group as non-null. -/
def objLoadModel {F : Type} (atof : List Char → F) (fuel : Nat) (data : List Char)
    (flags : Nat) (allocs : List Bool) : Outcome (Option (Returned F)) :=
  let model := malloc allocs
  if !model.1 then .ok none
  else
    let vertices := malloc model.2
    if !vertices.1 then .ok none
    else
      let texcoords := malloc vertices.2
      if !texcoords.1 then .ok none
      else
        let normals := malloc texcoords.2
        if !normals.1 then .ok none
        else
          match (createGroup none normals.2).group with
          | .null => .ok none
          | .live g =>
            (loadLoop atof flags fuel ((initState data flags).setCurrent g)).map
              fun s => some { model := s.model, firstGroupFreed := false }
          | .freed =>
            let s := initState data flags
            (loadLoopFreed atof flags fuel
                { s with model := { s.model with groups := [] } }).map
              fun s => some { model := s.model, firstGroupFreed := true }

end objloader.fallible


/-! ## The runs that C defines -/

namespace objloader.strict

/-- The scan of the `usemtl` branch with its locals as the source declares
them: `lastGroupName` and `lastMaterial` have no value, `none`, until a group
with a name, or with a material, has set them, and a test that reads one of
them before that is undefined.  The tests are those of the source, in its
order: `!currentGroupName || (lastGroupName && strcmp(..) == 0)`, then
`lastMaterial && strcmp(..) == 0`. -/
def findGroup (currentGroupName : Option (List Char)) (material : List Char) :
    List ObjGroup → Option (List Char) → Option (List Char) → Nat → Outcome (Option Nat)
  | [], _, _, _ => .ok none
  | g :: gs, lastGroupName, lastMaterial, k =>
    let lastGroupName := if g.name.isSome then g.name else lastGroupName
    let lastMaterial := if g.material.isSome then g.material else lastMaterial
    if currentGroupName.isSome && lastGroupName.isNone then .undefined
    else if currentGroupName.isNone || lastGroupName == currentGroupName then
      if lastMaterial.isNone then .undefined
      else if lastMaterial == some material then .ok (some k)
      else findGroup currentGroupName material gs lastGroupName lastMaterial (k + 1)
    else findGroup currentGroupName material gs lastGroupName lastMaterial (k + 1)

/-- Whether the scan of the `usemtl` branch reads only locals that have a
value. -/
def scanDefined (currentGroupName : Option (List Char)) (material : List Char)
    (groups : List ObjGroup) : Bool :=
  match findGroup currentGroupName material groups none none 0 with
  | .undefined => false
  | _ => true

/-- Whether the stores of the `v` branch into one array go to positions below
its capacity, which the branch has doubled if
`*size + (hasZ ? 3 : 2) >= *capacity`. -/
def floatsFit (hasZ : Bool) (size capacity : Nat) : Bool :=
  decide (size + (if hasZ then 3 else 2) ≤
    if size + (if hasZ then 3 else 2) ≥ capacity then capacity * 2 % 4294967296 else capacity)

/-- Whether the stores of the `v` branch go to positions below the capacity
of the array that the second character of the line selects.  On a line such
as `vp`, which selects none, `vertexBranch` is `Outcome.undefined`. -/
def vertexBranchFits {F : Type} (s : LoaderState F) (token : Nat) : Bool :=
  let c1 := peekAt s.data token 1
  if IS_SPACE c1 then floatsFit true s.model.vertexCount s.verticesCapacity
  else if c1 == 't' then floatsFit false s.model.uvCount s.uvsCapacity
  else if c1 == 'n' then floatsFit true s.model.normalCount s.normalsCapacity
  else true

/-- Whether the round of the main loop that starts in `s` keeps to what C
defines, where `loadStep` goes on in one way or another:

* every store of the `v` branch goes to a position below the capacity of its
  array (`vertexBranchFits`);
* `token += 2` after `f` or `g`, and `token += 7` after `usemtl` or `mtllib`,
  stay within the buffer, whose terminator is at `data.length`;
* every store of the face loop goes to a position below the capacity of its
  array (`faceLoopFits`);
* `free(currentGroup->name)` of the `g` branch frees no name that points into
  the buffer, as every name does under `OBJ_IN_SITU`;
* the scan of the `usemtl` branch reads no local that has no value;
* the `mtllib` branch, whose store goes one element past the end of the array
  that `realloc` has just returned, is never defined. -/
def roundDefined {F : Type} (fuel : Nat) (flags : Nat) (s : LoaderState F) : Bool :=
  let token := skipWhitespaceAndComments s.data s.token
  let c := peek s.data token
  if c == 'v' then vertexBranchFits s token
  else if c == 'f' then
    decide (token + 2 ≤ s.data.length) &&
      faceLoopFits s.data (hasFlag flags OBJ_TRIANGULATE) s.model.vertexCount
        s.model.uvCount s.model.normalCount fuel 0 s.current (skipSpace s.data (token + 2))
  else if c == 'g' then
    decide (token + 2 ≤ s.data.length) &&
      !(hasFlag flags OBJ_IN_SITU && s.current.numFaces == 0 && s.current.name.isSome)
  else if startsWith "usemtl".toList s.data token then
    decide (token + 7 ≤ s.data.length) &&
      scanDefined s.currentGroupName (parseText s.data (token + 7) flags).1 s.model.groups
  else if startsWith "mtllib".toList s.data token then false
  else true

/-- The main loop of `objLoadModel`, ended as `Outcome.undefined` where C
leaves the run undefined: when the loop test `'\0' != *token` reads past the
terminator, which is where `token += strcspn(token, "\n") + 1` leaves the
cursor after a line that the terminator ends, and when the round is not
`roundDefined`.  Every other round is that of `loadStep`. -/
def loadLoop {F : Type} (atof : List Char → F) (flags : Nat) :
    Nat → LoaderState F → Outcome (LoaderState F)
  | 0, _ => .timeout
  | fuel + 1, s =>
    if s.data.length < s.token then .undefined
    else if peek s.data s.token == '\x00' then .ok s
    else if roundDefined fuel flags s then
      match loadStep atof fuel flags s with
      | .ok s => loadLoop atof flags fuel s
      | .undefined => .undefined
      | .timeout => .timeout
    else .undefined

/-- The function `objLoadModel`, with the runs that C leaves undefined ended
as `Outcome.undefined`. -/
def objLoadModel {F : Type} (atof : List Char → F) (fuel : Nat) (data : List Char)
    (flags : Nat) : Outcome (ObjModel F) :=
  match loadLoop atof flags fuel (initState data flags) with
  | .ok s => .ok s.model
  | .undefined => .undefined
  | .timeout => .timeout

end objloader.strict

namespace objloader

/-- The state of the chain before any `usemtl` line has been read: no group
carries a material, the current group is a node of the chain, and
`currentGroupName`, once set, is the name of a node of the chain. -/
def Core.Plain (k : Core) : Prop :=
  (∀ g ∈ k.groups, g.material = none) ∧ k.currentGroup < k.groups.length ∧
    ∀ n, k.currentGroupName = some n → ∃ g ∈ k.groups, g.name = some n

/-- The item is a `usemtl` line. -/
def Item.isUsemtl : Item → Bool
  | .usemtl _ _ => true
  | _ => false

end objloader

namespace objloader

/-- A group with `k` free slots in `indices`, whose capacity has grown at least
once, and with `indicesPerFace` within its capacity. -/
def ObjGroup.Room (k : Nat) (g : ObjGroup) : Prop :=
  g.indicesSize + k ≤ g.indicesCapacity ∧ 4 ≤ g.indicesCapacity ∧
    g.numFaces ≤ g.indicesPerFaceCapacity ∧ 1 ≤ g.indicesPerFaceCapacity

/-- The state of a group between two rounds of the face loop: either it is as
`createGroup` made it, or its capacity has grown and holds the triplets; the
corner counts are within their capacity. -/
def ObjGroup.Roomy (g : ObjGroup) : Prop :=
  ((g.indicesSize = 0 ∧ g.indicesCapacity = 2) ∨ g.Room 0) ∧
    g.numFaces ≤ g.indicesPerFaceCapacity ∧ 1 ≤ g.indicesPerFaceCapacity

/-- The item is a line: neither a blank nor a comment. -/
def Item.isLine : Item → Bool
  | .blank _ => false
  | .comment _ => false
  | _ => true

/-- The lines whose round of the main loop C defines whatever the state: all
but the `usemtl` and `mtllib` lines and, under `OBJ_IN_SITU`, the `g` lines. -/
def Item.isSafe (flags : Nat) : Item → Bool
  | .usemtl _ _ => false
  | .mtllib _ _ => false
  | .group _ _ => !hasFlag flags OBJ_IN_SITU
  | _ => true

/-- The text ends with a line: its last piece is neither a blank nor a
comment. -/
def endsWithLine : List Item → Bool
  | [] => true
  | [it] => it.isLine
  | _ :: it :: items => endsWithLine (it :: items)

end objloader

namespace objloader

/-- What the rounds of a run without `usemtl` lines keep: the current group
is a node of the chain, is `Roomy`, and has room below `2 ^ 31` for the
triplets and faces of `n` more characters of text. -/
def Core.Within (n : Nat) (k : Core) : Prop :=
  k.currentGroup < k.groups.length ∧ k.current.Roomy ∧
    k.current.indicesSize + 3 * n ≤ 2147483646 ∧ k.current.numFaces + n ≤ 2147483647

end objloader

namespace objloader

/-- What the rounds of a run keep of the three arrays of floats: each count is
within its capacity, which holds the floats of one line, and has room below
`2 ^ 31` for the floats of `n` more characters of text. -/
def LoaderState.FloatsWithin {F : Type} (n : Nat) (s : LoaderState F) : Prop :=
  (s.model.vertexCount ≤ s.verticesCapacity ∧ 3 ≤ s.verticesCapacity ∧
    s.model.vertexCount + n ≤ 2147483647) ∧
  (s.model.uvCount ≤ s.uvsCapacity ∧ 2 ≤ s.uvsCapacity ∧
    s.model.uvCount + n ≤ 2147483647) ∧
  (s.model.normalCount ≤ s.normalsCapacity ∧ 3 ≤ s.normalsCapacity ∧
    s.model.normalCount + n ≤ 2147483647)

end objloader
/-! # Theorems -/

/-! ## Outcomes -/

theorem Outcome.holds_iff {α : Type} (o : Outcome α) (P : α → Prop) :
    o.Holds P ↔ ∃ a, o = .ok a ∧ P a := by
  cases o <;> simp [Outcome.Holds]

theorem Outcome.holds_ok {α : Type} (a : α) (P : α → Prop) :
    (Outcome.ok a).Holds P ↔ P a := Iff.rfl

theorem Outcome.Holds.imp {α : Type} {o : Outcome α} {P Q : α → Prop} (h : o.Holds P)
    (hPQ : ∀ a, P a → Q a) : o.Holds Q := by
  cases o with
  | ok a => exact hPQ a h
  | undefined => exact h
  | timeout => exact h

/-! ## The cursor primitives on a known text -/

theorem drop_add_of_drop {data : List Char} {token : Nat} {xs rest : List Char}
    (h : data.drop token = xs ++ rest) : data.drop (token + xs.length) = rest := by
  rw [← List.drop_drop, h, List.drop_left]

theorem peek_eq (data : List Char) (token : Nat) :
    peek data token = (data.drop token).headD '\x00' := by
  simp [peek, peekAt]

theorem peek_of_drop {data : List Char} {token : Nat} {c : Char} {rest : List Char}
    (h : data.drop token = c :: rest) : peek data token = c := by
  simp [peek_eq, h]

theorem drop_succ_of_drop {data : List Char} {token : Nat} {c : Char} {rest : List Char}
    (h : data.drop token = c :: rest) : data.drop (token + 1) = rest := by
  rw [← List.drop_drop, h]
  rfl

theorem peekAt_one_of_drop {data : List Char} {token : Nat} {c d : Char} {rest : List Char}
    (h : data.drop token = c :: d :: rest) : peekAt data token 1 = d := by
  simp [peekAt, drop_succ_of_drop h]

theorem Stops.nil (p : Char → Bool) : Stops p [] := by
  intro c hc; simp at hc

theorem Stops.cons {p : Char → Bool} {c : Char} {rest : List Char} (h : p c = false) :
    Stops p (c :: rest) := by
  intro d hd
  simp at hd
  subst hd
  exact h

theorem Stops.head {p : Char → Bool} {c : Char} {rest : List Char} (h : Stops p (c :: rest)) :
    p c = false := h c (by simp)

theorem takeWhile_stops {p : Char → Bool} {rest : List Char} (h : Stops p rest) :
    rest.takeWhile p = [] := by
  cases rest with
  | nil => rfl
  | cons c cs => simp [List.takeWhile_cons, h.head]

theorem takeWhile_span {p : Char → Bool} {xs rest : List Char}
    (hxs : ∀ c ∈ xs, p c = true) (hrest : Stops p rest) :
    (xs ++ rest).takeWhile p = xs := by
  rw [List.takeWhile_append_of_pos hxs, takeWhile_stops hrest, List.append_nil]

theorem skipSpace_of_drop {data : List Char} {token : Nat} {ws rest : List Char}
    (h : data.drop token = ws ++ rest) (hws : ∀ c ∈ ws, IS_SPACE c = true)
    (hrest : Stops IS_SPACE rest) : skipSpace data token = token + ws.length := by
  simp [skipSpace, h, takeWhile_span hws hrest]

theorem skipWhitespace_none {data : List Char} {token : Nat} {c : Char} {rest : List Char}
    (h : data.drop token = c :: rest) (hc : isWhitespace c = false) :
    skipWhitespace data token = token := by
  simp [skipWhitespace, h, List.takeWhile_cons, hc]

theorem skipWhitespace_of_drop {data : List Char} {token : Nat} {ws rest : List Char}
    (h : data.drop token = ws ++ rest) (hws : ∀ c ∈ ws, isWhitespace c = true)
    (hrest : Stops isWhitespace rest) : skipWhitespace data token = token + ws.length := by
  simp [skipWhitespace, h, takeWhile_span hws hrest]

/-! ## Decimal digits -/

theorem digitChar_isDigit (k : Nat) (hk : k < 10) : isDigit (Nat.digitChar k) = true := by
  interval_cases k <;> decide

theorem digitChar_toNat (k : Nat) (hk : k < 10) : (Nat.digitChar k).toNat - 48 = k := by
  interval_cases k <;> decide

theorem digitChar_ne_sign (k : Nat) (hk : k < 10) :
    Nat.digitChar k ≠ '-' ∧ Nat.digitChar k ≠ '+' ∧ Nat.digitChar k ≠ '/' := by
  interval_cases k <;> decide

theorem toDigitsCore_append (fuel n : Nat) (ds : List Char) :
    Nat.toDigitsCore 10 fuel n ds = Nat.toDigitsCore 10 fuel n [] ++ ds := by
  induction fuel generalizing n ds with
  | zero => simp [Nat.toDigitsCore]
  | succ fuel ih =>
    simp only [Nat.toDigitsCore]
    split
    · simp
    · rw [ih (n / 10) (Nat.digitChar (n % 10) :: ds), ih (n / 10) [Nat.digitChar (n % 10)]]
      simp

theorem toDigitsCore_step (fuel n : Nat) (h : n / 10 ≠ 0) :
    Nat.toDigitsCore 10 (fuel + 1) n [] =
      Nat.toDigitsCore 10 fuel (n / 10) [] ++ [Nat.digitChar (n % 10)] := by
  simp only [Nat.toDigitsCore, if_neg h]
  rw [toDigitsCore_append]

theorem plainValue_append_single (ds : List Char) (c : Char) :
    plainValue (ds ++ [c]) = plainValue ds * 10 + (c.toNat - 48) := by
  simp [plainValue, List.foldl_append]

theorem digitsValue_append_single (ds : List Char) (c : Char) :
    digitsValue (ds ++ [c]) = (digitsValue ds * 10 + (c.toNat - 48)) % 4294967296 := by
  simp [digitsValue, List.foldl_append]

theorem digitsValue_eq_plainValue_mod (ds : List Char) :
    digitsValue ds = plainValue ds % 4294967296 := by
  induction ds using List.reverseRecOn with
  | nil => rfl
  | append_singleton ds c ih =>
    rw [digitsValue_append_single, plainValue_append_single, ih]
    omega

theorem toDigitsCore_spec (fuel n : Nat) (h : n < fuel) :
    plainValue (Nat.toDigitsCore 10 fuel n []) = n ∧
    (∀ c ∈ Nat.toDigitsCore 10 fuel n [], isDigit c = true) ∧
    Nat.toDigitsCore 10 fuel n [] ≠ [] := by
  induction fuel generalizing n with
  | zero => omega
  | succ fuel ih =>
    by_cases h0 : n / 10 = 0
    · have hn : n < 10 := by omega
      have hm : n % 10 = n := Nat.mod_eq_of_lt hn
      simp only [Nat.toDigitsCore, if_pos h0, hm]
      refine ⟨?_, ?_, by simp⟩
      · simp [plainValue, digitChar_toNat n hn]
      · intro c hc
        simp at hc
        subst hc
        exact digitChar_isDigit n hn
    · rw [toDigitsCore_step fuel n h0]
      obtain ⟨h1, h2, _⟩ := ih (n / 10) (by omega)
      refine ⟨?_, ?_, by simp⟩
      · rw [plainValue_append_single, h1, digitChar_toNat _ (Nat.mod_lt _ (by decide))]
        omega
      · intro c hc
        rw [List.mem_append] at hc
        rcases hc with hc | hc
        · exact h2 c hc
        · simp at hc
          subst hc
          exact digitChar_isDigit _ (Nat.mod_lt _ (by decide))

theorem toDigits_isDigit (n : Nat) : ∀ c ∈ Nat.toDigits 10 n, isDigit c = true :=
  (toDigitsCore_spec (n + 1) n (by omega)).2.1

theorem toDigits_ne_nil (n : Nat) : Nat.toDigits 10 n ≠ [] :=
  (toDigitsCore_spec (n + 1) n (by omega)).2.2

theorem digitsValue_toDigits (n : Nat) (h : n < 4294967296) :
    digitsValue (Nat.toDigits 10 n) = n := by
  rw [digitsValue_eq_plainValue_mod]
  have := (toDigitsCore_spec (n + 1) n (by omega)).1
  unfold Nat.toDigits
  rw [this]
  exact Nat.mod_eq_of_lt h

theorem isDigit_ne_sign {c : Char} (h : isDigit c = true) : c ≠ '-' ∧ c ≠ '+' ∧ c ≠ '/' := by
  refine ⟨?_, ?_, ?_⟩ <;> (rintro rfl; revert h; decide)

/-! ## `parseInt` and `parseTriplet` on the text of a corner -/

theorem parseInt_intText {data : List Char} {token : Nat} {z : Int} {rest : List Char}
    (h : data.drop token = intText z ++ rest) (hz : InIntRange z) (hrest : Stops isDigit rest) :
    parseInt data token = (z, token + (intText z).length) := by
  obtain ⟨hlo, hhi⟩ := hz
  have hnat : z.natAbs < 4294967296 := by omega
  have hval := digitsValue_toDigits z.natAbs hnat
  have hdig := toDigits_isDigit z.natAbs
  obtain ⟨d, ds, hds⟩ := List.exists_cons_of_ne_nil (toDigits_ne_nil z.natAbs)
  have hd : isDigit d = true := hdig d (by simp [hds])
  obtain ⟨hd1, hd2, -⟩ := isDigit_ne_sign hd
  by_cases hneg : z < 0
  · have htxt : intText z = '-' :: Nat.toDigits 10 z.natAbs := by simp [intText, hneg]
    rw [htxt] at h ⊢
    have hpeek : peek data token = '-' := peek_of_drop (by simpa using h)
    have h1 : data.drop (token + 1) = Nat.toDigits 10 z.natAbs ++ rest :=
      drop_succ_of_drop (by simpa using h)
    simp only [parseInt, hpeek, beq_self_eq_true, Bool.true_or, if_true, h1,
      takeWhile_span hdig hrest, hval, List.length_cons, Prod.mk.injEq]
    refine ⟨?_, by omega⟩
    unfold toInt32 toUInt32
    omega
  · have htxt : intText z = Nat.toDigits 10 z.natAbs := by simp [intText, hneg]
    rw [htxt] at h ⊢
    have hpeek : peek data token = d := peek_of_drop (by rw [h, hds]; rfl)
    have e1 : (d == '-') = false := by simpa using hd1
    have e2 : (d == '+') = false := by simpa using hd2
    simp only [parseInt, hpeek, e1, e2, Bool.or_self, Bool.false_eq_true, if_false, h,
      takeWhile_span hdig hrest, hval, Prod.mk.injEq, and_true]
    unfold toInt32 toUInt32
    omega

theorem parseIndex_intText {data : List Char} {token : Nat} {z : Int} {rest : List Char}
    (count : Nat) (h : data.drop token = intText z ++ rest) (hz : InIntRange z)
    (hrest : Stops isDigit rest) :
    parseIndex data token count = (resolveIndex z count, token + (intText z).length) := by
  simp [parseIndex, parseInt_intText h hz hrest, resolveIndex]

theorem intText_head (z : Int) :
    ∃ d ds, intText z = d :: ds ∧ (isDigit d = true ∨ d = '-') := by
  obtain ⟨d, ds, hds⟩ := List.exists_cons_of_ne_nil (toDigits_ne_nil z.natAbs)
  have hd : isDigit d = true := toDigits_isDigit z.natAbs d (by simp [hds])
  by_cases hneg : z < 0
  · exact ⟨'-', Nat.toDigits 10 z.natAbs, by simp [intText, hneg], Or.inr rfl⟩
  · exact ⟨d, ds, by simp [intText, hneg, hds], Or.inl hd⟩

theorem intText_head_ne_slash {d : Char}
    (h : isDigit d = true ∨ d = '-') : d ≠ '/' := by
  rcases h with h | h
  · exact (isDigit_ne_sign h).2.2
  · subst h; decide

theorem Stops.of_cornerChar {rest : List Char} (h : Stops isCornerChar rest) :
    Stops isDigit rest ∧ Stops (fun c => c == '/') rest := by
  constructor
  · intro c hc
    have := h c hc
    simp [isCornerChar] at this
    simp [this.1]
  · intro c hc
    have := h c hc
    simp [isCornerChar] at this
    simpa using this.2

theorem peek_ne_slash_of_stops {data : List Char} {token : Nat} {rest : List Char}
    (h : data.drop token = rest) (hrest : Stops (fun c => c == '/') rest) :
    (peek data token == '/') = false := by
  rw [peek_eq, h]
  cases rest with
  | nil => decide
  | cons c cs => simpa using hrest.head

theorem objparser_parseTriplet_eq :
    objparser.parseTriplet = objloader.parseTriplet := rfl

theorem parseTriplet_text {data : List Char} {token : Nat} {c : Corner} {rest : List Char}
    (vc tc nc : Nat) (h : data.drop token = c.text ++ rest) (hc : c.InRange)
    (hrest : Stops isCornerChar rest) :
    objloader.parseTriplet data token vc tc nc =
      (c.resolve vc tc nc, token + c.text.length) := by
  obtain ⟨hv, ht, hn⟩ := hc
  obtain ⟨hrd, hrs⟩ := hrest.of_cornerChar
  have hslash : Stops isDigit ('/' :: ([] : List Char)) := Stops.cons (by decide)
  rcases c with ⟨v, t, n⟩
  cases t with
  | none =>
    cases n with
    | none =>
      simp only [Corner.text, List.append_nil] at h ⊢
      have h1 := parseIndex_intText vc h hv hrd
      have h2 := peek_ne_slash_of_stops (drop_add_of_drop h) hrs
      simp [objloader.parseTriplet, h1, h2, Corner.resolve]
    | some n =>
      have hn' : InIntRange n := hn n rfl
      simp only [Corner.text] at h ⊢
      rw [List.append_assoc] at h
      have h1 := parseIndex_intText vc h hv (Stops.cons (by decide))
      have ha := drop_add_of_drop h
      have p1 : peek data (token + (intText v).length) = '/' := peek_of_drop ha
      have hb : data.drop (token + (intText v).length + 1) = '/' :: (intText n ++ rest) :=
        drop_succ_of_drop (by simpa using ha)
      have p2 : peek data (token + (intText v).length + 1) = '/' := peek_of_drop hb
      have hd : data.drop (token + (intText v).length + 1 + 1) = intText n ++ rest :=
        drop_succ_of_drop (by simpa using hb)
      have h3 := parseIndex_intText nc hd hn' hrd
      simp [objloader.parseTriplet, h1, p1, p2, h3, Corner.resolve]
      omega
  | some t =>
    have ht' : InIntRange t := ht t rfl
    obtain ⟨d, ds, hds, hd0⟩ := intText_head t
    have hdne : d ≠ '/' := intText_head_ne_slash hd0
    cases n with
    | none =>
      simp only [Corner.text] at h ⊢
      rw [List.append_assoc] at h
      have h1 := parseIndex_intText vc h hv (Stops.cons (by decide))
      have ha := drop_add_of_drop h
      have p1 : peek data (token + (intText v).length) = '/' := peek_of_drop ha
      have hb : data.drop (token + (intText v).length + 1) = intText t ++ rest :=
        drop_succ_of_drop (by simpa using ha)
      have p2 : peek data (token + (intText v).length + 1) = d :=
        peek_of_drop (by rw [hb, hds]; rfl)
      have e2 : (d == '/') = false := by simpa using hdne
      have h2 := parseIndex_intText tc hb ht' hrd
      have p3 := peek_ne_slash_of_stops (drop_add_of_drop hb) hrs
      simp [objloader.parseTriplet, h1, p1, p2, e2, hdne, h2, p3, Corner.resolve]
      omega
    | some n =>
      have hn' : InIntRange n := hn n rfl
      simp only [Corner.text] at h ⊢
      rw [List.append_assoc] at h
      have h1 := parseIndex_intText vc h hv (Stops.cons (by decide))
      have ha := drop_add_of_drop h
      have p1 : peek data (token + (intText v).length) = '/' := peek_of_drop ha
      have hb : data.drop (token + (intText v).length + 1) =
          intText t ++ ('/' :: (intText n ++ rest)) :=
        drop_succ_of_drop (by simpa using ha)
      have p2 : peek data (token + (intText v).length + 1) = d :=
        peek_of_drop (by rw [hb, hds]; rfl)
      have e2 : (d == '/') = false := by simpa using hdne
      have h2 := parseIndex_intText tc hb ht' (Stops.cons (by decide))
      have hc := drop_add_of_drop hb
      have p3 : peek data (token + (intText v).length + 1 + (intText t).length) = '/' :=
        peek_of_drop hc
      have hd : data.drop (token + (intText v).length + 1 + (intText t).length + 1) =
          intText n ++ rest :=
        drop_succ_of_drop (by simpa using hc)
      have h3 := parseIndex_intText nc hd hn' hrd
      simp [objloader.parseTriplet, h1, p1, p2, e2, hdne, h2, p3, h3, Corner.resolve]
      omega

theorem resolveIndex_pos (z : Int) (count : Nat) (hz : InIntRange z) (hpos : 0 < z) :
    resolveIndex z count = z - 1 := by
  obtain ⟨hlo, hhi⟩ := hz
  unfold resolveIndex toInt32 fixIndex toUInt32
  have h1 : (z % 4294967296).toNat > 0 := by omega
  rw [if_pos h1]
  omega

theorem resolveIndex_neg (z : Int) (count : Nat) (hz : InIntRange z) (hneg : z < 0) :
    resolveIndex z count = z - 1 := by
  obtain ⟨hlo, hhi⟩ := hz
  unfold resolveIndex toInt32 fixIndex toUInt32
  have h1 : (z % 4294967296).toNat > 0 := by omega
  rw [if_pos h1]
  omega

/-! ## The face loop on the text of a face line -/

theorem Corner.text_starts (c : Corner) :
    ∃ d ds, c.text = d :: ds ∧ (isDigit d = true ∨ d = '-') := by
  obtain ⟨d, ds, hds, hd⟩ := intText_head c.v
  exact ⟨d, ds ++ (c.text.drop (intText c.v).length), by simp [Corner.text, hds], hd⟩

theorem IS_SPACE_iff (c : Char) : IS_SPACE c = true ↔ c = ' ' ∨ c = '\t' := by
  simp [IS_SPACE]

theorem IS_NEW_LINE_iff (c : Char) : IS_NEW_LINE c = true ↔ c = '\r' ∨ c = '\n' := by
  simp [IS_NEW_LINE]

theorem isWhitespace_iff (c : Char) :
    isWhitespace c = true ↔ c = ' ' ∨ c = '\n' ∨ c = '\r' ∨ c = '\t' := by
  simp [isWhitespace, or_assoc]

theorem not_space_of_head {d : Char} (h : isDigit d = true ∨ d = '-') :
    IS_SPACE d = false ∧ IS_NEW_LINE d = false := by
  rcases h with h | h
  · constructor
    · by_contra hc
      rw [Bool.not_eq_false, IS_SPACE_iff] at hc
      rcases hc with rfl | rfl <;> revert h <;> decide
    · by_contra hc
      rw [Bool.not_eq_false, IS_NEW_LINE_iff] at hc
      rcases hc with rfl | rfl <;> revert h <;> decide
  · subst h; constructor <;> decide

namespace objloader

theorem faceBody_cons (p : Corner × List Char) (cs : List (Corner × List Char)) :
    faceBody (p :: cs) = p.1.text ++ p.2 ++ faceBody cs := rfl

theorem faceBody_nil : faceBody [] = [] := rfl

theorem faceBody_head (p : Corner × List Char) (cs : List (Corner × List Char)) :
    ∃ d ds, faceBody (p :: cs) = d :: ds ∧ (isDigit d = true ∨ d = '-') := by
  obtain ⟨d, ds, hds, hd⟩ := p.1.text_starts
  exact ⟨d, ds ++ p.2 ++ faceBody cs, by simp [faceBody_cons, hds], hd⟩

theorem faceSteps_single (tri : Bool) (c : ObjVertexIndex) (i : Nat) (g : ObjGroup) :
    faceSteps tri [c] i g =
      pushFace tri ((fanCorners tri i (growIndices g)).2 + 1)
        (pushIndex (fanCorners tri i (growIndices g)).1 c) := by
  simp [faceSteps]

theorem faceSteps_cons_cons (tri : Bool) (c d : ObjVertexIndex) (cs : List ObjVertexIndex)
    (i : Nat) (g : ObjGroup) :
    faceSteps tri (c :: d :: cs) i g =
      if (tri && ((fanCorners tri i (growIndices g)).2 + 1) % 3 == 0) = true then
        faceSteps tri (d :: cs) ((fanCorners tri i (growIndices g)).2 + 1)
          (pushFace tri ((fanCorners tri i (growIndices g)).2 + 1)
            (pushIndex (fanCorners tri i (growIndices g)).1 c))
      else
        faceSteps tri (d :: cs) ((fanCorners tri i (growIndices g)).2 + 1)
          (pushIndex (fanCorners tri i (growIndices g)).1 c) := by
  rw [faceSteps]
  simp

theorem faceLoop_text (data : List Char) (tri : Bool) (vc tc nc : Nat) (eol : List Char)
    (heol : ∃ e es, eol = e :: es ∧ IS_NEW_LINE e = true) :
    ∀ (cs : List (Corner × List Char)) (fuel i : Nat) (g : ObjGroup) (token : Nat),
      cs ≠ [] → GapsOk cs → (∀ p ∈ cs, p.1.InRange) →
      data.drop token = faceBody cs ++ eol → cs.length ≤ fuel →
      faceLoop data tri vc tc nc fuel i g token =
        .ok (faceSteps tri (cs.map (fun p => p.1.resolve vc tc nc)) i g,
          token + (faceBody cs).length) := by
  obtain ⟨e, es, rfl, he⟩ := heol
  have he_sp : IS_SPACE e = false := by
    rcases (IS_NEW_LINE_iff e).1 he with rfl | rfl <;> decide
  have he_cc : isCornerChar e = false := by
    rcases (IS_NEW_LINE_iff e).1 he with rfl | rfl <;> decide
  intro cs
  induction cs with
  | nil => intro _ _ _ _ h; exact absurd rfl h
  | cons p cs ih =>
    intro fuel i g token _ hgaps hrange h hfuel
    cases fuel with
    | zero => simp at hfuel
    | succ fuel =>
      rw [faceBody_cons, List.append_assoc, List.append_assoc] at h
      have hp : p.1.InRange := hrange p (by simp)
      cases cs with
      | nil =>
        have hws : ∀ c ∈ p.2, IS_SPACE c = true := hgaps
        simp only [faceBody_nil, List.nil_append] at h
        have hstop : Stops isCornerChar (p.2 ++ e :: es) := by
          cases hp2 : p.2 with
          | nil => exact Stops.cons he_cc
          | cons w ws =>
            refine Stops.cons ?_
            rcases (IS_SPACE_iff w).1 (hws w (by simp [hp2])) with rfl | rfl <;> decide
        have h1 := parseTriplet_text vc tc nc h hp hstop
        have h2 := drop_add_of_drop h
        have h3 := skipSpace_of_drop h2 hws (Stops.cons he_sp)
        have h4 : peek data (token + p.1.text.length + p.2.length) = e :=
          peek_of_drop (drop_add_of_drop h2)
        simp only [faceLoop, h1, h3, h4, he, Bool.true_or, if_true, List.map,
          faceSteps_single, faceBody_cons, faceBody_nil, List.append_nil,
          List.length_append]
        simp only [Nat.add_assoc]
      | cons q cs =>
        obtain ⟨hws, hne, hgaps'⟩ := hgaps
        obtain ⟨d, ds, hds, hd⟩ := faceBody_head q cs
        obtain ⟨hd_sp, hd_nl⟩ := not_space_of_head hd
        have hstop : Stops isCornerChar (p.2 ++ (faceBody (q :: cs) ++ e :: es)) := by
          cases hp2 : p.2 with
          | nil => exact absurd hp2 hne
          | cons w ws =>
            refine Stops.cons ?_
            rcases (IS_SPACE_iff w).1 (hws w (by simp [hp2])) with rfl | rfl <;> decide
        have h1 := parseTriplet_text vc tc nc h hp hstop
        have h2 := drop_add_of_drop h
        have h3 := skipSpace_of_drop h2 hws (by rw [hds]; exact Stops.cons hd_sp)
        have h5 := drop_add_of_drop h2
        have h4 : peek data (token + p.1.text.length + p.2.length) = d :=
          peek_of_drop (by rw [h5, hds]; rfl)
        have hlen : (q :: cs).length ≤ fuel := by simpa using hfuel
        have hrange' : ∀ r ∈ q :: cs, r.1.InRange := fun r hr =>
          hrange r (List.mem_cons_of_mem _ hr)
        have hrec := fun i g => ih fuel i g _ (by simp) hgaps' hrange' h5 hlen
        simp only [faceLoop, h1, h3, h4, hd_nl, Bool.false_or, List.map,
          faceSteps_cons_cons, Bool.false_eq_true, if_false]
        split
        · rw [hrec]
          simp [faceBody_cons, Nat.add_assoc]
        · rw [hrec]
          simp [faceBody_cons, Nat.add_assoc]

end objloader

/-! ## What the face loop appends -/

namespace objloader

@[simp] theorem growIndices_indices (g : ObjGroup) : (growIndices g).indices = g.indices := by
  unfold growIndices; split <;> rfl

@[simp] theorem growIndices_indicesPerFace (g : ObjGroup) :
    (growIndices g).indicesPerFace = g.indicesPerFace := by
  unfold growIndices; split <;> rfl

@[simp] theorem growIndices_name (g : ObjGroup) : (growIndices g).name = g.name := by
  unfold growIndices; split <;> rfl

@[simp] theorem growIndices_material (g : ObjGroup) : (growIndices g).material = g.material := by
  unfold growIndices; split <;> rfl

@[simp] theorem pushIndex_indices (g : ObjGroup) (vi : ObjVertexIndex) :
    (pushIndex g vi).indices = g.indices ++ [vi] := rfl

@[simp] theorem pushIndex_indicesPerFace (g : ObjGroup) (vi : ObjVertexIndex) :
    (pushIndex g vi).indicesPerFace = g.indicesPerFace := rfl

@[simp] theorem pushIndex_name (g : ObjGroup) (vi : ObjVertexIndex) :
    (pushIndex g vi).name = g.name := rfl

@[simp] theorem pushIndex_material (g : ObjGroup) (vi : ObjVertexIndex) :
    (pushIndex g vi).material = g.material := rfl

@[simp] theorem pushFace_indices (tri : Bool) (i : Nat) (g : ObjGroup) :
    (pushFace tri i g).indices = g.indices := by
  unfold pushFace; split <;> rfl

@[simp] theorem pushFace_indicesPerFace (tri : Bool) (i : Nat) (g : ObjGroup) :
    (pushFace tri i g).indicesPerFace = g.indicesPerFace ++ [if tri then 3 else i] := by
  unfold pushFace; split <;> rfl

@[simp] theorem pushFace_name (tri : Bool) (i : Nat) (g : ObjGroup) :
    (pushFace tri i g).name = g.name := by
  unfold pushFace; split <;> rfl

@[simp] theorem pushFace_material (tri : Bool) (i : Nat) (g : ObjGroup) :
    (pushFace tri i g).material = g.material := by
  unfold pushFace; split <;> rfl

theorem fanCorners_false (i : Nat) (g : ObjGroup) : fanCorners false i g = (g, i) := by
  simp [fanCorners]

theorem fanCorners_small (tri : Bool) (i : Nat) (g : ObjGroup) (h : i < 3) :
    fanCorners tri i g = (g, i) := by
  have : decide (i ≥ 3) = false := by simp; omega
  simp [fanCorners, this]

theorem fanCorners_fan (i : Nat) (g : ObjGroup) (h : 3 ≤ i) :
    fanCorners true i g =
      (pushIndex (pushIndex g (g.indices.getD (g.indicesSize - i) default))
        (g.indices.getD (g.indicesSize - 1) default), i + 2) := by
  have : decide (i ≥ 3) = true := by simpa using h
  simp [fanCorners, this]

@[simp] theorem fanCorners_name (tri : Bool) (i : Nat) (g : ObjGroup) :
    (fanCorners tri i g).1.name = g.name := by
  unfold fanCorners; split <;> rfl

@[simp] theorem fanCorners_material (tri : Bool) (i : Nat) (g : ObjGroup) :
    (fanCorners tri i g).1.material = g.material := by
  unfold fanCorners; split <;> rfl

@[simp] theorem fanCorners_indicesPerFace (tri : Bool) (i : Nat) (g : ObjGroup) :
    (fanCorners tri i g).1.indicesPerFace = g.indicesPerFace := by
  unfold fanCorners; split <;> rfl

theorem faceSteps_name_material (tri : Bool) (cs : List ObjVertexIndex) :
    ∀ (i : Nat) (g : ObjGroup),
      (faceSteps tri cs i g).name = g.name ∧ (faceSteps tri cs i g).material = g.material := by
  induction cs with
  | nil => intro i g; exact ⟨rfl, rfl⟩
  | cons c cs ih =>
    intro i g
    cases cs with
    | nil => simp [faceSteps_single]
    | cons d cs =>
      rw [faceSteps_cons_cons]
      split
      · obtain ⟨h1, h2⟩ := ih ((fanCorners tri i (growIndices g)).2 + 1)
          (pushFace tri ((fanCorners tri i (growIndices g)).2 + 1)
            (pushIndex (fanCorners tri i (growIndices g)).1 c))
        simp [h1, h2]
      · obtain ⟨h1, h2⟩ := ih ((fanCorners tri i (growIndices g)).2 + 1)
          (pushIndex (fanCorners tri i (growIndices g)).1 c)
        simp [h1, h2]

/-- Without triangulation a face line appends its corners and one corner count. -/
theorem faceSteps_plain (cs : List ObjVertexIndex) (hcs : cs ≠ []) :
    ∀ (i : Nat) (g : ObjGroup),
      (faceSteps false cs i g).indices = g.indices ++ cs ∧
      (faceSteps false cs i g).indicesPerFace = g.indicesPerFace ++ [i + cs.length] := by
  induction cs with
  | nil => exact absurd rfl hcs
  | cons c cs ih =>
    intro i g
    cases cs with
    | nil => simp [faceSteps_single, fanCorners_false]
    | cons d cs =>
      rw [faceSteps_cons_cons]
      obtain ⟨h1, h2⟩ := ih (by simp) (i + 1) (pushIndex (growIndices g) c)
      simp [fanCorners_false, h1, h2]
      omega

/-- Under triangulation, once three corners are in, every further corner
appends a triangle of the fan and a corner count of three. -/
theorem faceSteps_fan (cs : List ObjVertexIndex) :
    ∀ (i : Nat) (g : ObjGroup), cs ≠ [] → 3 ≤ i → i % 3 = 0 → i ≤ g.indices.length →
      (faceSteps true cs i g).indices = g.indices ++
        fanFrom (g.indices.getD (g.indices.length - i) default)
          (g.indices.getD (g.indices.length - 1) default) cs ∧
      (faceSteps true cs i g).indicesPerFace =
        g.indicesPerFace ++ List.replicate cs.length 3 := by
  induction cs with
  | nil => intro i g h; exact absurd rfl h
  | cons c cs ih =>
    intro i g _ hi hmod hle
    have hnext : (i + 2 + 1) % 3 = 0 := by omega
    cases cs with
    | nil =>
      simp [faceSteps_single, fanCorners_fan i _ hi, fanFrom, ObjGroup.indicesSize]
    | cons d cs =>
      rw [faceSteps_cons_cons]
      simp only [fanCorners_fan i _ hi, hnext, Bool.true_and, beq_self_eq_true, if_true]
      generalize hG : pushFace true (i + 2 + 1) (pushIndex (pushIndex (pushIndex (growIndices g)
          ((growIndices g).indices.getD ((growIndices g).indicesSize - i) default))
          ((growIndices g).indices.getD ((growIndices g).indicesSize - 1) default)) c) = G
      have hidx : G.indices = g.indices ++ [g.indices.getD (g.indices.length - i) default,
          g.indices.getD (g.indices.length - 1) default, c] := by
        subst hG
        simp [ObjGroup.indicesSize]
      have hpf : G.indicesPerFace = g.indicesPerFace ++ [3] := by
        subst hG
        simp
      have hlen : G.indices.length = g.indices.length + 3 := by simp [hidx]
      obtain ⟨h1, h2⟩ := ih (i + 2 + 1) G (by simp) (by omega) hnext (by omega)
      have e1 : G.indices.length - (i + 2 + 1) = g.indices.length - i := by omega
      have e2 : G.indices.length - 1 = g.indices.length + 2 := by omega
      have e3 : G.indices.getD (g.indices.length - i) default =
          g.indices.getD (g.indices.length - i) default := by
        rw [hidx, List.getD_append _ _ _ _ (by omega)]
      have e4 : G.indices.getD (g.indices.length + 2) default = c := by
        rw [hidx, List.getD_append_right _ _ _ _ (by omega)]
        simp
      rw [h1, h2, e1, e2, e3, e4, hidx, hpf]
      constructor
      · simp [fanFrom]
      · simp [List.replicate_succ]

end objloader

namespace objloader

theorem fanTriangle_shift (c0 c1 c2 : ObjVertexIndex) (rest : List ObjVertexIndex) (j : Nat) :
    fanTriangle (c0 :: c1 :: c2 :: rest) (j + 1) = fanTriangle (c0 :: c2 :: rest) j := by
  simp [fanTriangle]

theorem triangleFan_eq_fanFrom (c0 : ObjVertexIndex) (rest : List ObjVertexIndex) :
    ∀ c1, triangleFan (c0 :: c1 :: rest) = fanFrom c0 c1 rest := by
  induction rest with
  | nil => intro c1; simp [triangleFan, fanFrom]
  | cons c2 rest ih =>
    intro c1
    have h := ih c2
    simp only [triangleFan, List.length_cons] at h ⊢
    have e1 : rest.length + 1 + 1 + 1 - 2 = rest.length + 1 := by omega
    have e2 : rest.length + 1 + 1 - 2 = rest.length := by omega
    rw [e2] at h
    rw [e1, List.range_succ_eq_map, List.flatMap_cons, List.flatMap_map]
    simp only [Nat.succ_eq_add_one, fanTriangle_shift, h, fanFrom]
    simp [fanTriangle]

/-- Under triangulation a face line of `N >= 3` corners appends the fan over
its corners and `N - 2` corner counts of three. -/
theorem faceSteps_triangulate (c0 c1 c2 : ObjVertexIndex) (rest : List ObjVertexIndex)
    (g : ObjGroup) :
    (faceSteps true (c0 :: c1 :: c2 :: rest) 0 g).indices =
        g.indices ++ triangleFan (c0 :: c1 :: c2 :: rest) ∧
    (faceSteps true (c0 :: c1 :: c2 :: rest) 0 g).indicesPerFace =
        g.indicesPerFace ++ List.replicate (rest.length + 1) 3 := by
  rw [faceSteps_cons_cons, fanCorners_small _ _ _ (by omega)]
  simp only [Nat.zero_add, Nat.reduceMod, Nat.reduceBEq, Bool.and_false, Bool.false_eq_true,
    if_false]
  rw [faceSteps_cons_cons, fanCorners_small _ _ _ (by omega)]
  simp only [Nat.reduceAdd, Nat.reduceMod, Nat.reduceBEq, Bool.and_false, Bool.false_eq_true,
    if_false]
  rw [triangleFan_eq_fanFrom]
  cases rest with
  | nil =>
    rw [faceSteps_single, fanCorners_small _ _ _ (by omega)]
    simp [fanFrom]
  | cons c3 rest =>
    rw [faceSteps_cons_cons, fanCorners_small _ _ _ (by omega)]
    simp only [Nat.reduceAdd, Nat.mod_self, beq_self_eq_true, Bool.and_self, if_true]
    generalize hG : pushFace true 3 (pushIndex (growIndices (pushIndex (growIndices
      (pushIndex (growIndices g) c0)) c1)) c2) = G
    have hidx : G.indices = g.indices ++ [c0, c1, c2] := by subst hG; simp
    have hpf : G.indicesPerFace = g.indicesPerFace ++ [3] := by subst hG; simp
    have hlen : G.indices.length = g.indices.length + 3 := by simp [hidx]
    obtain ⟨h1, h2⟩ := faceSteps_fan (c3 :: rest) 3 G (by simp) (by omega) (by omega) (by omega)
    have e1 : G.indices.length - 3 = g.indices.length := by omega
    have e2 : G.indices.length - 1 = g.indices.length + 2 := by omega
    have e3 : G.indices.getD g.indices.length default = c0 := by
      rw [hidx, List.getD_append_right _ _ _ _ (by omega)]
      simp
    have e4 : G.indices.getD (g.indices.length + 2) default = c2 := by
      rw [hidx, List.getD_append_right _ _ _ _ (by omega)]
      simp
    rw [h1, h2, e1, e2, e3, e4, hidx, hpf]
    constructor
    · simp [fanFrom]
    · simp [List.replicate_succ]

end objloader

/-! ## The branches of the main loop, on the core and on a known text -/

namespace objloader

theorem skipLine_of_drop {data : List Char} {token : Nat} {xs rest : List Char}
    (h : data.drop token = xs ++ '\n' :: rest) (hxs : ∀ c ∈ xs, isLineChar c = true) :
    skipLine data token = token + xs.length + 1 ∧
      data.drop (skipLine data token) = rest := by
  have h1 : skipLine data token = token + xs.length + 1 := by
    simp [skipLine, strcspnNewline, h,
      takeWhile_span hxs (Stops.cons (show isLineChar '\n' = false by decide))]
  refine ⟨h1, ?_⟩
  rw [h1]
  have e : data.drop token = (xs ++ ['\n']) ++ rest := by simpa using h
  simpa [Nat.add_assoc] using drop_add_of_drop e

theorem lt_length_of_drop {data : List Char} {token : Nat} {c : Char} {rest : List Char}
    (h : data.drop token = c :: rest) : token < data.length := by
  by_contra hlt
  rw [List.drop_eq_nil_of_le (by omega)] at h
  exact absurd h (by simp)

theorem skipLine_le_of_drop {data : List Char} {token : Nat} {xs rest : List Char}
    (h : data.drop token = xs ++ '\n' :: rest) (hxs : ∀ c ∈ xs, isLineChar c = true) :
    skipLine data token ≤ data.length := by
  rw [(skipLine_of_drop h hxs).1]
  have := lt_length_of_drop (drop_add_of_drop h)
  omega

theorem drop_set_self {data : List Char} {p : Nat} {c x : Char} {rest : List Char}
    (h : data.drop p = x :: rest) : (data.set p c).drop p = c :: rest := by
  rw [List.drop_set]
  simp [h]

theorem isTrailChar_iff (c : Char) : isTrailChar c = true ↔ c = ' ' ∨ c = '\t' ∨ c = '\r' := by
  simp [isTrailChar, or_assoc]

theorem isTrailChar_props {c : Char} (h : isTrailChar c = true) :
    isTextChar c = false ∧ isLineChar c = true ∧ isWhitespace c = true := by
  rcases (isTrailChar_iff c).1 h with rfl | rfl | rfl <;> decide

theorem isTextChar_props {c : Char} (h : isTextChar c = true) :
    isWhitespace c = false ∧ isLineChar c = true ∧ c ≠ '\x00' := by
  refine ⟨?_, ?_, ?_⟩
  · by_contra hc
    rw [Bool.not_eq_false, isWhitespace_iff] at hc
    rcases hc with rfl | rfl | rfl | rfl <;> revert h <;> decide
  · by_contra hc
    simp [isLineChar] at hc
    by_cases h1 : c = '\n'
    · subst h1; revert h; decide
    · have := hc h1; subst this; revert h; decide
  · rintro rfl; revert h; decide

theorem parseText_line {data : List Char} {p : Nat} {name trail rest : List Char} (flags : Nat)
    (h : data.drop p = name ++ (trail ++ '\n' :: rest))
    (hname : ∀ c ∈ name, isTextChar c = true) (htrail : ∀ c ∈ trail, isTrailChar c = true) :
    (parseText data p flags).1 = name ∧
    (parseText data p flags).2.2.length = data.length ∧
    (parseText data p flags).2.2.drop
        (skipLine (parseText data p flags).2.2 (parseText data p flags).2.1) =
      residual flags trail ++ rest := by
  have hstop : Stops isTextChar (trail ++ '\n' :: rest) := by
    cases trail with
    | nil => exact Stops.cons (show isTextChar '\n' = false by decide)
    | cons t ts => exact Stops.cons (isTrailChar_props (htrail t (by simp))).1
  have htake := takeWhile_span hname hstop
  have hd := drop_add_of_drop h
  by_cases hin : hasFlag flags OBJ_IN_SITU = true
  · simp only [parseText, h, htake, hin, if_true, List.length_set, residual, true_and]
    obtain ⟨x, xs, hx⟩ : ∃ x xs, trail ++ '\n' :: rest = x :: xs := by
      cases trail with
      | nil => exact ⟨_, _, rfl⟩
      | cons t ts => exact ⟨_, _, rfl⟩
    rw [hx] at hd
    have hset := drop_set_self (c := '\x00') hd
    have hskip : skipLine (data.set (p + name.length) '\x00') (p + name.length) =
        p + name.length + 1 := by
      simp [skipLine, strcspnNewline, hset, List.takeWhile_cons, isLineChar]
    rw [hskip, drop_succ_of_drop hset]
    cases trail with
    | nil => simp at hx ⊢; exact hx.2.symm
    | cons t ts => simp at hx ⊢; exact hx.2.symm
  · have hin' : hasFlag flags OBJ_IN_SITU = false := by simpa using hin
    simp only [parseText, h, htake, hin', Bool.false_eq_true, if_false, residual, true_and,
      List.nil_append]
    exact (skipLine_of_drop hd (fun c hc => (isTrailChar_props (htrail c hc)).2.1)).2

theorem parseText_line_le {data : List Char} {p : Nat} {name trail rest : List Char}
    (flags : Nat) (h : data.drop p = name ++ (trail ++ '\n' :: rest))
    (hname : ∀ c ∈ name, isTextChar c = true) (htrail : ∀ c ∈ trail, isTrailChar c = true) :
    skipLine (parseText data p flags).2.2 (parseText data p flags).2.1 ≤ data.length := by
  have hstop : Stops isTextChar (trail ++ '\n' :: rest) := by
    cases trail with
    | nil => exact Stops.cons (show isTextChar '\n' = false by decide)
    | cons t ts => exact Stops.cons (isTrailChar_props (htrail t (by simp))).1
  have htake := takeWhile_span hname hstop
  have hd := drop_add_of_drop h
  by_cases hin : hasFlag flags OBJ_IN_SITU = true
  · simp only [parseText, h, htake, hin, if_true]
    obtain ⟨x, xs, hx⟩ : ∃ x xs, trail ++ '\n' :: rest = x :: xs := by
      cases trail with
      | nil => exact ⟨_, _, rfl⟩
      | cons t ts => exact ⟨_, _, rfl⟩
    rw [hx] at hd
    have hlt := lt_length_of_drop hd
    have hset := drop_set_self (c := '\x00') hd
    have hskip : skipLine (data.set (p + name.length) '\x00') (p + name.length) =
        p + name.length + 1 := by
      simp [skipLine, strcspnNewline, hset, List.takeWhile_cons, isLineChar]
    rw [hskip]
    omega
  · have hin' : hasFlag flags OBJ_IN_SITU = false := by simpa using hin
    simp only [parseText, h, htake, hin', Bool.false_eq_true, if_false]
    exact skipLine_le_of_drop hd (fun c hc => (isTrailChar_props (htrail c hc)).2.1)

theorem skipWhitespaceAndCommentsAux_start {data : List Char} {token : Nat} {c : Char}
    {rest : List Char} (h : data.drop token = c :: rest) (hws : isWhitespace c = false)
    (hc : c ≠ '#') (fuel : Nat) : skipWhitespaceAndCommentsAux fuel data token = token := by
  have h1 : skipWhitespace data token = token := skipWhitespace_none h hws
  have h2 : (peek data token == '#') = false := by
    rw [peek_of_drop h]; simpa using hc
  cases fuel with
  | zero => simp [skipWhitespaceAndCommentsAux, h1]
  | succ n => simp [skipWhitespaceAndCommentsAux, h1, h2]

theorem skipWhitespaceAndComments_start {data : List Char} {token : Nat} {c : Char}
    {rest : List Char} (h : data.drop token = c :: rest) (hws : isWhitespace c = false)
    (hc : c ≠ '#') : skipWhitespaceAndComments data token = token :=
  skipWhitespaceAndCommentsAux_start h hws hc _

theorem groupBranch_core {F : Type} (flags : Nat) (s : LoaderState F) (token : Nat) :
    (groupBranch flags s token).core =
      Core.group (parseText s.data (skipWhitespace s.data (token + 2)) flags).1 s.core := by
  simp only [groupBranch, Core.group, LoaderState.core, LoaderState.current, Core.current,
    LoaderState.setCurrent, Core.setCurrent]
  split <;> rfl

theorem usemtlBranch_core {F : Type} (flags : Nat) (s : LoaderState F) (token : Nat) :
    (usemtlBranch flags s token).core =
      Core.usemtl (parseText s.data (token + 7) flags).1 s.core := by
  simp only [usemtlBranch, Core.usemtl, LoaderState.core, LoaderState.current, Core.current,
    LoaderState.setCurrent, Core.setCurrent]
  split
  · rfl
  · split <;> rfl

theorem mtllibBranch_core {F : Type} (flags : Nat) (s : LoaderState F) (token : Nat) :
    (mtllibBranch flags s token).core =
      Core.mtllib (parseText s.data (token + 7) flags).1 s.core := by
  simp only [mtllibBranch, Core.mtllib, LoaderState.core]

end objloader

/-! ## One round of the main loop on one line -/

namespace objloader

theorem takeWhile_length_le (p : Char → Bool) (xs : List Char) (e : Char) (rest : List Char)
    (he : p e = false) : ((xs ++ e :: rest).takeWhile p).length ≤ xs.length := by
  induction xs with
  | nil => simp [List.takeWhile_cons, he]
  | cons x xs ih =>
    simp only [List.cons_append, List.takeWhile_cons]
    split
    · simpa using ih
    · simp

theorem InLine.advance {data : List Char} {token : Nat} {rest : List Char}
    (h : InLine data token rest) (j : Nat)
    (hj : ∀ xs, data.drop token = xs ++ '\n' :: rest → j ≤ xs.length) :
    InLine data (token + j) rest := by
  obtain ⟨xs, hxs, hall⟩ := h
  have hle := hj xs hxs
  refine ⟨xs.drop j, ?_, fun c hc => hall c (List.mem_of_mem_drop hc)⟩
  rw [← List.drop_drop, hxs, List.drop_append_of_le_length hle]

theorem InLine.takeWhile {data : List Char} {token : Nat} {rest : List Char}
    (h : InLine data token rest) (p : Char → Bool) (hp : p '\n' = false) :
    InLine data (token + ((data.drop token).takeWhile p).length) rest := by
  refine h.advance _ ?_
  intro xs hxs
  rw [hxs]
  exact takeWhile_length_le p xs '\n' rest hp

theorem InLine.parseFloat {F : Type} (atof : List Char → F) {data : List Char} {token : Nat}
    {rest : List Char} (h : InLine data token rest) :
    InLine data (parseFloat atof data token).2 rest := by
  have h1 : InLine data (skipSpace data token) rest := h.takeWhile IS_SPACE (by decide)
  exact h1.takeWhile isAtofChar (by decide)

theorem InLine.skipLine {data : List Char} {token : Nat} {rest : List Char}
    (h : InLine data token rest) : data.drop (skipLine data token) = rest := by
  obtain ⟨xs, hxs, hall⟩ := h
  exact (skipLine_of_drop hxs hall).2

theorem inLine_skipLine_le {data : List Char} {token : Nat} {rest : List Char}
    (h : InLine data token rest) : skipLine data token ≤ data.length := by
  obtain ⟨xs, hxs, hall⟩ := h
  exact skipLine_le_of_drop hxs hall

theorem InLine.appendFloats {F : Type} (atof : List Char → F) {data : List Char} {token : Nat}
    {rest : List Char} (h : InLine data (token + 2) rest) (hasZ : Bool) (size capacity : Nat)
    (list : List F) :
    InLine data (appendFloats atof data token hasZ size capacity list).2.2.2 rest ∧
    (appendFloats atof data token hasZ size capacity list).1 =
      size + (if hasZ then 3 else 2) := by
  have hx := h.parseFloat atof
  have hy := hx.parseFloat atof
  have hz := hy.parseFloat atof
  cases hasZ
  · exact ⟨by simpa [objloader.appendFloats] using hy, by simp [objloader.appendFloats]⟩
  · exact ⟨by simpa [objloader.appendFloats] using hz, by simp [objloader.appendFloats]⟩

theorem startsWith_false {data : List Char} {token : Nat} {text rest kw : List Char}
    (h : data.drop token = text ++ '\n' :: rest) (hkw : '\n' ∉ kw) (hpre : ¬ kw <+: text) :
    startsWith kw data token = false := by
  by_contra hc
  rw [Bool.not_eq_false] at hc
  simp only [startsWith, beq_iff_eq, h, List.take_append_eq_append_take] at hc
  by_cases hlen : kw.length ≤ text.length
  · have h0 : kw.length - text.length = 0 := by omega
    rw [h0, List.take_zero, List.append_nil] at hc
    exact hpre (hc ▸ List.take_prefix _ _)
  · have h1 : 0 < kw.length - text.length := by omega
    obtain ⟨m, hm⟩ : ∃ m, kw.length - text.length = m + 1 := ⟨_, (Nat.succ_pred_eq_of_pos h1).symm⟩
    rw [hm, List.take_succ_cons] at hc
    exact hkw (hc ▸ by simp)

theorem loadStep_other {F : Type} (atof : List Char → F) (fuel flags : Nat) (s : LoaderState F)
    (text rest : List Char) (hwf : (Item.other text).WellFormed)
    (h : s.data.drop s.token = (Item.other text).text ++ rest) :
    (loadStep atof fuel flags s).Holds fun s' => s'.core = s.core ∧
      s'.data.length = s.data.length ∧ s'.data.drop s'.token = rest ∧
      s'.token ≤ s'.data.length := by
  obtain ⟨hstart, hne, hall, hu, hm⟩ := hwf
  obtain ⟨c, cs, rfl⟩ := List.exists_cons_of_ne_nil hne
  have hc : isOtherStart c = true := hstart c (by simp)
  simp only [Item.text, List.cons_append, List.append_assoc, List.singleton_append] at h
  have hcs : isWhitespace c = false ∧ c ≠ '#' ∧ c ≠ 'v' ∧ c ≠ 'f' ∧ c ≠ 'g' := by
    simp only [isOtherStart, Bool.not_eq_true', Bool.or_eq_false_iff, beq_eq_false_iff_ne] at hc
    tauto
  obtain ⟨h1, h2, h3, h4, h5⟩ := hcs
  have hskip := skipWhitespaceAndComments_start h h1 h2
  have hpeek := peek_of_drop h
  have e : s.data.drop s.token = (c :: cs) ++ '\n' :: rest := by simpa using h
  have hu' : startsWith ['u', 's', 'e', 'm', 't', 'l'] s.data s.token = false :=
    startsWith_false e (by decide) hu
  have hm' : startsWith ['m', 't', 'l', 'l', 'i', 'b'] s.data s.token = false :=
    startsWith_false e (by decide) hm
  have hline := skipLine_of_drop e hall
  simp only [loadStep, hskip, hpeek, h3, h4, h5, hu', hm', beq_iff_eq, if_false,
    Bool.false_eq_true, Outcome.Holds, String.toList]
  exact ⟨rfl, trivial, hline.2, skipLine_le_of_drop e hall⟩

theorem loadStep_vertex {F : Type} (atof : List Char → F) (fuel flags : Nat)
    (s : LoaderState F) (sep : Char) (body rest : List Char)
    (hwf : (Item.vertex sep body).WellFormed)
    (h : s.data.drop s.token = (Item.vertex sep body).text ++ rest) :
    (loadStep atof fuel flags s).Holds fun s' =>
      s'.core = { s.core with vertexCount := s.core.vertexCount + 3 } ∧
      s'.data.length = s.data.length ∧ s'.data.drop s'.token = rest ∧
      s'.token ≤ s'.data.length := by
  obtain ⟨hsep, hall⟩ := hwf
  simp only [Item.text, List.cons_append, List.append_assoc, List.singleton_append] at h
  have hskip := skipWhitespaceAndComments_start h (by decide) (by decide)
  have hpeek := peek_of_drop h
  have hpeek1 := peekAt_one_of_drop h
  have hin : InLine s.data (s.token + 2) rest :=
    ⟨body, drop_succ_of_drop (drop_succ_of_drop h), hall⟩
  obtain ⟨hf, hcount⟩ := hin.appendFloats atof true s.model.vertexCount s.verticesCapacity
    s.model.vertices
  simp only [loadStep, hskip, hpeek, beq_self_eq_true, if_true, vertexBranch, hpeek1, hsep,
    Outcome.Holds]
  exact ⟨by simp [LoaderState.core, hcount], trivial, hf.skipLine, inLine_skipLine_le hf⟩

theorem loadStep_texcoord {F : Type} (atof : List Char → F) (fuel flags : Nat)
    (s : LoaderState F) (body rest : List Char)
    (hwf : (Item.texcoord body).WellFormed)
    (h : s.data.drop s.token = (Item.texcoord body).text ++ rest) :
    (loadStep atof fuel flags s).Holds fun s' =>
      s'.core = { s.core with uvCount := s.core.uvCount + 2 } ∧
      s'.data.length = s.data.length ∧ s'.data.drop s'.token = rest ∧
      s'.token ≤ s'.data.length := by
  simp only [Item.text, List.cons_append, List.append_assoc, List.singleton_append] at h
  have hskip := skipWhitespaceAndComments_start h (by decide) (by decide)
  have hpeek := peek_of_drop h
  have hpeek1 := peekAt_one_of_drop h
  have hin : InLine s.data (s.token + 2) rest :=
    ⟨body, drop_succ_of_drop (drop_succ_of_drop h), hwf⟩
  obtain ⟨hf, hcount⟩ := hin.appendFloats atof false s.model.uvCount s.uvsCapacity
    s.model.texcoords
  have e1 : IS_SPACE 't' = false := by decide
  simp only [loadStep, hskip, hpeek, beq_self_eq_true, if_true, vertexBranch, hpeek1, e1,
    Bool.false_eq_true, if_false, Outcome.Holds]
  exact ⟨by simp [LoaderState.core, hcount], trivial, hf.skipLine, inLine_skipLine_le hf⟩

theorem loadStep_normal {F : Type} (atof : List Char → F) (fuel flags : Nat)
    (s : LoaderState F) (body rest : List Char)
    (hwf : (Item.normal body).WellFormed)
    (h : s.data.drop s.token = (Item.normal body).text ++ rest) :
    (loadStep atof fuel flags s).Holds fun s' =>
      s'.core = { s.core with normalCount := s.core.normalCount + 3 } ∧
      s'.data.length = s.data.length ∧ s'.data.drop s'.token = rest ∧
      s'.token ≤ s'.data.length := by
  simp only [Item.text, List.cons_append, List.append_assoc, List.singleton_append] at h
  have hskip := skipWhitespaceAndComments_start h (by decide) (by decide)
  have hpeek := peek_of_drop h
  have hpeek1 := peekAt_one_of_drop h
  have hin : InLine s.data (s.token + 2) rest :=
    ⟨body, drop_succ_of_drop (drop_succ_of_drop h), hwf⟩
  obtain ⟨hf, hcount⟩ := hin.appendFloats atof true s.model.normalCount s.normalsCapacity
    s.model.normals
  have e1 : IS_SPACE 'n' = false := by decide
  have e2 : ('n' == 't') = false := by decide
  simp only [loadStep, hskip, hpeek, beq_self_eq_true, if_true, vertexBranch, hpeek1, e1, e2,
    Bool.false_eq_true, if_false, Outcome.Holds]
  exact ⟨by simp [LoaderState.core, hcount], trivial, hf.skipLine, inLine_skipLine_le hf⟩

end objloader

namespace objloader

theorem faceBody_length_ge (cs : List (Corner × List Char)) :
    cs.length ≤ (faceBody cs).length := by
  induction cs with
  | nil => simp [faceBody_nil]
  | cons p cs ih =>
    obtain ⟨d, ds, hds, _⟩ := p.1.text_starts
    simp only [faceBody_cons, List.length_append, List.length_cons, hds]
    omega

theorem faceEol_spec (cr : Bool) :
    (∃ e es, faceEol cr = e :: es ∧ IS_NEW_LINE e = true) ∧
    ∃ xs, faceEol cr = xs ++ ['\n'] ∧ ∀ c ∈ xs, isLineChar c = true := by
  cases cr
  · exact ⟨⟨'\n', [], rfl, by decide⟩, [], rfl, by simp⟩
  · exact ⟨⟨'\r', ['\n'], rfl, by decide⟩, ['\r'], rfl, by simp; decide⟩

theorem setCurrent_core {F : Type} (s : LoaderState F) (g : ObjGroup) :
    (s.setCurrent g).core = s.core.setCurrent g := rfl

theorem current_core {F : Type} (s : LoaderState F) : s.core.current = s.current := rfl

theorem loadStep_face {F : Type} (atof : List Char → F) (fuel flags : Nat)
    (s : LoaderState F) (lead : List Char) (cs : List (Corner × List Char)) (cr : Bool)
    (rest : List Char) (hwf : (Item.face lead cs cr).WellFormed)
    (h : s.data.drop s.token = (Item.face lead cs cr).text ++ rest)
    (hfuel : cs.length ≤ fuel) :
    (loadStep atof fuel flags s).Holds fun s' =>
      s'.core = s.core.face (hasFlag flags OBJ_TRIANGULATE) (cs.map Prod.fst) ∧
      s'.data.length = s.data.length ∧ s'.data.drop s'.token = rest ∧
      s'.token ≤ s'.data.length := by
  obtain ⟨hlead, hne, hgaps, hrange⟩ := hwf
  obtain ⟨⟨e, es, he, henl⟩, xs, hxs, hxsall⟩ := faceEol_spec cr
  simp only [Item.text, List.cons_append, List.append_assoc] at h
  have hskip := skipWhitespaceAndComments_start h (by decide) (by decide)
  have hpeek := peek_of_drop h
  have h2 : s.data.drop (s.token + 2) = lead ++ (faceBody cs ++ (faceEol cr ++ rest)) :=
    drop_succ_of_drop (drop_succ_of_drop h)
  obtain ⟨p, cs', rfl⟩ := List.exists_cons_of_ne_nil hne
  obtain ⟨d, ds, hds, hd⟩ := faceBody_head p cs'
  have hsp := skipSpace_of_drop h2 hlead
    (by rw [hds]; exact Stops.cons (not_space_of_head hd).1)
  have h3 := drop_add_of_drop h2
  have hloop := faceLoop_text s.data (hasFlag flags OBJ_TRIANGULATE) s.model.vertexCount
    s.model.uvCount s.model.normalCount (faceEol cr ++ rest)
    ⟨e, es ++ rest, by simp [he], henl⟩ (p :: cs') fuel 0 s.current _ hne hgaps hrange h3 hfuel
  have h4 : s.data.drop (s.token + 2 + lead.length + (faceBody (p :: cs')).length) =
      xs ++ '\n' :: rest := by
    have := drop_add_of_drop h3
    simpa [hxs] using this
  have hline := skipLine_of_drop h4 hxsall
  have e1 : ('f' == 'v') = false := by decide
  simp only [loadStep, hskip, hpeek, e1, Bool.false_eq_true, if_false, beq_self_eq_true,
    if_true, faceBranch, hsp, hloop, Outcome.Holds]
  refine ⟨?_, rfl, hline.2, skipLine_le_of_drop h4 hxsall⟩
  simp [LoaderState.core, Core.face, Core.setCurrent, LoaderState.setCurrent,
    Core.current, LoaderState.current, List.map_map, Function.comp_def]

theorem groupBranch_data {F : Type} (flags : Nat) (s : LoaderState F) (token : Nat) :
    (groupBranch flags s token).data =
      (parseText s.data (skipWhitespace s.data (token + 2)) flags).2.2 ∧
    (groupBranch flags s token).token =
      (parseText s.data (skipWhitespace s.data (token + 2)) flags).2.1 := by
  simp only [groupBranch]
  split <;> exact ⟨rfl, rfl⟩

theorem usemtlBranch_data {F : Type} (flags : Nat) (s : LoaderState F) (token : Nat) :
    (usemtlBranch flags s token).data = (parseText s.data (token + 7) flags).2.2 ∧
    (usemtlBranch flags s token).token = (parseText s.data (token + 7) flags).2.1 := by
  simp only [usemtlBranch]
  split
  · exact ⟨rfl, rfl⟩
  · split <;> exact ⟨rfl, rfl⟩

theorem mtllibBranch_data {F : Type} (flags : Nat) (s : LoaderState F) (token : Nat) :
    (mtllibBranch flags s token).data = (parseText s.data (token + 7) flags).2.2 ∧
    (mtllibBranch flags s token).token = (parseText s.data (token + 7) flags).2.1 :=
  ⟨rfl, rfl⟩

theorem loadStep_group {F : Type} (atof : List Char → F) (fuel flags : Nat)
    (s : LoaderState F) (name trail rest : List Char)
    (hwf : (Item.group name trail).WellFormed)
    (h : s.data.drop s.token = (Item.group name trail).text ++ rest) :
    (loadStep atof fuel flags s).Holds fun s' =>
      s'.core = s.core.group name ∧
      s'.data.length = s.data.length ∧
      s'.data.drop s'.token = residual flags trail ++ rest ∧
      s'.token ≤ s'.data.length := by
  obtain ⟨hne, hname, htrail⟩ := hwf
  simp only [Item.text, List.cons_append, List.append_assoc, List.singleton_append] at h
  have hskip := skipWhitespaceAndComments_start h (by decide) (by decide)
  have hpeek := peek_of_drop h
  have h2 : s.data.drop (s.token + 2) = name ++ (trail ++ '\n' :: rest) :=
    drop_succ_of_drop (drop_succ_of_drop h)
  obtain ⟨c, cs, rfl⟩ := List.exists_cons_of_ne_nil hne
  have hws : skipWhitespace s.data (s.token + 2) = s.token + 2 :=
    skipWhitespace_none (by simpa using h2) (isTextChar_props (hname c (by simp))).1
  obtain ⟨p1, p2, p3⟩ := parseText_line flags h2 hname htrail
  obtain ⟨d1, d2⟩ := groupBranch_data flags s s.token
  have hcore := groupBranch_core flags s s.token
  rw [hws] at d1 d2 hcore
  have e1 : ('g' == 'v') = false := by decide
  have e2 : ('g' == 'f') = false := by decide
  simp only [loadStep, hskip, hpeek, e1, e2, Bool.false_eq_true, if_false, beq_self_eq_true,
    if_true, Outcome.Holds]
  refine ⟨?_, ?_, ?_, ?_⟩
  · rw [← p1, ← hcore]; rfl
  · rw [d1]; exact p2
  · rw [d1, d2]; exact p3
  · rw [d1, d2, p2]; exact parseText_line_le flags h2 hname htrail

theorem loadStep_usemtl {F : Type} (atof : List Char → F) (fuel flags : Nat)
    (s : LoaderState F) (name trail rest : List Char)
    (hwf : (Item.usemtl name trail).WellFormed)
    (h : s.data.drop s.token = (Item.usemtl name trail).text ++ rest) :
    (loadStep atof fuel flags s).Holds fun s' =>
      s'.core = s.core.usemtl name ∧
      s'.data.length = s.data.length ∧
      s'.data.drop s'.token = residual flags trail ++ rest ∧
      s'.token ≤ s'.data.length := by
  obtain ⟨hname, htrail⟩ := hwf
  have h' : s.data.drop s.token =
      ['u', 's', 'e', 'm', 't', 'l', ' '] ++ (name ++ (trail ++ '\n' :: rest)) := by
    simpa [Item.text] using h
  have hskip := skipWhitespaceAndComments_start (c := 'u') (by simpa using h')
    (by decide) (by decide)
  have hpeek : peek s.data s.token = 'u' := peek_of_drop (by simpa using h')
  have h2 : s.data.drop (s.token + 7) = name ++ (trail ++ '\n' :: rest) :=
    drop_add_of_drop h'
  have hsw : startsWith ['u', 's', 'e', 'm', 't', 'l'] s.data s.token = true := by
    simp [startsWith, h']
  obtain ⟨p1, p2, p3⟩ := parseText_line flags h2 hname htrail
  obtain ⟨d1, d2⟩ := usemtlBranch_data flags s s.token
  have hcore := usemtlBranch_core flags s s.token
  have e1 : ('u' == 'v') = false := by decide
  have e2 : ('u' == 'f') = false := by decide
  have e3 : ('u' == 'g') = false := by decide
  simp only [loadStep, hskip, hpeek, e1, e2, e3, hsw, Bool.false_eq_true, if_false, if_true,
    Outcome.Holds, String.toList]
  refine ⟨?_, ?_, ?_, ?_⟩
  · rw [← p1, ← hcore]; rfl
  · rw [d1]; exact p2
  · rw [d1, d2]; exact p3
  · rw [d1, d2, p2]; exact parseText_line_le flags h2 hname htrail

theorem loadStep_mtllib {F : Type} (atof : List Char → F) (fuel flags : Nat)
    (s : LoaderState F) (name trail rest : List Char)
    (hwf : (Item.mtllib name trail).WellFormed)
    (h : s.data.drop s.token = (Item.mtllib name trail).text ++ rest) :
    (loadStep atof fuel flags s).Holds fun s' =>
      s'.core = s.core.mtllib name ∧
      s'.data.length = s.data.length ∧
      s'.data.drop s'.token = residual flags trail ++ rest ∧
      s'.token ≤ s'.data.length := by
  obtain ⟨hname, htrail⟩ := hwf
  have h' : s.data.drop s.token =
      ['m', 't', 'l', 'l', 'i', 'b', ' '] ++ (name ++ (trail ++ '\n' :: rest)) := by
    simpa [Item.text] using h
  have hskip := skipWhitespaceAndComments_start (c := 'm') (by simpa using h')
    (by decide) (by decide)
  have hpeek : peek s.data s.token = 'm' := peek_of_drop (by simpa using h')
  have h2 : s.data.drop (s.token + 7) = name ++ (trail ++ '\n' :: rest) :=
    drop_add_of_drop h'
  have hsu : startsWith ['u', 's', 'e', 'm', 't', 'l'] s.data s.token = false := by
    simp [startsWith, h']
  have hsw : startsWith ['m', 't', 'l', 'l', 'i', 'b'] s.data s.token = true := by
    simp [startsWith, h']
  obtain ⟨p1, p2, p3⟩ := parseText_line flags h2 hname htrail
  obtain ⟨d1, d2⟩ := mtllibBranch_data flags s s.token
  have hcore := mtllibBranch_core flags s s.token
  have e1 : ('m' == 'v') = false := by decide
  have e2 : ('m' == 'f') = false := by decide
  have e3 : ('m' == 'g') = false := by decide
  simp only [loadStep, hskip, hpeek, e1, e2, e3, hsu, hsw, Bool.false_eq_true, if_false,
    if_true, Outcome.Holds, String.toList]
  refine ⟨?_, ?_, ?_, ?_⟩
  · rw [← p1, ← hcore]; rfl
  · rw [d1]; exact p2
  · rw [d1, d2]; exact p3
  · rw [d1, d2, p2]; exact parseText_line_le flags h2 hname htrail

end objloader

/-! ## The main loop on a well-formed text -/

namespace objloader

theorem loadStep_item {F : Type} (atof : List Char → F) (fuel flags : Nat)
    (s : LoaderState F) (it : Item) (rest : List Char) (hwf : it.WellFormed)
    (hsig : it.Significant) (h : s.data.drop s.token = it.text ++ rest)
    (hfuel : it.text.length ≤ fuel) :
    (loadStep atof fuel flags s).Holds fun s' =>
      s'.core = it.apply (hasFlag flags OBJ_TRIANGULATE) s.core ∧
      s'.data.length = s.data.length ∧
      s'.data.drop s'.token = it.residue flags ++ rest ∧
      s'.token ≤ s'.data.length := by
  cases it with
  | blank c => exact absurd hsig id
  | comment text => exact absurd hsig id
  | vertex sep body => simpa [Item.residue] using loadStep_vertex atof fuel flags s sep body rest hwf h
  | texcoord body => simpa [Item.residue] using loadStep_texcoord atof fuel flags s body rest hwf h
  | normal body => simpa [Item.residue] using loadStep_normal atof fuel flags s body rest hwf h
  | face lead cs cr =>
    have hlen : cs.length ≤ fuel := by
      have := faceBody_length_ge cs
      simp only [Item.text, List.length_append, List.length_cons] at hfuel
      omega
    simpa [Item.residue] using loadStep_face atof fuel flags s lead cs cr rest hwf h hlen
  | group name trail => exact loadStep_group atof fuel flags s name trail rest hwf h
  | usemtl name trail => exact loadStep_usemtl atof fuel flags s name trail rest hwf h
  | mtllib name trail => exact loadStep_mtllib atof fuel flags s name trail rest hwf h
  | other text => simpa [Item.residue] using loadStep_other atof fuel flags s text rest hwf h

theorem Item.text_head (it : Item) (hwf : it.WellFormed) :
    ∃ c cs, it.text = c :: cs ∧ c ≠ '\x00' := by
  cases it with
  | blank c =>
    refine ⟨c, [], rfl, ?_⟩
    rintro rfl
    revert hwf
    simp [Item.WellFormed]
    decide
  | comment text => exact ⟨'#', _, rfl, by decide⟩
  | vertex sep body => exact ⟨'v', _, rfl, by decide⟩
  | texcoord body => exact ⟨'v', _, rfl, by decide⟩
  | normal body => exact ⟨'v', _, rfl, by decide⟩
  | face lead cs cr => exact ⟨'f', _, rfl, by decide⟩
  | group name trail => exact ⟨'g', _, rfl, by decide⟩
  | usemtl name trail => exact ⟨'u', _, rfl, by decide⟩
  | mtllib name trail => exact ⟨'m', _, rfl, by decide⟩
  | other text =>
    obtain ⟨hstart, hne, -⟩ := hwf
    obtain ⟨c, cs, rfl⟩ := List.exists_cons_of_ne_nil hne
    refine ⟨c, cs ++ ['\n'], rfl, ?_⟩
    rintro rfl
    have := hstart '\x00' (by simp)
    revert this
    decide

theorem render_head (items : List Item) (hwf : ∀ it ∈ items, it.WellFormed)
    (hne : items ≠ []) : ∃ c cs, render items = c :: cs ∧ c ≠ '\x00' := by
  obtain ⟨it, rest, rfl⟩ := List.exists_cons_of_ne_nil hne
  obtain ⟨c, cs, hcs, hc⟩ := it.text_head (hwf it (by simp))
  exact ⟨c, cs ++ render rest, by simp [render, hcs], hc⟩

theorem skipWhitespace_blank {data : List Char} {token : Nat} {c : Char} {rest : List Char}
    (h : data.drop token = c :: rest) (hc : isWhitespace c = true) :
    skipWhitespace data token = skipWhitespace data (token + 1) := by
  simp only [skipWhitespace, h, drop_succ_of_drop h, List.takeWhile_cons, hc, if_true,
    List.length_cons]
  omega

theorem skipWhitespaceAndCommentsAux_blank {data : List Char} {token : Nat} {c : Char}
    {rest : List Char} (h : data.drop token = c :: rest) (hc : isWhitespace c = true)
    (fuel : Nat) :
    skipWhitespaceAndCommentsAux fuel data token =
      skipWhitespaceAndCommentsAux fuel data (token + 1) := by
  cases fuel with
  | zero => simp only [skipWhitespaceAndCommentsAux, skipWhitespace_blank h hc]
  | succ n => simp only [skipWhitespaceAndCommentsAux, skipWhitespace_blank h hc]

theorem skipWhitespace_ge (data : List Char) (token : Nat) :
    token ≤ skipWhitespace data token := by
  simp [skipWhitespace]

theorem skipWhitespaceAndCommentsAux_end {data : List Char} {token : Nat}
    (h : data.drop token = []) (fuel : Nat) :
    skipWhitespaceAndCommentsAux fuel data token = token := by
  have h1 : skipWhitespace data token = token := by simp [skipWhitespace, h]
  have h2 : (peek data token == '#') = false := by simp [peek_eq, h]
  cases fuel with
  | zero => simp [skipWhitespaceAndCommentsAux, h1]
  | succ n => simp [skipWhitespaceAndCommentsAux, h1, h2]

theorem skipWhitespaceAndCommentsAux_saturate (data : List Char) :
    ∀ (fuel token : Nat), data.length ≤ fuel + token →
      skipWhitespaceAndCommentsAux fuel data token =
        skipWhitespaceAndCommentsAux (fuel + 1) data token := by
  intro fuel
  induction fuel with
  | zero =>
    intro token hle
    have hd : data.drop token = [] := List.drop_eq_nil_of_le (by omega)
    rw [skipWhitespaceAndCommentsAux_end hd, skipWhitespaceAndCommentsAux_end hd]
  | succ n ih =>
    intro token hle
    have hge := skipWhitespace_ge data token
    rw [skipWhitespaceAndCommentsAux, skipWhitespaceAndCommentsAux]
    simp only
    split
    · exact ih _ (by omega)
    · rfl

theorem skipWhitespaceAndComments_blank {data : List Char} {token : Nat} {c : Char}
    {rest : List Char} (h : data.drop token = c :: rest) (hc : isWhitespace c = true) :
    skipWhitespaceAndComments data token = skipWhitespaceAndComments data (token + 1) :=
  skipWhitespaceAndCommentsAux_blank h hc _

theorem skipWhitespaceAndComments_comment {data : List Char} {token : Nat}
    {text rest : List Char} (h : data.drop token = '#' :: (text ++ '\n' :: rest))
    (htext : ∀ c ∈ text, isLineChar c = true) :
    skipWhitespaceAndComments data token =
      skipWhitespaceAndComments data (token + (text.length + 2)) := by
  have hlt := lt_length_of_drop h
  obtain ⟨m, hm⟩ : ∃ m, data.length = m + 1 := ⟨data.length - 1, by omega⟩
  have h1 : skipWhitespace data token = token := skipWhitespace_none h (by decide)
  have h2 : peek data token = '#' := peek_of_drop h
  have h3 := drop_succ_of_drop h
  have h4 : strcspnNewline data (token + 1) = text.length := by
    simp [strcspnNewline, h3,
      takeWhile_span htext (Stops.cons (show isLineChar '\n' = false by decide))]
  have h5 : data.drop (token + 1 + text.length) = '\n' :: rest := drop_add_of_drop h3
  unfold skipWhitespaceAndComments
  rw [hm, skipWhitespaceAndCommentsAux]
  simp only [h1, h2, beq_self_eq_true, if_true, h4]
  rw [skipWhitespaceAndCommentsAux_saturate data m _ (by omega),
    skipWhitespaceAndCommentsAux_blank h5 (by decide)]
  congr 1
  omega

theorem loadStep_token {F : Type} (atof : List Char → F) (fuel flags : Nat)
    (s : LoaderState F) (token : Nat)
    (h : skipWhitespaceAndComments s.data s.token = skipWhitespaceAndComments s.data token) :
    loadStep atof fuel flags s = loadStep atof fuel flags { s with token := token } := by
  simp only [loadStep, h]
  rfl

end objloader

namespace objloader

theorem render_cons (it : Item) (items : List Item) :
    render (it :: items) = it.text ++ render items := rfl

theorem render_blanks (cs : List Char) (items : List Item) :
    render (cs.map Item.blank ++ items) = cs ++ render items := by
  induction cs with
  | nil => rfl
  | cons c cs ih => simp [render_cons, Item.text, ih]

theorem applyItems_cons (tri : Bool) (it : Item) (items : List Item) (k : Core) :
    applyItems tri (it :: items) k = applyItems tri items (it.apply tri k) := rfl

theorem applyItems_blanks (tri : Bool) (cs : List Char) (items : List Item) (k : Core) :
    applyItems tri (cs.map Item.blank ++ items) k = applyItems tri items k := by
  induction cs with
  | nil => rfl
  | cons c cs ih => simpa [applyItems_cons, Item.apply] using ih

theorem residual_whitespace (flags : Nat) (trail : List Char)
    (htrail : ∀ c ∈ trail, isTrailChar c = true) :
    (∀ c ∈ residual flags trail, isWhitespace c = true) ∧
      (residual flags trail).length ≤ trail.length := by
  unfold residual
  split
  · constructor
    · intro c hc
      have hmem : c ∈ trail ++ ['\n'] := List.mem_of_mem_tail hc
      rw [List.mem_append] at hmem
      rcases hmem with hmem | hmem
      · exact (isTrailChar_props (htrail c hmem)).2.2
      · simp at hmem; subst hmem; decide
    · simp
  · simp

theorem Item.residue_spec (flags : Nat) (it : Item) (hwf : it.WellFormed) :
    (∀ c ∈ it.residue flags, isWhitespace c = true) ∧
      (it.residue flags).length < it.text.length := by
  cases it with
  | group name trail =>
    obtain ⟨h1, h2⟩ := residual_whitespace flags trail hwf.2.2
    exact ⟨h1, by simp only [Item.residue, Item.text, List.length_append, List.length_cons]; omega⟩
  | usemtl name trail =>
    obtain ⟨h1, h2⟩ := residual_whitespace flags trail hwf.2
    exact ⟨h1, by simp only [Item.residue, Item.text, List.length_append, List.length_cons]; omega⟩
  | mtllib name trail =>
    obtain ⟨h1, h2⟩ := residual_whitespace flags trail hwf.2
    exact ⟨h1, by simp only [Item.residue, Item.text, List.length_append, List.length_cons]; omega⟩
  | blank c => exact ⟨by simp [Item.residue], by simp [Item.residue, Item.text]⟩
  | comment text => exact ⟨by simp [Item.residue], by simp [Item.residue, Item.text]⟩
  | vertex sep body => exact ⟨by simp [Item.residue], by simp [Item.residue, Item.text]⟩
  | texcoord body => exact ⟨by simp [Item.residue], by simp [Item.residue, Item.text]⟩
  | normal body => exact ⟨by simp [Item.residue], by simp [Item.residue, Item.text]⟩
  | face lead cs cr =>
    exact ⟨by simp [Item.residue], by simp [Item.residue, Item.text]⟩
  | other text =>
    exact ⟨by simp [Item.residue], by simp [Item.residue, Item.text]⟩

theorem loadLoop_end {F : Type} (atof : List Char → F) (flags fuel : Nat) (s : LoaderState F)
    (h : s.data.drop s.token = []) :
    loadLoop atof flags (fuel + 1) s = .ok s := by
  simp [loadLoop, peek_eq, h]

/-- A round of the main loop that finds only blanks and comments up to the
end of the text leaves the core as it is. -/
theorem loadStep_end {F : Type} (atof : List Char → F) (flags fuel : Nat) (s : LoaderState F)
    (token : Nat)
    (hskip : skipWhitespaceAndComments s.data s.token = skipWhitespaceAndComments s.data token)
    (h : s.data.drop token = []) :
    loadStep atof fuel flags s = .ok { s with token := token + 1 } := by
  have h1 : skipWhitespaceAndComments s.data token = token :=
    skipWhitespaceAndCommentsAux_end h _
  have h2 : peek s.data token = '\x00' := by simp [peek_eq, h]
  have h3 : strcspnNewline s.data token = 0 := by simp [strcspnNewline, h]
  simp [loadStep, hskip, h1, h2, startsWith, h, skipLine, h3]

theorem render_eq_nil (items : List Item) (hwf : ∀ it ∈ items, it.WellFormed)
    (h : render items = []) : items = [] := by
  cases items with
  | nil => rfl
  | cons it rest =>
    obtain ⟨c, cs, hcs, -⟩ := render_head (it :: rest) hwf (by simp)
    rw [h] at hcs
    exact absurd hcs (by simp)

/-- Blanks and comments in front of the text do not change what the main loop
returns, up to the cursor. -/
theorem loadLoop_skip {F : Type} (atof : List Char → F) (flags fuel : Nat) (s : LoaderState F)
    (token : Nat) (items : List Item) (hwf : ∀ it ∈ items, it.WellFormed)
    (hpeek : peek s.data s.token ≠ '\x00')
    (hskip : skipWhitespaceAndComments s.data s.token = skipWhitespaceAndComments s.data token)
    (h : s.data.drop token = render items) (P : Core → Prop)
    (hrec : (loadLoop atof flags (fuel + 2) { s with token := token }).Holds
      fun s' => P s'.core)
    (hnil : items = [] → P s.core) :
    (loadLoop atof flags (fuel + 2) s).Holds fun s' => P s'.core := by
  by_cases hitems : items = []
  · subst hitems
    have hd : s.data.drop token = [] := by simpa [render] using h
    have hd2 : s.data.drop (token + 1) = [] := by
      rw [← List.drop_drop, hd]; rfl
    rw [loadLoop]
    simp only [beq_iff_eq, hpeek, if_false, loadStep_end atof flags (fuel + 1) s token hskip hd]
    rw [loadLoop_end atof flags fuel _ hd2]
    exact hnil rfl
  · obtain ⟨c, cs, hcs, hc⟩ := render_head items hwf hitems
    have hpeek2 : peek s.data token ≠ '\x00' := by
      rw [peek_of_drop (h.trans hcs)]; exact hc
    rw [loadLoop] at hrec ⊢
    simp only [beq_iff_eq, hpeek, hpeek2, if_false] at hrec ⊢
    rw [loadStep_token atof (fuel + 1) flags s token hskip]
    exact hrec

theorem loadLoop_render {F : Type} (atof : List Char → F) (flags : Nat) :
    ∀ (n : Nat) (items : List Item) (s : LoaderState F) (fuel : Nat),
      (render items).length ≤ n → (∀ it ∈ items, it.WellFormed) →
      s.data.drop s.token = render items → n + 2 ≤ fuel →
      (loadLoop atof flags fuel s).Holds fun s' =>
        s'.core = applyItems (hasFlag flags OBJ_TRIANGULATE) items s.core := by
  intro n
  induction n with
  | zero =>
    intro items s fuel hlen hwf h hfuel
    have hnil : render items = [] := List.length_eq_zero.1 (by omega)
    have hitems := render_eq_nil items hwf hnil
    subst hitems
    obtain ⟨f, rfl⟩ : ∃ f, fuel = f + 1 := ⟨fuel - 1, by omega⟩
    rw [loadLoop_end atof flags f s (by rw [h]; rfl)]
    rfl
  | succ n ih =>
    intro items s fuel hlen hwf h hfuel
    obtain ⟨f, rfl⟩ : ∃ f, fuel = f + 2 := ⟨fuel - 2, by omega⟩
    cases items with
    | nil =>
      rw [loadLoop_end atof flags (f + 1) s (by rw [h]; rfl)]
      rfl
    | cons it rest =>
      have hwf_it := hwf it (by simp)
      have hwf_rest : ∀ x ∈ rest, x.WellFormed := fun x hx => hwf x (List.mem_cons_of_mem _ hx)
      obtain ⟨c, cs, hcs, hc⟩ := it.text_head hwf_it
      rw [render_cons] at h hlen
      have hpeek : peek s.data s.token ≠ '\x00' := by
        rw [peek_of_drop (by rw [h, hcs]; rfl)]; exact hc
      have hd := drop_add_of_drop h
      have hlen_rest : (render rest).length ≤ n := by
        simp only [List.length_append, hcs, List.length_cons] at hlen
        omega
      have hskip_case : ∀ (_ : skipWhitespaceAndComments s.data s.token =
          skipWhitespaceAndComments s.data (s.token + it.text.length))
          (_ : ∀ k, it.apply (hasFlag flags OBJ_TRIANGULATE) k = k),
          (loadLoop atof flags (f + 2) s).Holds fun s' =>
            s'.core = applyItems (hasFlag flags OBJ_TRIANGULATE) (it :: rest) s.core := by
        intro hskip happ
        refine loadLoop_skip atof flags f s _ rest hwf_rest hpeek hskip hd
          (fun k => k = applyItems (hasFlag flags OBJ_TRIANGULATE) (it :: rest) s.core) ?_ ?_
        · have := ih rest { s with token := s.token + it.text.length } (f + 2) hlen_rest
            hwf_rest hd (by omega)
          simpa [applyItems_cons, happ, LoaderState.core] using this
        · rintro rfl
          simp [applyItems_cons, happ, applyItems]
      by_cases hsig : it.Significant
      · have hstep := loadStep_item atof (f + 1) flags s it (render rest) hwf_it hsig h
          (by simp only [List.length_append] at hlen; omega)
        rw [loadLoop]
        simp only [beq_iff_eq, hpeek, if_false]
        rw [Outcome.holds_iff] at hstep
        obtain ⟨s1, hs1, hcore, -, hdrop, hle1⟩ := hstep
        rw [hs1]
        obtain ⟨hres_ws, hres_len⟩ := it.residue_spec flags hwf_it
        have hrec := ih ((it.residue flags).map Item.blank ++ rest) s1 (f + 1)
          (by
            rw [render_blanks]
            simp only [List.length_append] at hlen ⊢
            omega)
          (by
            intro x hx
            rw [List.mem_append] at hx
            rcases hx with hx | hx
            · obtain ⟨c', hc', rfl⟩ := List.mem_map.1 hx
              exact hres_ws c' hc'
            · exact hwf_rest x hx)
          (by rw [render_blanks]; exact hdrop) (by omega)
        refine hrec.imp ?_
        intro s' hs'
        rw [hs', applyItems_blanks, hcore, applyItems_cons]
      · cases it with
        | blank c =>
          have hws : isWhitespace c = true := hwf_it
          exact hskip_case
            (skipWhitespaceAndComments_blank (by simpa [Item.text] using h) hws)
            (fun k => rfl)
        | comment text =>
          have htext : ∀ c ∈ text, isLineChar c = true := hwf_it
          have e : s.data.drop s.token = '#' :: (text ++ '\n' :: render rest) := by
            simpa [Item.text] using h
          have hskip := skipWhitespaceAndComments_comment e htext
          exact hskip_case (by simpa [Item.text] using hskip) (fun k => rfl)
        | vertex sep body => exact absurd trivial hsig
        | texcoord body => exact absurd trivial hsig
        | normal body => exact absurd trivial hsig
        | face lead cs cr => exact absurd trivial hsig
        | group name trail => exact absurd trivial hsig
        | usemtl name trail => exact absurd trivial hsig
        | mtllib name trail => exact absurd trivial hsig
        | other text => exact absurd trivial hsig

end objloader

/-! ## Invariants of the core -/

namespace objloader

theorem Core.current_mem_or (k : Core) : k.current ∈ k.groups ∨ k.current = createGroup none := by
  unfold Core.current
  rw [List.getD_eq_getElem?_getD]
  cases h : k.groups[k.currentGroup]? with
  | none => right; rfl
  | some g => left; exact List.getElem?_mem h

theorem createGroup_balanced (name : Option (List Char)) : (createGroup name).Balanced := rfl

theorem Core.current_balanced (k : Core) (h : ∀ g ∈ k.groups, g.Balanced) :
    k.current.Balanced := by
  rcases k.current_mem_or with hm | hm
  · exact h _ hm
  · rw [hm]; exact createGroup_balanced none

theorem Core.setCurrent_balanced (k : Core) (g : ObjGroup) (h : ∀ x ∈ k.groups, x.Balanced)
    (hg : g.Balanced) : ∀ x ∈ (k.setCurrent g).groups, x.Balanced := by
  intro x hx
  rcases List.mem_or_eq_of_mem_set hx with hx | hx
  · exact h x hx
  · rw [hx]; exact hg

theorem triangleFan_length (cs : List ObjVertexIndex) :
    (triangleFan cs).length = 3 * (cs.length - 2) := by
  have key : ∀ l : List Nat, (l.flatMap (fanTriangle cs)).length = 3 * l.length := by
    intro l
    induction l with
    | nil => rfl
    | cons x l ih =>
      rw [List.flatMap_cons, List.length_append, ih]
      simp [fanTriangle]
      omega
  simpa [triangleFan] using key (List.range (cs.length - 2))

theorem faceSteps_balanced (tri : Bool) (cs : List ObjVertexIndex) (g : ObjGroup)
    (hcs : cs ≠ []) (h3 : tri = true → 3 ≤ cs.length) (hg : g.Balanced) :
    (faceSteps tri cs 0 g).Balanced := by
  unfold ObjGroup.Balanced ObjGroup.indicesSize at hg ⊢
  cases tri with
  | false =>
    obtain ⟨h1, h2⟩ := faceSteps_plain cs hcs 0 g
    rw [h1, h2]
    simp [hg]
  | true =>
    have hlen := h3 rfl
    match cs, hlen with
    | c0 :: c1 :: c2 :: rest, _ =>
      obtain ⟨h1, h2⟩ := faceSteps_triangulate c0 c1 c2 rest g
      rw [h1, h2]
      have hfan : (triangleFan (c0 :: c1 :: c2 :: rest)).length = 3 * (rest.length + 1) := by
        rw [triangleFan_length]
        simp
      rw [List.sum_append, List.length_append, hfan, hg]
      simp
      omega

theorem Core.group_balanced (name : List Char) (k : Core) (h : ∀ g ∈ k.groups, g.Balanced) :
    ∀ g ∈ (k.group name).groups, g.Balanced := by
  unfold Core.group
  split
  · exact k.setCurrent_balanced _ h (k.current_balanced h)
  · intro g hg
    simp only [List.mem_append, List.mem_singleton] at hg
    rcases hg with hg | hg
    · exact h g hg
    · rw [hg]; exact createGroup_balanced _

theorem Core.usemtl_balanced (material : List Char) (k : Core)
    (h : ∀ g ∈ k.groups, g.Balanced) : ∀ g ∈ (k.usemtl material).groups, g.Balanced := by
  unfold Core.usemtl
  split
  · exact Core.setCurrent_balanced _ _ h (Core.current_balanced _ h)
  · split
    · have h' : ∀ g ∈ k.groups.take (k.currentGroup + 1) ++ [createGroup none],
          g.Balanced := by
        intro g hg
        simp only [List.mem_append, List.mem_singleton] at hg
        rcases hg with hg | hg
        · exact h g (List.mem_of_mem_take hg)
        · rw [hg]; exact createGroup_balanced _
      exact Core.setCurrent_balanced _ _ h' (Core.current_balanced _ h')
    · exact Core.setCurrent_balanced _ _ h (Core.current_balanced _ h)

theorem Item.apply_balanced (tri : Bool) (it : Item) (k : Core) (hwf : it.WellFormed)
    (h3 : it.AtLeastTriangle) (h : ∀ g ∈ k.groups, g.Balanced) :
    ∀ g ∈ (it.apply tri k).groups, g.Balanced := by
  cases it with
  | blank c => exact h
  | comment text => exact h
  | vertex sep body => exact h
  | texcoord body => exact h
  | normal body => exact h
  | face lead cs cr =>
    obtain ⟨-, hne, -, -⟩ := hwf
    refine k.setCurrent_balanced _ h (faceSteps_balanced tri _ _ (by simpa using hne) ?_
      (k.current_balanced h))
    intro _
    simpa using h3
  | group name trail => exact k.group_balanced name h
  | usemtl name trail => exact k.usemtl_balanced name h
  | mtllib name trail => exact h
  | other text => exact h

theorem applyItems_balanced (tri : Bool) (items : List Item) :
    ∀ (k : Core), (∀ it ∈ items, it.WellFormed) → (∀ it ∈ items, it.AtLeastTriangle) →
      (∀ g ∈ k.groups, g.Balanced) → ∀ g ∈ (applyItems tri items k).groups, g.Balanced := by
  induction items with
  | nil => intro k _ _ h; exact h
  | cons it items ih =>
    intro k hwf h3 h
    rw [applyItems_cons]
    exact ih _ (fun x hx => hwf x (List.mem_cons_of_mem _ hx))
      (fun x hx => h3 x (List.mem_cons_of_mem _ hx))
      (it.apply_balanced tri k (hwf it (by simp)) (h3 it (by simp)) h)

/-- The run of `objLoadModel` on a well-formed text returns, and the core of
its final state is what the lines do to the core of the initial state. -/
theorem objLoadRun_render {F : Type} (atof : List Char → F) (flags : Nat) (items : List Item)
    (hwf : ∀ it ∈ items, it.WellFormed) (fuel : Nat)
    (hfuel : (render items).length + 2 ≤ fuel) :
    (objLoadRun atof fuel (render items) flags).Holds fun s =>
      s.core = applyItems (hasFlag flags OBJ_TRIANGULATE) items
        (initState (F := F) (render items) flags).core :=
  loadLoop_render atof flags (render items).length items (initState (render items) flags) fuel
    (Nat.le_refl _) hwf rfl hfuel

theorem objLoadModel_holds {F : Type} (atof : List Char → F) (fuel : Nat) (data : List Char)
    (flags : Nat) (P : ObjModel F → Prop)
    (h : (objLoadRun atof fuel data flags).Holds fun s => P s.model) :
    (objLoadModel atof fuel data flags).Holds P := by
  unfold objLoadModel
  cases hrun : objLoadRun atof fuel data flags with
  | ok s => rw [hrun] at h; exact h
  | undefined => rw [hrun] at h; exact h
  | timeout => rw [hrun] at h; exact h

end objloader

/-! ## Counting faces -/

namespace objloader

theorem findGroup_none (cgn : Option (List Char)) (material : List Char)
    (gs : List ObjGroup) :
    ∀ (lastName lastMaterial : Option (List Char)) (k : Nat),
      lastMaterial ≠ some material → (∀ g ∈ gs, g.material ≠ some material) →
      findGroup cgn material gs lastName lastMaterial k = none := by
  induction gs with
  | nil => intro _ _ _ _ _; rfl
  | cons g gs ih =>
    intro lastName lastMaterial k hlast hall
    have hg : g.material ≠ some material := hall g (by simp)
    have hnew : (if g.material.isSome = true then g.material else lastMaterial) ≠
        some material := by
      split
      · exact hg
      · exact hlast
    have hbeq : ((if g.material.isSome = true then g.material else lastMaterial) ==
        some material) = false := by
      simpa using hnew
    rw [findGroup]
    simp only [hbeq, Bool.and_false, Bool.false_eq_true, if_false]
    exact ih _ _ _ hnew (fun x hx => hall x (List.mem_cons_of_mem _ hx))

theorem Core.IsLast.current {k : Core} {init : List ObjGroup} {cur : ObjGroup}
    (h : k.IsLast init cur) : k.current = cur := by
  obtain ⟨h1, h2⟩ := h
  simp [Core.current, h1, h2, List.getD_eq_getElem?_getD]

theorem Core.IsLast.setCurrent {k : Core} {init : List ObjGroup} {cur : ObjGroup}
    (h : k.IsLast init cur) (g : ObjGroup) : (k.setCurrent g).IsLast init g := by
  obtain ⟨h1, h2⟩ := h
  constructor
  · simp [Core.setCurrent, h1, h2]
  · exact h2

theorem totalFaces_append (xs ys : List ObjGroup) :
    totalFaces (xs ++ ys) = totalFaces xs + totalFaces ys := by
  simp [totalFaces]

theorem totalFaces_single (g : ObjGroup) : totalFaces [g] = g.numFaces := by
  simp [totalFaces]

theorem Core.Counted.mono {k : Core} {used : List (List Char)} {n : Nat}
    (h : k.Counted used n) (used' : List (List Char)) (hsub : ∀ m ∈ used, m ∈ used') : k.Counted used' n :=
  ⟨h.last, fun g hg m hm => hsub m (h.materials g hg m hm), h.total⟩

theorem Core.Counted.update {k : Core} {used : List (List Char)} {n : Nat}
    (h : k.Counted used n) (g : ObjGroup) (extra : Nat)
    (hfaces : g.numFaces = k.current.numFaces + extra)
    (hmat : ∀ m, g.material = some m → m ∈ used) :
    (k.setCurrent g).Counted used (n + extra) := by
  obtain ⟨⟨init, cur, hlast⟩, hmats, htotal⟩ := h
  have hset := hlast.setCurrent g
  refine ⟨⟨init, g, hset⟩, ?_, ?_⟩
  · intro x hx m hm
    rw [hset.1, List.mem_append, List.mem_singleton] at hx
    rcases hx with hx | hx
    · exact hmats x (by rw [hlast.1]; simp [hx]) m hm
    · subst hx; exact hmat m hm
  · rw [hset.1, totalFaces_append, totalFaces_single, hfaces, hlast.current, ← htotal, hlast.1,
      totalFaces_append, totalFaces_single]
    omega

theorem Core.Counted.current_material {k : Core} {used : List (List Char)} {n : Nat}
    (h : k.Counted used n) : ∀ m, k.current.material = some m → m ∈ used := by
  obtain ⟨⟨init, cur, hlast⟩, hmats, -⟩ := h
  rw [hlast.current]
  exact hmats cur (by rw [hlast.1]; simp)

theorem Core.group_counted (name : List Char) {k : Core} {used : List (List Char)} {n : Nat}
    (h : k.Counted used n) : (k.group name).Counted used n := by
  unfold Core.group
  split
  · have := h.update { k.current with name := some name } 0 rfl h.current_material
    exact ⟨this.last, this.materials, this.total⟩
  · obtain ⟨⟨init, cur, hlast⟩, hmats, htotal⟩ := h
    refine ⟨⟨k.groups, createGroup (some name), rfl, rfl⟩, ?_, ?_⟩
    · intro x hx m hm
      simp only [List.mem_append, List.mem_singleton] at hx
      rcases hx with hx | hx
      · exact hmats x hx m hm
      · subst hx; simp [createGroup] at hm
    · simp only [totalFaces_append, totalFaces_single, htotal]
      rfl

theorem Core.usemtl_counted (material : List Char) {k : Core} {used : List (List Char)}
    {n : Nat} (h : k.Counted used n) (hfresh : material ∉ used) :
    (k.usemtl material).Counted (material :: used) n := by
  have hnone : findGroup k.currentGroupName material k.groups none none 0 = none :=
    findGroup_none _ _ _ _ _ _ (by simp)
      (fun g hg hm => hfresh (h.materials g hg material hm))
  have hmono := h.mono (material :: used) (fun m hm => List.mem_cons_of_mem _ hm)
  unfold Core.usemtl
  simp only [hnone]
  split
  · obtain ⟨⟨init, cur, hlast⟩, hmats, htotal⟩ := hmono
    have htake : k.groups.take (k.currentGroup + 1) = k.groups := by
      rw [hlast.1, hlast.2]
      exact List.take_of_length_le (by simp)
    have hnew : Core.Counted { k with
        groups := k.groups.take (k.currentGroup + 1) ++ [createGroup none],
        currentGroup := k.currentGroup + 1 } (material :: used) n := by
      refine ⟨⟨k.groups, createGroup none, ?_, ?_⟩, ?_, ?_⟩
      · simp [htake]
      · simp [hlast.1, hlast.2]
      · intro x hx m hm
        simp only [htake, List.mem_append, List.mem_singleton] at hx
        rcases hx with hx | hx
        · exact hmats x hx m hm
        · subst hx; simp [createGroup] at hm
      · simp only [htake, totalFaces_append, totalFaces_single, htotal]
        rfl
    have := hnew.update { Core.current { k with
        groups := k.groups.take (k.currentGroup + 1) ++ [createGroup none],
        currentGroup := k.currentGroup + 1 } with material := some material } 0 rfl
      (by intro m hm; simp at hm; subst hm; simp)
    exact ⟨this.last, this.materials, this.total⟩
  · have := hmono.update { k.current with material := some material } 0 rfl
      (by intro m hm; simp at hm; subst hm; simp)
    exact ⟨this.last, this.materials, this.total⟩

theorem faceSteps_numFaces (tri : Bool) (cs : List ObjVertexIndex) (g : ObjGroup)
    (hcs : cs ≠ []) (h3 : 3 ≤ cs.length) :
    (faceSteps tri cs 0 g).numFaces = g.numFaces + (if tri then cs.length - 2 else 1) := by
  unfold ObjGroup.numFaces
  cases tri with
  | false =>
    rw [(faceSteps_plain cs hcs 0 g).2]
    simp
  | true =>
    match cs, h3 with
    | c0 :: c1 :: c2 :: rest, _ =>
      rw [(faceSteps_triangulate c0 c1 c2 rest g).2]
      simp

theorem Core.face_counted (tri : Bool) (cs : List Corner) {k : Core}
    {used : List (List Char)} {n : Nat} (h : k.Counted used n) (h3 : 3 ≤ cs.length) :
    (k.face tri cs).Counted used (n + (if tri then cs.length - 2 else 1)) := by
  unfold Core.face
  have hlen : (cs.map (fun c => c.resolve k.vertexCount k.uvCount k.normalCount)).length =
      cs.length := by simp
  refine h.update _ _ ?_ ?_
  · have := faceSteps_numFaces tri
      (cs.map (fun c => c.resolve k.vertexCount k.uvCount k.normalCount)) k.current
      (by intro hnil; rw [hnil] at hlen; simp at hlen; omega) (by omega)
    rw [this, hlen]
  · rw [(faceSteps_name_material tri _ 0 k.current).2]
    exact h.current_material

theorem applyItems_counted (tri : Bool) (items : List Item) :
    ∀ (k : Core) (used : List (List Char)) (n : Nat),
      (∀ it ∈ items, it.AtLeastTriangle) → (usedMaterials items).Nodup →
      (∀ m ∈ usedMaterials items, m ∉ used) → k.Counted used n →
      totalFaces (applyItems tri items k).groups = n + storedFaces tri items := by
  induction items with
  | nil => intro k used n _ _ _ h; simpa [applyItems, storedFaces] using h.total
  | cons it items ih =>
    intro k used n h3 hnodup hfresh h
    have h3' : ∀ x ∈ items, x.AtLeastTriangle := fun x hx => h3 x (List.mem_cons_of_mem _ hx)
    rw [applyItems_cons]
    have hstored : storedFaces tri (it :: items) =
        it.faceCount tri + storedFaces tri items := by
      simp [storedFaces]
    cases it with
    | usemtl name trail =>
      simp only [usedMaterials, List.nodup_cons, List.mem_cons, forall_eq_or_imp] at hnodup hfresh
      have := ih (k.usemtl name) (name :: used) n h3' hnodup.2
        (by
          intro m hm hmem
          rcases List.mem_cons.1 hmem with rfl | hmem
          · exact hnodup.1 hm
          · exact hfresh.2 m hm hmem)
        (Core.usemtl_counted name h hfresh.1)
      simpa [Item.apply, hstored, Item.faceCount] using this
    | face lead cs cr =>
      have hlen : 3 ≤ (cs.map Prod.fst).length := by
        simpa [Item.AtLeastTriangle] using h3 (Item.face lead cs cr) (by simp)
      have := ih (k.face tri (cs.map Prod.fst)) used _ h3' hnodup hfresh
        (Core.face_counted tri (cs.map Prod.fst) h hlen)
      simp only [Item.apply, hstored, Item.faceCount]
      rw [this]
      simp only [List.length_map]
      omega
    | group name trail =>
      have := ih (k.group name) used n h3' hnodup hfresh (Core.group_counted name h)
      simpa [Item.apply, hstored, Item.faceCount] using this
    | blank c =>
      have := ih k used n h3' hnodup hfresh h
      simpa [Item.apply, hstored, Item.faceCount] using this
    | comment text =>
      have := ih k used n h3' hnodup hfresh h
      simpa [Item.apply, hstored, Item.faceCount] using this
    | vertex sep body =>
      have := ih { k with vertexCount := k.vertexCount + 3 } used n h3' hnodup hfresh
        ⟨h.last, h.materials, h.total⟩
      simpa [Item.apply, hstored, Item.faceCount] using this
    | texcoord body =>
      have := ih { k with uvCount := k.uvCount + 2 } used n h3' hnodup hfresh
        ⟨h.last, h.materials, h.total⟩
      simpa [Item.apply, hstored, Item.faceCount] using this
    | normal body =>
      have := ih { k with normalCount := k.normalCount + 3 } used n h3' hnodup hfresh
        ⟨h.last, h.materials, h.total⟩
      simpa [Item.apply, hstored, Item.faceCount] using this
    | mtllib name trail =>
      have := ih (k.mtllib name) used n h3' hnodup hfresh ⟨h.last, h.materials, h.total⟩
      simpa [Item.apply, hstored, Item.faceCount] using this
    | other text =>
      have := ih k used n h3' hnodup hfresh h
      simpa [Item.apply, hstored, Item.faceCount] using this

theorem storedFaces_plain (items : List Item) : storedFaces false items = faceLines items := by
  induction items with
  | nil => rfl
  | cons it items ih =>
    have hstored : storedFaces false (it :: items) =
        it.faceCount false + storedFaces false items := by
      simp [storedFaces]
    rw [hstored, ih]
    cases it <;> simp [Item.faceCount, faceLines]
    omega

theorem initState_counted {F : Type} (data : List Char) (flags : Nat) :
    (initState (F := F) data flags).core.Counted [] 0 := by
  refine ⟨⟨[], createGroup none, rfl, rfl⟩, ?_, rfl⟩
  intro g hg m hm
  simp [initState, LoaderState.core] at hg
  subst hg
  simp [createGroup] at hm

end objloader

/-! ## The `g` and `usemtl` branches on the core -/

namespace objloader

theorem findGroup_lt (cgn : Option (List Char)) (material : List Char) (gs : List ObjGroup) :
    ∀ (lastName lastMaterial : Option (List Char)) (k j : Nat),
      findGroup cgn material gs lastName lastMaterial k = some j → k ≤ j ∧ j < k + gs.length := by
  induction gs with
  | nil => intro _ _ _ _ h; simp [findGroup] at h
  | cons g gs ih =>
    intro lastName lastMaterial k j h
    rw [findGroup] at h
    generalize (if g.name.isSome = true then g.name else lastName) = ln at h
    generalize (if g.material.isSome = true then g.material else lastMaterial) = lm at h
    split at h
    · simp only [Option.some.injEq] at h
      subst h
      simp
    · have := ih _ _ _ _ h
      simp only [List.length_cons]
      omega

theorem Core.current_setCurrent (k : Core) (g : ObjGroup)
    (hcur : k.currentGroup < k.groups.length) : (k.setCurrent g).current = g := by
  simp [Core.current, Core.setCurrent, List.getD_eq_getElem?_getD, hcur]

theorem Core.usemtl_fresh (material : List Char) (k : Core)
    (hempty : k.current.numFaces = 0)
    (hnone : ∀ g ∈ k.groups, g.material ≠ some material) :
    k.usemtl material = k.setCurrent { k.current with material := some material } := by
  have h1 : findGroup k.currentGroupName material k.groups none none 0 = none :=
    findGroup_none _ _ _ _ _ _ (by simp) hnone
  have h2 : ¬ k.current.numFaces > 0 := by omega
  simp only [Core.usemtl, h1, h2, if_false]

theorem Core.usemtl_empty (material : List Char) (k : Core)
    (hcur : k.currentGroup < k.groups.length) (hempty : k.current.numFaces = 0) :
    (k.usemtl material).groups.length = k.groups.length ∧
    (k.usemtl material).currentGroup < (k.usemtl material).groups.length ∧
    (k.usemtl material).current.material = some material := by
  have h2 : ¬ k.current.numFaces > 0 := by omega
  unfold Core.usemtl
  cases hfind : findGroup k.currentGroupName material k.groups none none 0 with
  | none =>
    simp only [h2, if_false]
    refine ⟨by simp [Core.setCurrent], by simpa [Core.setCurrent] using hcur, ?_⟩
    rw [Core.current_setCurrent _ _ hcur]
  | some j =>
    have hj := (findGroup_lt _ _ _ _ _ _ _ hfind).2
    simp only [Nat.zero_add] at hj
    refine ⟨by simp [Core.setCurrent], by simpa [Core.setCurrent] using hj, ?_⟩
    rw [Core.current_setCurrent _ _ hj]

theorem skipWhitespaceAndComments_blanks (data : List Char) (ws : List Char) :
    ∀ (token : Nat) (rest : List Char), data.drop token = ws ++ rest →
      (∀ c ∈ ws, isWhitespace c = true) →
      skipWhitespaceAndComments data token =
        skipWhitespaceAndComments data (token + ws.length) := by
  induction ws with
  | nil => intro token rest _ _; rfl
  | cons w ws ih =>
    intro token rest h hws
    rw [skipWhitespaceAndComments_blank h (hws w (by simp)),
      ih (token + 1) rest (drop_succ_of_drop h) (fun c hc => hws c (List.mem_cons_of_mem _ hc))]
    simp only [List.length_cons]
    congr 1
    omega

end objloader

/-! ## The floats do not steer the loader -/

namespace objloader

theorem parseFloat_cursor {F : Type} (atof : List Char → F) (data : List Char) (token : Nat) :
    (parseFloat atof data token).2 = (parseFloat noFloat data token).2 := rfl

theorem appendFloats_erase {F : Type} (atof : List Char → F) (data : List Char) (token : Nat)
    (hasZ : Bool) (size capacity : Nat) (list : List F) :
    (appendFloats atof data token hasZ size capacity list).1 =
      (appendFloats noFloat data token hasZ size capacity (list.map fun _ => ())).1 ∧
    (appendFloats atof data token hasZ size capacity list).2.1 =
      (appendFloats noFloat data token hasZ size capacity (list.map fun _ => ())).2.1 ∧
    (appendFloats atof data token hasZ size capacity list).2.2.1.map (fun _ => ()) =
      (appendFloats noFloat data token hasZ size capacity (list.map fun _ => ())).2.2.1 ∧
    (appendFloats atof data token hasZ size capacity list).2.2.2 =
      (appendFloats noFloat data token hasZ size capacity (list.map fun _ => ())).2.2.2 := by
  cases hasZ <;> simp [objloader.appendFloats, parseFloat_cursor atof]

theorem vertexBranch_erase {F : Type} (atof : List Char → F) (s : LoaderState F) (token : Nat) :
    (vertexBranch atof s token).map LoaderState.erase = vertexBranch noFloat s.erase token := by
  obtain ⟨a1, a2, a3, a4⟩ := appendFloats_erase atof s.data token true s.model.vertexCount
    s.verticesCapacity s.model.vertices
  obtain ⟨b1, b2, b3, b4⟩ := appendFloats_erase atof s.data token false s.model.uvCount
    s.uvsCapacity s.model.texcoords
  obtain ⟨c1, c2, c3, c4⟩ := appendFloats_erase atof s.data token true s.model.normalCount
    s.normalsCapacity s.model.normals
  unfold vertexBranch
  simp only [LoaderState.erase, ObjModel.erase]
  split
  · simp only [Outcome.map, LoaderState.erase, ObjModel.erase, a1, a2, a3, a4]
  · split
    · simp only [Outcome.map, LoaderState.erase, ObjModel.erase, b1, b2, b3, b4]
    · split
      · simp only [Outcome.map, LoaderState.erase, ObjModel.erase, c1, c2, c3, c4]
      · rfl

theorem faceBranch_erase {F : Type} (fuel flags : Nat) (s : LoaderState F) (token : Nat) :
    (faceBranch fuel flags s token).map LoaderState.erase = faceBranch fuel flags s.erase token := by
  unfold faceBranch
  have hcur : s.erase.current = s.current := rfl
  simp only [hcur]
  simp only [LoaderState.erase, ObjModel.erase]
  cases faceLoop s.data (hasFlag flags OBJ_TRIANGULATE) s.model.vertexCount s.model.uvCount
      s.model.normalCount fuel 0 s.current (skipSpace s.data (token + 2)) <;> rfl

theorem groupBranch_erase {F : Type} (flags : Nat) (s : LoaderState F) (token : Nat) :
    (groupBranch flags s token).erase = groupBranch flags s.erase token := by
  unfold groupBranch
  have hcur : ∀ (d : List Char) (t : Nat),
      LoaderState.current { s.erase with data := d, token := t } =
        LoaderState.current { s with data := d, token := t } := fun _ _ => rfl
  simp only [LoaderState.erase, ObjModel.erase] at hcur ⊢
  simp only [hcur]
  split <;> rfl

theorem usemtlBranch_erase {F : Type} (flags : Nat) (s : LoaderState F) (token : Nat) :
    (usemtlBranch flags s token).erase = usemtlBranch flags s.erase token := by
  unfold usemtlBranch
  have hcur : ∀ (d : List Char) (t : Nat),
      LoaderState.current { s.erase with data := d, token := t } =
        LoaderState.current { s with data := d, token := t } := fun _ _ => rfl
  simp only [LoaderState.erase, ObjModel.erase] at hcur ⊢
  simp only [hcur]
  split
  · rfl
  · split <;> rfl

theorem mtllibBranch_erase {F : Type} (flags : Nat) (s : LoaderState F) (token : Nat) :
    (mtllibBranch flags s token).erase = mtllibBranch flags s.erase token := rfl

theorem loadStep_erase {F : Type} (atof : List Char → F) (fuel flags : Nat)
    (s : LoaderState F) :
    (loadStep atof fuel flags s).map LoaderState.erase = loadStep noFloat fuel flags s.erase := by
  have hd : s.erase.data = s.data := rfl
  have ht : s.erase.token = s.token := rfl
  unfold loadStep
  simp only [hd, ht]
  by_cases h1 : (peek s.data (skipWhitespaceAndComments s.data s.token) == 'v') = true
  · simp only [h1, if_true]
    rw [← vertexBranch_erase atof s]
    cases vertexBranch atof s (skipWhitespaceAndComments s.data s.token) <;> rfl
  · simp only [h1, if_false]
    by_cases h2 : (peek s.data (skipWhitespaceAndComments s.data s.token) == 'f') = true
    · simp only [h2, if_true]
      rw [← faceBranch_erase fuel flags s]
      cases faceBranch fuel flags s (skipWhitespaceAndComments s.data s.token) <;> rfl
    · simp only [h2, if_false]
      by_cases h3 : (peek s.data (skipWhitespaceAndComments s.data s.token) == 'g') = true
      · simp only [h3, if_true]
        rw [← groupBranch_erase flags s]
        rfl
      · simp only [h3, if_false]
        by_cases h4 : startsWith "usemtl".toList s.data
            (skipWhitespaceAndComments s.data s.token) = true
        · simp only [h4, if_true]
          rw [← usemtlBranch_erase flags s]
          rfl
        · simp only [h4, if_false]
          by_cases h5 : startsWith "mtllib".toList s.data
              (skipWhitespaceAndComments s.data s.token) = true
          · simp only [h5, if_true]
            rw [← mtllibBranch_erase flags s]
            rfl
          · simp only [h5, if_false]
            rfl

theorem loadLoop_erase {F : Type} (atof : List Char → F) (flags : Nat) :
    ∀ (fuel : Nat) (s : LoaderState F),
      (loadLoop atof flags fuel s).map LoaderState.erase = loadLoop noFloat flags fuel s.erase := by
  intro fuel
  induction fuel with
  | zero => intro s; rfl
  | succ fuel ih =>
    intro s
    have hd : s.erase.data = s.data := rfl
    have ht : s.erase.token = s.token := rfl
    rw [loadLoop, loadLoop]
    simp only [hd, ht]
    split
    · rfl
    · rw [← loadStep_erase atof fuel flags s]
      cases loadStep atof fuel flags s with
      | ok s1 => exact ih s1
      | undefined => rfl
      | timeout => rfl

/-- Whatever `atof` returns, `objLoadModel` returns the same model up to the
values of the floats: the run with `noFloat` tells all the rest. -/
theorem objLoadModel_erase {F : Type} (atof : List Char → F) (fuel : Nat) (data : List Char)
    (flags : Nat) :
    (objLoadModel atof fuel data flags).map ObjModel.erase =
      objLoadModel noFloat fuel data flags := by
  have h := loadLoop_erase atof flags fuel (initState data flags)
  have hinit : (initState (F := F) data flags).erase = initState data flags := rfl
  rw [hinit] at h
  unfold objLoadModel objLoadRun
  rw [← h]
  cases loadLoop atof flags fuel (initState data flags) <;> rfl

end objloader

/-! ## `skipWhitespaceAndComments` has fuel enough -/

namespace objloader

theorem headD_drop_takeWhile (p : Char → Bool) (hp : p '\x00' = false) (l : List Char) :
    p ((l.drop (l.takeWhile p).length).headD '\x00') = false := by
  induction l with
  | nil => simpa using hp
  | cons c l ih =>
    by_cases hc : p c = true
    · simpa [List.takeWhile_cons, hc] using ih
    · have hc' : p c = false := by simpa using hc
      simp [List.takeWhile_cons, hc']

theorem peek_skipWhitespace (data : List Char) (token : Nat) :
    isWhitespace (peek data (skipWhitespace data token)) = false := by
  rw [peek_eq, skipWhitespace, ← List.drop_drop]
  exact headD_drop_takeWhile isWhitespace (by decide) (data.drop token)

theorem skipWhitespaceAndCommentsAux_stops (data : List Char) :
    ∀ (fuel token : Nat), data.length ≤ fuel + token →
      isWhitespace (peek data (skipWhitespaceAndCommentsAux fuel data token)) = false ∧
      peek data (skipWhitespaceAndCommentsAux fuel data token) ≠ '#' := by
  intro fuel
  induction fuel with
  | zero =>
    intro token hle
    have hd : data.drop token = [] := List.drop_eq_nil_of_le (by omega)
    rw [skipWhitespaceAndCommentsAux_end hd]
    simp [peek_eq, hd]
    decide
  | succ n ih =>
    intro token hle
    have hge := skipWhitespace_ge data token
    rw [skipWhitespaceAndCommentsAux]
    simp only
    split
    · exact ih _ (by omega)
    · rename_i hne
      exact ⟨peek_skipWhitespace data token, by simpa using hne⟩

/-- The cursor that `skipWhitespaceAndComments` returns is on a character that
is neither whitespace nor the start of a comment: the fuel of the model, the
length of the buffer, never runs out before the loop of the source ends. -/
theorem skipWhitespaceAndComments_stops (data : List Char) (token : Nat) :
    isWhitespace (peek data (skipWhitespaceAndComments data token)) = false ∧
    peek data (skipWhitespaceAndComments data token) ≠ '#' :=
  skipWhitespaceAndCommentsAux_stops data data.length token (by omega)

end objloader

/-! ## A face line that no newline ends -/

namespace objloader

/-- A cursor from which every run of the face loop uses up its fuel leads back
to itself: one round away from such a cursor, on a character that is no
newline, the loop uses up its fuel too. -/
theorem faceLoop_advance (data : List Char) (tri : Bool) (vc tc nc : Nat) (token next : Nat)
    (hnext : skipSpace data (parseTriplet data token vc tc nc).2 = next)
    (hnl : IS_NEW_LINE (peek data next) = false)
    (h : ∀ fuel i g, faceLoop data tri vc tc nc fuel i g next = .timeout) :
    ∀ fuel i g, faceLoop data tri vc tc nc fuel i g token = .timeout := by
  intro fuel i g
  cases fuel with
  | zero => rfl
  | succ n =>
    rw [faceLoop]
    simp only [hnext, hnl, Bool.false_or, Bool.false_eq_true, if_false, h]
    split <;> rfl

/-- The face loop never returns from a cursor on which `parseTriplet` and
`skipSpace` consume nothing and that is on no newline: each round appends a
triplet and leaves the cursor where it was. -/
theorem faceLoop_stuck (data : List Char) (tri : Bool) (vc tc nc : Nat) (token : Nat)
    (hstay : skipSpace data (parseTriplet data token vc tc nc).2 = token)
    (hnl : IS_NEW_LINE (peek data token) = false) :
    ∀ fuel i g, faceLoop data tri vc tc nc fuel i g token = .timeout := by
  intro fuel
  induction fuel with
  | zero => intro i g; rfl
  | succ n ih =>
    intro i g
    rw [faceLoop]
    simp only [hstay, hnl, Bool.false_or, Bool.false_eq_true, if_false, ih]
    split <;> rfl

/-- The main loop passes on a face loop that uses up its fuel. -/
theorem loadLoop_face_timeout {F : Type} (atof : List Char → F) (flags : Nat)
    (s : LoaderState F) (hpeek : peek s.data s.token ≠ '\x00')
    (hf : peek s.data (skipWhitespaceAndComments s.data s.token) = 'f')
    (h : ∀ fuel i g, faceLoop s.data (hasFlag flags OBJ_TRIANGULATE) s.model.vertexCount
      s.model.uvCount s.model.normalCount fuel i g
      (skipSpace s.data (skipWhitespaceAndComments s.data s.token + 2)) = .timeout) :
    ∀ fuel, loadLoop atof flags fuel s = .timeout := by
  intro fuel
  cases fuel with
  | zero => rfl
  | succ n =>
    have e1 : ('f' == 'v') = false := by decide
    rw [loadLoop]
    simp only [beq_iff_eq, hpeek, if_false, loadStep, hf, e1, Bool.false_eq_true,
      if_true, faceBranch, h]

end objloader

/-! ## The face loop of `objParse` on the text of a face line -/

namespace objparser

theorem parser_faceSteps_single {F : Type} (tri : Bool) (c : ObjVertexIndex) (i : Nat)
    (p : ParserState F) : faceSteps tri [c] i p = emitFace (storeIndex p i c) i := by
  simp [faceSteps]

theorem parser_faceSteps_cons_cons {F : Type} (tri : Bool) (c d : ObjVertexIndex)
    (cs : List ObjVertexIndex) (i : Nat) (p : ParserState F) :
    faceSteps tri (c :: d :: cs) i p =
      if (tri && decide (i ≥ 2)) = true then
        faceSteps tri (d :: cs) i (shiftFan (emitFace (storeIndex p i c) i))
      else faceSteps tri (d :: cs) (i + 1) (storeIndex p i c) := by
  rw [faceSteps]
  simp

theorem parser_faceLoop_text {F : Type} (data : List Char) (tri : Bool) (vc tc nc : Nat)
    (eol : List Char) (heol : ∃ e es, eol = e :: es ∧ IS_NEW_LINE e = true) :
    ∀ (cs : List (Corner × List Char)) (fuel i : Nat) (p : ParserState F) (token : Nat),
      cs ≠ [] → objloader.GapsOk cs → (∀ q ∈ cs, q.1.InRange) →
      data.drop token = objloader.faceBody cs ++ eol → cs.length ≤ fuel →
      faceLoop data tri vc tc nc fuel i p token =
        .ok (faceSteps tri (cs.map (fun q => q.1.resolve vc tc nc)) i p,
          token + (objloader.faceBody cs).length) := by
  obtain ⟨e, es, rfl, he⟩ := heol
  have he_sp : IS_SPACE e = false := by
    rcases (IS_NEW_LINE_iff e).1 he with rfl | rfl <;> decide
  have he_cc : isCornerChar e = false := by
    rcases (IS_NEW_LINE_iff e).1 he with rfl | rfl <;> decide
  intro cs
  induction cs with
  | nil => intro _ _ _ _ h; exact absurd rfl h
  | cons q cs ih =>
    intro fuel i p token _ hgaps hrange h hfuel
    cases fuel with
    | zero => simp at hfuel
    | succ fuel =>
      rw [objloader.faceBody_cons, List.append_assoc, List.append_assoc] at h
      have hq : q.1.InRange := hrange q (by simp)
      cases cs with
      | nil =>
        have hws : ∀ c ∈ q.2, IS_SPACE c = true := hgaps
        simp only [objloader.faceBody_nil, List.nil_append] at h
        have hstop : Stops isCornerChar (q.2 ++ e :: es) := by
          cases hq2 : q.2 with
          | nil => exact Stops.cons he_cc
          | cons w ws =>
            refine Stops.cons ?_
            rcases (IS_SPACE_iff w).1 (hws w (by simp [hq2])) with rfl | rfl <;> decide
        have h1 := parseTriplet_text vc tc nc h hq hstop
        have h2 := drop_add_of_drop h
        have h3 := skipSpace_of_drop h2 hws (Stops.cons he_sp)
        have h4 : peek data (token + q.1.text.length + q.2.length) = e :=
          peek_of_drop (drop_add_of_drop h2)
        simp only [faceLoop, objparser_parseTriplet_eq, h1, h3, h4, he, Bool.true_or, if_true,
          List.map, parser_faceSteps_single, objloader.faceBody_cons, objloader.faceBody_nil,
          List.append_nil, List.length_append]
        simp only [Nat.add_assoc]
      | cons r cs =>
        obtain ⟨hws, hne, hgaps'⟩ := hgaps
        obtain ⟨d, ds, hds, hd⟩ := objloader.faceBody_head r cs
        obtain ⟨hd_sp, hd_nl⟩ := not_space_of_head hd
        have hstop : Stops isCornerChar (q.2 ++ (objloader.faceBody (r :: cs) ++ e :: es)) := by
          cases hq2 : q.2 with
          | nil => exact absurd hq2 hne
          | cons w ws =>
            refine Stops.cons ?_
            rcases (IS_SPACE_iff w).1 (hws w (by simp [hq2])) with rfl | rfl <;> decide
        have h1 := parseTriplet_text vc tc nc h hq hstop
        have h2 := drop_add_of_drop h
        have h3 := skipSpace_of_drop h2 hws (by rw [hds]; exact Stops.cons hd_sp)
        have h5 := drop_add_of_drop h2
        have h4 : peek data (token + q.1.text.length + q.2.length) = d :=
          peek_of_drop (by rw [h5, hds]; rfl)
        have hlen : (r :: cs).length ≤ fuel := by simpa using hfuel
        have hrange' : ∀ x ∈ r :: cs, x.1.InRange := fun x hx =>
          hrange x (List.mem_cons_of_mem _ hx)
        have hrec := fun i p => ih fuel i p _ (by simp) hgaps' hrange' h5 hlen
        simp only [faceLoop, objparser_parseTriplet_eq, h1, h3, h4, hd_nl, Bool.false_or,
          List.map, parser_faceSteps_cons_cons, Bool.false_eq_true, if_false]
        split
        · rw [hrec]
          simp [objloader.faceBody_cons, Nat.add_assoc]
        · rw [hrec]
          simp [objloader.faceBody_cons, Nat.add_assoc]

end objparser

/-! ## One round of `objParse` on a face line -/

theorem Corner.resolve_positive (c : Corner) (vc tc nc : Nat) (hrange : c.InRange)
    (hpos : c.Positive) : c.resolve vc tc nc = c.zeroBased := by
  obtain ⟨hv, ht, hn⟩ := hrange
  obtain ⟨pv, pt, pn⟩ := hpos
  rcases c with ⟨v, t, n⟩
  simp only [Corner.resolve, Corner.zeroBased, resolveIndex_pos v vc hv pv]
  cases t with
  | none =>
    cases n with
    | none => rfl
    | some n => simp only [resolveIndex_pos n nc (hn n rfl) (pn n rfl)]
  | some t =>
    cases n with
    | none => simp only [resolveIndex_pos t tc (ht t rfl) (pt t rfl)]
    | some n =>
      simp only [resolveIndex_pos t tc (ht t rfl) (pt t rfl),
        resolveIndex_pos n nc (hn n rfl) (pn n rfl)]

namespace objparser

theorem parser_skipAux_start {data : List Char} {token : Nat} {c : Char}
    {rest : List Char} (h : data.drop token = c :: rest) (hws : isWhitespace c = false)
    (hc : c ≠ '#') (fuel : Nat) : skipWhitespaceAndCommentsAux fuel data token = token := by
  have h1 : skipWhitespace data token = token := skipWhitespace_none h hws
  have h2 : (peek data token == '#') = false := by
    rw [peek_of_drop h]; simpa using hc
  cases fuel with
  | zero => simp [skipWhitespaceAndCommentsAux, h1]
  | succ n => simp [skipWhitespaceAndCommentsAux, h1, h2]

theorem parser_skip_start {data : List Char} {token : Nat} {c : Char}
    {rest : List Char} (h : data.drop token = c :: rest) (hws : isWhitespace c = false)
    (hc : c ≠ '#') : skipWhitespaceAndComments data token = token :=
  parser_skipAux_start h hws hc _

theorem storeIndex_data {F : Type} (p : ParserState F) (i : Nat) (vi : ObjVertexIndex) :
    (storeIndex p i vi).data = p.data := by
  unfold storeIndex; split <;> rfl

theorem storeIndex_events {F : Type} (p : ParserState F) (i : Nat) (vi : ObjVertexIndex) :
    (storeIndex p i vi).events = p.events := by
  unfold storeIndex; split <;> rfl

theorem parser_faceSteps_data {F : Type} (tri : Bool) (cs : List ObjVertexIndex) :
    ∀ (i : Nat) (p : ParserState F), (faceSteps tri cs i p).data = p.data := by
  induction cs with
  | nil => intro i p; rfl
  | cons c cs ih =>
    intro i p
    rw [faceSteps]
    split
    · split
      · simp [emitFace, storeIndex_data]
      · rw [ih]; simp [emitFace, shiftFan, storeIndex_data]
    · rw [ih, storeIndex_data]

/-- One round of the main loop of `objParse` on a face line: the state after
the round is the one the rounds of the face loop leave, with the cursor at the
start of the next line. -/
theorem parseStep_face {F : Type} (atof : List Char → F) (fuel flags : Nat)
    (p : ParserState F) (lead : List Char) (cs : List (Corner × List Char)) (cr : Bool)
    (rest : List Char) (hwf : (objloader.Item.face lead cs cr).WellFormed)
    (h : p.data.drop p.token = (objloader.Item.face lead cs cr).text ++ rest)
    (hfuel : cs.length ≤ fuel) :
    ∃ token, parseStep atof fuel flags p =
      .ok { (faceSteps (objloader.hasFlag flags OBJ_TRIANGULATE)
        (cs.map fun q => q.1.resolve p.vertexCount p.texcoordCount p.normalCount) 0 p) with
        token := token } ∧ p.data.drop token = rest := by
  obtain ⟨hlead, hne, hgaps, hrange⟩ := hwf
  obtain ⟨⟨e, es, he, henl⟩, xs, hxs, hxsall⟩ := objloader.faceEol_spec cr
  simp only [objloader.Item.text, List.cons_append, List.append_assoc] at h
  have hskip := parser_skip_start h (by decide) (by decide)
  have hpeek := peek_of_drop h
  have h2 : p.data.drop (p.token + 2) =
      lead ++ (objloader.faceBody cs ++ (objloader.faceEol cr ++ rest)) :=
    drop_succ_of_drop (drop_succ_of_drop h)
  obtain ⟨q, cs', rfl⟩ := List.exists_cons_of_ne_nil hne
  obtain ⟨d, ds, hds, hd⟩ := objloader.faceBody_head q cs'
  have hsp := skipSpace_of_drop h2 hlead
    (by rw [hds]; exact Stops.cons (not_space_of_head hd).1)
  have h3 := drop_add_of_drop h2
  have hloop := parser_faceLoop_text p.data (objloader.hasFlag flags OBJ_TRIANGULATE)
    p.vertexCount p.texcoordCount p.normalCount (objloader.faceEol cr ++ rest)
    ⟨e, es ++ rest, by simp [he], henl⟩ (q :: cs') fuel 0 p _ hne hgaps hrange h3 hfuel
  have h4 : p.data.drop (p.token + 2 + lead.length + (objloader.faceBody (q :: cs')).length) =
      xs ++ '\n' :: rest := by
    have := drop_add_of_drop h3
    simpa [hxs] using this
  have hline := objloader.skipLine_of_drop h4 hxsall
  have e1 : ('f' == 'v') = false := by decide
  refine ⟨skipLine p.data
    (p.token + 2 + lead.length + (objloader.faceBody (q :: cs')).length), ?_, hline.2⟩
  simp only [parseStep, hskip, hpeek, e1, Bool.false_eq_true, if_false, beq_self_eq_true,
    if_true, faceBranch, hsp, hloop, parser_faceSteps_data]

end objparser

/-! ## What the face loop of `objParse` reports -/

namespace objparser

theorem fanTriangles_eq_trianglesFrom (c0 : ObjVertexIndex) (rest : List ObjVertexIndex) :
    ∀ c1, fanTriangles (c0 :: c1 :: rest) = trianglesFrom c0 c1 rest := by
  induction rest with
  | nil => intro c1; simp [fanTriangles, trianglesFrom]
  | cons c2 rest ih =>
    intro c1
    have h := ih c2
    simp only [fanTriangles, List.length_cons] at h ⊢
    have e1 : rest.length + 1 + 1 + 1 - 2 = rest.length + 1 := by omega
    have e2 : rest.length + 1 + 1 - 2 = rest.length := by omega
    rw [e2] at h
    rw [e1, List.range_succ_eq_map, List.map_cons, List.map_map]
    have hshift : objloader.fanTriangle (c0 :: c1 :: c2 :: rest) ∘ Nat.succ =
        objloader.fanTriangle (c0 :: c2 :: rest) := by
      funext j
      exact objloader.fanTriangle_shift c0 c1 c2 rest j
    rw [hshift, h, trianglesFrom]
    simp [objloader.fanTriangle]

theorem fanTriangles_flatten (cs : List ObjVertexIndex) :
    (fanTriangles cs).flatten = objloader.triangleFan cs := rfl

theorem fanTriangles_lengths (cs : List ObjVertexIndex) :
    (fanTriangles cs).map List.length = List.replicate (cs.length - 2) 3 := by
  simp only [fanTriangles, List.map_map]
  have : (List.length ∘ objloader.fanTriangle cs) = fun _ => 3 := by
    funext j; simp [objloader.fanTriangle]
  rw [this]
  simp

/-- Under triangulation, from the third corner on, each corner makes the face
loop of `objParse` report the triangle of the first corner, the previous
corner and this corner; no store leaves the array. -/
theorem parser_faceSteps_fan {F : Type} (c0 : ObjVertexIndex) (cs : List ObjVertexIndex) :
    ∀ (prev : ObjVertexIndex) (p : ParserState F),
      (∃ x tl, p.indexBuffer = c0 :: prev :: x :: tl) →
      (faceSteps true cs 2 p).events =
          p.events ++ (trianglesFrom c0 prev cs).map (Event.addFace 3) ∧
      (faceSteps true cs 2 p).strayStores = p.strayStores ∧
      (faceSteps true cs 2 p).indexBuffer.length = p.indexBuffer.length := by
  induction cs with
  | nil => intro prev p _; simp [faceSteps, trianglesFrom]
  | cons c cs ih =>
    intro prev p hbuf
    obtain ⟨x, tl, hx⟩ := hbuf
    have hstore : storeIndex p 2 c = { p with indexBuffer := c0 :: prev :: c :: tl } := by
      simp [storeIndex, hx]
    cases cs with
    | nil =>
      rw [parser_faceSteps_single, hstore]
      simp [emitFace, trianglesFrom, hx]
    | cons d cs =>
      rw [parser_faceSteps_cons_cons, if_pos (by decide), hstore]
      obtain ⟨h1, h2, h3⟩ := ih c (shiftFan (emitFace
        { p with indexBuffer := c0 :: prev :: c :: tl } 2))
        ⟨c, tl, by simp [shiftFan, emitFace]⟩
      rw [h1, h2, h3]
      simp [shiftFan, emitFace, trianglesFrom, hx]

/-- Under triangulation a face line of `N >= 3` corners makes `objParse` call
`addFace` once per triangle of the fan over its corners, each call with three
corners, and no store leaves the array. -/
theorem parser_faceSteps_triangulate {F : Type} (c0 c1 c2 : ObjVertexIndex)
    (rest : List ObjVertexIndex) (p : ParserState F) (hbuf : 3 ≤ p.indexBuffer.length) :
    (faceSteps true (c0 :: c1 :: c2 :: rest) 0 p).events =
        p.events ++ (fanTriangles (c0 :: c1 :: c2 :: rest)).map (Event.addFace 3) ∧
    (faceSteps true (c0 :: c1 :: c2 :: rest) 0 p).strayStores = p.strayStores := by
  obtain ⟨b0, b1, b2, tl, hx⟩ : ∃ b0 b1 b2 tl, p.indexBuffer = b0 :: b1 :: b2 :: tl := by
    match hp : p.indexBuffer, hbuf with
    | b0 :: b1 :: b2 :: tl, _ => exact ⟨b0, b1, b2, tl, rfl⟩
  have hs0 : storeIndex p 0 c0 = { p with indexBuffer := c0 :: b1 :: b2 :: tl } := by
    simp [storeIndex, hx]
  have hs1 : storeIndex { p with indexBuffer := c0 :: b1 :: b2 :: tl } 1 c1 =
      { p with indexBuffer := c0 :: c1 :: b2 :: tl } := by
    simp [storeIndex]
  rw [parser_faceSteps_cons_cons, if_neg (by decide), hs0]
  rw [parser_faceSteps_cons_cons, if_neg (by decide), hs1]
  obtain ⟨h1, h2, -⟩ := parser_faceSteps_fan c0 (c2 :: rest) c1
    ({ p with indexBuffer := c0 :: c1 :: b2 :: tl } : ParserState F) ⟨b2, tl, rfl⟩
  rw [h1, h2, fanTriangles_eq_trianglesFrom]
  exact ⟨rfl, rfl⟩

/-- Without triangulation the face loop of `objParse` stores the corner number
`j` of the line at `indexBuffer[i + j]`, whatever `i + j` is, and reports one
face when the line ends. -/
theorem parser_faceSteps_plain {F : Type} (cs : List ObjVertexIndex) :
    ∀ (i : Nat) (p : ParserState F), cs ≠ [] →
      (faceSteps false cs i p).strayStores =
          p.strayStores ++ (List.range' i cs.length).filter (fun k => decide (256 ≤ k)) ∧
      (faceSteps false cs i p).events =
          p.events ++ [Event.addFace (i + cs.length)
            ((faceSteps false cs i p).indexBuffer.take (i + cs.length))] := by
  induction cs with
  | nil => intro i p h; exact absurd rfl h
  | cons c cs ih =>
    intro i p _
    have hstray : (storeIndex p i c).strayStores =
        p.strayStores ++ (if 256 ≤ i then [i] else []) := by
      unfold storeIndex
      by_cases hi : i < 256
      · simp [hi, Nat.not_le.mpr hi]
      · simp [hi, Nat.le_of_not_lt hi]
    cases cs with
    | nil =>
      rw [parser_faceSteps_single]
      constructor
      · simp only [emitFace, hstray, List.length_singleton, List.range']
        by_cases hi : 256 ≤ i <;> simp [hi, List.filter]
      · simp [emitFace, storeIndex_events]
    | cons d cs =>
      rw [parser_faceSteps_cons_cons]
      simp only [Bool.false_and, Bool.false_eq_true, if_false]
      obtain ⟨h1, h2⟩ := ih (i + 1) (storeIndex p i c) (by simp)
      constructor
      · rw [h1, hstray]
        simp only [List.length_cons, List.range'_succ, List.filter_cons, List.append_assoc]
        by_cases hi : 256 ≤ i <;> simp [hi]
      · rw [h2, storeIndex_events]
        simp [Nat.add_assoc, Nat.add_comm 1]

end objparser

/-! ## `objParse` on a text of one face line -/

namespace objparser

theorem parseLoop_end {F : Type} (atof : List Char → F) (flags fuel : Nat) (p : ParserState F)
    (h : p.data.drop p.token = []) : parseLoop atof flags (fuel + 1) p = .ok p := by
  simp [parseLoop, peek_eq, h]

theorem gapsOk_replicate (q : Corner × List Char) (hws : ∀ c ∈ q.2, IS_SPACE c = true)
    (hne : q.2 ≠ []) : ∀ n, objloader.GapsOk (List.replicate n q) := by
  intro n
  induction n with
  | zero => trivial
  | succ n ih =>
    cases n with
    | zero => exact hws
    | succ n => exact ⟨hws, hne, ih⟩

/-- Without triangulation, from a state at the start of a face line of `N`
corners that ends the text, the main loop of `objParse` returns after one
more call of `addFace`, with the corner count `N`, and the stores that leave
`indexBuffer` are those at the positions from 256 to `N - 1`. -/
theorem parseLoop_face_plain {F : Type} (atof : List Char → F) (fuel flags : Nat)
    (p : ParserState F) (lead : List Char) (cs : List (Corner × List Char)) (cr : Bool)
    (hwf : (objloader.Item.face lead cs cr).WellFormed)
    (h : p.data.drop p.token = (objloader.Item.face lead cs cr).text ++ [])
    (hflag : objloader.hasFlag flags OBJ_TRIANGULATE = false) (hfuel : cs.length + 2 ≤ fuel) :
    (parseLoop atof flags fuel p).Holds fun r =>
      r.strayStores =
        p.strayStores ++ (List.range' 0 cs.length).filter (fun k => decide (256 ≤ k)) ∧
      ∃ indices, r.events = p.events ++ [Event.addFace cs.length indices] := by
  obtain ⟨n, rfl⟩ : ∃ n, fuel = n + 2 := ⟨fuel - 2, by omega⟩
  obtain ⟨token, hstep, hdrop⟩ := parseStep_face atof (n + 1) flags p lead cs cr [] hwf h
    (by omega)
  have hne : cs ≠ [] := hwf.2.1
  obtain ⟨h1, h2⟩ := parser_faceSteps_plain
    (cs.map fun q => q.1.resolve p.vertexCount p.texcoordCount p.normalCount) 0 p
    (by simpa using hne)
  have hpeek : peek p.data p.token ≠ '\x00' := by
    simp [h, objloader.Item.text, peek_eq]
  rw [hflag] at hstep
  rw [parseLoop]
  simp only [beq_iff_eq, hpeek, if_false, hstep]
  rw [parseLoop_end _ _ _ _ (by simpa [parser_faceSteps_data] using hdrop)]
  simp only [Outcome.Holds]
  refine ⟨?_, ⟨(faceSteps false (cs.map fun q =>
    q.1.resolve p.vertexCount p.texcoordCount p.normalCount) 0 p).indexBuffer.take cs.length, ?_⟩⟩
  · rw [h1]
    simp
  · rw [h2]
    simp

end objparser

namespace objparser

/-- Without triangulation, on a text that is one face line of `N` corners,
`objParse` returns `0` after one call of `addFace` with the corner count `N`,
and the stores that leave `indexBuffer` are those at the positions from 256 to
`N - 1`. -/
theorem objParse_face_plain {F : Type} (atof : List Char → F) (fuel flags : Nat)
    (lead : List Char) (cs : List (Corner × List Char)) (cr : Bool)
    (hwf : (objloader.Item.face lead cs cr).WellFormed)
    (hflag : objloader.hasFlag flags OBJ_TRIANGULATE = false) (hfuel : cs.length + 2 ≤ fuel) :
    ∃ r, objParse atof fuel flags (objloader.Item.face lead cs cr).text = .ok r ∧
      r.1 = 0 ∧
      r.2.strayStores = (List.range' 0 cs.length).filter (fun k => decide (256 ≤ k)) ∧
      ∃ indices, r.2.events = [Event.addFace cs.length indices] := by
  have h := parseLoop_face_plain atof fuel flags
    (initParser (objloader.Item.face lead cs cr).text) lead cs cr hwf
    (List.append_nil _).symm hflag hfuel
  unfold objParse
  cases hrun : parseLoop atof flags fuel (initParser (objloader.Item.face lead cs cr).text) with
  | ok r =>
    rw [hrun] at h
    exact ⟨(0, r), rfl, rfl, h⟩
  | undefined => rw [hrun] at h; exact absurd h id
  | timeout => rw [hrun] at h; exact absurd h id

end objparser

/-! ## The invariants on a well-formed text -/

namespace objloader

/-- On a well-formed text in which every face line has at least three corners,
`objLoadModel`, which goes on where C leaves the run undefined, returns under every
flag setting, and in every group of its model the corner counts add up to
`indicesSize`. -/
theorem objLoadModel_balanced {F : Type} (atof : List Char → F) (flags : Nat)
    (items : List Item) (hwf : ∀ it ∈ items, it.WellFormed)
    (h3 : ∀ it ∈ items, it.AtLeastTriangle) (fuel : Nat)
    (hfuel : (render items).length + 2 ≤ fuel) :
    (objLoadModel atof fuel (render items) flags).Holds fun m =>
      ∀ g ∈ m.groups, g.indicesPerFace.sum = g.indicesSize := by
  apply objLoadModel_holds
  refine (objLoadRun_render atof flags items hwf fuel hfuel).imp ?_
  intro s hs g hg
  have hbal := applyItems_balanced (hasFlag flags OBJ_TRIANGULATE) items
    (initState (F := F) (render items) flags).core hwf h3
    (by
      intro x hx
      simp [initState, LoaderState.core] at hx
      subst hx
      exact createGroup_balanced none)
  rw [← hs] at hbal
  exact hbal g hg

/-- On a well-formed text whose `usemtl` lines name pairwise different materials,
`objLoadModel`, which goes on where C leaves the run undefined, returns under every
flag setting, and `numFaces` summed over the groups of its model is the number of `f`
lines when `OBJ_TRIANGULATE` is not set, and the sum of `N - 2` over the `f` lines,
`N` being the corner count of the line, when it is set. -/
theorem objLoadModel_totalFaces {F : Type} (atof : List Char → F) (flags : Nat)
    (items : List Item) (hwf : ∀ it ∈ items, it.WellFormed)
    (h3 : ∀ it ∈ items, it.AtLeastTriangle) (hnodup : (usedMaterials items).Nodup)
    (fuel : Nat) (hfuel : (render items).length + 2 ≤ fuel) :
    (objLoadModel atof fuel (render items) flags).Holds fun m =>
      totalFaces m.groups = storedFaces (hasFlag flags OBJ_TRIANGULATE) items ∧
      (hasFlag flags OBJ_TRIANGULATE = false → totalFaces m.groups = faceLines items) := by
  apply objLoadModel_holds
  refine (objLoadRun_render atof flags items hwf fuel hfuel).imp ?_
  intro s hs
  have hcount := applyItems_counted (hasFlag flags OBJ_TRIANGULATE) items
    (initState (F := F) (render items) flags).core [] 0 h3 hnodup (by simp)
    (initState_counted (render items) flags)
  rw [← hs, Nat.zero_add] at hcount
  refine ⟨hcount, fun hplain => ?_⟩
  rw [hplain] at hcount
  rw [← storedFaces_plain]
  exact hcount

end objloader

/-! ## The runs that C defines -/

namespace objloader.strict

/-- The strict loop ends as undefined or does what `loadLoop` does. -/
theorem loadLoop_undefined_or {F : Type} (atof : List Char → F) (flags : Nat) :
    ∀ (fuel : Nat) (s : LoaderState F),
      loadLoop atof flags fuel s = .undefined ∨
        loadLoop atof flags fuel s = objloader.loadLoop atof flags fuel s := by
  intro fuel
  induction fuel with
  | zero => intro s; exact Or.inr rfl
  | succ fuel ih =>
    intro s
    rw [loadLoop, objloader.loadLoop]
    split
    · exact Or.inl rfl
    · split
      · exact Or.inr rfl
      · split
        · cases loadStep atof fuel flags s with
          | ok s1 => exact ih s1
          | undefined => exact Or.inl rfl
          | timeout => exact Or.inr rfl
        · exact Or.inl rfl

theorem objLoadModel_undefined_or {F : Type} (atof : List Char → F) (fuel : Nat)
    (data : List Char) (flags : Nat) :
    objLoadModel atof fuel data flags = .undefined ∨
      objLoadModel atof fuel data flags = objloader.objLoadModel atof fuel data flags := by
  unfold objLoadModel objloader.objLoadModel objLoadRun
  rcases loadLoop_undefined_or atof flags fuel (initState data flags) with h | h
  · rw [h]; exact Or.inl rfl
  · rw [h]; exact Or.inr rfl

end objloader.strict

/-! ## Before the first `usemtl` line -/

namespace objloader

/-- Before any `usemtl` line the scan of the `usemtl` branch reads a local
that has no value: `lastMaterial` at the first group whose name matches, or
`lastGroupName` before that. -/
theorem strict_findGroup_plain (cgn : Option (List Char)) (material : List Char) :
    ∀ (gs : List ObjGroup) (lgn : Option (List Char)) (k : Nat), gs ≠ [] →
      (∀ g ∈ gs, g.material = none) → (∀ n, cgn = some n → ∃ g ∈ gs, g.name = some n) →
      strict.findGroup cgn material gs lgn none k = .undefined := by
  intro gs
  induction gs with
  | nil => intro lgn k h; exact absurd rfl h
  | cons g gs ih =>
    intro lgn k _ hmat hname
    have hg : g.material = none := hmat g (by simp)
    rw [strict.findGroup]
    simp only [hg, Option.isSome_none, Bool.false_eq_true, if_false, Option.isNone_none, if_true]
    have hl : ∀ n, g.name = some n →
        (if g.name.isSome = true then g.name else lgn) = some n := by
      intro n hn
      simp [hn]
    generalize (if g.name.isSome = true then g.name else lgn) = l at hl ⊢
    cases cgn with
    | none => simp
    | some n =>
      simp only [Option.isSome_some, Bool.true_and, Option.isNone_some, Bool.false_or]
      by_cases h1 : l.isNone = true
      · simp only [h1, if_true]
      · simp only [h1, if_false]
        by_cases h2 : (l == some n) = true
        · simp [h2]
        · simp only [h2, if_false]
          obtain ⟨x, hx, hxn⟩ := hname n rfl
          have hxg : x ≠ g := by
            rintro rfl
            apply h2
            rw [hl n hxn]
            simp
          have hxs : x ∈ gs := by
            rcases List.mem_cons.1 hx with h | h
            · exact absurd h hxg
            · exact h
          refine ih _ _ (List.ne_nil_of_mem hxs)
            (fun y hy => hmat y (List.mem_cons_of_mem _ hy)) ?_
          intro m hm
          have hnm : n = m := Option.some.inj hm
          exact ⟨x, hxs, hnm ▸ hxn⟩

theorem Core.Plain.set {k : Core} (h : k.Plain) (g : ObjGroup)
    (hmat : g.material = none) (hname : ∀ n, k.current.name = some n → g.name = some n) :
    (k.setCurrent g).Plain := by
  obtain ⟨h1, h2, h3⟩ := h
  have hmem : g ∈ k.groups.set k.currentGroup g :=
    List.mem_iff_getElem?.2 ⟨k.currentGroup, by simp [List.getElem?_set, h2]⟩
  refine ⟨?_, by simpa [Core.setCurrent] using h2, ?_⟩
  · intro x hx
    rcases List.mem_or_eq_of_mem_set hx with hx | hx
    · exact h1 x hx
    · rw [hx]; exact hmat
  · intro n hn
    obtain ⟨x, hx, hxn⟩ := h3 n hn
    obtain ⟨i, hi⟩ := List.getElem?_of_mem hx
    by_cases hic : i = k.currentGroup
    · refine ⟨g, hmem, hname n ?_⟩
      have hcur : k.current = x := by
        simp only [Core.current, List.getD_eq_getElem?_getD, ← hic, hi]
        rfl
      rw [hcur, hxn]
    · refine ⟨x, ?_, hxn⟩
      refine List.mem_iff_getElem?.2 ⟨i, ?_⟩
      show (k.groups.set k.currentGroup g)[i]? = some x
      rw [List.getElem?_set_ne (Ne.symm hic)]
      exact hi

theorem Core.Plain.no_material {k : Core} (h : k.Plain) : k.current.material = none := by
  rcases k.current_mem_or with hm | hm
  · exact h.1 _ hm
  · rw [hm]; rfl

/-- A line other than `usemtl` leaves the chain as it is before any `usemtl`
line. -/
theorem Core.Plain.apply {k : Core} (h : k.Plain) (tri : Bool) (it : Item)
    (hit : it.isUsemtl = false) : (it.apply tri k).Plain := by
  cases it with
  | blank c => exact h
  | comment text => exact h
  | vertex sep body => exact h
  | texcoord body => exact h
  | normal body => exact h
  | other text => exact h
  | mtllib name trail => exact h
  | usemtl name trail => exact absurd hit (by simp [Item.isUsemtl])
  | face lead cs cr =>
    obtain ⟨e1, e2⟩ := faceSteps_name_material tri
      ((cs.map Prod.fst).map fun c => c.resolve k.vertexCount k.uvCount k.normalCount) 0
      k.current
    exact h.set _ (by rw [e2]; exact h.no_material)
      (fun n hn => by rw [e1]; exact hn)
  | group name trail =>
    show (k.group name).Plain
    unfold Core.group
    split
    · obtain ⟨h1, h2, h3⟩ := h
      have hmem : ({ k.current with name := some name } : ObjGroup) ∈
          k.groups.set k.currentGroup { k.current with name := some name } :=
        List.mem_iff_getElem?.2 ⟨k.currentGroup, by simp [List.getElem?_set, h2]⟩
      refine ⟨?_, by simpa [Core.setCurrent] using h2, ?_⟩
      · intro x hx
        rcases List.mem_or_eq_of_mem_set hx with hx | hx
        · exact h1 x hx
        · rw [hx]
          exact Core.Plain.no_material ⟨h1, h2, h3⟩
      · intro n hn
        have hnn : name = n := Option.some.inj hn
        exact ⟨_, hmem, by rw [← hnn]⟩
    · obtain ⟨h1, h2, h3⟩ := h
      refine ⟨?_, by simp, ?_⟩
      · intro x hx
        rcases List.mem_append.1 hx with hx | hx
        · exact h1 x hx
        · rw [List.mem_singleton.1 hx]; rfl
      · intro n hn
        obtain ⟨x, hx, hxn⟩ := h3 n hn
        exact ⟨x, List.mem_append_left _ hx, hxn⟩

end objloader

namespace objloader

theorem usedMaterials_blanks (cs : List Char) (items : List Item) :
    usedMaterials (cs.map Item.blank ++ items) = usedMaterials items := by
  induction cs with
  | nil => rfl
  | cons c cs ih => simpa [usedMaterials] using ih

theorem usedMaterials_cons (it : Item) (items : List Item) (h : it.isUsemtl = false) :
    usedMaterials (it :: items) = usedMaterials items := by
  cases it <;> first | rfl | exact absurd h (by simp [Item.isUsemtl])

/-- The first `usemtl` line of a run is not defined. -/
theorem roundDefined_usemtl {F : Type} (fuel flags : Nat) (s : LoaderState F)
    (name trail rest : List Char) (hplain : s.core.Plain)
    (h : s.data.drop s.token = (Item.usemtl name trail).text ++ rest) :
    strict.roundDefined fuel flags s = false := by
  have h' : s.data.drop s.token =
      ['u', 's', 'e', 'm', 't', 'l', ' '] ++ (name ++ (trail ++ '\n' :: rest)) := by
    simpa [Item.text] using h
  have hskip := skipWhitespaceAndComments_start (c := 'u') (by simpa using h')
    (by decide) (by decide)
  have hpeek : peek s.data s.token = 'u' := peek_of_drop (by simpa using h')
  have hsw : startsWith ['u', 's', 'e', 'm', 't', 'l'] s.data s.token = true := by
    simp [startsWith, h']
  have e1 : ('u' == 'v') = false := by decide
  have e2 : ('u' == 'f') = false := by decide
  have e3 : ('u' == 'g') = false := by decide
  obtain ⟨p1, p2, p3⟩ := hplain
  have hscan : ∀ m, strict.scanDefined s.currentGroupName m s.model.groups = false := by
    intro m
    unfold strict.scanDefined
    rw [strict_findGroup_plain s.currentGroupName m s.model.groups none 0
      (List.ne_nil_of_length_pos (by exact Nat.lt_of_le_of_lt (Nat.zero_le _) p2)) p1 p3]
  simp only [strict.roundDefined, hskip, hpeek, e1, e2, e3, hsw, Bool.false_eq_true, if_false,
    if_true, String.toList, hscan, Bool.and_false]

/-- Blanks and comments in front of a line do not change what the strict loop
does. -/
theorem strict_loadLoop_token {F : Type} (atof : List Char → F) (flags fuel : Nat)
    (s : LoaderState F) (token : Nat)
    (hskip : skipWhitespaceAndComments s.data s.token = skipWhitespaceAndComments s.data token)
    (hpeek : peek s.data s.token ≠ '\x00') (hpeek2 : peek s.data token ≠ '\x00')
    (hle : s.token ≤ s.data.length) (hle2 : token ≤ s.data.length) :
    strict.loadLoop atof flags (fuel + 1) s =
      strict.loadLoop atof flags (fuel + 1) { s with token := token } := by
  have hr : strict.roundDefined fuel flags s =
      strict.roundDefined fuel flags { s with token := token } := by
    simp only [strict.roundDefined, hskip]
    rfl
  rw [strict.loadLoop, strict.loadLoop, ← hr, ← loadStep_token atof fuel flags s token hskip]
  simp only [beq_iff_eq, hpeek, hpeek2, if_false, Nat.not_lt.2 hle, Nat.not_lt.2 hle2]

/-- On a well-formed text, read from a state in which no `usemtl` line has
been read, a strict run that is not undefined has met no `usemtl` line. -/
theorem strict_loadLoop_plain {F : Type} (atof : List Char → F) (flags : Nat) :
    ∀ (n : Nat) (items : List Item) (s : LoaderState F) (fuel : Nat),
      (render items).length ≤ n → (∀ it ∈ items, it.WellFormed) →
      s.data.drop s.token = render items → s.core.Plain → n + 2 ≤ fuel →
      strict.loadLoop atof flags fuel s ≠ .undefined → usedMaterials items = [] := by
  intro n
  induction n with
  | zero =>
    intro items s fuel hlen hwf h _ _ _
    have hnil : render items = [] := List.length_eq_zero.1 (by omega)
    rw [render_eq_nil items hwf hnil]
    rfl
  | succ n ih =>
    intro items s fuel hlen hwf h hplain hfuel hdef
    obtain ⟨f, rfl⟩ : ∃ f, fuel = f + 2 := ⟨fuel - 2, by omega⟩
    cases items with
    | nil => rfl
    | cons it rest =>
      have hwf_it := hwf it (by simp)
      have hwf_rest : ∀ x ∈ rest, x.WellFormed := fun x hx => hwf x (List.mem_cons_of_mem _ hx)
      obtain ⟨c, cs, hcs, hc⟩ := it.text_head hwf_it
      rw [render_cons] at h hlen
      have hpeek : peek s.data s.token ≠ '\x00' := by
        rw [peek_of_drop (by rw [h, hcs]; rfl)]; exact hc
      have hlt : s.token < s.data.length := lt_length_of_drop (by rw [h, hcs]; rfl)
      have hd := drop_add_of_drop h
      have hlen_rest : (render rest).length ≤ n := by
        simp only [List.length_append, hcs, List.length_cons] at hlen
        omega
      have hskip_case : ∀ (_ : skipWhitespaceAndComments s.data s.token =
          skipWhitespaceAndComments s.data (s.token + it.text.length))
          (_ : it.isUsemtl = false), usedMaterials (it :: rest) = [] := by
        intro hskip hnot
        rw [usedMaterials_cons it rest hnot]
        by_cases hrest : rest = []
        · rw [hrest]; rfl
        · obtain ⟨c2, cs2, hcs2, hc2⟩ := render_head rest hwf_rest hrest
          have hpeek2 : peek s.data (s.token + it.text.length) ≠ '\x00' := by
            rw [peek_of_drop (hd.trans hcs2)]; exact hc2
          have hlt2 : s.token + it.text.length < s.data.length :=
            lt_length_of_drop (hd.trans hcs2)
          rw [strict_loadLoop_token atof flags (f + 1) s _ hskip hpeek hpeek2 (by omega)
            (by omega)] at hdef
          exact ih rest { s with token := s.token + it.text.length } (f + 2) hlen_rest
            hwf_rest hd hplain (by omega) hdef
      by_cases hsig : it.Significant
      · have hstep := loadStep_item atof (f + 1) flags s it (render rest) hwf_it hsig h
          (by simp only [List.length_append] at hlen; omega)
        rw [Outcome.holds_iff] at hstep
        obtain ⟨s1, hs1, hcore, -, hdrop, hle1⟩ := hstep
        rw [strict.loadLoop] at hdef
        simp only [beq_iff_eq, hpeek, if_false, Nat.not_lt.2 (Nat.le_of_lt hlt), hs1] at hdef
        by_cases hus : it.isUsemtl = true
        · exfalso
          cases it with
          | usemtl name trail =>
            rw [roundDefined_usemtl (f + 1) flags s name trail (render rest) hplain h] at hdef
            exact hdef rfl
          | blank c => exact absurd hus (by simp [Item.isUsemtl])
          | comment text => exact absurd hus (by simp [Item.isUsemtl])
          | vertex sep body => exact absurd hus (by simp [Item.isUsemtl])
          | texcoord body => exact absurd hus (by simp [Item.isUsemtl])
          | normal body => exact absurd hus (by simp [Item.isUsemtl])
          | face lead cs cr => exact absurd hus (by simp [Item.isUsemtl])
          | group name trail => exact absurd hus (by simp [Item.isUsemtl])
          | mtllib name trail => exact absurd hus (by simp [Item.isUsemtl])
          | other text => exact absurd hus (by simp [Item.isUsemtl])
        · have hnot : it.isUsemtl = false := by simpa using hus
          rw [usedMaterials_cons it rest hnot]
          by_cases hr : strict.roundDefined (f + 1) flags s = true
          · simp only [hr, if_true] at hdef
            obtain ⟨hres_ws, hres_len⟩ := it.residue_spec flags hwf_it
            have hrec := ih ((it.residue flags).map Item.blank ++ rest) s1 (f + 1)
              (by
                rw [render_blanks]
                simp only [List.length_append] at hlen ⊢
                omega)
              (by
                intro x hx
                rw [List.mem_append] at hx
                rcases hx with hx | hx
                · obtain ⟨c', hc', rfl⟩ := List.mem_map.1 hx
                  exact hres_ws c' hc'
                · exact hwf_rest x hx)
              (by rw [render_blanks]; exact hdrop)
              (by rw [hcore]; exact hplain.apply _ it hnot) (by omega) hdef
            rw [usedMaterials_blanks] at hrec
            exact hrec
          · simp only [hr, Bool.false_eq_true, if_false] at hdef
            exact absurd rfl hdef
      · cases it with
        | blank c =>
          have hws : isWhitespace c = true := hwf_it
          exact hskip_case
            (skipWhitespaceAndComments_blank (by simpa [Item.text] using h) hws) rfl
        | comment text =>
          have htext : ∀ c ∈ text, isLineChar c = true := hwf_it
          have e : s.data.drop s.token = '#' :: (text ++ '\n' :: render rest) := by
            simpa [Item.text] using h
          have hskip := skipWhitespaceAndComments_comment e htext
          exact hskip_case (by simpa [Item.text] using hskip) rfl
        | vertex sep body => exact absurd trivial hsig
        | texcoord body => exact absurd trivial hsig
        | normal body => exact absurd trivial hsig
        | face lead cs cr => exact absurd trivial hsig
        | group name trail => exact absurd trivial hsig
        | usemtl name trail => exact absurd trivial hsig
        | mtllib name trail => exact absurd trivial hsig
        | other text => exact absurd trivial hsig

end objloader

namespace objloader

theorem initState_plain {F : Type} (data : List Char) (flags : Nat) :
    (initState (F := F) data flags).core.Plain := by
  refine ⟨?_, by simp [initState, LoaderState.core], ?_⟩
  · intro g hg
    simp [initState, LoaderState.core] at hg
    subst hg
    rfl
  · intro n hn
    simp [initState, LoaderState.core] at hn

theorem strict_objLoadModel_usemtl {F : Type} (atof : List Char → F) (flags : Nat)
    (items : List Item) (hwf : ∀ it ∈ items, it.WellFormed) (fuel : Nat)
    (hfuel : (render items).length + 2 ≤ fuel)
    (hdef : strict.objLoadModel atof fuel (render items) flags ≠ .undefined) :
    usedMaterials items = [] := by
  refine strict_loadLoop_plain atof flags (render items).length items
    (initState (render items) flags) fuel (Nat.le_refl _) hwf rfl
    (initState_plain (render items) flags) hfuel ?_
  intro h
  apply hdef
  unfold strict.objLoadModel
  rw [h]

end objloader

/-! ## The runs that C defines: texts without material lines -/

namespace objloader

theorem fanCorners_size (tri : Bool) (i : Nat) (g : ObjGroup) :
    g.indicesSize ≤ (fanCorners tri i g).1.indicesSize ∧
    (fanCorners tri i g).1.indicesSize ≤ g.indicesSize + 2 ∧
    (fanCorners tri i g).1.numFaces = g.numFaces := by
  unfold fanCorners
  split
  · simp [pushIndex, ObjGroup.indicesSize, ObjGroup.numFaces]
  · simp

theorem growIndices_size (g : ObjGroup) :
    (growIndices g).indicesSize = g.indicesSize ∧ (growIndices g).numFaces = g.numFaces := by
  simp [ObjGroup.indicesSize, ObjGroup.numFaces]

theorem pushFace_size (tri : Bool) (i : Nat) (g : ObjGroup) :
    (pushFace tri i g).indicesSize = g.indicesSize ∧
    (pushFace tri i g).numFaces = g.numFaces + 1 := by
  simp [ObjGroup.indicesSize, ObjGroup.numFaces]

theorem pushIndex_size (g : ObjGroup) (vi : ObjVertexIndex) :
    (pushIndex g vi).indicesSize = g.indicesSize + 1 ∧
    (pushIndex g vi).numFaces = g.numFaces := by
  simp [pushIndex, ObjGroup.indicesSize, ObjGroup.numFaces]

/-- The face loop returns with a triplet and a face more, at least. -/
theorem faceLoop_grows (data : List Char) (tri : Bool) (vc tc nc : Nat) :
    ∀ (fuel i : Nat) (g : ObjGroup) (token : Nat) (r : ObjGroup × Nat),
      faceLoop data tri vc tc nc fuel i g token = .ok r →
      g.indicesSize + 1 ≤ r.1.indicesSize ∧ g.numFaces + 1 ≤ r.1.numFaces := by
  intro fuel
  induction fuel with
  | zero => intro i g token r h; simp [faceLoop] at h
  | succ fuel ih =>
    intro i g token r h
    rw [faceLoop] at h
    obtain ⟨f1, f2, f3⟩ := fanCorners_size tri i (growIndices g)
    obtain ⟨g1, g2⟩ := growIndices_size g
    split at h
    · split at h
      · cases h
        simp only [pushFace_size, pushIndex_size]
        omega
      · obtain ⟨a, b⟩ := ih _ _ _ _ h
        simp only [pushFace_size, pushIndex_size] at a b
        omega
    · obtain ⟨a, b⟩ := ih _ _ _ _ h
      simp only [pushIndex_size] at a b
      omega

theorem createGroup_roomy (name : Option (List Char)) : (createGroup name).Roomy := by
  refine ⟨Or.inl ⟨rfl, rfl⟩, ?_, ?_⟩ <;> simp [createGroup, ObjGroup.numFaces]

theorem growIndices_room (g : ObjGroup) (h : g.Roomy) (hsize : g.indicesSize ≤ 2147483645) :
    (growIndices g).Room 3 := by
  obtain ⟨h1, h2, h3⟩ := h
  unfold growIndices
  split
  · rename_i hg
    have hmod : g.indicesCapacity * 2 % 4294967296 = g.indicesCapacity * 2 :=
      Nat.mod_eq_of_lt (by omega)
    rcases h1 with ⟨a, b⟩ | ⟨a, b, _, _⟩
    · refine ⟨?_, ?_, h2, h3⟩
      · show g.indicesSize + 3 ≤ g.indicesCapacity * 2 % 4294967296
        omega
      · show 4 ≤ g.indicesCapacity * 2 % 4294967296
        omega
    · refine ⟨?_, ?_, h2, h3⟩
      · show g.indicesSize + 3 ≤ g.indicesCapacity * 2 % 4294967296
        omega
      · show 4 ≤ g.indicesCapacity * 2 % 4294967296
        omega
  · rename_i hg
    rcases h1 with ⟨a, b⟩ | ⟨a, b, _, _⟩
    · omega
    · exact ⟨by omega, b, h2, h3⟩

theorem pushIndex_room (k : Nat) (g : ObjGroup) (vi : ObjVertexIndex) (h : g.Room (k + 1)) :
    indexStoreFits g = true ∧ (pushIndex g vi).Room k := by
  obtain ⟨h1, h2, h3, h4⟩ := h
  refine ⟨?_, ?_, h2, h3, h4⟩
  · simp only [indexStoreFits, decide_eq_true_eq]
    omega
  · show (g.indices ++ [vi]).length + k ≤ g.indicesCapacity
    simp only [List.length_append, List.length_singleton]
    simp only [ObjGroup.indicesSize] at h1
    omega

theorem room_mono {k j : Nat} (g : ObjGroup) (hkj : j ≤ k) (h : g.Room k) : g.Room j := by
  obtain ⟨h1, h2, h3, h4⟩ := h
  exact ⟨by omega, h2, h3, h4⟩

theorem room_roomy (g : ObjGroup) (h : g.Room 0) : g.Roomy := ⟨Or.inr h, h.2.2.1, h.2.2.2⟩

theorem fanCorners_room (triangulate : Bool) (i : Nat) (g : ObjGroup) (h : g.Room 3) :
    fanCornersFit triangulate i g = true ∧ (fanCorners triangulate i g).1.Room 1 := by
  unfold fanCornersFit fanCorners
  split
  · obtain ⟨a, b⟩ := pushIndex_room 2 g (g.indices.getD (g.indicesSize - i) default) h
    obtain ⟨c, d⟩ := pushIndex_room 1 _ (g.indices.getD (g.indicesSize - 1) default) b
    exact ⟨by simp only [a, c, Bool.and_self], d⟩
  · exact ⟨rfl, room_mono g (by omega) h⟩

theorem pushFace_roomy (triangulate : Bool) (i : Nat) (g : ObjGroup) (h : g.Room 0)
    (hfaces : g.numFaces ≤ 2147483646) :
    pushFaceFits g = true ∧ (pushFace triangulate i g).Room 0 := by
  obtain ⟨h1, h2, h3, h4⟩ := h
  unfold pushFaceFits pushFace
  simp only [ObjGroup.numFaces, ObjGroup.indicesSize, ObjGroup.Room] at *
  split
  · rename_i hc
    have hmod : g.indicesPerFaceCapacity * 2 % 4294967296 = g.indicesPerFaceCapacity * 2 :=
      Nat.mod_eq_of_lt (by omega)
    refine ⟨?_, h1, h2, ?_, ?_⟩
    · simp only [decide_eq_true_eq]
      omega
    · simp only [List.length_append, List.length_singleton]
      omega
    · dsimp only
      omega
  · rename_i hc
    refine ⟨?_, h1, h2, ?_, h4⟩
    · simp only [decide_eq_true_eq]
      omega
    · simp only [List.length_append, List.length_singleton]
      omega

/-- When the face loop returns a group of fewer than `2 ^ 31 - 1` triplets and
faces, no capacity has wrapped: every store of the loop has gone to a position
below the capacity, and the group is `Roomy` again. -/
theorem faceLoop_fits_of_ok (data : List Char) (tri : Bool) (vc tc nc : Nat) :
    ∀ (fuel i : Nat) (g : ObjGroup) (token : Nat) (r : ObjGroup × Nat), g.Roomy →
      faceLoop data tri vc tc nc fuel i g token = .ok r →
      r.1.indicesSize ≤ 2147483646 → r.1.numFaces ≤ 2147483647 →
      faceLoopFits data tri vc tc nc fuel i g token = true ∧ r.1.Roomy := by
  intro fuel
  induction fuel with
  | zero => intro i g token r _ h; simp [faceLoop] at h
  | succ fuel ih =>
    intro i g token r hg h hs hf
    obtain ⟨m1, m2⟩ := faceLoop_grows data tri vc tc nc (fuel + 1) i g token r h
    have h3 := growIndices_room g hg (by omega)
    obtain ⟨hfan, h1⟩ := fanCorners_room tri i _ h3
    obtain ⟨hp, h0⟩ := pushIndex_room 0 _ (parseTriplet data token vc tc nc).1 h1
    rw [faceLoop] at h
    rw [faceLoopFits]
    simp only [hfan, hp, Bool.and_self, Bool.true_and]
    obtain ⟨f1, f2, f3⟩ := fanCorners_size tri i (growIndices g)
    obtain ⟨g1, g2⟩ := growIndices_size g
    split
    · rename_i hc
      simp only [hc, if_true] at h
      have hfaces : (pushIndex (fanCorners tri i (growIndices g)).1
          (parseTriplet data token vc tc nc).1).numFaces ≤ 2147483646 := by
        simp only [pushIndex_size]
        omega
      obtain ⟨hq, hr⟩ := pushFace_roomy tri
        ((fanCorners tri i (growIndices g)).2 + 1) _ h0 hfaces
      simp only [hq, Bool.true_and]
      split
      · rename_i hnl
        simp only [hnl, if_true] at h
        cases h
        exact ⟨rfl, room_roomy _ hr⟩
      · rename_i hnl
        simp only [hnl, if_false] at h
        exact ih _ _ _ r (room_roomy _ hr) h hs hf
    · rename_i hc
      simp only [hc, if_false] at h
      exact ih _ _ _ r (room_roomy _ h0) h hs hf

/-- The rounds of the face loop append three triplets and one face per corner
at most. -/
theorem faceSteps_size_le (tri : Bool) (cs : List ObjVertexIndex) :
    ∀ (i : Nat) (g : ObjGroup),
      (faceSteps tri cs i g).indicesSize ≤ g.indicesSize + 3 * cs.length ∧
      (faceSteps tri cs i g).numFaces ≤ g.numFaces + cs.length := by
  induction cs with
  | nil => intro i g; simp [faceSteps]
  | cons c cs ih =>
    intro i g
    obtain ⟨f1, f2, f3⟩ := fanCorners_size tri i (growIndices g)
    obtain ⟨g1, g2⟩ := growIndices_size g
    cases cs with
    | nil =>
      rw [faceSteps_single]
      simp only [pushFace_size, pushIndex_size, List.length_singleton]
      omega
    | cons d cs =>
      rw [faceSteps_cons_cons]
      split
      · obtain ⟨a, b⟩ := ih ((fanCorners tri i (growIndices g)).2 + 1)
          (pushFace tri ((fanCorners tri i (growIndices g)).2 + 1)
            (pushIndex (fanCorners tri i (growIndices g)).1 c))
        simp only [pushFace_size, pushIndex_size, List.length_cons] at a b ⊢
        omega
      · obtain ⟨a, b⟩ := ih ((fanCorners tri i (growIndices g)).2 + 1)
          (pushIndex (fanCorners tri i (growIndices g)).1 c)
        simp only [pushIndex_size, List.length_cons] at a b ⊢
        omega

end objloader

namespace objloader

theorem Core.setCurrent_current (k : Core) (g : ObjGroup) (h : k.currentGroup < k.groups.length) :
    (k.setCurrent g).current = g := by
  simp [Core.setCurrent, Core.current, List.getD_eq_getElem?_getD, List.getElem?_set, h]

theorem Core.Within.shrink {n m : Nat} {k : Core} (h : k.Within n) (hmn : m ≤ n) : k.Within m := by
  obtain ⟨h1, h2, h3, h4⟩ := h
  exact ⟨h1, h2, by omega, by omega⟩

theorem Core.Within.group {n : Nat} {k : Core} (h : k.Within n) (name : List Char) :
    (k.group name).Within n := by
  obtain ⟨h1, h2, h3, h4⟩ := h
  unfold Core.group
  split
  · refine ⟨by simpa [Core.setCurrent] using h1, ?_⟩
    have hc : Core.current { (k.setCurrent { k.current with name := some name }) with
        currentGroupName := some name } = { k.current with name := some name } :=
      Core.setCurrent_current k _ h1
    rw [hc]
    exact ⟨h2, h3, h4⟩
  · refine ⟨by simp, ?_⟩
    simp only [Core.current, List.getD_eq_getElem?_getD, List.getElem?_concat_length,
      Option.getD_some]
    refine ⟨createGroup_roomy _, ?_, ?_⟩
    · show 0 + 3 * n ≤ 2147483646
      omega
    · show 0 + n ≤ 2147483647
      omega

/-- The round of the main loop on a face line is defined when the current
group has room below `2 ^ 31`, and leaves a current group with room for the
rest of the text. -/
theorem roundDefined_face {F : Type} (fuel flags : Nat)
    (s : LoaderState F) (lead : List Char) (cs : List (Corner × List Char)) (cr : Bool)
    (rest : List Char) (hwf : (Item.face lead cs cr).WellFormed)
    (h : s.data.drop s.token = (Item.face lead cs cr).text ++ rest)
    (hfuel : cs.length ≤ fuel) (n m : Nat) (hn : cs.length + m ≤ n) (hin : s.core.Within n) :
    strict.roundDefined fuel flags s = true ∧
    (s.core.face (hasFlag flags OBJ_TRIANGULATE) (cs.map Prod.fst)).Within m := by
  obtain ⟨hlead, hne, hgaps, hrange⟩ := hwf
  obtain ⟨⟨e, es, he, henl⟩, xs, hxs, hxsall⟩ := faceEol_spec cr
  simp only [Item.text, List.cons_append, List.append_assoc] at h
  have hskip := skipWhitespaceAndComments_start h (by decide) (by decide)
  have hpeek := peek_of_drop h
  have h1 := drop_succ_of_drop h
  have h2 : s.data.drop (s.token + 2) = lead ++ (faceBody cs ++ (faceEol cr ++ rest)) :=
    drop_succ_of_drop h1
  have hlt1 : s.token + 1 < s.data.length := lt_length_of_drop h1
  obtain ⟨p, cs', rfl⟩ := List.exists_cons_of_ne_nil hne
  obtain ⟨d, ds, hds, hd⟩ := faceBody_head p cs'
  have hsp := skipSpace_of_drop h2 hlead
    (by rw [hds]; exact Stops.cons (not_space_of_head hd).1)
  have h3 := drop_add_of_drop h2
  have hloop := faceLoop_text s.data (hasFlag flags OBJ_TRIANGULATE) s.model.vertexCount
    s.model.uvCount s.model.normalCount (faceEol cr ++ rest)
    ⟨e, es ++ rest, by simp [he], henl⟩ (p :: cs') fuel 0 s.current _ hne hgaps hrange h3 hfuel
  obtain ⟨i1, i2, i3, i4⟩ := hin
  rw [current_core] at i2 i3 i4
  obtain ⟨b1, b2⟩ := faceSteps_size_le (hasFlag flags OBJ_TRIANGULATE)
    (((p :: cs').map (fun p => p.1.resolve s.model.vertexCount s.model.uvCount
      s.model.normalCount))) 0 s.current
  rw [List.length_map] at b1 b2
  obtain ⟨hfits, hroomy⟩ := faceLoop_fits_of_ok s.data (hasFlag flags OBJ_TRIANGULATE)
    s.model.vertexCount s.model.uvCount s.model.normalCount fuel 0 s.current _ _ i2 hloop
    (by dsimp only; omega) (by dsimp only; omega)
  have e1 : ('f' == 'v') = false := by decide
  refine ⟨?_, ?_⟩
  · simp only [strict.roundDefined, hskip, hpeek, e1, Bool.false_eq_true, if_false,
      beq_self_eq_true, if_true, hsp, hfits, Bool.and_true, decide_eq_true_eq]
    omega
  · have hc : (s.core.face (hasFlag flags OBJ_TRIANGULATE) ((p :: cs').map Prod.fst)).current =
        faceSteps (hasFlag flags OBJ_TRIANGULATE)
          ((p :: cs').map (fun p => p.1.resolve s.model.vertexCount s.model.uvCount
            s.model.normalCount)) 0 s.current := by
      unfold Core.face
      rw [Core.setCurrent_current _ _ i1, List.map_map]
      rfl
    refine ⟨by simpa [Core.face, Core.setCurrent] using i1, ?_⟩
    rw [hc]
    exact ⟨hroomy, by omega, by omega⟩

end objloader

namespace objloader

theorem appendFloats_room {F : Type} (atof : List Char → F) (data : List Char) (token : Nat)
    (hasZ : Bool) (size capacity : Nat) (list : List F) (n m : Nat)
    (h1 : size ≤ capacity) (h2 : (if hasZ = true then 3 else 2) ≤ capacity)
    (h3 : size + n ≤ 2147483647) (hnm : 3 + m ≤ n) :
    strict.floatsFit hasZ size capacity = true ∧
    (appendFloats atof data token hasZ size capacity list).1 ≤
      (appendFloats atof data token hasZ size capacity list).2.1 ∧
    (if hasZ = true then 3 else 2) ≤
      (appendFloats atof data token hasZ size capacity list).2.1 ∧
    (appendFloats atof data token hasZ size capacity list).1 + m ≤ 2147483647 := by
  cases hasZ
  · simp only [Bool.false_eq_true, if_false] at h2
    simp only [appendFloats, strict.floatsFit, Bool.false_eq_true, if_false,
      decide_eq_true_eq, ge_iff_le]
    split
    · rename_i hc
      have hmod : capacity * 2 % 4294967296 = capacity * 2 := Nat.mod_eq_of_lt (by omega)
      rw [hmod]
      omega
    · omega
  · simp only [if_true] at h2
    simp only [appendFloats, strict.floatsFit, if_true, decide_eq_true_eq, ge_iff_le]
    split
    · rename_i hc
      have hmod : capacity * 2 % 4294967296 = capacity * 2 := Nat.mod_eq_of_lt (by omega)
      rw [hmod]
      omega
    · omega

theorem LoaderState.FloatsWithin.shorter {F : Type} {n m : Nat} {s : LoaderState F}
    (h : s.FloatsWithin n) (hmn : m ≤ n) : s.FloatsWithin m := by
  obtain ⟨⟨a1, a2, a3⟩, ⟨b1, b2, b3⟩, c1, c2, c3⟩ := h
  exact ⟨⟨a1, a2, by omega⟩, ⟨b1, b2, by omega⟩, c1, c2, by omega⟩

/-- The `v` branch, from a state in which the arrays of floats have room below
`2 ^ 31`, stores below the capacities and leaves such a state. -/
theorem vertexBranch_floats {F : Type} (atof : List Char → F) (s s' : LoaderState F)
    (token : Nat) (h : vertexBranch atof s token = .ok s') (n m : Nat)
    (hin : s.FloatsWithin n) (hnm : 3 + m ≤ n) :
    strict.vertexBranchFits s token = true ∧ s'.FloatsWithin m := by
  obtain ⟨⟨a1, a2, a3⟩, ⟨b1, b2, b3⟩, c1, c2, c3⟩ := hin
  unfold vertexBranch at h
  unfold strict.vertexBranchFits
  simp only at h ⊢
  by_cases h1 : IS_SPACE (peekAt s.data token 1) = true
  · simp only [h1, if_true] at h ⊢
    cases h
    obtain ⟨r1, r2, r3, r4⟩ := appendFloats_room atof s.data token true s.model.vertexCount
      s.verticesCapacity s.model.vertices n m a1 a2 a3 hnm
    exact ⟨r1, ⟨r2, r3, r4⟩, ⟨b1, b2, by dsimp only; omega⟩, c1, c2, by dsimp only; omega⟩
  · simp only [h1, if_false] at h ⊢
    by_cases h2 : (peekAt s.data token 1 == 't') = true
    · simp only [h2, if_true] at h ⊢
      cases h
      obtain ⟨r1, r2, r3, r4⟩ := appendFloats_room atof s.data token false s.model.uvCount
        s.uvsCapacity s.model.texcoords n m b1 b2 b3 hnm
      exact ⟨r1, ⟨a1, a2, by dsimp only; omega⟩, ⟨r2, r3, r4⟩, c1, c2, by dsimp only; omega⟩
    · simp only [h2, if_false] at h ⊢
      by_cases h3 : (peekAt s.data token 1 == 'n') = true
      · simp only [h3, if_true] at h ⊢
        cases h
        obtain ⟨r1, r2, r3, r4⟩ := appendFloats_room atof s.data token true
          s.model.normalCount s.normalsCapacity s.model.normals n m c1 c2 c3 hnm
        exact ⟨r1, ⟨a1, a2, by dsimp only; omega⟩, ⟨b1, b2, by dsimp only; omega⟩, r2, r3, r4⟩
      · simp only [h3, if_false] at h
        cases h

theorem groupBranch_floats {F : Type} (flags : Nat) (s : LoaderState F) (token n : Nat)
    (hin : s.FloatsWithin n) : (groupBranch flags s token).FloatsWithin n := by
  unfold groupBranch
  simp only
  split <;> exact hin

theorem usemtlBranch_floats {F : Type} (flags : Nat) (s : LoaderState F) (token n : Nat)
    (hin : s.FloatsWithin n) : (usemtlBranch flags s token).FloatsWithin n := by
  unfold usemtlBranch
  simp only
  split
  · exact hin
  · split <;> exact hin

theorem faceBranch_floats {F : Type} (fuel flags : Nat) (s s' : LoaderState F) (token n : Nat)
    (h : faceBranch fuel flags s token = .ok s') (hin : s.FloatsWithin n) :
    s'.FloatsWithin n := by
  unfold faceBranch at h
  simp only at h
  cases hl : faceLoop s.data (hasFlag flags OBJ_TRIANGULATE) s.model.vertexCount s.model.uvCount
    s.model.normalCount fuel 0 s.current (skipSpace s.data (token + 2)) with
  | ok r => rw [hl] at h; cases h; exact hin
  | undefined => rw [hl] at h; cases h
  | timeout => rw [hl] at h; cases h

/-- A round of the main loop, from a state in which the arrays of floats have
room below `2 ^ 31` for the floats of the line, leaves such a state, and its
`v` branch stores below the capacities. -/
theorem loadStep_floats {F : Type} (atof : List Char → F) (fuel flags : Nat)
    (s s' : LoaderState F) (h : loadStep atof fuel flags s = .ok s') (n m : Nat)
    (hin : s.FloatsWithin n) (hm : m ≤ n)
    (hnm : (peek s.data (skipWhitespaceAndComments s.data s.token) == 'v') = true →
      3 + m ≤ n) :
    s'.FloatsWithin m ∧
    ((peek s.data (skipWhitespaceAndComments s.data s.token) == 'v') = true →
      strict.vertexBranchFits s (skipWhitespaceAndComments s.data s.token) = true) := by
  have key : ∀ t : LoaderState F, t.FloatsWithin m →
      LoaderState.FloatsWithin m { t with token := skipLine t.data t.token } := fun _ ht => ht
  unfold loadStep at h
  simp only at h
  by_cases h1 : (peek s.data (skipWhitespaceAndComments s.data s.token) == 'v') = true
  · simp only [h1, if_true] at h
    cases hv : vertexBranch atof s (skipWhitespaceAndComments s.data s.token) with
    | ok t =>
      rw [hv] at h
      cases h
      obtain ⟨r1, r2⟩ := vertexBranch_floats atof s t _ hv n m hin (hnm h1)
      exact ⟨key t r2, fun _ => r1⟩
    | undefined => rw [hv] at h; cases h
    | timeout => rw [hv] at h; cases h
  · refine ⟨?_, fun hc => absurd hc h1⟩
    simp only [h1, if_false] at h
    by_cases h2 : (peek s.data (skipWhitespaceAndComments s.data s.token) == 'f') = true
    · simp only [h2, if_true] at h
      cases hv : faceBranch fuel flags s (skipWhitespaceAndComments s.data s.token) with
      | ok t =>
        rw [hv] at h
        cases h
        exact key t ((faceBranch_floats fuel flags s t _ n hv hin).shorter hm)
      | undefined => rw [hv] at h; cases h
      | timeout => rw [hv] at h; cases h
    · simp only [h2, if_false] at h
      by_cases h3 : (peek s.data (skipWhitespaceAndComments s.data s.token) == 'g') = true
      · simp only [h3, if_true] at h
        cases h
        exact key _ ((groupBranch_floats flags s _ n hin).shorter hm)
      · simp only [h3, if_false] at h
        by_cases h4 : startsWith "usemtl".toList s.data
            (skipWhitespaceAndComments s.data s.token) = true
        · simp only [h4, if_true] at h
          cases h
          exact key _ ((usemtlBranch_floats flags s _ n hin).shorter hm)
        · simp only [h4, if_false] at h
          by_cases h5 : startsWith "mtllib".toList s.data
              (skipWhitespaceAndComments s.data s.token) = true
          · simp only [h5, if_true] at h
            cases h
            exact hin.shorter hm
          · simp only [h5, if_false] at h
            cases h
            exact hin.shorter hm

theorem initState_floats {F : Type} (data : List Char) (flags n : Nat)
    (hn : n ≤ 2147483647) : (initState (F := F) data flags).FloatsWithin n := by
  refine ⟨⟨?_, ?_, ?_⟩, ⟨?_, ?_, ?_⟩, ?_, ?_, ?_⟩ <;>
    simp only [initState, Nat.zero_le, Nat.le_refl, Nat.zero_add] <;> omega

theorem endsWithLine_tail (it : Item) (rest : List Item) (h : endsWithLine (it :: rest) = true) :
    endsWithLine rest = true := by
  cases rest with
  | nil => rfl
  | cons r rs => exact h

/-- The round of the main loop on a line other than `usemtl`, `mtllib` and,
under `OBJ_IN_SITU`, `g` is defined when the current group has room below
`2 ^ 31`; it leaves nothing of the line behind and a current group with room
for the rest of the text. -/
theorem roundDefined_safe {F : Type} (atof : List Char → F) (fuel flags : Nat)
    (s s1 : LoaderState F) (it : Item)
    (rest : List Char) (hwf : it.WellFormed) (hsig : it.Significant)
    (hsafe : it.isSafe flags = true) (h : s.data.drop s.token = it.text ++ rest)
    (hs1 : loadStep atof fuel flags s = .ok s1)
    (hfuel : it.text.length ≤ fuel) (n m : Nat) (hn : it.text.length + m ≤ n)
    (hin : s.core.Within n) (hfl : s.FloatsWithin n) :
    strict.roundDefined fuel flags s = true ∧
    (it.apply (hasFlag flags OBJ_TRIANGULATE) s.core).Within m ∧ s1.FloatsWithin m ∧
    it.residue flags = [] := by
  have hm : m ≤ n := by omega
  have hv : ∀ (sep : Char) (body : List Char), it.text = 'v' :: sep :: body ++ ['\n'] →
      s1.FloatsWithin m ∧ strict.vertexBranchFits s s.token = true := by
    intro sep body htext
    rw [htext] at h hn
    simp only [List.cons_append, List.append_assoc] at h
    have hskip := skipWhitespaceAndComments_start h (by decide) (by decide)
    have hpeek := peek_of_drop h
    simp only [List.length_cons, List.length_append] at hn
    obtain ⟨f1, f2⟩ := loadStep_floats atof fuel flags s s1 hs1 n m hfl hm (fun _ => by omega)
    rw [hskip, hpeek] at f2
    exact ⟨f1, f2 (by decide)⟩
  have hnv : peek s.data (skipWhitespaceAndComments s.data s.token) ≠ 'v' →
      s1.FloatsWithin m := by
    intro hne
    exact (loadStep_floats atof fuel flags s s1 hs1 n m hfl hm
      (fun hc => absurd (by simpa using hc) hne)).1
  cases it with
  | blank c => exact absurd hsig id
  | comment text => exact absurd hsig id
  | usemtl name trail => exact absurd hsafe (by simp [Item.isSafe])
  | mtllib name trail => exact absurd hsafe (by simp [Item.isSafe])
  | vertex sep body =>
    simp only [Item.text, List.cons_append, List.append_assoc] at h
    have hskip := skipWhitespaceAndComments_start h (by decide) (by decide)
    have hpeek := peek_of_drop h
    obtain ⟨f1, f2⟩ := hv sep body rfl
    exact ⟨by simp [strict.roundDefined, hskip, hpeek, f2], hin.shrink hm, f1, rfl⟩
  | texcoord body =>
    simp only [Item.text, List.cons_append, List.append_assoc] at h
    have hskip := skipWhitespaceAndComments_start h (by decide) (by decide)
    have hpeek := peek_of_drop h
    obtain ⟨f1, f2⟩ := hv 't' body rfl
    exact ⟨by simp [strict.roundDefined, hskip, hpeek, f2], hin.shrink hm, f1, rfl⟩
  | normal body =>
    simp only [Item.text, List.cons_append, List.append_assoc] at h
    have hskip := skipWhitespaceAndComments_start h (by decide) (by decide)
    have hpeek := peek_of_drop h
    obtain ⟨f1, f2⟩ := hv 'n' body rfl
    exact ⟨by simp [strict.roundDefined, hskip, hpeek, f2], hin.shrink hm, f1, rfl⟩
  | other text =>
    obtain ⟨hstart, hne, hall, hu, hmt⟩ := hwf
    obtain ⟨c, cs, rfl⟩ := List.exists_cons_of_ne_nil hne
    have hc : isOtherStart c = true := hstart c (by simp)
    have e : s.data.drop s.token = (c :: cs) ++ '\n' :: rest := by simpa [Item.text] using h
    have hcs : isWhitespace c = false ∧ c ≠ '#' ∧ c ≠ 'v' ∧ c ≠ 'f' ∧ c ≠ 'g' := by
      simp only [isOtherStart, Bool.not_eq_true', Bool.or_eq_false_iff,
        beq_eq_false_iff_ne] at hc
      tauto
    obtain ⟨h1, h2, h3, h4, h5⟩ := hcs
    have hskip := skipWhitespaceAndComments_start (by simpa using e) h1 h2
    have hpeek : peek s.data s.token = c := peek_of_drop (by simpa using e)
    have hu' : startsWith ['u', 's', 'e', 'm', 't', 'l'] s.data s.token = false :=
      startsWith_false e (by decide) hu
    have hm' : startsWith ['m', 't', 'l', 'l', 'i', 'b'] s.data s.token = false :=
      startsWith_false e (by decide) hmt
    refine ⟨?_, hin.shrink hm, hnv (by rw [hskip, hpeek]; exact h3), rfl⟩
    simp only [strict.roundDefined, hskip, hpeek, h3, h4, h5, hu', hm', beq_iff_eq, if_false,
      Bool.false_eq_true, String.toList]
  | group name trail =>
    have hflag : hasFlag flags OBJ_IN_SITU = false := by
      simpa [Item.isSafe] using hsafe
    simp only [Item.text, List.cons_append, List.append_assoc] at h
    have hskip := skipWhitespaceAndComments_start h (by decide) (by decide)
    have hpeek := peek_of_drop h
    have hlt1 : s.token + 1 < s.data.length := lt_length_of_drop (drop_succ_of_drop h)
    have e1 : ('g' == 'v') = false := by decide
    have e2 : ('g' == 'f') = false := by decide
    refine ⟨?_, (hin.shrink hm).group name, hnv (by rw [hskip, hpeek]; decide),
      by simp [Item.residue, residual, hflag]⟩
    simp only [strict.roundDefined, hskip, hpeek, e1, e2, Bool.false_eq_true, if_false,
      beq_self_eq_true, if_true, hflag, Bool.false_and, Bool.not_false, Bool.and_true,
      decide_eq_true_eq]
    omega
  | face lead cs cr =>
    have hge := faceBody_length_ge cs
    simp only [Item.text, List.length_append, List.length_cons] at hfuel hn
    obtain ⟨a, b⟩ := roundDefined_face fuel flags s lead cs cr rest hwf h (by omega) n m
      (by omega) hin
    have hpk : peek s.data (skipWhitespaceAndComments s.data s.token) ≠ 'v' := by
      have h' : s.data.drop s.token = 'f' :: (' ' :: lead ++ faceBody cs ++ faceEol cr ++ rest) := by
        simpa [Item.text] using h
      rw [skipWhitespaceAndComments_start h' (by decide) (by decide), peek_of_drop h']
      decide
    exact ⟨a, b, hnv hpk, rfl⟩

end objloader

namespace objloader

theorem loadLoop_token {F : Type} (atof : List Char → F) (flags fuel : Nat)
    (s : LoaderState F) (token : Nat)
    (hskip : skipWhitespaceAndComments s.data s.token = skipWhitespaceAndComments s.data token)
    (hpeek : peek s.data s.token ≠ '\x00') (hpeek2 : peek s.data token ≠ '\x00') :
    loadLoop atof flags (fuel + 1) s = loadLoop atof flags (fuel + 1) { s with token := token } := by
  rw [loadLoop, loadLoop, ← loadStep_token atof fuel flags s token hskip]
  simp only [beq_iff_eq, hpeek, hpeek2, if_false]

/-- On a well-formed text of lines whose rounds are defined whatever the
state, which ends with a line and is short enough for no capacity to wrap,
`strict.loadLoop` is `loadLoop`. -/
theorem strict_loadLoop_safe {F : Type} (atof : List Char → F) (flags : Nat) :
    ∀ (n : Nat) (items : List Item) (s : LoaderState F) (fuel : Nat),
      (render items).length ≤ n → (∀ it ∈ items, it.WellFormed) →
      (∀ it ∈ items, it.isSafe flags = true) → endsWithLine items = true →
      s.data.drop s.token = render items → s.token ≤ s.data.length →
      s.core.Within (render items).length → s.FloatsWithin (render items).length →
      n + 2 ≤ fuel →
      strict.loadLoop atof flags fuel s = loadLoop atof flags fuel s := by
  intro n
  induction n with
  | zero =>
    intro items s fuel hlen hwf _ _ h hle _ _ hfuel
    have hnil : render items = [] := List.length_eq_zero.1 (by omega)
    have hitems := render_eq_nil items hwf hnil
    subst hitems
    obtain ⟨f, rfl⟩ : ∃ f, fuel = f + 1 := ⟨fuel - 1, by omega⟩
    rw [loadLoop_end atof flags f s (by rw [h]; rfl)]
    simp [strict.loadLoop, peek_eq, h, render, Nat.not_lt.2 hle]
  | succ n ih =>
    intro items s fuel hlen hwf hsafe hend h hle hin hfl hfuel
    obtain ⟨f, rfl⟩ : ∃ f, fuel = f + 2 := ⟨fuel - 2, by omega⟩
    cases items with
    | nil =>
      rw [loadLoop_end atof flags (f + 1) s (by rw [h]; rfl)]
      simp [strict.loadLoop, peek_eq, h, render, Nat.not_lt.2 hle]
    | cons it rest =>
      have hwf_it := hwf it (by simp)
      have hwf_rest : ∀ x ∈ rest, x.WellFormed := fun x hx => hwf x (List.mem_cons_of_mem _ hx)
      have hsafe_rest : ∀ x ∈ rest, x.isSafe flags = true :=
        fun x hx => hsafe x (List.mem_cons_of_mem _ hx)
      have hend_rest := endsWithLine_tail it rest hend
      obtain ⟨c, cs, hcs, hc⟩ := it.text_head hwf_it
      rw [render_cons] at h hlen hin hfl
      rw [List.length_append] at hin hfl
      have hpeek : peek s.data s.token ≠ '\x00' := by
        rw [peek_of_drop (by rw [h, hcs]; rfl)]; exact hc
      have hd := drop_add_of_drop h
      have hlen_rest : (render rest).length ≤ n := by
        simp only [List.length_append, hcs, List.length_cons] at hlen
        omega
      have hskip_case : ∀ (_ : skipWhitespaceAndComments s.data s.token =
          skipWhitespaceAndComments s.data (s.token + it.text.length))
          (_ : it.isLine = false),
          strict.loadLoop atof flags (f + 2) s = loadLoop atof flags (f + 2) s := by
        intro hskip hnot
        have hrest : rest ≠ [] := by
          rintro rfl
          simp only [endsWithLine, hnot] at hend
          exact absurd hend (by decide)
        obtain ⟨c2, cs2, hcs2, hc2⟩ := render_head rest hwf_rest hrest
        have hpeek2 : peek s.data (s.token + it.text.length) ≠ '\x00' := by
          rw [peek_of_drop (hd.trans hcs2)]; exact hc2
        have hlt2 : s.token + it.text.length < s.data.length :=
          lt_length_of_drop (hd.trans hcs2)
        rw [strict_loadLoop_token atof flags (f + 1) s _ hskip hpeek hpeek2 hle (by omega),
          loadLoop_token atof flags (f + 1) s _ hskip hpeek hpeek2]
        exact ih rest { s with token := s.token + it.text.length } (f + 2) hlen_rest
          hwf_rest hsafe_rest hend_rest hd (Nat.le_of_lt hlt2) (hin.shrink (by omega))
          (hfl.shorter (by omega)) (by omega)
      by_cases hsig : it.Significant
      · have hstep := loadStep_item atof (f + 1) flags s it (render rest) hwf_it hsig h
          (by simp only [List.length_append] at hlen; omega)
        rw [Outcome.holds_iff] at hstep
        obtain ⟨s1, hs1, hcore, -, hdrop, hle1⟩ := hstep
        obtain ⟨hround, hwithin, hfloats, hres⟩ := roundDefined_safe atof (f + 1) flags s s1 it
          (render rest) hwf_it hsig (hsafe it (by simp)) h hs1
          (by simp only [List.length_append] at hlen; omega) _ (render rest).length
          (Nat.le_refl _) hin hfl
        rw [strict.loadLoop, loadLoop]
        simp only [beq_iff_eq, hpeek, if_false, Nat.not_lt.2 hle, hs1, hround, if_true]
        rw [hres, List.nil_append] at hdrop
        exact ih rest s1 (f + 1) hlen_rest hwf_rest hsafe_rest hend_rest hdrop hle1
          (by rw [hcore]; exact hwithin) hfloats (by omega)
      · cases it with
        | blank c =>
          have hws : isWhitespace c = true := hwf_it
          exact hskip_case
            (skipWhitespaceAndComments_blank (by simpa [Item.text] using h) hws) rfl
        | comment text =>
          have htext : ∀ c ∈ text, isLineChar c = true := hwf_it
          have e : s.data.drop s.token = '#' :: (text ++ '\n' :: render rest) := by
            simpa [Item.text] using h
          have hskip := skipWhitespaceAndComments_comment e htext
          exact hskip_case (by simpa [Item.text] using hskip) rfl
        | vertex sep body => exact absurd trivial hsig
        | texcoord body => exact absurd trivial hsig
        | normal body => exact absurd trivial hsig
        | face lead cs cr => exact absurd trivial hsig
        | group name trail => exact absurd trivial hsig
        | usemtl name trail => exact absurd trivial hsig
        | mtllib name trail => exact absurd trivial hsig
        | other text => exact absurd trivial hsig

theorem initState_within {F : Type} (data : List Char) (flags n : Nat)
    (hn : n ≤ 715827882) : (initState (F := F) data flags).core.Within n := by
  refine ⟨by simp [initState, LoaderState.core], ?_⟩
  have hc : (initState (F := F) data flags).core.current = createGroup none := rfl
  rw [hc]
  refine ⟨createGroup_roomy _, ?_, ?_⟩
  · show 0 + 3 * n ≤ 2147483646
    omega
  · show 0 + n ≤ 2147483647
    omega

/-- On a well-formed text without `usemtl` and `mtllib` lines, without `g`
lines when `OBJ_IN_SITU` is set, which ends with a line and has fewer than
`2 ^ 31 / 3` characters, `strict.objLoadModel` is `objLoadModel`: C defines
the run. -/
theorem strict_objLoadModel_safe {F : Type} (atof : List Char → F) (flags : Nat)
    (items : List Item) (hwf : ∀ it ∈ items, it.WellFormed)
    (hsafe : ∀ it ∈ items, it.isSafe flags = true) (hend : endsWithLine items = true)
    (hlen : (render items).length ≤ 715827882) (fuel : Nat)
    (hfuel : (render items).length + 2 ≤ fuel) :
    strict.objLoadModel atof fuel (render items) flags =
      objLoadModel atof fuel (render items) flags := by
  unfold strict.objLoadModel objLoadModel objLoadRun
  rw [strict_loadLoop_safe atof flags (render items).length items
    (initState (render items) flags) fuel (Nat.le_refl _) hwf hsafe hend rfl
    (Nat.zero_le _) (initState_within _ _ _ hlen) (initState_floats _ _ _ (by omega)) hfuel]

end objloader

/-! # The claims -/

namespace objloader

/-- C1: `parseTriplet`, in `objloader.c` and in `objparser.c` alike, on a corner token
`v`, `v/t`, `v//n` or `v/t/n` whose components are positive decimal integers in the
range of `int`, returns `vertexIndex = v - 1`, `texcoordIndex = t - 1` when `t` is
present and `-1` otherwise, `normalIndex = n - 1` when `n` is present and `-1`
otherwise, whatever the three element counts are, and leaves the cursor on the first
character after the token.  The token is the text up to the first character that is
neither a digit nor a slash. -/
theorem parseTriplet_positive (pre rest : List Char) (c : Corner) (vc tc nc : Nat)
    (hrange : c.InRange) (hpos : c.Positive) (hrest : Stops isCornerChar rest) :
    objloader.parseTriplet (pre ++ c.text ++ rest) pre.length vc tc nc =
      ({ vertexIndex := c.v - 1
         texcoordIndex := match c.t with
           | some t => t - 1
           | none => -1
         normalIndex := match c.n with
           | some n => n - 1
           | none => -1 }, pre.length + c.text.length) ∧
    objparser.parseTriplet (pre ++ c.text ++ rest) pre.length vc tc nc =
      ({ vertexIndex := c.v - 1
         texcoordIndex := match c.t with
           | some t => t - 1
           | none => -1
         normalIndex := match c.n with
           | some n => n - 1
           | none => -1 }, pre.length + c.text.length) := by
  have hdrop : (pre ++ c.text ++ rest).drop pre.length = c.text ++ rest := by
    rw [List.append_assoc, List.drop_left]
  have h := parseTriplet_text vc tc nc hdrop hrange hrest
  have hres : c.resolve vc tc nc =
      { vertexIndex := c.v - 1
        texcoordIndex := match c.t with
          | some t => t - 1
          | none => -1
        normalIndex := match c.n with
          | some n => n - 1
          | none => -1 } := by
    obtain ⟨hv, ht, hn⟩ := hrange
    obtain ⟨pv, pt, pn⟩ := hpos
    rcases c with ⟨v, t, n⟩
    simp only [Corner.resolve, resolveIndex_pos v vc hv pv]
    cases t with
    | none =>
      cases n with
      | none => rfl
      | some n => simp only [resolveIndex_pos n nc (hn n rfl) (pn n rfl)]
    | some t =>
      cases n with
      | none => simp only [resolveIndex_pos t tc (ht t rfl) (pt t rfl)]
      | some n =>
        simp only [resolveIndex_pos t tc (ht t rfl) (pt t rfl),
          resolveIndex_pos n nc (hn n rfl) (pn n rfl)]
  rw [objparser_parseTriplet_eq, h, hres]
  exact ⟨rfl, rfl⟩

/-- Witness of C1: the corner `12/3/4` in the line `f 12/3/4 5`. -/
theorem parseTriplet_positive_witness :
    objloader.parseTriplet
        ("f ".toList ++ (Corner.mk 12 (some 3) (some 4)).text ++ " 5\n".toList) 2 9 9 9 =
      ({ vertexIndex := 11, texcoordIndex := 2, normalIndex := 3 }, 8) ∧
    objparser.parseTriplet
        ("f ".toList ++ (Corner.mk 12 (some 3) (some 4)).text ++ " 5\n".toList) 2 9 9 9 =
      ({ vertexIndex := 11, texcoordIndex := 2, normalIndex := 3 }, 8) :=
  parseTriplet_positive "f ".toList " 5\n".toList ⟨12, some 3, some 4⟩ 9 9 9
    (by decide) (by decide) (by decide)

theorem exists_three_of_length {α : Type} {l : List α} (h : 3 ≤ l.length) :
    ∃ a b c r, l = a :: b :: c :: r := by
  match l, h with
  | a :: b :: c :: r, _ => exact ⟨a, b, c, r, rfl⟩

/-- C2 (the code departs from the claim): after three `v` lines the face line
`f -3 -2 -1` stores the vertex indices `-4, -3, -2`, not the indices `0, 1, 2` that
`f 1 2 3` stores.  `fixIndex` takes its argument as `unsigned`, so `i > 0` holds for
every negative reference and the branch `size + i` is taken for `0` only. -/
theorem relative_reference_misresolved :
    ((objLoadModel noFloat 40 "v 0 0 0\nv 1 0 0\nv 0 1 0\nf -3 -2 -1\n".toList 0).value.map
        fun m => m.groups.map fun g => g.indices.map fun vi => vi.vertexIndex) =
      some [[-4, -3, -2]] ∧
    ((objLoadModel noFloat 40 "v 0 0 0\nv 1 0 0\nv 0 1 0\nf 1 2 3\n".toList 0).value.map
        fun m => m.groups.map fun g => g.indices.map fun vi => vi.vertexIndex) =
      some [[0, 1, 2]] ∧
    resolveIndex (-1) 9 = -2 := by
  decide

/-- C3: under `OBJ_TRIANGULATE`, one round of the main loop on a newline-terminated
face line of `N >= 3` corners `c0 .. c(N-1)` appends to the current group the
triangles `(c0, c(j+1), c(j+2))` for `j = 0 .. N-3`, in this order, and `N - 2` corner
counts, all equal to three; it touches no other group, whatever the current group
held before. -/
theorem face_line_triangulated {F : Type} (atof : List Char → F) (fuel flags : Nat)
    (s : LoaderState F) (lead : List Char) (cs : List (Corner × List Char)) (cr : Bool)
    (rest : List Char) (htri : hasFlag flags OBJ_TRIANGULATE = true)
    (hwf : (Item.face lead cs cr).WellFormed) (hN : 3 ≤ cs.length)
    (hcur : s.currentGroup < s.model.groups.length)
    (h : s.data.drop s.token = (Item.face lead cs cr).text ++ rest)
    (hfuel : cs.length ≤ fuel) :
    (loadStep atof fuel flags s).Holds fun s' =>
      s'.currentGroup = s.currentGroup ∧
      s'.model.groups.length = s.model.groups.length ∧
      (∀ j, j ≠ s.currentGroup → s'.model.groups[j]? = s.model.groups[j]?) ∧
      s'.current.indices = s.current.indices ++ triangleFan (cs.map fun p =>
        p.1.resolve s.model.vertexCount s.model.uvCount s.model.normalCount) ∧
      s'.current.indicesPerFace =
        s.current.indicesPerFace ++ List.replicate (cs.length - 2) 3 ∧
      s'.current.numFaces = s.current.numFaces + (cs.length - 2) ∧
      s'.data.drop s'.token = rest := by
  refine (loadStep_face atof fuel flags s lead cs cr rest hwf h hfuel).imp ?_
  obtain ⟨p0, p1, p2, ps, rfl⟩ := exists_three_of_length hN
  rintro s' ⟨hcore, -, hdrop, -⟩
  rw [htri] at hcore
  have hgroups : s'.model.groups = s.model.groups.set s.currentGroup
      (faceSteps true ((p0 :: p1 :: p2 :: ps).map fun p =>
        p.1.resolve s.model.vertexCount s.model.uvCount s.model.normalCount) 0 s.current) := by
    have := congrArg Core.groups hcore
    simpa [Core.face, Core.setCurrent, LoaderState.core, Core.current, LoaderState.current,
      List.map_map, Function.comp_def] using this
  have hidx : s'.currentGroup = s.currentGroup := congrArg Core.currentGroup hcore
  have hcurrent : s'.current = faceSteps true ((p0 :: p1 :: p2 :: ps).map fun p =>
      p.1.resolve s.model.vertexCount s.model.uvCount s.model.normalCount) 0 s.current := by
    simp [LoaderState.current, hgroups, hidx, List.getD_eq_getElem?_getD, hcur]
  obtain ⟨h1, h2⟩ := faceSteps_triangulate
    (p0.1.resolve s.model.vertexCount s.model.uvCount s.model.normalCount)
    (p1.1.resolve s.model.vertexCount s.model.uvCount s.model.normalCount)
    (p2.1.resolve s.model.vertexCount s.model.uvCount s.model.normalCount)
    (ps.map fun p => p.1.resolve s.model.vertexCount s.model.uvCount s.model.normalCount)
    s.current
  simp only [List.map_cons] at hcurrent ⊢
  refine ⟨hidx, by simp [hgroups], ?_, ?_, ?_, ?_, hdrop⟩
  · intro j hj
    rw [hgroups, List.getElem?_set]
    simp [Ne.symm hj]
  · rw [hcurrent, h1]
  · rw [hcurrent, h2]
    simp
  · unfold ObjGroup.numFaces
    rw [hcurrent, h2]
    simp

/-- Witness of C3: the line `f 1 2 3 4` at the start of a fresh run. -/
theorem face_line_triangulated_witness :
    (loadStep noFloat 4 OBJ_TRIANGULATE
        (initState
          ((Item.face [] [(⟨1, none, none⟩, [' ']), (⟨2, none, none⟩, [' ']),
            (⟨3, none, none⟩, [' ']), (⟨4, none, none⟩, [])] false).text ++ [])
          OBJ_TRIANGULATE)).Holds fun s' =>
      s'.currentGroup = 0 ∧
      s'.model.groups.length = 1 ∧
      (∀ j, j ≠ 0 → s'.model.groups[j]? = [createGroup none][j]?) ∧
      s'.current.indices = [] ++ triangleFan
        [⟨0, -1, -1⟩, ⟨1, -1, -1⟩, ⟨2, -1, -1⟩, ⟨3, -1, -1⟩] ∧
      s'.current.indicesPerFace = [] ++ List.replicate (4 - 2) 3 ∧
      s'.current.numFaces = 0 + (4 - 2) ∧
      s'.data.drop s'.token = [] :=
  face_line_triangulated noFloat 4 OBJ_TRIANGULATE
    (initState
      ((Item.face [] [(⟨1, none, none⟩, [' ']), (⟨2, none, none⟩, [' ']),
        (⟨3, none, none⟩, [' ']), (⟨4, none, none⟩, [])] false).text ++ [])
      OBJ_TRIANGULATE)
    [] [(⟨1, none, none⟩, [' ']), (⟨2, none, none⟩, [' ']),
        (⟨3, none, none⟩, [' ']), (⟨4, none, none⟩, [])] false []
    (by decide) (by decide) (by decide) (by decide) rfl (by decide)

/-- C6 (the code departs from the claim): the `g` branch, on a current group without
faces, calls `free(currentGroup->name)` before it stores the new name.  Under
`OBJ_IN_SITU` a name is a pointer into the buffer of the caller, not a block of the
heap: on the line `g b` after the line `g a` the call frees such a pointer, where the
claim has the group renamed.  The first `g` line, on a group that has no name yet, and
a `g` line after a face are as the claim says, and so is the second `g` line when
`OBJ_IN_SITU` is not set. -/
theorem group_rename_frees_buffer :
    strict.objLoadModel noFloat 9 "g a\ng b\n".toList OBJ_IN_SITU = .undefined ∧
    strict.objLoadModel noFloat 9 "g a\ng b\n".toList (OBJ_IN_SITU ||| OBJ_TRIANGULATE)
      = .undefined ∧
    ((strict.objLoadModel noFloat 9 "g a\n".toList OBJ_IN_SITU).value.map
      fun m => m.groups.map fun g => (g.name, g.numFaces)) = some [(some ['a'], 0)] ∧
    ((strict.objLoadModel noFloat 9 "g a\nf 1 2 3\ng b\n".toList OBJ_IN_SITU).value.map
      fun m => m.groups.map fun g => (g.name, g.numFaces)) =
      some [(some ['a'], 1), (some ['b'], 0)] ∧
    ((strict.objLoadModel noFloat 9 "g a\ng b\n".toList 0).value.map
      fun m => m.groups.map fun g => (g.name, g.numFaces)) = some [(some ['b'], 0)] := by
  decide

/-- C7 (the code departs from the claim): the scan of the `usemtl` branch declares
`char *lastGroupName, *lastMaterial;` without a value and tests `lastMaterial` at the
first group, which carries no material before the first `usemtl` line: the first
`usemtl` line of every run reads a local that has no value, whatever the name, the
rest of the text, the flags and `atof` are.  So do the two lines `usemtl A`,
`usemtl B` of the claim.  When the locals happen to hold null, which is how
`objLoadModel` of this development reads them, the two lines leave one group, with the
material `B`. -/
theorem usemtl_reads_unset_local :
    (∀ (F : Type) (atof : List Char → F) (fuel flags : Nat) (name trail rest : List Char),
      strict.objLoadModel atof (fuel + 1) ((Item.usemtl name trail).text ++ rest) flags
        = .undefined) ∧
    strict.objLoadModel noFloat 9 "usemtl A\nusemtl B\n".toList 0 = .undefined ∧
    ((objLoadModel noFloat 9 "usemtl A\nusemtl B\n".toList 0).value.map
      fun m => m.groups.map fun g => (g.material, g.numFaces)) = some [(some ['B'], 0)] := by
  refine ⟨?_, by decide, by decide⟩
  intro F atof fuel flags name trail rest
  have hd : (initState ((Item.usemtl name trail).text ++ rest) flags : LoaderState F).data.drop
      (initState ((Item.usemtl name trail).text ++ rest) flags : LoaderState F).token =
      (Item.usemtl name trail).text ++ rest := rfl
  have hr := roundDefined_usemtl fuel flags _ name trail rest
    (initState_plain ((Item.usemtl name trail).text ++ rest) flags) hd
  have hp : peek (initState ((Item.usemtl name trail).text ++ rest) flags : LoaderState F).data
      (initState ((Item.usemtl name trail).text ++ rest) flags : LoaderState F).token = 'u' :=
    peek_of_drop (by rw [hd]; rfl)
  have e : ('u' == '\x00') = false := by decide
  unfold strict.objLoadModel
  rw [strict.loadLoop, hr, hp, e]
  simp [initState]

/-- C8 (the code departs from the claim): in the text below the second `usemtl A`
makes the first group current again, and the line `usemtl C`, which matches no group
and finds faces in the current group, links its new group directly behind the current
one.  Before that line the chain holds the groups of `A` and of `B`, one face each;
after it the chain holds the group of `A` and the new group of `C`, and the group of
`B` with its face is no longer reachable. -/
theorem usemtl_cuts_chain :
    ((objLoadRun noFloat 60
        "usemtl A\nf 1 2 3\nusemtl B\nf 1 2 3\nusemtl A\n".toList 0).value.map
      fun s => s.model.groups.map fun g => g.material) = some [some ['A'], some ['B']] ∧
    ((objLoadRun noFloat 60
        "usemtl A\nf 1 2 3\nusemtl B\nf 1 2 3\nusemtl A\n".toList 0).value.map
      fun s => s.model.groups.map fun g => g.numFaces) = some [1, 1] ∧
    ((objLoadRun noFloat 60
        "usemtl A\nf 1 2 3\nusemtl B\nf 1 2 3\nusemtl A\n".toList 0).value.map
      fun s => s.currentGroup) = some 0 ∧
    ((objLoadRun noFloat 60
        "usemtl A\nf 1 2 3\nusemtl B\nf 1 2 3\nusemtl A\nusemtl C\n".toList 0).value.map
      fun s => s.model.groups.map fun g => g.material) = some [some ['A'], some ['C']] ∧
    ((objLoadRun noFloat 60
        "usemtl A\nf 1 2 3\nusemtl B\nf 1 2 3\nusemtl A\nusemtl C\n".toList 0).value.map
      fun s => s.model.groups.map fun g => g.numFaces) = some [1, 0] ∧
    ((objLoadRun noFloat 60
        "usemtl A\nf 1 2 3\nusemtl B\nf 1 2 3\nusemtl A\nusemtl C\n".toList 0).value.map
      fun s => s.currentGroup) = some 1 := by
  decide

/-- C9 (the code departs from the claim): after the lines `mtllib a.mtl` and
`mtllib b.mtl` the count `numMaterialLibraries` is 2, but no slot of the two-element
array `materialLibraries` was written: each store went to the index
`numMaterialLibraries` already incremented, one past the end of the array. -/
theorem mtllib_store_past_end :
    ((objLoadRun noFloat 30 "mtllib a.mtl\nmtllib b.mtl\n".toList 0).value.map
      fun s => s.model.numMaterialLibraries) = some 2 ∧
    ((objLoadRun noFloat 30 "mtllib a.mtl\nmtllib b.mtl\n".toList 0).value.map
      fun s => s.model.materialLibraries) = some [none, none] ∧
    ((objLoadRun noFloat 30 "mtllib a.mtl\nmtllib b.mtl\n".toList 0).value.map
      fun s => s.strayStores) = some [(1, "a.mtl".toList), (2, "b.mtl".toList)] ∧
    ((objLoadModel noFloat 30 "mtllib a.mtl\n".toList 0).value.map
      fun m => m.numMaterialLibraries) = some 1 ∧
    ((objLoadModel noFloat 30 "mtllib a.mtl\n".toList 0).value.map
      fun m => m.materialLibraries) = some [none] := by
  decide

/-- C10 (the code departs from the claim): one `v` line, one `vt` line and one `vn`
line leave `vertexCount = 3`, `uvCount = 2` and `normalCount = 3`, the numbers of
floats stored, and a face index `0` then resolves against these numbers. -/
theorem counts_are_float_counts :
    ((objLoadModel noFloat 30 "v 0 0 0\nvt 0 0\nvn 0 0 1\n".toList 0).value.map
      fun m => (m.vertexCount, m.uvCount, m.normalCount)) = some (3, 2, 3) ∧
    ((objLoadModel noFloat 30 "v 0 0 0\nv 1 0 0\n".toList 0).value.map
      fun m => (m.vertexCount, m.vertices.length)) = some (6, 6) ∧
    ((objLoadModel noFloat 50 "v 0 0 0\nvt 0 0\nvn 0 0 1\nf 0/0/0 0/0/0 0/0/0\n".toList
        0).value.map
      fun m => m.groups.map fun g => g.indices) =
      some [[⟨3, 2, 3⟩, ⟨3, 2, 3⟩, ⟨3, 2, 3⟩]] := by
  decide

end objloader

/-! ## One round of the loop of `loadMtl` on one line -/

namespace objloader

theorem updateLast_concat {α : Type} (f : α → α) (l : List α) (a : α) :
    updateLast f (l ++ [a]) = l ++ [f a] := by
  induction l with
  | nil => rfl
  | cons b l ih =>
    cases l with
    | nil => rfl
    | cons c l =>
      have : (b :: c :: l) ++ [a] = b :: c :: (l ++ [a]) := rfl
      rw [this, updateLast]
      simp only [List.cons_append] at ih ⊢
      rw [ih]

theorem updateLast_id {α : Type} (l : List α) : updateLast (fun a => a) l = l := by
  induction l with
  | nil => rfl
  | cons b l ih =>
    cases l with
    | nil => rfl
    | cons c l => rw [updateLast, ih]

theorem forall₂_updateLast {α β : Type} {R : α → β → Prop} (f : α → α) (g : β → β)
    (hfg : ∀ a b, R a b → R (f a) (g b)) {as : List α} {bs : List β}
    (h : List.Forall₂ R as bs) : List.Forall₂ R (updateLast f as) (updateLast g bs) := by
  induction h with
  | nil => exact List.Forall₂.nil
  | cons hab ht ih =>
    cases ht with
    | nil => exact List.Forall₂.cons (hfg _ _ hab) List.Forall₂.nil
    | cons hab' ht' => exact List.Forall₂.cons hab ih

theorem forall₂_concat {α β : Type} {R : α → β → Prop} {as : List α} {bs : List β}
    (h : List.Forall₂ R as bs) {a : α} {b : β} (hab : R a b) :
    List.Forall₂ R (as ++ [a]) (bs ++ [b]) := by
  induction h with
  | nil => exact List.Forall₂.cons hab List.Forall₂.nil
  | cons h1 _ ih => exact List.Forall₂.cons h1 ih

theorem updateCurrent_ok {F : Type} (s : MtlState F) (f : MtlMaterial F → MtlMaterial F)
    (h : s.materials ≠ []) :
    updateCurrent s f = .ok { s with materials := updateLast f s.materials } := by
  unfold updateCurrent
  have : s.materials.isEmpty = false := by
    cases hm : s.materials with
    | nil => exact absurd hm h
    | cons a l => rfl
  simp [this]

theorem mtlStep_newmtl {F : Type} (atof : List Char → F) (one : F) (flags : Nat)
    (s : MtlState F) (name trail rest : List Char)
    (hwf : (MtlLine.newmtl name trail).WellFormed)
    (h : s.data.drop s.token = (MtlLine.newmtl name trail).text ++ rest) :
    ∃ s', mtlStep atof one flags s = .ok (.next s') ∧
      s'.materials = s.materials ++
        [{ name := name, ambientTexture := none, ambient := none, diffuse := none,
           specular := none, shininess := none, opacity := one }] ∧
      s'.data.length = s.data.length ∧
      s'.data.drop s'.token = residual flags trail ++ rest := by
  obtain ⟨hname, htrail⟩ := hwf
  have h' : s.data.drop s.token =
      ['n', 'e', 'w', 'm', 't', 'l', ' '] ++ (name ++ (trail ++ '\n' :: rest)) := by
    simpa [MtlLine.text] using h
  have h2 : s.data.drop (s.token + 7) = name ++ (trail ++ '\n' :: rest) :=
    drop_add_of_drop h'
  have hsw : startsWith ['n', 'e', 'w', 'm', 't', 'l'] s.data s.token = true := by
    simp [startsWith, h']
  obtain ⟨p1, p2, p3⟩ := parseText_line flags h2 hname htrail
  refine ⟨{ data := (parseText s.data (s.token + 7) flags).2.2
            token := skipLine (parseText s.data (s.token + 7) flags).2.2
              (parseText s.data (s.token + 7) flags).2.1
            capacity := if s.materials.length + 1 ≥ s.capacity then s.capacity * 2
              else s.capacity
            materials := s.materials ++
              [{ name := (parseText s.data (s.token + 7) flags).1, ambientTexture := none,
                 ambient := none, diffuse := none, specular := none, shininess := none,
                 opacity := one }] }, ?_, ?_, p2, p3⟩
  · simp only [mtlStep, hsw, if_true, String.toList]
  · simp only [p1]

theorem mtlStep_color {F : Type} (atof : List Char → F) (one : F) (flags : Nat)
    (s : MtlState F) (k sep : Char) (body rest : List Char)
    (hwf : (MtlLine.color k sep body).WellFormed) (hopen : s.materials ≠ [])
    (h : s.data.drop s.token = (MtlLine.color k sep body).text ++ rest) :
    ∃ s', mtlStep atof one flags s = .ok (.next s') ∧
      s'.materials = updateLast (setColor k
        ((parseFloat atof s.data (s.token + 3)).1,
         (parseFloat atof s.data (parseFloat atof s.data (s.token + 3)).2).1,
         (parseFloat atof s.data (parseFloat atof s.data
           (parseFloat atof s.data (s.token + 3)).2).2).1)) s.materials ∧
      s'.data = s.data ∧ s'.data.drop s'.token = rest := by
  obtain ⟨hk, hsep, hbody⟩ := hwf
  have h' : s.data.drop s.token = 'K' :: k :: sep :: (body ++ '\n' :: rest) := by
    simpa [MtlLine.text] using h
  have hpeek : peek s.data s.token = 'K' := peek_of_drop h'
  have hpeek1 : peekAt s.data s.token 1 = k := peekAt_one_of_drop h'
  have h3 : s.data.drop (s.token + 3) = body ++ '\n' :: rest :=
    drop_succ_of_drop (drop_succ_of_drop (drop_succ_of_drop h'))
  have hline : InLine s.data (s.token + 3) rest := ⟨body, h3, hbody⟩
  have hz := ((hline.parseFloat atof).parseFloat atof).parseFloat atof
  have hsw : startsWith ['n', 'e', 'w', 'm', 't', 'l'] s.data s.token = false := by
    simp [startsWith, h']
  have hkk : (k == 'a' || k == 'd' || k == 's') = true := by
    rcases hk with rfl | rfl | rfl <;> decide
  refine ⟨{ s with
    materials := updateLast (setColor k
      ((parseFloat atof s.data (s.token + 3)).1,
       (parseFloat atof s.data (parseFloat atof s.data (s.token + 3)).2).1,
       (parseFloat atof s.data (parseFloat atof s.data
         (parseFloat atof s.data (s.token + 3)).2).2).1)) s.materials
    token := skipLine s.data (parseFloat atof s.data (parseFloat atof s.data
      (parseFloat atof s.data (s.token + 3)).2).2).2 }, ?_, rfl, rfl, hz.skipLine⟩
  simp only [mtlStep, hsw, hpeek, hpeek1, hkk, Bool.false_eq_true, if_false, beq_self_eq_true,
    Bool.and_self, if_true, String.toList, updateCurrent_ok _ _ hopen, Outcome.map]

theorem mtlStep_transparency {F : Type} (atof : List Char → F) (one : F) (flags : Nat)
    (s : MtlState F) (body rest : List Char)
    (hwf : (MtlLine.transparency body).WellFormed) (hopen : s.materials ≠ [])
    (h : s.data.drop s.token = (MtlLine.transparency body).text ++ rest) :
    ∃ s', mtlStep atof one flags s = .ok (.next s') ∧
      s'.materials = updateLast
        (fun m => { m with opacity := (parseFloat atof s.data (s.token + 2)).1 }) s.materials ∧
      s'.data = s.data ∧ s'.data.drop s'.token = rest := by
  have h' : s.data.drop s.token = 'T' :: 'r' :: (body ++ '\n' :: rest) := by
    simpa [MtlLine.text] using h
  have hpeek : peek s.data s.token = 'T' := peek_of_drop h'
  have hpeek1 : peekAt s.data s.token 1 = 'r' := peekAt_one_of_drop h'
  have h2 : s.data.drop (s.token + 2) = body ++ '\n' :: rest :=
    drop_succ_of_drop (drop_succ_of_drop h')
  have hline : InLine s.data (s.token + 2) rest := ⟨body, h2, hwf⟩
  have hv := hline.parseFloat atof
  have hsw : startsWith ['n', 'e', 'w', 'm', 't', 'l'] s.data s.token = false := by
    simp [startsWith, h']
  have e1 : ('T' == 'K') = false := by decide
  refine ⟨{ s with
    materials := updateLast
      (fun m => { m with opacity := (parseFloat atof s.data (s.token + 2)).1 }) s.materials
    token := skipLine s.data (parseFloat atof s.data (s.token + 2)).2 }, ?_, rfl, rfl,
    hv.skipLine⟩
  simp only [mtlStep, hsw, hpeek, hpeek1, e1, Bool.false_eq_true, if_false, beq_self_eq_true,
    Bool.and_self, Bool.false_and, Bool.true_or, if_true, String.toList,
    updateCurrent_ok _ _ hopen, Outcome.map]

theorem mtlStep_dissolve {F : Type} (atof : List Char → F) (one : F) (flags : Nat)
    (s : MtlState F) (sep : Char) (body rest : List Char)
    (hwf : (MtlLine.dissolve sep body).WellFormed) (hopen : s.materials ≠ [])
    (h : s.data.drop s.token = (MtlLine.dissolve sep body).text ++ rest) :
    ∃ s', mtlStep atof one flags s = .ok (.next s') ∧
      s'.materials = updateLast
        (fun m => { m with opacity := (parseFloat atof s.data (s.token + 2)).1 }) s.materials ∧
      s'.data = s.data ∧ s'.data.drop s'.token = rest := by
  obtain ⟨hsep, hbody⟩ := hwf
  have h' : s.data.drop s.token = 'd' :: sep :: (body ++ '\n' :: rest) := by
    simpa [MtlLine.text] using h
  have hpeek : peek s.data s.token = 'd' := peek_of_drop h'
  have h2 : s.data.drop (s.token + 2) = body ++ '\n' :: rest :=
    drop_succ_of_drop (drop_succ_of_drop h')
  have hline : InLine s.data (s.token + 2) rest := ⟨body, h2, hbody⟩
  have hv := hline.parseFloat atof
  have hsw : startsWith ['n', 'e', 'w', 'm', 't', 'l'] s.data s.token = false := by
    simp [startsWith, h']
  have e1 : ('d' == 'K') = false := by decide
  refine ⟨{ s with
    materials := updateLast
      (fun m => { m with opacity := (parseFloat atof s.data (s.token + 2)).1 }) s.materials
    token := skipLine s.data (parseFloat atof s.data (s.token + 2)).2 }, ?_, rfl, rfl,
    hv.skipLine⟩
  simp only [mtlStep, hsw, hpeek, e1, Bool.false_eq_true, if_false, beq_self_eq_true,
    Bool.false_and, Bool.or_true, if_true, String.toList,
    updateCurrent_ok _ _ hopen, Outcome.map]

theorem mtlStep_shininess {F : Type} (atof : List Char → F) (one : F) (flags : Nat)
    (s : MtlState F) (sep : Char) (body rest : List Char)
    (hwf : (MtlLine.shininess sep body).WellFormed) (hopen : s.materials ≠ [])
    (h : s.data.drop s.token = (MtlLine.shininess sep body).text ++ rest) :
    ∃ s', mtlStep atof one flags s = .ok (.next s') ∧
      s'.materials = updateLast
        (fun m => { m with shininess := some (parseFloat atof s.data (s.token + 3)).1 })
        s.materials ∧
      s'.data = s.data ∧ s'.data.drop s'.token = rest := by
  obtain ⟨hsep, hbody⟩ := hwf
  have h' : s.data.drop s.token = 'n' :: 's' :: sep :: (body ++ '\n' :: rest) := by
    simpa [MtlLine.text] using h
  have hpeek : peek s.data s.token = 'n' := peek_of_drop h'
  have hpeek1 : peekAt s.data s.token 1 = 's' := peekAt_one_of_drop h'
  have h3 : s.data.drop (s.token + 3) = body ++ '\n' :: rest :=
    drop_succ_of_drop (drop_succ_of_drop (drop_succ_of_drop h'))
  have hline : InLine s.data (s.token + 3) rest := ⟨body, h3, hbody⟩
  have hv := hline.parseFloat atof
  have hsw : startsWith ['n', 'e', 'w', 'm', 't', 'l'] s.data s.token = false := by
    simp [startsWith, h']
  have e1 : ('n' == 'K') = false := by decide
  have e2 : ('n' == 'T') = false := by decide
  have e3 : ('n' == 'd') = false := by decide
  refine ⟨{ s with
    materials := updateLast
      (fun m => { m with shininess := some (parseFloat atof s.data (s.token + 3)).1 })
      s.materials
    token := skipLine s.data (parseFloat atof s.data (s.token + 3)).2 }, ?_, rfl, rfl,
    hv.skipLine⟩
  simp only [mtlStep, hsw, hpeek, hpeek1, e1, e2, e3, Bool.false_eq_true, if_false,
    beq_self_eq_true, Bool.false_and, Bool.or_false, Bool.and_self, if_true, String.toList,
    updateCurrent_ok _ _ hopen, Outcome.map]

end objloader

namespace objloader

theorem mtlStep_texture {F : Type} (atof : List Char → F) (one : F) (flags : Nat)
    (s : MtlState F) (path trail rest : List Char)
    (hwf : (MtlLine.texture path trail).WellFormed) (hopen : s.materials ≠ [])
    (h : s.data.drop s.token = (MtlLine.texture path trail).text ++ rest) :
    ∃ s', mtlStep atof one flags s = .ok (.next s') ∧
      s'.materials = updateLast (fun m => { m with ambientTexture := some path })
        s.materials ∧
      s'.data.length = s.data.length ∧
      s'.data.drop s'.token = residual flags trail ++ rest := by
  obtain ⟨hpath, htrail⟩ := hwf
  have h' : s.data.drop s.token =
      ['m', 'a', 'p', '_', 'K', 'd', ' '] ++ (path ++ (trail ++ '\n' :: rest)) := by
    simpa [MtlLine.text] using h
  have hpeek : peek s.data s.token = 'm' := peek_of_drop (by simpa using h')
  have h2 : s.data.drop (s.token + 7) = path ++ (trail ++ '\n' :: rest) :=
    drop_add_of_drop h'
  have hsn : startsWith ['n', 'e', 'w', 'm', 't', 'l'] s.data s.token = false := by
    simp [startsWith, h']
  have hsw : startsWith ['m', 'a', 'p', '_', 'K', 'd'] s.data s.token = true := by
    simp [startsWith, h']
  obtain ⟨p1, p2, p3⟩ := parseText_line flags h2 hpath htrail
  have e1 : ('m' == 'K') = false := by decide
  have e2 : ('m' == 'T') = false := by decide
  have e3 : ('m' == 'd') = false := by decide
  have e4 : ('m' == 'n') = false := by decide
  generalize hr : parseText s.data (s.token + 7) flags = r at p1 p2 p3
  have hopen' : ({ s with data := r.2.2 } : MtlState F).materials ≠ [] := hopen
  refine ⟨{ s with
    data := r.2.2
    materials := updateLast (fun m => { m with ambientTexture := some r.1 }) s.materials
    token := skipLine r.2.2 r.2.1 }, ?_, ?_, p2, p3⟩
  · simp only [mtlStep, hsn, hsw, hpeek, e1, e2, e3, e4, Bool.false_eq_true, if_false,
      Bool.false_and, Bool.or_self, if_true, String.toList, hr, updateCurrent_ok _ _ hopen',
      Outcome.map]
  · simp only [p1]

theorem mtlStep_blank {F : Type} (atof : List Char → F) (one : F) (flags : Nat)
    (s : MtlState F) (c : Char) (rest : List Char)
    (hwf : (MtlLine.blank c).WellFormed)
    (h : s.data.drop s.token = (MtlLine.blank c).text ++ rest) :
    mtlStep atof one flags s = .ok (.next { s with token := s.token + 1 }) ∧
      s.data.drop (s.token + 1) = rest := by
  have h' : s.data.drop s.token = c :: rest := by simpa [MtlLine.text] using h
  have hpeek : peek s.data s.token = c := peek_of_drop h'
  refine ⟨?_, drop_succ_of_drop h'⟩
  have hsn : startsWith ['n', 'e', 'w', 'm', 't', 'l'] s.data s.token = false := by
    rcases hwf with rfl | rfl | rfl | rfl <;> simp [startsWith, h']
  have hsm : startsWith ['m', 'a', 'p', '_', 'K', 'd'] s.data s.token = false := by
    rcases hwf with rfl | rfl | rfl | rfl <;> simp [startsWith, h']
  have e : (c == 'K') = false ∧ (c == 'T') = false ∧ (c == 'd') = false ∧
      (c == 'n') = false ∧ (c == ' ' || c == '\n' || c == '\t' || c == 'r') = true := by
    rcases hwf with rfl | rfl | rfl | rfl <;> decide
  obtain ⟨e1, e2, e3, e4, e5⟩ := e
  simp only [mtlStep, hsn, hsm, hpeek, e1, e2, e3, e4, e5, Bool.false_eq_true, if_false,
    Bool.false_and, Bool.or_self, if_true, String.toList]

theorem mtlStep_other {F : Type} (atof : List Char → F) (one : F) (flags : Nat)
    (s : MtlState F) (text rest : List Char)
    (hwf : (MtlLine.other text).WellFormed)
    (h : s.data.drop s.token = (MtlLine.other text).text ++ rest) :
    mtlStep atof one flags s = .ok (.next { s with token := skipLine s.data s.token }) ∧
      s.data.drop (skipLine s.data s.token) = rest := by
  obtain ⟨hne, hall, hkey, hn, hm⟩ := hwf
  obtain ⟨c, cs, rfl⟩ := List.exists_cons_of_ne_nil hne
  have e : s.data.drop s.token = (c :: cs) ++ '\n' :: rest := by
    simpa [MtlLine.text] using h
  have hpeek : peek s.data s.token = c := peek_of_drop (by simpa using e)
  have hpeek1 : peekAt s.data s.token 1 = (c :: cs).getD 1 '\n' := by
    cases cs with
    | nil => exact peekAt_one_of_drop (by simpa using e)
    | cons d ds => exact peekAt_one_of_drop (by simpa using e)
  have hsn : startsWith ['n', 'e', 'w', 'm', 't', 'l'] s.data s.token = false :=
    startsWith_false e (by decide) hn
  have hsm : startsWith ['m', 'a', 'p', '_', 'K', 'd'] s.data s.token = false :=
    startsWith_false e (by decide) hm
  have hline := skipLine_of_drop e hall
  refine ⟨?_, hline.2⟩
  simp only [List.headD_cons, mtlKeyChars, Bool.or_eq_false_iff] at hkey
  obtain ⟨⟨⟨⟨⟨⟨⟨⟨k1, k2⟩, k3⟩, k4⟩, k5⟩, k6⟩, k7⟩, k8⟩, k9⟩ := hkey
  simp only [mtlStep, hsn, hsm, hpeek, hpeek1, k1, k2, k3, k4, k5, k6, k7, k8, k9,
    Bool.false_eq_true, if_false, Bool.or_self, String.toList]

end objloader

/-! ## The loop of `loadMtl` on a well-formed text -/

namespace objloader

theorem renderMtl_cons (l : MtlLine) (ls : List MtlLine) :
    renderMtl (l :: ls) = l.text ++ renderMtl ls := rfl

theorem renderMtl_append (xs ys : List MtlLine) :
    renderMtl (xs ++ ys) = renderMtl xs ++ renderMtl ys := by
  induction xs with
  | nil => rfl
  | cons x xs ih => simp [renderMtl_cons, ih]

theorem renderMtl_trailLines (ts : List Char) : renderMtl (trailLines ts) = ts ++ ['\n'] := by
  induction ts with
  | nil => rfl
  | cons c cs ih =>
    rw [trailLines]
    split
    · simp [renderMtl, MtlLine.text]
    · simp [renderMtl_cons, MtlLine.text, ih]

theorem mtlKeyChars_cr (c1 : Char) : mtlKeyChars '\r' c1 = false := by
  have e : ('\r' == 'K') = false ∧ ('\r' == 'T') = false ∧ ('\r' == 'd') = false ∧
      ('\r' == 'n') = false ∧ ('\r' == ' ') = false ∧ ('\r' == '\n') = false ∧
      ('\r' == '\t') = false ∧ ('\r' == 'r') = false ∧ ('\r' == '\x00') = false := by decide
  obtain ⟨e1, e2, e3, e4, e5, e6, e7, e8, e9⟩ := e
  simp only [mtlKeyChars, e1, e2, e3, e4, e5, e6, e7, e8, e9, Bool.false_and, Bool.or_self]

theorem trailLines_wellFormed (ts : List Char) (hts : ∀ c ∈ ts, isTrailChar c = true) :
    ∀ l ∈ trailLines ts, l.WellFormed ∧ l.isField = false ∧ l.isNewmtl = false := by
  induction ts with
  | nil =>
    intro l hl
    simp only [trailLines, List.mem_singleton] at hl
    subst hl
    exact ⟨Or.inr (Or.inl rfl), rfl, rfl⟩
  | cons c cs ih =>
    intro l hl
    rw [trailLines] at hl
    have hc := hts c (by simp)
    have hcs : ∀ x ∈ cs, isTrailChar x = true := fun x hx => hts x (List.mem_cons_of_mem _ hx)
    split at hl
    · rename_i hcr
      have hcr' : c = '\r' := by simpa using hcr
      subst hcr'
      simp only [List.mem_singleton] at hl
      subst hl
      refine ⟨⟨by simp, ?_, ?_, ?_, ?_⟩, rfl, rfl⟩
      · intro x hx
        exact (isTrailChar_props (hts x hx)).2.1
      · exact mtlKeyChars_cr _
      · simp [String.toList]
      · simp [String.toList]
    · rename_i hcr
      rcases List.mem_cons.1 hl with rfl | hl'
      · refine ⟨?_, rfl, rfl⟩
        rcases (isTrailChar_iff c).1 hc with rfl | rfl | rfl
        · exact Or.inl rfl
        · exact Or.inr (Or.inr (Or.inl rfl))
        · exact absurd (show ('\r' == '\r') = true by decide) hcr
      · exact ih hcs l hl'

theorem trailResidue_spec (flags : Nat) (trail : List Char)
    (htrail : ∀ c ∈ trail, isTrailChar c = true) :
    (∀ x ∈ trailResidue flags trail,
      x.WellFormed ∧ x.isField = false ∧ x.isNewmtl = false) ∧
    renderMtl (trailResidue flags trail) = residual flags trail ∧
    (residual flags trail).length ≤ trail.length := by
  cases trail with
  | nil =>
    refine ⟨by simp [trailResidue], ?_, ?_⟩
    · unfold residual
      split <;> rfl
    · unfold residual
      split <;> simp
  | cons t ts =>
    have hts : ∀ c ∈ ts, isTrailChar c = true := fun c hc =>
      htrail c (List.mem_cons_of_mem _ hc)
    by_cases hin : hasFlag flags OBJ_IN_SITU = true
    · simp only [trailResidue, hin, if_true, residual, List.cons_append, List.tail_cons]
      exact ⟨trailLines_wellFormed ts hts, renderMtl_trailLines ts, by simp⟩
    · have hin' : hasFlag flags OBJ_IN_SITU = false := by simpa using hin
      simp [trailResidue, hin', residual, renderMtl]

theorem MtlLine.residue_inert (flags : Nat) (l : MtlLine) (hwf : l.WellFormed) :
    (∀ x ∈ l.residue flags, x.WellFormed ∧ x.isField = false ∧ x.isNewmtl = false) ∧
    (renderMtl (l.residue flags)).length < l.text.length := by
  cases l with
  | newmtl name trail =>
    obtain ⟨k1, k2, k3⟩ := trailResidue_spec flags trail hwf.2
    refine ⟨k1, ?_⟩
    simp only [MtlLine.residue, k2, MtlLine.text, List.length_append, List.length_cons]
    omega
  | texture path trail =>
    obtain ⟨k1, k2, k3⟩ := trailResidue_spec flags trail hwf.2
    refine ⟨k1, ?_⟩
    simp only [MtlLine.residue, k2, MtlLine.text, List.length_append, List.length_cons]
    omega
  | blank c => exact ⟨by simp [MtlLine.residue], by simp [MtlLine.residue, renderMtl, MtlLine.text]⟩
  | color k sep body =>
    exact ⟨by simp [MtlLine.residue], by simp [MtlLine.residue, renderMtl, MtlLine.text]⟩
  | transparency body =>
    exact ⟨by simp [MtlLine.residue], by simp [MtlLine.residue, renderMtl, MtlLine.text]⟩
  | dissolve sep body =>
    exact ⟨by simp [MtlLine.residue], by simp [MtlLine.residue, renderMtl, MtlLine.text]⟩
  | shininess sep body =>
    exact ⟨by simp [MtlLine.residue], by simp [MtlLine.residue, renderMtl, MtlLine.text]⟩
  | other text =>
    exact ⟨by simp [MtlLine.residue], by simp [MtlLine.residue, renderMtl, MtlLine.text]⟩

end objloader

namespace objloader

theorem MtlLine.apply_inert (l : MtlLine) (rs : List MtlSummary)
    (h1 : l.isField = false) (h2 : l.isNewmtl = false) : l.apply rs = rs := by
  cases l with
  | blank c => exact updateLast_id rs
  | other text => exact updateLast_id rs
  | newmtl name trail => exact absurd h2 (by simp [MtlLine.isNewmtl])
  | color k sep body => exact absurd h1 (by simp [MtlLine.isField])
  | transparency body => exact absurd h1 (by simp [MtlLine.isField])
  | dissolve sep body => exact absurd h1 (by simp [MtlLine.isField])
  | shininess sep body => exact absurd h1 (by simp [MtlLine.isField])
  | texture path trail => exact absurd h1 (by simp [MtlLine.isField])

theorem updateLast_isEmpty {α : Type} (f : α → α) (l : List α) :
    (updateLast f l).isEmpty = l.isEmpty := by
  cases l with
  | nil => rfl
  | cons a l =>
    cases l with
    | nil => rfl
    | cons b l => rfl

theorem MtlLine.apply_isEmpty (l : MtlLine) (rs : List MtlSummary) :
    (!(l.apply rs).isEmpty) = (!rs.isEmpty || l.isNewmtl) := by
  cases l <;> simp [MtlLine.apply, MtlLine.isNewmtl, updateLast_isEmpty]

theorem applyMtl_cons (l : MtlLine) (ls : List MtlLine) (rs : List MtlSummary) :
    applyMtl (l :: ls) rs = applyMtl ls (l.apply rs) := rfl

theorem applyMtl_inert (xs ls : List MtlLine) (rs : List MtlSummary)
    (h : ∀ x ∈ xs, x.WellFormed ∧ x.isField = false ∧ x.isNewmtl = false) :
    applyMtl (xs ++ ls) rs = applyMtl ls rs := by
  induction xs with
  | nil => rfl
  | cons x xs ih =>
    have hx := h x (by simp)
    rw [List.cons_append, applyMtl_cons, x.apply_inert rs hx.2.1 hx.2.2]
    exact ih fun y hy => h y (List.mem_cons_of_mem _ hy)

theorem guarded_inert (xs ls : List MtlLine) (opened : Bool)
    (h : ∀ x ∈ xs, x.WellFormed ∧ x.isField = false ∧ x.isNewmtl = false) :
    guarded opened (xs ++ ls) = guarded opened ls := by
  induction xs with
  | nil => rfl
  | cons x xs ih =>
    have hx := h x (by simp)
    rw [List.cons_append, guarded, hx.2.1, hx.2.2]
    simpa using ih fun y hy => h y (List.mem_cons_of_mem _ hy)

theorem mtlStep_end {F : Type} (atof : List Char → F) (one : F) (flags : Nat)
    (s : MtlState F) (h : s.data.drop s.token = []) :
    mtlStep atof one flags s = .ok .done := by
  have h1 : peek s.data s.token = '\x00' := by simp [peek_eq, h]
  have e1 : ('\x00' == 'K') = false ∧ ('\x00' == 'T') = false ∧ ('\x00' == 'd') = false ∧
      ('\x00' == 'n') = false ∧ ('\x00' == ' ') = false ∧ ('\x00' == '\n') = false ∧
      ('\x00' == '\t') = false ∧ ('\x00' == 'r') = false := by decide
  obtain ⟨e1, e2, e3, e4, e5, e6, e7, e8⟩ := e1
  simp [mtlStep, startsWith, h, h1, e1, e2, e3, e4, e5, e6, e7, e8]

theorem MtlLine.text_ne_nil (l : MtlLine) : l.text ≠ [] := by
  cases l <;> simp [MtlLine.text]

theorem materials_ne_nil {F : Type} {one : F} {ms : List (MtlMaterial F)}
    {rs : List MtlSummary} (h : List.Forall₂ (Agrees one) ms rs)
    (hrs : (!rs.isEmpty) = true) : ms ≠ [] := by
  rintro rfl
  cases h
  simp at hrs

/-- One round of the loop of `loadMtl` on one line: the records keep
agreeing with their summaries. -/
theorem mtlStep_line {F : Type} (atof : List Char → F) (one : F) (flags : Nat)
    (s : MtlState F) (l : MtlLine) (rest : List Char) (rs : List MtlSummary)
    (hwf : l.WellFormed) (hopen : l.isField = true → (!rs.isEmpty) = true)
    (h : s.data.drop s.token = l.text ++ rest)
    (hag : List.Forall₂ (Agrees one) s.materials rs) :
    ∃ s', mtlStep atof one flags s = .ok (.next s') ∧
      List.Forall₂ (Agrees one) s'.materials (l.apply rs) ∧
      s'.data.drop s'.token = renderMtl (l.residue flags) ++ rest := by
  cases l with
  | blank c =>
    obtain ⟨h1, h2⟩ := mtlStep_blank atof one flags s c rest hwf h
    refine ⟨_, h1, ?_, by simpa [MtlLine.residue, renderMtl] using h2⟩
    rw [(MtlLine.blank c).apply_inert rs rfl rfl]
    exact hag
  | other text =>
    obtain ⟨h1, h2⟩ := mtlStep_other atof one flags s text rest hwf h
    refine ⟨_, h1, ?_, by simpa [MtlLine.residue, renderMtl] using h2⟩
    rw [(MtlLine.other text).apply_inert rs rfl rfl]
    exact hag
  | newmtl name trail =>
    obtain ⟨s', h1, h2, -, h4⟩ := mtlStep_newmtl atof one flags s name trail rest hwf h
    refine ⟨s', h1, ?_, ?_⟩
    · rw [h2]
      exact forall₂_concat hag ⟨rfl, rfl, fun _ => rfl⟩
    · rw [h4, MtlLine.residue, (trailResidue_spec flags trail hwf.2).2.1]
  | texture path trail =>
    have hm := materials_ne_nil hag (hopen rfl)
    obtain ⟨s', h1, h2, -, h4⟩ := mtlStep_texture atof one flags s path trail rest hwf hm h
    refine ⟨s', h1, ?_, ?_⟩
    · rw [h2]
      refine forall₂_updateLast _ _ ?_ hag
      rintro m r ⟨a1, a2, a3⟩
      exact ⟨a1, rfl, a3⟩
    · rw [h4, MtlLine.residue, (trailResidue_spec flags trail hwf.2).2.1]
  | color k sep body =>
    have hm := materials_ne_nil hag (hopen rfl)
    obtain ⟨s', h1, h2, -, h4⟩ := mtlStep_color atof one flags s k sep body rest hwf hm h
    refine ⟨s', h1, ?_, by simpa [MtlLine.residue, renderMtl] using h4⟩
    rw [h2]
    refine forall₂_updateLast _ _ ?_ hag
    rintro m r ⟨a1, a2, a3⟩
    unfold setColor
    split
    · exact ⟨a1, a2, a3⟩
    · split
      · exact ⟨a1, a2, a3⟩
      · exact ⟨a1, a2, a3⟩
  | transparency body =>
    have hm := materials_ne_nil hag (hopen rfl)
    obtain ⟨s', h1, h2, -, h4⟩ := mtlStep_transparency atof one flags s body rest hwf hm h
    refine ⟨s', h1, ?_, by simpa [MtlLine.residue, renderMtl] using h4⟩
    rw [h2]
    refine forall₂_updateLast _ _ ?_ hag
    rintro m r ⟨a1, a2, a3⟩
    exact ⟨a1, a2, fun hc => absurd hc (by simp [MtlLine.touch])⟩
  | dissolve sep body =>
    have hm := materials_ne_nil hag (hopen rfl)
    obtain ⟨s', h1, h2, -, h4⟩ := mtlStep_dissolve atof one flags s sep body rest hwf hm h
    refine ⟨s', h1, ?_, by simpa [MtlLine.residue, renderMtl] using h4⟩
    rw [h2]
    refine forall₂_updateLast _ _ ?_ hag
    rintro m r ⟨a1, a2, a3⟩
    exact ⟨a1, a2, fun hc => absurd hc (by simp [MtlLine.touch])⟩
  | shininess sep body =>
    have hm := materials_ne_nil hag (hopen rfl)
    obtain ⟨s', h1, h2, -, h4⟩ := mtlStep_shininess atof one flags s sep body rest hwf hm h
    refine ⟨s', h1, ?_, by simpa [MtlLine.residue, renderMtl] using h4⟩
    rw [h2]
    refine forall₂_updateLast _ _ ?_ hag
    rintro m r ⟨a1, a2, a3⟩
    exact ⟨a1, a2, a3⟩

theorem loadMtlLoop_render {F : Type} (atof : List Char → F) (one : F) (flags : Nat) :
    ∀ (n : Nat) (lines : List MtlLine) (s : MtlState F) (rs : List MtlSummary) (fuel : Nat),
      (renderMtl lines).length ≤ n → (∀ l ∈ lines, l.WellFormed) →
      guarded (!rs.isEmpty) lines = true →
      s.data.drop s.token = renderMtl lines → n + 1 ≤ fuel →
      List.Forall₂ (Agrees one) s.materials rs →
      (loadMtlLoop atof one flags fuel s).Holds fun s' =>
        List.Forall₂ (Agrees one) s'.materials (applyMtl lines rs) := by
  intro n
  induction n with
  | zero =>
    intro lines s rs fuel hlen hwf _ h hfuel hag
    obtain ⟨f, rfl⟩ : ∃ f, fuel = f + 1 := ⟨fuel - 1, by omega⟩
    have hnil : renderMtl lines = [] := List.length_eq_zero.1 (by omega)
    have hlines : lines = [] := by
      cases lines with
      | nil => rfl
      | cons l ls =>
        rw [renderMtl_cons] at hnil
        exact absurd (List.append_eq_nil.1 hnil).1 l.text_ne_nil
    subst hlines
    rw [loadMtlLoop, mtlStep_end atof one flags s (by rw [h]; rfl)]
    exact hag
  | succ n ih =>
    intro lines s rs fuel hlen hwf hguard h hfuel hag
    obtain ⟨f, rfl⟩ : ∃ f, fuel = f + 1 := ⟨fuel - 1, by omega⟩
    cases lines with
    | nil =>
      rw [loadMtlLoop, mtlStep_end atof one flags s (by rw [h]; rfl)]
      exact hag
    | cons l ls =>
      have hwf_l := hwf l (by simp)
      have hwf_ls : ∀ x ∈ ls, x.WellFormed := fun x hx => hwf x (List.mem_cons_of_mem _ hx)
      rw [guarded, Bool.and_eq_true] at hguard
      obtain ⟨hg1, hg2⟩ := hguard
      have hopen : l.isField = true → (!rs.isEmpty) = true := by
        intro hf
        simpa [hf] using hg1
      rw [renderMtl_cons] at h hlen
      obtain ⟨s1, hs1, hag1, hdrop1⟩ := mtlStep_line atof one flags s l (renderMtl ls) rs
        hwf_l hopen h hag
      obtain ⟨hres, hreslen⟩ := l.residue_inert flags hwf_l
      rw [loadMtlLoop, hs1]
      have hrec := ih (l.residue flags ++ ls) s1 (l.apply rs) f
        (by
          rw [renderMtl_append]
          simp only [List.length_append] at hlen ⊢
          omega)
        (by
          intro x hx
          rcases List.mem_append.1 hx with hx | hx
          · exact (hres x hx).1
          · exact hwf_ls x hx)
        (by rw [guarded_inert _ _ _ hres, l.apply_isEmpty]; exact hg2)
        (by rw [renderMtl_append]; exact hdrop1) (by omega) hag1
      refine hrec.imp ?_
      intro s' hs'
      rw [applyMtl_inert _ _ _ hres] at hs'
      exact hs'

end objloader

/-! ## The records of `loadMtl`, block by block -/

namespace objloader

theorem blocks_cons_of_not_newmtl (l : MtlLine) (ls : List MtlLine)
    (h : l.isNewmtl = false) : blocks (l :: ls) = blocks ls := by
  cases l with
  | newmtl name trail => exact absurd h (by simp [MtlLine.isNewmtl])
  | blank c => rfl
  | color k sep body => rfl
  | transparency body => rfl
  | dissolve sep body => rfl
  | shininess sep body => rfl
  | texture path trail => rfl
  | other text => rfl

theorem MtlLine.apply_of_not_newmtl (l : MtlLine) (rs : List MtlSummary)
    (h : l.isNewmtl = false) : l.apply rs = updateLast l.touch rs := by
  cases l with
  | newmtl name trail => exact absurd h (by simp [MtlLine.isNewmtl])
  | blank c => rfl
  | color k sep body => rfl
  | transparency body => rfl
  | dissolve sep body => rfl
  | shininess sep body => rfl
  | texture path trail => rfl
  | other text => rfl

theorem applyMtl_concat (lines : List MtlLine) :
    ∀ (rs : List MtlSummary) (r : MtlSummary),
      applyMtl lines (rs ++ [r]) =
        rs ++ [(lines.takeWhile fun l => !l.isNewmtl).foldl (fun r l => l.touch r) r] ++
          (blocks lines).map fun b => summarize b.1 b.2 := by
  induction lines with
  | nil => intro rs r; simp [applyMtl, blocks]
  | cons l ls ih =>
    intro rs r
    by_cases hl : l.isNewmtl = true
    · cases l with
      | newmtl name trail =>
        rw [applyMtl_cons]
        have e : (MtlLine.newmtl name trail).apply (rs ++ [r]) =
            (rs ++ [r]) ++ [{ name := name, texture := none, untouched := true }] := rfl
        rw [e, ih]
        simp [blocks, summarize, MtlLine.isNewmtl]
      | blank c => exact absurd hl (by simp [MtlLine.isNewmtl])
      | color k sep body => exact absurd hl (by simp [MtlLine.isNewmtl])
      | transparency body => exact absurd hl (by simp [MtlLine.isNewmtl])
      | dissolve sep body => exact absurd hl (by simp [MtlLine.isNewmtl])
      | shininess sep body => exact absurd hl (by simp [MtlLine.isNewmtl])
      | texture path trail => exact absurd hl (by simp [MtlLine.isNewmtl])
      | other text => exact absurd hl (by simp [MtlLine.isNewmtl])
    · have hl' : l.isNewmtl = false := by simpa using hl
      rw [applyMtl_cons, l.apply_of_not_newmtl _ hl', updateLast_concat, ih,
        blocks_cons_of_not_newmtl l ls hl']
      simp [List.takeWhile_cons, hl']

theorem applyMtl_nil (lines : List MtlLine) :
    applyMtl lines [] = (blocks lines).map fun b => summarize b.1 b.2 := by
  induction lines with
  | nil => rfl
  | cons l ls ih =>
    by_cases hl : l.isNewmtl = true
    · cases l with
      | newmtl name trail =>
        rw [applyMtl_cons]
        have e : (MtlLine.newmtl name trail).apply [] =
            [] ++ [{ name := name, texture := none, untouched := true }] := rfl
        rw [e, applyMtl_concat]
        simp [blocks, summarize]
      | blank c => exact absurd hl (by simp [MtlLine.isNewmtl])
      | color k sep body => exact absurd hl (by simp [MtlLine.isNewmtl])
      | transparency body => exact absurd hl (by simp [MtlLine.isNewmtl])
      | dissolve sep body => exact absurd hl (by simp [MtlLine.isNewmtl])
      | shininess sep body => exact absurd hl (by simp [MtlLine.isNewmtl])
      | texture path trail => exact absurd hl (by simp [MtlLine.isNewmtl])
      | other text => exact absurd hl (by simp [MtlLine.isNewmtl])
    · have hl' : l.isNewmtl = false := by simpa using hl
      rw [applyMtl_cons, l.apply_of_not_newmtl _ hl', blocks_cons_of_not_newmtl l ls hl']
      exact ih

theorem summarize_spec (block : List MtlLine) :
    ∀ r : MtlSummary,
      (block.foldl (fun r l => l.touch r) r).name = r.name ∧
      ((∀ l ∈ block, l.setsOpacity = false) →
        (block.foldl (fun r l => l.touch r) r).untouched = r.untouched) ∧
      ((∀ l ∈ block, l.isTexture = false) →
        (block.foldl (fun r l => l.touch r) r).texture = r.texture) := by
  induction block with
  | nil => intro r; exact ⟨rfl, fun _ => rfl, fun _ => rfl⟩
  | cons l ls ih =>
    intro r
    obtain ⟨h1, h2, h3⟩ := ih (l.touch r)
    simp only [List.foldl_cons]
    refine ⟨?_, ?_, ?_⟩
    · rw [h1]; cases l <;> rfl
    · intro h
      rw [h2 fun x hx => h x (List.mem_cons_of_mem _ hx)]
      have hl := h l (by simp)
      cases l <;> first | rfl | exact absurd hl (by simp [MtlLine.setsOpacity])
    · intro h
      rw [h3 fun x hx => h x (List.mem_cons_of_mem _ hx)]
      have hl := h l (by simp)
      cases l <;> first | rfl | exact absurd hl (by simp [MtlLine.isTexture])

theorem forall₂_getElem? {α β : Type} {R : α → β → Prop} {as : List α} {bs : List β}
    (h : List.Forall₂ R as bs) :
    ∀ (i : Nat) (a : α) (b : β), as[i]? = some a → bs[i]? = some b → R a b := by
  induction h with
  | nil => intro i a b ha; simp at ha
  | cons hab _ ih =>
    intro i a b ha hb
    cases i with
    | zero =>
      simp only [List.getElem?_cons_zero, Option.some.injEq] at ha hb
      subst ha; subst hb
      exact hab
    | succ i =>
      simp only [List.getElem?_cons_succ] at ha hb
      exact ih i a b ha hb

theorem forall₂_map_eq {α β γ : Type} {R : α → β → Prop} (f : α → γ) (g : β → γ)
    (hfg : ∀ a b, R a b → f a = g b) {as : List α} {bs : List β}
    (h : List.Forall₂ R as bs) : as.map f = bs.map g := by
  induction h with
  | nil => rfl
  | cons hab _ ih => simp [hfg _ _ hab, ih]

end objloader

/-! ## `parseFloat` on the text of a number -/

theorem Outcome.holds_map {α β : Type} (o : Outcome α) (f : α → β) (P : β → Prop) :
    (o.map f).Holds P ↔ o.Holds fun a => P (f a) := by
  cases o <;> rfl

theorem isAtofChar_props {c : Char} (h : isAtofChar c = true) :
    isLineChar c = true ∧ isWhitespace c = false ∧ IS_SPACE c = false ∧ c ≠ '\x00' := by
  have h1 : c ≠ '\n' := by rintro rfl; revert h; decide
  have h2 : c ≠ '\x00' := by rintro rfl; revert h; decide
  have h3 : c ≠ ' ' := by rintro rfl; revert h; decide
  have h4 : c ≠ '\t' := by rintro rfl; revert h; decide
  have h5 : c ≠ '\r' := by rintro rfl; revert h; decide
  refine ⟨by simp [isLineChar, h1, h2], by simp [isWhitespace, h1, h3, h4, h5],
    by simp [IS_SPACE, h3, h4], h2⟩

namespace objloader

theorem isWhitespace_not_atof {c : Char} (h : isWhitespace c = true) :
    isAtofChar c = false ∧ c ≠ '\x00' := by
  rcases (isWhitespace_iff c).1 h with rfl | rfl | rfl | rfl <;> decide

theorem residual_nil (flags : Nat) : residual flags [] = [] := by
  unfold residual
  split <;> rfl

/-- On blanks followed by a number that whitespace or the end of the text
follows, `parseFloat` returns what `atof` returns on the number, when `atof`
reads no further than the number, and leaves the cursor behind the number. -/
theorem parseFloat_number {F : Type} (atof : List Char → F)
    (hatof : ∀ num rest, IsNumber num → Stops (fun c => !isWhitespace c) rest →
      atof (num ++ rest) = atof num)
    {data : List Char} {token : Nat} {ws num tail : List Char}
    (h : data.drop token = ws ++ (num ++ tail)) (hws : ∀ c ∈ ws, IS_SPACE c = true)
    (hnum : IsNumber num) (htail : Stops (fun c => !isWhitespace c) tail) :
    parseFloat atof data token = (atof num, token + ws.length + num.length) := by
  obtain ⟨hne, hall⟩ := hnum
  obtain ⟨d, ds, rfl⟩ := List.exists_cons_of_ne_nil hne
  have hd := isAtofChar_props (hall d (by simp))
  have hsp := skipSpace_of_drop h hws (Stops.cons hd.2.2.1)
  have h2 := drop_add_of_drop h
  have htail_atof : Stops isAtofChar tail := by
    intro c hc
    have := htail c hc
    exact (isWhitespace_not_atof (by simpa using this)).1
  have hspan : strspnAtof data (token + ws.length) = (d :: ds).length := by
    simp only [strspnAtof, h2, takeWhile_span hall htail_atof]
  have hcstr : cstr data (token + ws.length) =
      (d :: ds) ++ tail.takeWhile (fun c => c != '\x00') := by
    simp only [cstr, h2]
    rw [List.takeWhile_append_of_pos]
    intro c hc
    simpa using (isAtofChar_props (hall c hc)).2.2.2
  have hstop : Stops (fun c => !isWhitespace c) (tail.takeWhile (fun c => c != '\x00')) := by
    cases tail with
    | nil => exact Stops.nil _
    | cons t ts =>
      have ht : isWhitespace t = true := by simpa using htail.head
      have ht0 := (isWhitespace_not_atof ht).2
      simp only [List.takeWhile_cons, bne_iff_ne, ne_eq, ht0, not_false_eq_true, decide_True,
        if_true]
      exact Stops.cons (by simpa using ht)
  simp only [parseFloat, hsp, hspan, hcstr, hatof _ _ ⟨hne, hall⟩ hstop]

end objloader

/-! ## The bit `OBJ_OPTIMIZE_MESHES` is not read -/

namespace objloader

theorem hasFlag_toggle_optimize (flags : Nat) :
    hasFlag (flags ^^^ OBJ_OPTIMIZE_MESHES) OBJ_TRIANGULATE = hasFlag flags OBJ_TRIANGULATE ∧
    hasFlag (flags ^^^ OBJ_OPTIMIZE_MESHES) OBJ_IN_SITU = hasFlag flags OBJ_IN_SITU := by
  have h1 : (flags ^^^ 2) &&& 1 = flags &&& 1 := by
    apply Nat.eq_of_testBit_eq
    intro i
    rw [Nat.testBit_and, Nat.testBit_and, Nat.testBit_xor]
    cases i with
    | zero => simp
    | succ i => simp [Nat.testBit_succ]
  have h4 : (flags ^^^ 2) &&& 4 = flags &&& 4 := by
    apply Nat.eq_of_testBit_eq
    intro i
    rw [Nat.testBit_and, Nat.testBit_and, Nat.testBit_xor]
    match i with
    | 0 => simp
    | 1 => simp [Nat.testBit_succ]
    | 2 => simp [Nat.testBit_succ]
    | i + 3 => simp [Nat.testBit_succ]
  simp only [hasFlag, OBJ_OPTIMIZE_MESHES, OBJ_TRIANGULATE, OBJ_IN_SITU, h1, h4, and_self]

theorem parseText_flags (data : List Char) (token : Nat) (flags flags2 : Nat)
    (h : hasFlag flags2 OBJ_IN_SITU = hasFlag flags OBJ_IN_SITU) :
    parseText data token flags2 = parseText data token flags := by
  simp only [parseText, h]

theorem loadStep_flags {F : Type} (atof : List Char → F) (fuel : Nat) (flags flags2 : Nat)
    (s : LoaderState F)
    (ht : hasFlag flags2 OBJ_TRIANGULATE = hasFlag flags OBJ_TRIANGULATE)
    (hs : hasFlag flags2 OBJ_IN_SITU = hasFlag flags OBJ_IN_SITU) :
    loadStep atof fuel flags2 s = loadStep atof fuel flags s := by
  simp only [loadStep, faceBranch, groupBranch, usemtlBranch, mtllibBranch, ht,
    parseText_flags _ _ flags flags2 hs]

theorem loadLoop_flags {F : Type} (atof : List Char → F) (flags flags2 : Nat)
    (ht : hasFlag flags2 OBJ_TRIANGULATE = hasFlag flags OBJ_TRIANGULATE)
    (hs : hasFlag flags2 OBJ_IN_SITU = hasFlag flags OBJ_IN_SITU) :
    ∀ (fuel : Nat) (s : LoaderState F),
      loadLoop atof flags2 fuel s = loadLoop atof flags fuel s := by
  intro fuel
  induction fuel with
  | zero => intro s; rfl
  | succ fuel ih =>
    intro s
    rw [loadLoop, loadLoop, loadStep_flags atof fuel flags flags2 s ht hs]
    split
    · rfl
    · cases loadStep atof fuel flags s with
      | ok s1 => exact ih s1
      | undefined => rfl
      | timeout => rfl

theorem vertexBranch_withFlags {F : Type} (atof : List Char → F) (s : LoaderState F)
    (token f : Nat) :
    vertexBranch atof (s.withFlags f) token
      = (vertexBranch atof s token).map fun s => s.withFlags f := by
  unfold vertexBranch
  simp only [LoaderState.withFlags, ObjModel.withFlags]
  split
  · rfl
  · split
    · rfl
    · split <;> rfl

theorem faceBranch_withFlags {F : Type} (fuel flags : Nat) (s : LoaderState F) (token f : Nat) :
    faceBranch fuel flags (s.withFlags f) token
      = (faceBranch fuel flags s token).map fun s => s.withFlags f := by
  unfold faceBranch
  have hcur : (s.withFlags f).current = s.current := rfl
  simp only [hcur]
  simp only [LoaderState.withFlags, ObjModel.withFlags]
  cases faceLoop s.data (hasFlag flags OBJ_TRIANGULATE) s.model.vertexCount s.model.uvCount
    s.model.normalCount fuel 0 s.current (skipSpace s.data (token + 2)) <;> rfl

theorem groupBranch_withFlags {F : Type} (flags : Nat) (s : LoaderState F) (token f : Nat) :
    groupBranch flags (s.withFlags f) token = (groupBranch flags s token).withFlags f := by
  unfold groupBranch
  have hcur : ∀ (d : List Char) (t : Nat),
      LoaderState.current { (s.withFlags f) with data := d, token := t } =
        LoaderState.current { s with data := d, token := t } := fun _ _ => rfl
  simp only [LoaderState.withFlags, ObjModel.withFlags] at hcur ⊢
  simp only [hcur]
  split <;> rfl

theorem usemtlBranch_withFlags {F : Type} (flags : Nat) (s : LoaderState F) (token f : Nat) :
    usemtlBranch flags (s.withFlags f) token = (usemtlBranch flags s token).withFlags f := by
  unfold usemtlBranch
  have hcur : ∀ (d : List Char) (t : Nat),
      LoaderState.current { (s.withFlags f) with data := d, token := t } =
        LoaderState.current { s with data := d, token := t } := fun _ _ => rfl
  simp only [LoaderState.withFlags, ObjModel.withFlags] at hcur ⊢
  simp only [hcur]
  split
  · rfl
  · split <;> rfl

theorem mtllibBranch_withFlags {F : Type} (flags : Nat) (s : LoaderState F) (token f : Nat) :
    mtllibBranch flags (s.withFlags f) token = (mtllibBranch flags s token).withFlags f := rfl

theorem loadStep_withFlags {F : Type} (atof : List Char → F) (fuel flags f : Nat)
    (s : LoaderState F) :
    loadStep atof fuel flags (s.withFlags f)
      = (loadStep atof fuel flags s).map fun s => s.withFlags f := by
  have hd : (s.withFlags f).data = s.data := rfl
  have ht : (s.withFlags f).token = s.token := rfl
  unfold loadStep
  simp only [hd, ht]
  by_cases h1 : (peek s.data (skipWhitespaceAndComments s.data s.token) == 'v') = true
  · simp only [h1, if_true]
    rw [vertexBranch_withFlags atof s]
    cases vertexBranch atof s (skipWhitespaceAndComments s.data s.token) <;> rfl
  · simp only [h1, if_false]
    by_cases h2 : (peek s.data (skipWhitespaceAndComments s.data s.token) == 'f') = true
    · simp only [h2, if_true]
      rw [faceBranch_withFlags fuel flags s]
      cases faceBranch fuel flags s (skipWhitespaceAndComments s.data s.token) <;> rfl
    · simp only [h2, if_false]
      by_cases h3 : (peek s.data (skipWhitespaceAndComments s.data s.token) == 'g') = true
      · simp only [h3, if_true]
        rw [groupBranch_withFlags flags s]
        rfl
      · simp only [h3, if_false]
        by_cases h4 : startsWith "usemtl".toList s.data
            (skipWhitespaceAndComments s.data s.token) = true
        · simp only [h4, if_true]
          rw [usemtlBranch_withFlags flags s]
          rfl
        · simp only [h4, if_false]
          by_cases h5 : startsWith "mtllib".toList s.data
              (skipWhitespaceAndComments s.data s.token) = true
          · simp only [h5, if_true]
            rfl
          · simp only [h5, if_false]
            rfl

theorem loadLoop_withFlags {F : Type} (atof : List Char → F) (flags f : Nat) :
    ∀ (fuel : Nat) (s : LoaderState F),
      loadLoop atof flags fuel (s.withFlags f)
        = (loadLoop atof flags fuel s).map fun s => s.withFlags f := by
  intro fuel
  induction fuel with
  | zero => intro s; rfl
  | succ fuel ih =>
    intro s
    have hd : (s.withFlags f).data = s.data := rfl
    have ht : (s.withFlags f).token = s.token := rfl
    rw [loadLoop, loadLoop, loadStep_withFlags]
    simp only [hd, ht]
    split
    · rfl
    · cases loadStep atof fuel flags s with
      | ok s1 => exact ih s1
      | undefined => rfl
      | timeout => rfl

end objloader

/-! ## The stores of the face loop and the capacities -/

namespace objloader

/-- One round of the face loop without triangulation, away from a newline: the
stores of the rounds fit only if this store and those of the next rounds do. -/
theorem faceLoopFits_round (data : List Char) (vc tc nc : Nat) (token next : Nat)
    (hnext : skipSpace data (parseTriplet data token vc tc nc).2 = next)
    (hnl : IS_NEW_LINE (peek data next) = false) (fuel i : Nat) (g : ObjGroup) :
    faceLoopFits data false vc tc nc (fuel + 1) i g token =
      (indexStoreFits (growIndices g) &&
        faceLoopFits data false vc tc nc fuel (i + 1)
          (pushIndex (growIndices g) (parseTriplet data token vc tc nc).1) next) := by
  rw [faceLoopFits]
  simp [hnext, hnl, fanCornersFit, fanCorners]

/-- On a cursor where the face loop is stuck, the capacity of `indices`, a
power of two, doubles until it is `2 ^ 31`, and the next doubling gives `0`:
the store of that round is not below the capacity. -/
theorem faceLoopFits_stuck (data : List Char) (vc tc nc : Nat) (token : Nat)
    (hstay : skipSpace data (parseTriplet data token vc tc nc).2 = token)
    (hnl : IS_NEW_LINE (peek data token) = false) :
    ∀ (fuel i : Nat) (g : ObjGroup) (j : Nat), g.indicesCapacity = 2 ^ j → j ≤ 31 →
      (2147483649 - g.indicesSize) + (31 - j) < fuel →
      faceLoopFits data false vc tc nc fuel i g token = false := by
  intro fuel
  induction fuel with
  | zero => intro i g j _ _ h; omega
  | succ fuel ih =>
    intro i g j hcap hj hfuel
    rw [faceLoopFits_round data vc tc nc token token hstay hnl]
    by_cases hgrow : g.indicesSize + 3 > g.indicesCapacity
    · by_cases h31 : j = 31
      · have hc : g.indicesCapacity = 2147483648 := by rw [hcap, h31]; rfl
        have hz : (growIndices g).indicesCapacity = 0 := by
          unfold growIndices
          rw [if_pos hgrow]
          show g.indicesCapacity * 2 % 4294967296 = 0
          rw [hc]
        simp [indexStoreFits, hz]
      · have hlt : j + 1 ≤ 31 := by omega
        have hpow : 2 ^ (j + 1) ≤ 2 ^ 31 := Nat.pow_le_pow_right (by decide) hlt
        have hpow2 : (2 : Nat) ^ (j + 1) = 2 ^ j * 2 := by rw [Nat.pow_succ]
        have h31v : (2 : Nat) ^ 31 = 2147483648 := rfl
        have hnew : (growIndices g).indicesCapacity = 2 ^ (j + 1) := by
          unfold growIndices
          rw [if_pos hgrow]
          show g.indicesCapacity * 2 % 4294967296 = 2 ^ (j + 1)
          rw [hcap, Nat.mod_eq_of_lt (by omega)]
          omega
        have hrec := ih (i + 1) (pushIndex (growIndices g) (parseTriplet data token vc tc nc).1)
          (j + 1) hnew hlt (by
            simp only [pushIndex, ObjGroup.indicesSize, growIndices_indices,
              List.length_append, List.length_singleton] at hfuel ⊢
            omega)
        rw [hrec, Bool.and_false]
    · have hsame : growIndices g = g := by simp only [growIndices, hgrow, if_false]
      have hpow : 2 ^ j ≤ 2 ^ 31 := Nat.pow_le_pow_right (by decide) hj
      have h31v : (2 : Nat) ^ 31 = 2147483648 := rfl
      have hrec := ih (i + 1) (pushIndex (growIndices g) (parseTriplet data token vc tc nc).1)
        j (by rw [hsame]; exact hcap) hj (by
          simp only [pushIndex, ObjGroup.indicesSize, growIndices_indices,
            List.length_append, List.length_singleton] at hfuel hgrow ⊢
          omega)
      rw [hrec, Bool.and_false]

/-- The check `faceLoopFits` can fail: from a group whose array of two slots is
full, a round under triangulation with `i = 3` doubles the capacity to four
and stores at the positions 2, 3 and 4. -/
theorem faceLoopFits_full_group :
    faceLoopFits "1\n".toList true 0 0 0 1 3
      { name := none, material := none, indices := [default, default], indicesCapacity := 2,
        indicesPerFace := [], indicesPerFaceCapacity := 2 } 0 = false := by
  decide

end objloader

/-! ## The loader when allocation may fail -/

namespace objloader.fallible

/-- When no allocation fails, the loader with fallible allocation is
`objLoadModel`. -/
theorem objLoadModel_all_succeed {F : Type} (atof : List Char → F) (fuel : Nat)
    (data : List Char) (flags : Nat) :
    objLoadModel atof fuel data flags []
      = (objloader.objLoadModel atof fuel data flags).map
          fun m => some { model := m, firstGroupFreed := false } := by
  unfold objloader.objLoadModel objLoadRun
  show (loadLoop atof flags fuel (initState data flags)).map _ = _
  cases loadLoop atof flags fuel (initState data flags) <;> rfl

/-- Once `createGroup` has returned a freed group, `objLoadModel` does not take
the path to `error`: whatever the text, it does not return null. -/
theorem objLoadModel_freed_not_null {F : Type} (atof : List Char → F) (fuel : Nat)
    (data : List Char) (flags : Nat) (third : Bool) :
    objLoadModel atof fuel data flags [true, true, true, true, true, false, third]
      ≠ .ok none := by
  have key : ∀ r : Outcome (LoaderState F),
      r.map (fun s => some ({ model := s.model, firstGroupFreed := true } : Returned F))
        ≠ .ok none := by
    intro r
    cases r <;> simp [Outcome.map]
  cases third <;> exact key _

end objloader.fallible

/-! # The claims, continued -/

namespace objloader

/-- C11: on the four lines `v 0 0 0`, `v 1 0 0`, `v 0 1 0`, `f 1 2 3`, each ended by a
newline, `objLoadModel` with `OBJ_TRIANGULATE` set, whatever the other flags are,
returns a model whose chain has exactly one group, with `numFaces = 1`,
`indicesPerFace = [3]` and `indices = [(0,-1,-1), (1,-1,-1), (2,-1,-1)]`. -/
theorem objLoadModel_triangle {F : Type} (atof : List Char → F) (flags fuel : Nat)
    (htri : hasFlag flags OBJ_TRIANGULATE = true) (hfuel : 34 ≤ fuel) :
    (objLoadModel atof fuel "v 0 0 0\nv 1 0 0\nv 0 1 0\nf 1 2 3\n".toList flags).Holds fun m =>
      m.groups.length = 1 ∧
      m.groups.map (fun g => (g.numFaces, g.indicesPerFace, g.indices)) =
        [(1, [3], [⟨0, -1, -1⟩, ⟨1, -1, -1⟩, ⟨2, -1, -1⟩])] := by
  have htext : "v 0 0 0\nv 1 0 0\nv 0 1 0\nf 1 2 3\n".toList =
      render [Item.vertex ' ' "0 0 0".toList, Item.vertex ' ' "1 0 0".toList,
        Item.vertex ' ' "0 1 0".toList,
        Item.face [] [(⟨1, none, none⟩, [' ']), (⟨2, none, none⟩, [' ']),
          (⟨3, none, none⟩, [])] false] := by decide
  have hlen : (render [Item.vertex ' ' "0 0 0".toList, Item.vertex ' ' "1 0 0".toList,
        Item.vertex ' ' "0 1 0".toList,
        Item.face [] [(⟨1, none, none⟩, [' ']), (⟨2, none, none⟩, [' ']),
          (⟨3, none, none⟩, [])] false]).length = 32 := by decide
  rw [htext]
  apply objLoadModel_holds
  refine (objLoadRun_render atof flags _ (by decide) fuel (by omega)).imp ?_
  intro s hs
  rw [htri] at hs
  have hinit : (initState (F := F)
      (render [Item.vertex ' ' "0 0 0".toList, Item.vertex ' ' "1 0 0".toList,
        Item.vertex ' ' "0 1 0".toList,
        Item.face [] [(⟨1, none, none⟩, [' ']), (⟨2, none, none⟩, [' ']),
          (⟨3, none, none⟩, [])] false]) flags).core =
      { groups := [createGroup none], currentGroup := 0, currentGroupName := none,
        vertexCount := 0, uvCount := 0, normalCount := 0, numMaterialLibraries := 0,
        materialLibraries := [], strayStores := [] } := rfl
  rw [hinit] at hs
  have hg : s.model.groups = _ := congrArg Core.groups hs
  rw [hg]
  decide

/-- Witness of C11: the flags are `OBJ_TRIANGULATE` alone. -/
theorem objLoadModel_triangle_witness :
    (objLoadModel noFloat 34 "v 0 0 0\nv 1 0 0\nv 0 1 0\nf 1 2 3\n".toList
        OBJ_TRIANGULATE).Holds fun m =>
      m.groups.length = 1 ∧
      m.groups.map (fun g => (g.numFaces, g.indicesPerFace, g.indices)) =
        [(1, [3], [⟨0, -1, -1⟩, ⟨1, -1, -1⟩, ⟨2, -1, -1⟩])] :=
  objLoadModel_triangle noFloat OBJ_TRIANGULATE 34 (by decide) (by decide)

/-- C12: on the three lines `newmtl name`, `Kd r g b`, `d a`, each ended by a newline,
where the name holds no blank and `r`, `g`, `b`, `a` are numbers written with the
characters of `ATOF_CHARACTERS`, `loadMtl` of `objloader.c` sets `*numMaterials` to 1
and returns one record, with this name, the diffuse colour `(r, g, b)`, the opacity
`a` and no texture path, whatever the flags.  The values are those that `atof`
returns on the numbers, `atof` being any function that reads no further than the
whitespace behind a number. -/
theorem loadMtl_one_material {F : Type} (atof : List Char → F) (one : F) (fuel flags : Nat)
    (name r g b a : List Char)
    (hatof : ∀ num rest, IsNumber num → Stops (fun c => !isWhitespace c) rest →
      atof (num ++ rest) = atof num)
    (hname : ∀ c ∈ name, isTextChar c = true) (hr : IsNumber r) (hg : IsNumber g)
    (hb : IsNumber b) (ha : IsNumber a) (hfuel : 4 ≤ fuel) :
    (loadMtl atof one fuel
      ("newmtl ".toList ++ name ++ "\nKd ".toList ++ r ++ " ".toList ++ g ++ " ".toList ++ b ++
        "\nd ".toList ++ a ++ "\n".toList) flags).Holds fun res =>
      res.1 = 1 ∧
      res.2 = [{ name := name, ambientTexture := none, ambient := none,
                 diffuse := some (atof r, atof g, atof b), specular := none,
                 shininess := none, opacity := atof a }] := by
  obtain ⟨f, rfl⟩ : ∃ f, fuel = f + 4 := ⟨fuel - 4, by omega⟩
  have hline : ∀ {num : List Char}, IsNumber num → ∀ c ∈ num, isLineChar c = true :=
    fun hnum c hc => (isAtofChar_props (hnum.2 c hc)).1
  have hspace : Stops (fun c => !isWhitespace c) (' ' :: ([] : List Char)) := by decide
  -- the line `newmtl name`
  obtain ⟨s1, e1, m1, -, d1⟩ := mtlStep_newmtl atof one flags
    { data := "newmtl ".toList ++ name ++ "\nKd ".toList ++ r ++ " ".toList ++ g ++
        " ".toList ++ b ++ "\nd ".toList ++ a ++ "\n".toList,
      token := 0, materials := [], capacity := 2 } name []
    ((MtlLine.color 'd' ' ' (r ++ ' ' :: (g ++ ' ' :: b))).text ++
      ((MtlLine.dissolve ' ' a).text ++ []))
    ⟨hname, by simp⟩ (by simp [MtlLine.text])
  rw [residual_nil, List.nil_append] at d1
  simp only [List.nil_append] at m1
  -- the line `Kd r g b`
  have hbody : ∀ c ∈ r ++ ' ' :: (g ++ ' ' :: b), isLineChar c = true := by
    intro c hc
    simp only [List.mem_append, List.mem_cons] at hc
    rcases hc with hc | rfl | hc | rfl | hc
    · exact hline hr c hc
    · decide
    · exact hline hg c hc
    · decide
    · exact hline hb c hc
  obtain ⟨s2, e2, m2, hd2, d2⟩ := mtlStep_color atof one flags s1 'd' ' '
    (r ++ ' ' :: (g ++ ' ' :: b)) ((MtlLine.dissolve ' ' a).text ++ [])
    ⟨Or.inr (Or.inl rfl), by decide, hbody⟩ (by rw [m1]; simp) d1
  have d13 : s1.data.drop (s1.token + 3) = [] ++ (r ++ (' ' :: (g ++ ' ' :: b) ++
      '\n' :: ((MtlLine.dissolve ' ' a).text ++ []))) := by
    have := drop_succ_of_drop (drop_succ_of_drop (drop_succ_of_drop
      (by simpa [MtlLine.text] using d1 :
        s1.data.drop s1.token = 'K' :: 'd' :: ' ' :: (r ++ (' ' :: (g ++ ' ' :: b) ++
          '\n' :: ((MtlLine.dissolve ' ' a).text ++ []))))))
    simpa using this
  have px := parseFloat_number atof hatof d13 (by simp) hr (Stops.cons (by decide))
  have d1g : s1.data.drop (s1.token + 3 + ([] : List Char).length + r.length) =
      [' '] ++ (g ++ (' ' :: b ++ '\n' :: ((MtlLine.dissolve ' ' a).text ++ []))) := by
    have := drop_add_of_drop (drop_add_of_drop d13)
    simpa using this
  have py := parseFloat_number atof hatof d1g (by decide) hg (Stops.cons (by decide))
  have d1b : s1.data.drop (s1.token + 3 + ([] : List Char).length + r.length +
      [' '].length + g.length) =
      [' '] ++ (b ++ ('\n' :: ((MtlLine.dissolve ' ' a).text ++ []))) := by
    have := drop_add_of_drop (drop_add_of_drop d1g)
    simpa using this
  have pz := parseFloat_number atof hatof d1b (by decide) hb (Stops.cons (by decide))
  rw [px] at m2
  simp only [py] at m2
  simp only [pz] at m2
  -- the line `d a`
  obtain ⟨s3, e3, m3, hd3, d3⟩ := mtlStep_dissolve atof one flags s2 ' ' a []
    ⟨by decide, hline ha⟩ (by rw [m2, m1]; simp [updateLast]) d2
  have d22 : s2.data.drop (s2.token + 2) = [] ++ (a ++ ['\n']) := by
    have := drop_succ_of_drop (drop_succ_of_drop
      (by simpa [MtlLine.text] using d2 : s2.data.drop s2.token = 'd' :: ' ' :: (a ++ ['\n'])))
    simpa using this
  have pa := parseFloat_number atof hatof d22 (by simp) ha (Stops.cons (by decide))
  rw [pa] at m3
  -- the end of the text
  have e4 := mtlStep_end atof one flags s3 d3
  unfold loadMtl
  rw [Outcome.holds_map, loadMtlLoop, e1]
  simp only
  rw [loadMtlLoop, e2]
  simp only
  rw [loadMtlLoop, e3]
  simp only
  rw [loadMtlLoop, e4]
  simp only [Outcome.Holds, m3, m2, m1, updateLast, setColor]
  simp

/-- Witness of C12: the text `newmtl red`, `Kd 1 0 0`, `d 0.5`, where `atof` keeps
the text of the number. -/
theorem loadMtl_one_material_witness :
    (loadMtl numberText ['1'] 4
      ("newmtl ".toList ++ "red".toList ++ "\nKd ".toList ++ "1".toList ++ " ".toList ++
        "0".toList ++ " ".toList ++ "0".toList ++ "\nd ".toList ++ "0.5".toList ++
        "\n".toList) 0).Holds fun res =>
      res.1 = 1 ∧
      res.2 = [{ name := "red".toList, ambientTexture := none, ambient := none,
                 diffuse := some (numberText "1".toList, numberText "0".toList,
                   numberText "0".toList),
                 specular := none, shininess := none, opacity := numberText "0.5".toList }] :=
  loadMtl_one_material numberText ['1'] 4 0 "red".toList "1".toList "0".toList "0".toList
    "0.5".toList
    (fun num rest hnum hrest => by
      unfold numberText
      rw [takeWhile_span hnum.2 (fun c hc => (isWhitespace_not_atof
        (by simpa using hrest c hc)).1)]
      exact (takeWhile_span hnum.2 (Stops.nil _)).symm.trans (by rw [List.append_nil]))
    (by decide) (by decide) (by decide) (by decide) (by decide) (by decide)

/-- C14 (the code departs from the claim): after the lines `newmtl m` and `Ns 10` the
shininess of the record is not set: the loop tests for the lower-case letters `n` and
`s`, and the line `Ns 10` is skipped as a line without keyword.  The line `ns 10`
sets the shininess. -/
theorem shininess_keyword_lowercase :
    ((loadMtl SymFloat.atof SymFloat.one 9 "newmtl m\nNs 10\n".toList 0).value.map
      fun r => r.2.map fun m => (m.name, m.shininess)) = some [("m".toList, none)] ∧
    ((loadMtl SymFloat.atof SymFloat.one 9 "newmtl m\nns 10\n".toList 0).value.map
      fun r => r.2.map fun m => (m.name, m.shininess)) =
      some [("m".toList, some (SymFloat.atof "10\n".toList))] := by
  decide

end objloader

namespace objparser

/-- C15 (the code departs from the claim): on a face line of 257 corners, the text `f `,
then 257 times `1 `, then a newline, without triangulation, `objParse` returns `0`, the
value for success, after it has stored the corner number 256 at `indexBuffer[256]`,
outside the array of 256 entries, and it calls `addFace` once, with the corner count
257.  The face loop never compares `i` with the size of `indexBuffer`. -/
theorem face_buffer_overflow :
    ∃ r, objParse objloader.noFloat 259 0
        (objloader.Item.face [] (List.replicate 257 (⟨1, none, none⟩, [' '])) false).text =
          .ok r ∧
      r.1 = 0 ∧ r.2.strayStores = [256] ∧
      ∃ indices, r.2.events = [Event.addFace 257 indices] := by
  generalize hcs : List.replicate 257 ((⟨1, none, none⟩, [' ']) : Corner × List Char) = cs
  have hlen : cs.length = 257 := by rw [← hcs, List.length_replicate]
  have hwf : (objloader.Item.face [] cs false).WellFormed := by
    refine ⟨fun c hc => absurd hc (List.not_mem_nil c), ?_, ?_, ?_⟩
    · intro h
      rw [h] at hlen
      exact absurd hlen (by decide)
    · rw [← hcs]
      exact gapsOk_replicate _ (by decide) (by decide) _
    · intro q hq
      rw [← hcs] at hq
      rw [List.eq_of_mem_replicate hq]
      decide
  have h := objParse_face_plain objloader.noFloat 259 0 [] cs false hwf (by decide)
    (by omega)
  rw [hlen] at h
  have hr : (List.range' 0 257).filter (fun k => decide (256 ≤ k)) = [256] := by
    have e : List.range' 0 257 = List.range' 0 256 ++ [256] := by
      rw [show (257 : Nat) = 256 + 1 from rfl, List.range'_concat]
    rw [e, List.filter_append, List.filter_eq_nil_iff.2]
    · rfl
    · intro k hk
      have := (List.mem_range'_1.1 hk).2
      simpa using this
  rw [hr] at h
  exact h

end objparser

namespace objloader

/-- C16 (the code departs from the claim): on the face line `f 1 2 3 #c`, ended by a
newline, and on the face line `f 1 2 3` that the terminator ends, `objLoadModel` does
not return, whatever the flags: every budget of rounds is used up.  After the third
corner the cursor is on `#`, or on the terminator; `parseTriplet` and `skipSpace`
consume nothing there, and the face loop, which only a newline ends, appends a
triplet per round to the current group.  The line `f 1 2 3` with its newline
returns. -/
theorem face_loop_never_ends {F : Type} (atof : List Char → F) (fuel flags : Nat) :
    objLoadModel atof fuel "f 1 2 3 #c\n".toList flags = .timeout ∧
    objLoadModel atof fuel "f 1 2 3".toList flags = .timeout ∧
    (objLoadModel noFloat 4 "f 1 2 3\n".toList 0).value.isSome = true := by
  refine ⟨?_, ?_, by decide⟩
  · have h8 : ∀ fuel i g, faceLoop "f 1 2 3 #c\n".toList (hasFlag flags OBJ_TRIANGULATE)
        0 0 0 fuel i g 8 = .timeout :=
      faceLoop_stuck _ _ 0 0 0 8 (by decide) (by decide)
    have h6 := faceLoop_advance _ _ 0 0 0 6 8 (by decide) (by decide) h8
    have h4 := faceLoop_advance _ _ 0 0 0 4 6 (by decide) (by decide) h6
    have h2 := faceLoop_advance _ _ 0 0 0 2 4 (by decide) (by decide) h4
    have hrun := loadLoop_face_timeout atof flags (initState "f 1 2 3 #c\n".toList flags)
      (show peek "f 1 2 3 #c\n".toList 0 ≠ '\x00' by decide)
      (show peek "f 1 2 3 #c\n".toList
        (skipWhitespaceAndComments "f 1 2 3 #c\n".toList 0) = 'f' by decide)
      (by
        have e : skipSpace "f 1 2 3 #c\n".toList
            (skipWhitespaceAndComments "f 1 2 3 #c\n".toList 0 + 2) = 2 := by decide
        intro fuel i g
        show faceLoop "f 1 2 3 #c\n".toList (hasFlag flags OBJ_TRIANGULATE) 0 0 0 fuel i g
          (skipSpace "f 1 2 3 #c\n".toList
            (skipWhitespaceAndComments "f 1 2 3 #c\n".toList 0 + 2)) = .timeout
        rw [e]
        exact h2 fuel i g) fuel
    simp only [objLoadModel, objLoadRun, hrun]
  · have h7 : ∀ fuel i g, faceLoop "f 1 2 3".toList (hasFlag flags OBJ_TRIANGULATE)
        0 0 0 fuel i g 7 = .timeout :=
      faceLoop_stuck _ _ 0 0 0 7 (by decide) (by decide)
    have h6 := faceLoop_advance _ _ 0 0 0 6 7 (by decide) (by decide) h7
    have h4 := faceLoop_advance _ _ 0 0 0 4 6 (by decide) (by decide) h6
    have h2 := faceLoop_advance _ _ 0 0 0 2 4 (by decide) (by decide) h4
    have hrun := loadLoop_face_timeout atof flags (initState "f 1 2 3".toList flags)
      (show peek "f 1 2 3".toList 0 ≠ '\x00' by decide)
      (show peek "f 1 2 3".toList
        (skipWhitespaceAndComments "f 1 2 3".toList 0) = 'f' by decide)
      (by
        have e : skipSpace "f 1 2 3".toList
            (skipWhitespaceAndComments "f 1 2 3".toList 0 + 2) = 2 := by decide
        intro fuel i g
        show faceLoop "f 1 2 3".toList (hasFlag flags OBJ_TRIANGULATE) 0 0 0 fuel i g
          (skipSpace "f 1 2 3".toList
            (skipWhitespaceAndComments "f 1 2 3".toList 0 + 2)) = .timeout
        rw [e]
        exact h2 fuel i g) fuel
    simp only [objLoadModel, objLoadRun, hrun]

/-- Under triangulation, one round of the main loop of `objLoadModel` on a face
line of at least three corners appends the fan over the corners to the
current group. -/
theorem loadStep_face_fan {F : Type} (atof : List Char → F) (fuel flags : Nat)
    (s : LoaderState F) (lead : List Char) (cs : List (Corner × List Char)) (cr : Bool)
    (rest : List Char) (htri : hasFlag flags OBJ_TRIANGULATE = true)
    (hwf : (Item.face lead cs cr).WellFormed) (hN : 3 ≤ cs.length)
    (hcur : s.currentGroup < s.model.groups.length)
    (h : s.data.drop s.token = (Item.face lead cs cr).text ++ rest)
    (hfuel : cs.length ≤ fuel) :
    (loadStep atof fuel flags s).Holds fun s' =>
      s'.current.indices = s.current.indices ++ triangleFan (cs.map fun p =>
        p.1.resolve s.model.vertexCount s.model.uvCount s.model.normalCount) ∧
      s'.current.indicesPerFace =
        s.current.indicesPerFace ++ List.replicate (cs.length - 2) 3 := by
  refine (loadStep_face atof fuel flags s lead cs cr rest hwf h hfuel).imp ?_
  obtain ⟨p0, p1, p2, ps, rfl⟩ : ∃ a b c r, cs = a :: b :: c :: r := by
    match cs, hN with
    | a :: b :: c :: r, _ => exact ⟨a, b, c, r, rfl⟩
  rintro s' ⟨hcore, -, -, -⟩
  rw [htri] at hcore
  have hgroups : s'.model.groups = s.model.groups.set s.currentGroup
      (faceSteps true ((p0 :: p1 :: p2 :: ps).map fun p =>
        p.1.resolve s.model.vertexCount s.model.uvCount s.model.normalCount) 0 s.current) := by
    have := congrArg Core.groups hcore
    simpa [Core.face, Core.setCurrent, LoaderState.core, Core.current, LoaderState.current,
      List.map_map, Function.comp_def] using this
  have hidx : s'.currentGroup = s.currentGroup := congrArg Core.currentGroup hcore
  have hcurrent : s'.current = faceSteps true ((p0 :: p1 :: p2 :: ps).map fun p =>
      p.1.resolve s.model.vertexCount s.model.uvCount s.model.normalCount) 0 s.current := by
    simp [LoaderState.current, hgroups, hidx, List.getD_eq_getElem?_getD, hcur]
  obtain ⟨h1, h2⟩ := faceSteps_triangulate
    (p0.1.resolve s.model.vertexCount s.model.uvCount s.model.normalCount)
    (p1.1.resolve s.model.vertexCount s.model.uvCount s.model.normalCount)
    (p2.1.resolve s.model.vertexCount s.model.uvCount s.model.normalCount)
    (ps.map fun p => p.1.resolve s.model.vertexCount s.model.uvCount s.model.normalCount)
    s.current
  simp only [List.map_cons] at hcurrent ⊢
  refine ⟨?_, ?_⟩
  · rw [hcurrent, h1]
  · rw [hcurrent, h2]
    simp

/-- C17: for a newline-terminated face line of `N >= 3` corners whose components are
positive, with `OBJ_TRIANGULATE` set for both, one round of the main loop of `objParse`
calls `addFace` once per triangle `(c0, c(j+1), c(j+2))`, `j = 0 .. N-3`, in this
order, each call with the corner count 3 and the three corners as the first three
entries of the buffer, and one round of the main loop of `objLoadModel` appends the
same triangles, in the same order, to the indices of its current group, with one
corner count of 3 for each. -/
theorem triangulated_faces_agree {F G : Type} (atofP : List Char → F) (atofL : List Char → G)
    (fuel flagsP flagsL : Nat) (p : objparser.ParserState F) (s : LoaderState G)
    (lead : List Char) (cs : List (Corner × List Char)) (cr : Bool) (restP restL : List Char)
    (htriP : hasFlag flagsP objparser.OBJ_TRIANGULATE = true)
    (htriL : hasFlag flagsL OBJ_TRIANGULATE = true)
    (hwf : (Item.face lead cs cr).WellFormed) (hpos : ∀ q ∈ cs, q.1.Positive)
    (hN : 3 ≤ cs.length) (hbuf : p.indexBuffer.length = 256)
    (hcur : s.currentGroup < s.model.groups.length)
    (hP : p.data.drop p.token = (Item.face lead cs cr).text ++ restP)
    (hL : s.data.drop s.token = (Item.face lead cs cr).text ++ restL)
    (hfuel : cs.length ≤ fuel) :
    ((objparser.parseStep atofP fuel flagsP p).Holds fun p' =>
      p'.events = p.events ++
        (objparser.fanTriangles (cs.map fun q => q.1.zeroBased)).map
          (objparser.Event.addFace 3)) ∧
    ((loadStep atofL fuel flagsL s).Holds fun s' =>
      s'.current.indices = s.current.indices ++
        (objparser.fanTriangles (cs.map fun q => q.1.zeroBased)).flatten ∧
      s'.current.indicesPerFace = s.current.indicesPerFace ++
        (objparser.fanTriangles (cs.map fun q => q.1.zeroBased)).map List.length) := by
  have hres : ∀ vc tc nc, (cs.map fun q => q.1.resolve vc tc nc) =
      cs.map fun q => q.1.zeroBased := by
    intro vc tc nc
    refine List.map_congr_left fun q hq => ?_
    exact Corner.resolve_positive q.1 vc tc nc (hwf.2.2.2 q hq) (hpos q hq)
  constructor
  · obtain ⟨token, hstep, -⟩ := objparser.parseStep_face atofP fuel flagsP p lead cs cr restP
      hwf hP hfuel
    rw [hstep, htriP, hres]
    obtain ⟨p0, p1, p2, ps, rfl⟩ : ∃ a b c r, cs = a :: b :: c :: r := by
      match cs, hN with
      | a :: b :: c :: r, _ => exact ⟨a, b, c, r, rfl⟩
    exact (objparser.parser_faceSteps_triangulate p0.1.zeroBased p1.1.zeroBased p2.1.zeroBased
      (ps.map fun q => q.1.zeroBased) p (by omega)).1
  · refine (loadStep_face_fan atofL fuel flagsL s lead cs cr restL htriL hwf hN hcur hL
      hfuel).imp ?_
    rintro s' ⟨h1, h2⟩
    rw [hres] at h1
    rw [objparser.fanTriangles_flatten, objparser.fanTriangles_lengths, List.length_map]
    exact ⟨h1, h2⟩

/-- Witness of C17: the line `f 1 2 3 4` at the start of a fresh run of each. -/
theorem triangulated_faces_agree_witness :
    ((objparser.parseStep noFloat 4 objparser.OBJ_TRIANGULATE
        (objparser.initParser
          ((Item.face [] [(⟨1, none, none⟩, [' ']), (⟨2, none, none⟩, [' ']),
            (⟨3, none, none⟩, [' ']), (⟨4, none, none⟩, [])] false).text ++ []))).Holds
      fun p' => p'.events = [] ++
        (objparser.fanTriangles ([(⟨1, none, none⟩, [' ']), (⟨2, none, none⟩, [' ']),
            (⟨3, none, none⟩, [' ']), ((⟨4, none, none⟩ : Corner), ([] : List Char))].map
          fun q => q.1.zeroBased)).map (objparser.Event.addFace 3)) ∧
    ((loadStep noFloat 4 OBJ_TRIANGULATE
        (initState
          ((Item.face [] [(⟨1, none, none⟩, [' ']), (⟨2, none, none⟩, [' ']),
            (⟨3, none, none⟩, [' ']), (⟨4, none, none⟩, [])] false).text ++ [])
          OBJ_TRIANGULATE)).Holds
      fun s' => s'.current.indices = [] ++
        (objparser.fanTriangles ([(⟨1, none, none⟩, [' ']), (⟨2, none, none⟩, [' ']),
            (⟨3, none, none⟩, [' ']), ((⟨4, none, none⟩ : Corner), ([] : List Char))].map
          fun q => q.1.zeroBased)).flatten ∧
      s'.current.indicesPerFace = [] ++
        (objparser.fanTriangles ([(⟨1, none, none⟩, [' ']), (⟨2, none, none⟩, [' ']),
            (⟨3, none, none⟩, [' ']), ((⟨4, none, none⟩ : Corner), ([] : List Char))].map
          fun q => q.1.zeroBased)).map List.length) :=
  triangulated_faces_agree noFloat noFloat 4 objparser.OBJ_TRIANGULATE OBJ_TRIANGULATE
    (objparser.initParser
      ((Item.face [] [(⟨1, none, none⟩, [' ']), (⟨2, none, none⟩, [' ']),
        (⟨3, none, none⟩, [' ']), (⟨4, none, none⟩, [])] false).text ++ []))
    (initState
      ((Item.face [] [(⟨1, none, none⟩, [' ']), (⟨2, none, none⟩, [' ']),
        (⟨3, none, none⟩, [' ']), (⟨4, none, none⟩, [])] false).text ++ [])
      OBJ_TRIANGULATE)
    [] [(⟨1, none, none⟩, [' ']), (⟨2, none, none⟩, [' ']),
        (⟨3, none, none⟩, [' ']), (⟨4, none, none⟩, [])] false [] []
    (by decide) (by decide) (by decide) (by decide) (by decide)
    (List.length_replicate 256 default) (by decide) rfl rfl (by decide)

end objloader

namespace objparser

/-- C18 (the code departs from the claim): on the two lines `g a`, `v 1 2 3`,
`objParse` without `OBJ_IN_SITU` calls `addGroup` and then `addVertex`; with
`OBJ_IN_SITU` it calls `addGroup` only.  Under the flag `parseText` steps over the
delimiter of the name, here the newline, and the statement that skips to the next line
then skips the line `v 1 2 3`. -/
theorem in_situ_skips_next_line :
    ((objParse SymFloat.atof 9 0 "g a\nv 1 2 3\n".toList).value.map fun r => r.2.events) =
      some [Event.addGroup [['a']],
        Event.addVertex (.atof "1 2 3\n".toList) (.atof "2 3\n".toList) (.atof "3\n".toList)] ∧
    ((objParse SymFloat.atof 9 OBJ_IN_SITU "g a\nv 1 2 3\n".toList).value.map
      fun r => r.2.events) = some [Event.addGroup [['a']]] ∧
    ((objParse SymFloat.atof 9 OBJ_IN_SITU "g a\nv 1 2 3\n".toList).value.map
      fun r => r.1) = some 0 := by
  decide

end objparser

namespace objloader

/-- C19 (the code departs from the claim): in the text below the second `usemtl M`
finds the first group, named `A`, and makes it current, although the most recent `g`
line declared `B`: the face `f 4 5 6` that follows `g B` and `usemtl M` is stored in
the group named `A`, and the group named `B` stays empty.  The `g` branch sets
`currentGroupName` only where it renames an empty group, not where it appends one. -/
theorem usemtl_matches_stale_name :
    ((objLoadRun noFloat 60
        "g A\nusemtl M\nf 1 2 3\ng B\nusemtl M\nf 4 5 6\n".toList 0).value.map
      fun s => s.model.groups.map fun g => g.name) = some [some ['A'], some ['B']] ∧
    ((objLoadRun noFloat 60
        "g A\nusemtl M\nf 1 2 3\ng B\nusemtl M\nf 4 5 6\n".toList 0).value.map
      fun s => s.model.groups.map fun g => g.material) = some [some ['M'], none] ∧
    ((objLoadRun noFloat 60
        "g A\nusemtl M\nf 1 2 3\ng B\nusemtl M\nf 4 5 6\n".toList 0).value.map
      fun s => s.model.groups.map fun g => g.indices.map fun vi => vi.vertexIndex) =
      some [[0, 1, 2, 3, 4, 5], []] ∧
    ((objLoadRun noFloat 60
        "g A\nusemtl M\nf 1 2 3\ng B\nusemtl M\nf 4 5 6\n".toList 0).value.map
      fun s => s.currentGroup) = some 0 ∧
    ((objLoadRun noFloat 60 "g A\nusemtl M\nf 1 2 3\ng B\n".toList 0).value.map
      fun s => s.currentGroup) = some 1 ∧
    ((objLoadRun noFloat 60 "g A\nusemtl M\nf 1 2 3\ng B\n".toList 0).value.map
      fun s => s.currentGroupName) = some (some ['A']) := by
  decide

/-- C20 (the code departs from the claim): on the line `vp 0.5 0.5` the branch of `v`
is taken, none of its three cases sets the pointers `size`, `capacity` and `list`,
and the code then reads through them, whatever the flags.  The lines `o name`,
`s off` and `l 1 2` leave the model and the current group as they were. -/
theorem vp_line_undefined {F : Type} (atof : List Char → F) (fuel flags : Nat) :
    objLoadModel atof (fuel + 1) "vp 0.5 0.5\n".toList flags = .undefined ∧
    (objLoadRun noFloat 9 "o name\ns off\nl 1 2\n".toList 0).map
        (fun s => (s.model, s.currentGroup, s.token)) =
      .ok ((initState "o name\ns off\nl 1 2\n".toList 0).model, 0, 19) := by
  refine ⟨?_, by decide⟩
  have h0 : skipWhitespaceAndComments "vp 0.5 0.5\n".toList 0 = 0 := by decide
  have h1 : peek "vp 0.5 0.5\n".toList 0 = 'v' := by decide
  have h2 : peekAt "vp 0.5 0.5\n".toList 0 1 = 'p' := by decide
  have e1 : IS_SPACE 'p' = false := by decide
  have e2 : ('p' == 't') = false := by decide
  have e3 : ('p' == 'n') = false := by decide
  have e4 : ('v' == '\x00') = false := by decide
  simp only [objLoadModel, objLoadRun, loadLoop, initState, loadStep, h0, h1, h2, e1, e2, e3,
    e4, vertexBranch, beq_self_eq_true, if_true, Bool.false_eq_true, if_false]

end objloader

namespace objloader.fallible

/-- C21 (the code departs from the claim): `createGroup` returns null only when
its first allocation fails.  When the `malloc` for the index array or
for the per-face array fails, `createGroup` frees the group and goes on to
`return group`: it returns a pointer that is not null, to a freed block, after
storing through it, and after freeing it twice when both allocations fail.
`objLoadModel` then sees a non-null group and does not go to `error`: on the
empty text it returns a model whose `firstGroup` is that freed block, and on
no text does it return null. -/
theorem failed_allocation_not_reported :
    (createGroup none [false]).group = .null ∧
    createGroup none [true, false]
      = { group := .freed, faults := [.useAfterFree], rest := [] } ∧
    createGroup none [true, true, false]
      = { group := .freed, faults := [], rest := [] } ∧
    createGroup none [true, false, false]
      = { group := .freed, faults := [.useAfterFree, .useAfterFree, .doubleFree],
          rest := [] } ∧
    objLoadModel noFloat 1 [] 0 [true, true, true, true, false] = .ok none ∧
    objLoadModel noFloat 1 [] 0 [true, true, true, true, true, false]
      = .ok (some { model := { vertexCount := 0, uvCount := 0, normalCount := 0,
                               numMaterialLibraries := 0, vertices := [], texcoords := [],
                               normals := [], groups := [], materialLibraries := [],
                               flags := 0 },
                    firstGroupFreed := true }) ∧
    (objLoadModel noFloat 1 [] 0 [true, true, true, true, true, true, false]).value.map
        (fun r => r.map fun m => m.firstGroupFreed) = some (some true) ∧
    ∀ (F : Type) (atof : List Char → F) (fuel : Nat) (data : List Char) (flags : Nat)
        (third : Bool),
      objLoadModel atof fuel data flags [true, true, true, true, true, false, third]
        ≠ .ok none :=
  ⟨by decide, by decide, by decide, by decide, by decide, by decide, by decide,
    fun _ atof fuel data flags third =>
      objLoadModel_freed_not_null atof fuel data flags third⟩

end objloader.fallible

namespace objloader

/-- C22: toggling `OBJ_OPTIMIZE_MESHES` in the flags changes nothing in
the run of `objLoadModel` but the field `flags` of the model: with the same
fuel the two runs return, stop as undefined or run out of fuel together, and
the returned models agree in the arrays, the counts, the group chain and the
list of material libraries.  The loader never reads the bit. -/
theorem optimize_meshes_ignored {F : Type} (atof : List Char → F) (fuel : Nat)
    (data : List Char) (flags : Nat) :
    objLoadModel atof fuel data (flags ^^^ OBJ_OPTIMIZE_MESHES)
      = (objLoadModel atof fuel data flags).map
          fun m => m.withFlags (flags ^^^ OBJ_OPTIMIZE_MESHES) := by
  obtain ⟨ht, hs⟩ := hasFlag_toggle_optimize flags
  have hi : (initState data (flags ^^^ OBJ_OPTIMIZE_MESHES) : LoaderState F)
      = (initState data flags).withFlags (flags ^^^ OBJ_OPTIMIZE_MESHES) := rfl
  unfold objLoadModel objLoadRun
  rw [loadLoop_flags atof flags _ ht hs, hi, loadLoop_withFlags]
  cases loadLoop atof flags fuel (initState data flags) <;> rfl

/-- C23 (the code departs from the claim): on the face line `f 1 2 3 #c` the face
loop, which C16 shows never to end, doubles the capacity of `indices` from 2 until it
is `2 ^ 31`; the next doubling of the `unsigned` gives `0`, and the store of that
round, at a position near `2 ^ 31`, is not below the capacity.  The check
`objLoadModelFits` fails on every run that is given that many rounds. -/
theorem capacity_wraps {F : Type} (atof : List Char → F) (k : Nat) :
    objLoadModelFits atof (k + 2147483680) "f 1 2 3 #c\n".toList 0 = false := by
  have h8 := faceLoopFits_stuck "f 1 2 3 #c\n".toList 0 0 0 8 (by decide) (by decide)
  have r6 := faceLoopFits_round "f 1 2 3 #c\n".toList 0 0 0 6 8 (by decide) (by decide)
  have r4 := faceLoopFits_round "f 1 2 3 #c\n".toList 0 0 0 4 6 (by decide) (by decide)
  have r2 := faceLoopFits_round "f 1 2 3 #c\n".toList 0 0 0 2 4 (by decide) (by decide)
  have hface : ∀ m, 2147483675 ≤ m →
      faceLoopFits "f 1 2 3 #c\n".toList false 0 0 0 (m + 1 + 1 + 1) 0
        (createGroup none) 2 = false := by
    intro m hm
    rw [r2, r4, r6, h8 m _ _ 3 rfl (by decide), Bool.and_false, Bool.and_false,
      Bool.and_false]
    simp only [pushIndex, ObjGroup.indicesSize, growIndices_indices, List.length_append,
      List.length_singleton, createGroup, List.length_nil]
    omega
  have e0 : skipWhitespaceAndComments "f 1 2 3 #c\n".toList 0 = 0 := by decide
  have e1 : peek "f 1 2 3 #c\n".toList 0 = 'f' := by decide
  have e2 : skipSpace "f 1 2 3 #c\n".toList (0 + 2) = 2 := by decide
  have e3 : hasFlag 0 OBJ_TRIANGULATE = false := by decide
  have e4 : ('f' == 'v') = false := by decide
  have hstep : ∀ m, 2147483675 ≤ m → loadStepFits (m + 1 + 1 + 1) 0
      (initState "f 1 2 3 #c\n".toList 0 : LoaderState F) = false := by
    intro m hm
    unfold loadStepFits
    simp only [initState, e0, e1, e2, e3, e4, Bool.false_eq_true, if_false,
      beq_self_eq_true, if_true]
    exact hface m hm
  have hp : (peek (initState "f 1 2 3 #c\n".toList 0 : LoaderState F).data
      (initState "f 1 2 3 #c\n".toList 0 : LoaderState F).token == '\x00') = false := by
    show (peek "f 1 2 3 #c\n".toList 0 == '\x00') = false
    decide
  have hfuel : k + 2147483680 = (k + 2147483676) + 1 + 1 + 1 + 1 := by omega
  unfold objLoadModelFits
  rw [hfuel, loadLoopFits, hp, hstep _ (by omega)]
  rfl

/-- C24 (the code departs from the claim): after each line the loader moves
one character past the end of that line, `token += strcspn(token, "\n") + 1`.
When the last line has no newline, or the text ends with blank lines or a
comment, the line ends at the terminator, so the cursor comes to stand at
position `L + 1` and the loop test reads the character there. -/
theorem cursor_passes_terminator :
    ((objLoadRun noFloat 2 "v 1 2 3".toList 0).value.map
      fun s => (s.token, s.data.length)) = some (8, 7) ∧
    ((objLoadRun noFloat 3 "v 1 2 3\n\n".toList 0).value.map
      fun s => (s.token, s.data.length)) = some (10, 9) ∧
    ((objLoadRun noFloat 3 "v 1 2 3\n# c".toList 0).value.map
      fun s => (s.token, s.data.length)) = some (12, 11) ∧
    ((objLoadRun noFloat 2 "v 1 2 3\n".toList 0).value.map
      fun s => (s.token, s.data.length)) = some (8, 8) := by
  decide

end objloader
